import Mathlib

/-!
# Certified dual bounding (project-and-shift) of `src/scip/bounding_exact.c`

A shallow embedding of `getPSdual`, `getPSdualTwo` and the final decision of `boundShift`,
together with the properties of the natural-language specification that concern them.

Conventions of the embedding.
* A C array is a function `Nat → α`; its length is kept where the C code keeps it
  (`nrows`, `ncols`, `len`, `npsbasis`, `nextendedrows`).
* A `for( i = 0; i < n; i++ )` loop is `forLoop n body`, the body being run for `i = 0, …, n-1`.
* A `SCIP_Rational` that may be infinite (a row side, a column bound, `lpex->lpobjval`) is a
  value of `SCIP_Rational`; the dual multipliers, which are always finite, are plain `ℚ`.
* A finite `SCIP_Real` is the rational number it denotes (`RsetReal` is exact).
-/

namespace BoundingExact

/-! ## Data model -/

/-- An exact rational of the solver: a finite value or one of the two infinities. -/
inductive SCIP_Rational where
  | fin (q : ℚ)
  | inf
  | neginf
  deriving DecidableEq

/-- Test `RisAbsInfinity`. -/
def RisAbsInfinity : SCIP_Rational → Bool
  | .fin _ => false
  | _ => true

/-- Test `RisNegInfinity`. -/
def RisNegInfinity : SCIP_Rational → Bool
  | .neginf => true
  | _ => false

/-- Test `RisInfinity`. -/
def RisInfinity : SCIP_Rational → Bool
  | .inf => true
  | _ => false

/-- Operation `Rneg` on a possibly infinite value. -/
def Rneg : SCIP_Rational → SCIP_Rational
  | .fin q => .fin (-q)
  | .inf => .neginf
  | .neginf => .inf

/-- Test `RisPositive` on a finite value. -/
def RisPositive (q : ℚ) : Bool := decide (0 < q)

/-- Test `RisNegative` on a finite value. -/
def RisNegative (q : ℚ) : Bool := decide (q < 0)

/-- Test `RisZero` on a finite value. -/
def RisZero (q : ℚ) : Bool := decide (q = 0)

/-- The value `SCIP_INVALID` (`1e+99`) of `def.h`. -/
def SCIP_INVALID : ℚ := 10 ^ 99

/-- The solution status `SCIP_LPSOLSTAT` of an LP; only the three values that `bounding_exact.c`
names are told apart. -/
inductive SCIP_LPSOLSTAT where
  | OPTIMAL
  | UNBOUNDEDRAY
  | INFEASIBLE
  | other (code : Nat)
  deriving DecidableEq

/-- The selection policies `psdualcolselection` of the set `S` that `psChooseS` tells apart. -/
inductive PS_DUALCOSTSEL where
  | NO
  | ACTIVE_EXLP
  | ACTIVE_FPLP
  deriving DecidableEq

/-- The formulations `psintpointselection` of the auxiliary problem that `psComputeSintPointRay`
tells apart. -/
inductive PS_INTPOINTSEL where
  | OPT
  | ARB
  | ARBDUAL
  | TWOSTAGE
  deriving DecidableEq

/-- Floating-point row of the LP: the values read by `SCIProwGetDualsol`,
`SCIProwGetDualfarkas`, `SCIProwGetLhs`, `SCIProwGetRhs` and `SCIProwGetLPActivity`, and the
constant shift of the row `lhs ≤ a x + constant ≤ rhs`. A floating-point number is the rational
number it stands for. -/
structure SCIP_ROW where
  dualsol : ℚ
  dualfarkas : ℚ
  lhs : ℚ := 0
  rhs : ℚ := 0
  activity : ℚ := 0
  constant : ℚ := 0

/-- Floating-point column of the LP: the values returned by `SCIPcolGetRedcost`,
`SCIPcolGetFarkasCoef`, `SCIPcolGetPrimsol`, `SCIPcolGetLb` and `SCIPcolGetUb`, the objective
value `obj`, and the column vector as `boundShift` reads it: `nlprows` linked rows of the current
LP, entry `i` lying in the row at LP position `rowpos i` (`col->rows[i]->lppos`) at the position
`linkpos i` of that row. -/
structure SCIP_COL where
  redcost : ℚ
  farkascoef : ℚ
  primsol : ℚ := 0
  lb : ℚ := 0
  ub : ℚ := 0
  obj : ℚ := 0
  nlprows : Nat := 0
  rowpos : Nat → Nat := fun _ => 0
  linkpos : Nat → Nat := fun _ => 0

/-- The fields of `SCIP_LP` used by the bounding methods. -/
structure SCIP_LP where
  rows : Nat → SCIP_ROW
  cols : Nat → SCIP_COL
  hasprovedbound : Bool
  lpobjval : ℚ
  lpsolstat : SCIP_LPSOLSTAT := SCIP_LPSOLSTAT.other 0
  cutoffbound : ℚ := 0
  nrows : Nat := 0
  ncols : Nat := 0

/-- An interval `SCIP_INTERVAL` with the bounds `inf` and `sup`. -/
structure SCIP_INTERVAL where
  inf : ℚ
  sup : ℚ

/-- The fields of `struct SCIP_RowEx` used by the bounding methods. The array `valsinterval`, which
`boundShift` reads at line 3493, holds an interval for each coefficient; `struct_lpex.h` does not
declare it, and its contents are taken as given. -/
structure SCIP_ROWEX where
  lhs : SCIP_Rational
  rhs : SCIP_Rational
  len : Nat
  cols_index : Nat → Nat
  vals : Nat → ℚ
  valsinterval : Nat → SCIP_INTERVAL := fun _ => { inf := 0, sup := 0 }

/-- The fields of `struct SCIP_ColEx` used by the bounding methods. -/
structure SCIP_COLEX where
  obj : ℚ
  lb : SCIP_Rational
  ub : SCIP_Rational

/-- The project-and-shift data `SCIP_PSDATA`; `rectfactor` is the handle of the factorization
(the triangular solve with it is the capability handed to `getPSdual`). -/
structure SCIP_PSDATA where
  interiorpt : Nat → ℚ
  interiorray : Nat → ℚ
  includedrows : Nat → Bool
  psbasis : Nat → Nat
  npsbasis : Nat
  nextendedrows : Nat
  psdatacon : Bool
  psdatafail : Bool
  pshaspoint : Bool
  pshasray : Bool
  psuseintpoint : Bool
  commonslack : ℚ := 0
  psdualcolselection : PS_DUALCOSTSEL := PS_DUALCOSTSEL.NO
  psintpointselection : PS_INTPOINTSEL := PS_INTPOINTSEL.OPT
  psobjweight : ℚ := 0
  rectfactor : Nat := 0

/-- The fields of `struct SCIP_LpEx` used by the bounding methods. -/
structure SCIP_LPEX where
  rows : Nat → SCIP_ROWEX
  cols : Nat → SCIP_COLEX
  nrows : Nat
  ncols : Nat
  lpobjval : SCIP_Rational
  psdata : SCIP_PSDATA
  lpsolstat : SCIP_LPSOLSTAT := SCIP_LPSOLSTAT.other 0
  solved : Bool := false
  interleavedbfreq : Int := 0

/-- The project-and-shift, bound-shift and exact-LP counters of `SCIP_STAT`. -/
structure SCIP_STAT where
  nprojshift : Nat
  nprojshiftinf : Nat
  nfailprojshift : Nat
  nfailprojshiftinf : Nat
  nboundshift : Nat
  nboundshiftinf : Nat
  nfailboundshift : Nat
  nfailboundshiftinf : Nat
  nexlp : Nat := 0
  nexlpinf : Nat := 0
  nfailexlp : Nat := 0
  nfailexlpinf : Nat := 0
  niterationsexlp : Nat := 0
  niterationsexlpinf : Nat := 0

/-- A counting loop `for( i = 0; i < n; i++ )` over a state. -/
def forLoop {σ : Type} (body : Nat → σ → σ) : Nat → σ → σ
  | 0, s => s
  | n + 1, s => body n (forLoop body n s)

/-! ## `getPSdual`: lifting of the approximate dual solution -/

/-- Lines 2790-2830 of `getPSdual`: the approximate dual vector as read from the floating-point
LP, rows first and columns behind them. -/
def readApproxdual (lp : SCIP_LP) (nrows ncols : Nat) (usefarkas : Bool) : Nat → ℚ :=
  let a1 := forLoop (fun i a => Function.update a i
      (if usefarkas then (lp.rows i).dualfarkas else (lp.rows i).dualsol)) nrows (fun _ => 0)
  forLoop (fun i a => Function.update a (i + nrows)
      (if usefarkas then -(lp.cols i).farkascoef else (lp.cols i).redcost)) ncols a1

/-- Lines 2812-2829 of `getPSdual`: `isupper[i]` is `FALSE` exactly when the value read is
strictly positive. -/
def computeIsupper (approxdual : Nat → ℚ) (i : Nat) : Bool := !RisPositive (approxdual i)

/-- The side of row or column `i` that `isupper` selects (lines 2837-2840 of `getPSdual`). -/
def selectedSide (lpex : SCIP_LPEX) (isupper : Bool) (i : Nat) : SCIP_Rational :=
  if !isupper then
    (if i < lpex.nrows then (lpex.rows i).lhs else (lpex.cols (i - lpex.nrows)).lb)
  else
    (if i < lpex.nrows then (lpex.rows i).rhs else (lpex.cols (i - lpex.nrows)).ub)

/-- Lines 2832-2844 of `getPSdual`: artificial dual variables are fixed to zero. -/
def fixArtificial (lpex : SCIP_LPEX) (isupper : Nat → Bool) (approxdual : Nat → ℚ) : Nat → ℚ :=
  forLoop (fun i a =>
      if RisAbsInfinity (selectedSide lpex (isupper i) i) then Function.update a i 0 else a)
    (lpex.nrows + lpex.ncols) approxdual

/-- The lifted approximate dual of `getPSdual` (lines 2790-2844). -/
def liftedDual (lp : SCIP_LP) (lpex : SCIP_LPEX) (usefarkas : Bool) : Nat → ℚ :=
  let approxdual := readApproxdual lp lpex.nrows lpex.ncols usefarkas
  fixArtificial lpex (computeIsupper approxdual) approxdual

/-! ## `getPSdual`: projection, shift and evaluation -/

/-- External collaborators that are not part of `bounding_exact.c`: the triangular solve
`RECTLUsolveSystem` with the stored factorization (`none` is a nonzero return value, `some z` the
correction array written on return value `0`), the conversion
`RgetRealRelax(·, SCIP_ROUND_DOWNWARDS)`, the value `SCIPsetInfinity(set)` and the test
`SCIPsetIsInfinity(set, ·)`. -/
structure External where
  RECTLUsolveSystem : Nat → Nat → (Nat → ℚ) → Option (Nat → ℚ)
  RgetRealRelax : ℚ → ℚ
  infinity : ℚ
  SCIPsetIsInfinity : ℚ → Bool

/-- Lines 2875-2889 of `getPSdual`: `violation[i]` starts as `obj - redcost` (`0 - redcost` for a
Farkas proof). -/
def initViolation (lpex : SCIP_LPEX) (usefarkas : Bool) (approxdual : Nat → ℚ) : Nat → ℚ :=
  forLoop (fun i v => Function.update v i
      (if !usefarkas then (lpex.cols i).obj - approxdual (i + lpex.nrows)
       else -(approxdual (i + lpex.nrows)))) lpex.ncols (fun _ => 0)

/-- Lines 2891-2899 of `getPSdual` (and 3156-3163): `A^T y` is subtracted, row by row and entry
by entry. -/
def subtractRows (lpex : SCIP_LPEX) (approxdual : Nat → ℚ) (violation : Nat → ℚ) : Nat → ℚ :=
  forLoop (fun i v =>
      forLoop (fun j w => Function.update w ((lpex.rows i).cols_index j)
          (w ((lpex.rows i).cols_index j) - approxdual i * (lpex.rows i).vals j))
        (lpex.rows i).len v)
    lpex.nrows violation

/-- The violation `r = c - A^T y` of the equality constraints (lines 2875-2899). -/
def computeViolation (lpex : SCIP_LPEX) (usefarkas : Bool) (approxdual : Nat → ℚ) : Nat → ℚ :=
  subtractRows lpex approxdual (initViolation lpex usefarkas approxdual)

/-- Lines 2913-2919 of `getPSdual`: is every entry of the violation zero? -/
def computeIsfeas (ncols : Nat) (violation : Nat → ℚ) : Bool :=
  (List.range ncols).all (fun i => RisZero (violation i))

/-- The arrays changed by the projection step. -/
structure ProjState where
  correction : Nat → ℚ
  approxdual : Nat → ℚ

/-- Lines 2964-3000 of `getPSdual`: one pass of the projection loop. -/
def projectionStep (psbasis : Nat → Nat) (ncols nrowsps shift : Nat) (isupper : Nat → Bool)
    (i : Nat) (s : ProjState) : ProjState :=
  let map := psbasis i
  if map < nrowsps then
    if !isupper map then
      { correction := Function.update s.correction i (s.correction i + s.approxdual map)
        approxdual := Function.update s.approxdual map 0 }
    else s
  else if map < 2 * nrowsps then
    if isupper (map - nrowsps) then
      { correction := Function.update s.correction i (s.correction i - s.approxdual (map - nrowsps))
        approxdual := Function.update s.approxdual (map - nrowsps) 0 }
    else s
  else if map < 2 * nrowsps + ncols then
    if !isupper (map - nrowsps + shift) then
      { correction := Function.update s.correction i
          (s.correction i + s.approxdual (map - nrowsps + shift))
        approxdual := Function.update s.approxdual (map - nrowsps + shift) 0 }
    else s
  else
    if isupper (map - nrowsps - ncols + shift) then
      { correction := Function.update s.correction i
          (s.correction i - s.approxdual (map - nrowsps - ncols + shift))
        approxdual := Function.update s.approxdual (map - nrowsps - ncols + shift) 0 }
    else s

/-- Lines 3022-3037 of `getPSdual`: `lambda1` for the interior point. -/
def lambda1Point (psdata : SCIP_PSDATA) (correction : Nat → ℚ) : ℚ :=
  forLoop (fun i lambda1 =>
      if RisNegative (correction i) then
        min lambda1 (psdata.interiorpt (psdata.psbasis i)
          / (psdata.interiorpt (psdata.psbasis i) - correction i))
      else lambda1) psdata.npsbasis 1

/-- Modelled from the spec: `RcreateTemp` belongs to the rational library, which is not part of
the sources; the value of a fresh temporary is the `λ₂ = 0` of "Blend accordingly (λ₂=0 if nothing
was negative)". -/
def RcreateTemp : ℚ := 0

/-- Lines 3043-3054 of `getPSdual`: `lambda2` for the interior ray, starting from the value
`lambda2` has when the loop is entered. -/
def lambda2Ray (psdata : SCIP_PSDATA) (correction : Nat → ℚ) (lambda2 : ℚ) : ℚ :=
  forLoop (fun i lambda2 =>
      if RisNegative (correction i) && psdata.includedrows (psdata.psbasis i) then
        max lambda2 (-(correction i / psdata.interiorray (psdata.psbasis i)))
      else lambda2) psdata.npsbasis lambda2

/-- Lines 3013-3055 of `getPSdual`: the pair `(lambda1, lambda2)` of the shifting step; with the
interior point `lambda2 = 1 - lambda1`, with the interior ray `lambda1 = 1` and `lambda2` grows
from the value of the fresh temporary. -/
def computeLambda (psdata : SCIP_PSDATA) (useinteriorpoint : Bool) (correction : Nat → ℚ) :
    ℚ × ℚ :=
  if useinteriorpoint then
    (lambda1Point psdata correction, 1 - lambda1Point psdata correction)
  else (1, lambda2Ray psdata correction RcreateTemp)

/-- Lines 3075-3087 of `getPSdual`: the corrected components are transformed back. -/
def transformBack (psbasis : Nat → Nat) (npsbasis ncols nrowsps shift : Nat)
    (correction : Nat → ℚ) (approxdual : Nat → ℚ) : Nat → ℚ :=
  forLoop (fun i a =>
      let map := psbasis i
      if map < nrowsps then Function.update a map (a map + correction i)
      else if map < 2 * nrowsps then
        Function.update a (map - nrowsps) (a (map - nrowsps) - correction i)
      else if map < 2 * nrowsps + ncols then
        Function.update a (map - nrowsps + shift) (a (map - nrowsps + shift) + correction i)
      else
        Function.update a (map - nrowsps - ncols + shift)
          (a (map - nrowsps - ncols + shift) - correction i))
    npsbasis approxdual

/-- Lines 3107-3129 of `getPSdual`: the shift by the interior point or ray. -/
def performShift (nrows ncols nrowsps shift : Nat) (interior : Nat → ℚ) (lambda1 lambda2 : ℚ)
    (approxdual : Nat → ℚ) : Nat → ℚ :=
  if !RisZero lambda2 then
    let a1 := forLoop (fun i a =>
        if i < nrows && i ≥ nrowsps then a
        else Function.update a i (a i * lambda1)) (nrows + ncols) approxdual
    forLoop (fun i a =>
        if i < nrows && i ≥ nrowsps then a
        else
          let map := if i < nrowsps then i + nrowsps else i + nrowsps + ncols - shift
          let a' := Function.update a i (a i - interior map * lambda2)
          let map := if i < nrowsps then i else i + nrowsps - shift
          Function.update a' i (a' i + interior map * lambda2)) (nrows + ncols) a1
  else approxdual

/-- Modelled from the spec: `RaddProd` belongs to the rational library, which is not part of the
sources. "Certified objective = Σ (dual value × paired exact bound), skipping coordinates paired
with infinite bounds (must be exactly zero by step 1 — violation is an invariant bug, not a
runtime condition)": a finite bound adds the product, an infinite bound with a zero multiplier
is skipped, and an infinite bound with a nonzero multiplier has no defined result. -/
def RaddProd (res : ℚ) (op1 : ℚ) (op2 : SCIP_Rational) : Option ℚ :=
  match op2 with
  | .fin b => some (res + op1 * b)
  | _ => if op1 = 0 then some res else none

/-- Lines 3182-3192 of `getPSdual`: the dual objective value of the final dual vector. -/
def dualObjective (lpex : SCIP_LPEX) (approxdual : Nat → ℚ) : Option ℚ :=
  forLoop (fun i dualbound => dualbound.bind (fun d =>
      RaddProd d (approxdual i) (selectedSide lpex (!RisPositive (approxdual i)) i)))
    (lpex.nrows + lpex.ncols) (some 0)

/-- Lines 2924-3141 of `getPSdual`: projection and shift of a lifted dual vector whose violation
is not zero; `none` when the triangular solve fails. -/
def projectAndShift (ext : External) (lpex : SCIP_LPEX) (useinteriorpoint : Bool)
    (isupper : Nat → Bool) (violation : Nat → ℚ) (approxdual : Nat → ℚ) : Option (Nat → ℚ) :=
  let psdata := lpex.psdata
  let nextendedrows := psdata.nextendedrows
  let nrows := lpex.nrows
  let ncols := lpex.ncols
  let nrowsps := psdata.nextendedrows / 2 - ncols
  let shift := nrows - nrowsps
  match ext.RECTLUsolveSystem ncols nextendedrows violation with
  | none => none
  | some correction =>
    let s := forLoop (projectionStep psdata.psbasis ncols nrowsps shift isupper) psdata.npsbasis
      { correction := correction, approxdual := approxdual }
    let lambda := computeLambda psdata useinteriorpoint s.correction
    let approxdual := transformBack psdata.psbasis psdata.npsbasis ncols nrowsps shift
      s.correction s.approxdual
    some (performShift nrows ncols nrowsps shift
      (if useinteriorpoint then psdata.interiorpt else psdata.interiorray) lambda.1 lambda.2
      approxdual)

/-- The final dual vector of `getPSdual` (lines 2786-3141), for a call that passed the initial
guard and the `SCIP_INVALID` test; `none` when the triangular solve fails. -/
def finalDual (ext : External) (lp : SCIP_LP) (lpex : SCIP_LPEX) (usefarkas : Bool) :
    Option (Nat → ℚ) :=
  let psdata := lpex.psdata
  let useinteriorpoint := !usefarkas && psdata.psuseintpoint && psdata.pshaspoint
  let approxdual0 := readApproxdual lp lpex.nrows lpex.ncols usefarkas
  let isupper := computeIsupper approxdual0
  let approxdual := fixArtificial lpex isupper approxdual0
  let violation := computeViolation lpex usefarkas approxdual
  if !computeIsfeas lpex.ncols violation then
    projectAndShift ext lpex useinteriorpoint isupper violation approxdual
  else some approxdual

/-- Lines 3144-3167 of `getPSdual`: the violation of the equality constraints as recomputed by
the debug test on the final dual vector. -/
def debugViolation (lpex : SCIP_LPEX) (usefarkas : Bool) (approxdual : Nat → ℚ) : Nat → ℚ :=
  let v0 := forLoop (fun i v => Function.update v i
      (if !usefarkas then (lpex.cols i).obj else 0)) lpex.ncols (fun _ => 0)
  let v1 := subtractRows lpex approxdual v0
  forLoop (fun i v => Function.update v i (v i - approxdual (i + lpex.nrows))) lpex.ncols v1

/-- Line 2795 of `getPSdual`: some row carries `SCIP_INVALID` as its dual (Farkas) value. -/
def hasInvalidRow (lp : SCIP_LP) (nrows : Nat) (usefarkas : Bool) : Bool :=
  (List.range nrows).any (fun i =>
    (!usefarkas && decide ((lp.rows i).dualsol = SCIP_INVALID))
      || (usefarkas && decide ((lp.rows i).dualfarkas = SCIP_INVALID)))

/-- Lines 3194-3214 of `getPSdual`: the bound is stored, or the infeasibility proof is accepted
or rejected. -/
def storeBound (ext : External) (lp : SCIP_LP) (lpex : SCIP_LPEX) (stat : SCIP_STAT)
    (usefarkas : Bool) (dualbound : ℚ) : SCIP_LP × SCIP_LPEX × SCIP_STAT :=
  if !usefarkas then
    ({ lp with lpobjval := ext.RgetRealRelax dualbound, hasprovedbound := true },
     { lpex with lpobjval := SCIP_Rational.fin dualbound }, stat)
  else if RisPositive dualbound then
    ({ lp with lpobjval := ext.infinity, hasprovedbound := true },
     { lpex with lpobjval := SCIP_Rational.inf }, stat)
  else
    ({ lp with hasprovedbound := false }, lpex,
     { stat with nfailprojshiftinf := stat.nfailprojshiftinf + 1 })

/-- The function `getPSdual` of `bounding_exact.c` (lines 2646-3272): computes a safe dual bound
by the project-and-shift method or corrects a dual ray for an infeasibility proof. The exact LP
is taken in its state after the flush of lines 2745-2748; the scratch arrays kept in `psdata` are
zeroed before use (lines 2770-2780) and are local here. The result is the state on return
(`SCIP_OKAY`); it is `none` only where `RaddProd` has no defined result. -/
def getPSdual (ext : External) (lp : SCIP_LP) (lpex : SCIP_LPEX) (stat : SCIP_STAT)
    (usefarkas : Bool) : Option (SCIP_LP × SCIP_LPEX × SCIP_STAT) :=
  let stat : SCIP_STAT :=
    if usefarkas then { stat with nprojshift := stat.nprojshift + 1 }
    else { stat with nprojshiftinf := stat.nprojshiftinf + 1 }
  let psdata := lpex.psdata
  if (psdata.psdatafail && !usefarkas) || (usefarkas && !psdata.pshasray) then
    some ({ lp with hasprovedbound := false }, lpex, stat)
  else
    let lp := { lp with hasprovedbound := true }
    if hasInvalidRow lp lpex.nrows usefarkas then
      some ({ lp with hasprovedbound := false }, lpex,
        if usefarkas then { stat with nfailprojshiftinf := stat.nfailprojshiftinf + 1 }
        else { stat with nfailprojshift := stat.nfailprojshift + 1 })
    else
      match finalDual ext lp lpex usefarkas with
      | none =>
        some ({ lp with hasprovedbound := false }, lpex,
          if usefarkas then { stat with nfailprojshiftinf := stat.nfailprojshiftinf + 1 }
          else { stat with nfailprojshift := stat.nfailprojshift + 1 })
      | some approxdual =>
        match dualObjective lpex approxdual with
        | none => none
        | some dualbound => some (storeBound ext lp lpex stat usefarkas dualbound)

/-! ## `getPSdualTwo`: the steps on the extended dual vector -/

/-- Lines 2221-2240 of `getPSdualTwo`: the cost vector `[lhs, -rhs, lb, -ub]` of the extended
dual space (a fresh array holds zeros). -/
def costvectTwo (lpex : SCIP_LPEX) (nrowsps : Nat) : Nat → SCIP_Rational :=
  let c1 := forLoop (fun i c =>
      Function.update (Function.update c i (lpex.rows i).lhs) (i + nrowsps) (Rneg (lpex.rows i).rhs))
    nrowsps (fun _ => SCIP_Rational.fin 0)
  forLoop (fun i c =>
      Function.update (Function.update c (i + 2 * nrowsps) (lpex.cols i).lb)
        (i + 2 * nrowsps + lpex.ncols) (Rneg (lpex.cols i).ub))
    lpex.ncols c1

/-- Lines 2402-2444 of `getPSdualTwo`: the pair `(lambda1, lambda2)` of the shifting step. -/
def computeLambdaTwo (psdata : SCIP_PSDATA) (useinteriorpoint : Bool) (approxdual : Nat → ℚ) :
    ℚ × ℚ :=
  if useinteriorpoint then
    let lambda1 := forLoop (fun i lambda1 =>
        if RisNegative (approxdual i) then
          let tmp2 := psdata.interiorpt i / (psdata.interiorpt i - approxdual i)
          if lambda1 > tmp2 then tmp2 else lambda1
        else lambda1) psdata.nextendedrows 1
    (lambda1, 1 - lambda1)
  else
    (1, forLoop (fun i lambda2 =>
        if RisNegative (approxdual i) && psdata.includedrows i then
          let tmp := -(approxdual i / psdata.interiorray i)
          if lambda2 < tmp then tmp else lambda2
        else lambda2) psdata.nextendedrows RcreateTemp)

/-- Lines 2459-2488 of `getPSdualTwo`: where both sides of a row or of a column carry a positive
value, the smaller of the two is subtracted from both. -/
def pairwiseSimplify (nrowsps ncols : Nat) (approxdual : Nat → ℚ) : Nat → ℚ :=
  let a1 := forLoop (fun i a =>
      let tmp := min (a i) (a (i + nrowsps))
      if RisPositive tmp then
        let a' := Function.update a i (a i - tmp)
        Function.update a' (i + nrowsps) (a' (i + nrowsps) - tmp)
      else a) nrowsps approxdual
  forLoop (fun i a =>
      let tmp := min (a (i + 2 * nrowsps)) (a (i + 2 * nrowsps + ncols))
      if RisPositive tmp then
        let a' := Function.update a (i + 2 * nrowsps) (a (i + 2 * nrowsps) - tmp)
        Function.update a' (i + 2 * nrowsps + ncols) (a' (i + 2 * nrowsps + ncols) - tmp)
      else a) ncols a1

/-- Lines 2571-2575 of `getPSdualTwo`: the dual objective value `Σ approxdual[i] * costvect[i]`. -/
def dualObjectiveTwo (nextendedrows : Nat) (costvect : Nat → SCIP_Rational)
    (approxdual : Nat → ℚ) : Option ℚ :=
  forLoop (fun i dualbound => dualbound.bind (fun d => RaddProd d (approxdual i) (costvect i)))
    nextendedrows (some 0)

/-! ## `boundShift`: the final decision -/

/-- Lines 3416-3417 and 3602-3643 of `boundShift`: the proved-bound status is reset, the safe
bound is stored and accepted or rejected. The interval computation of lines 3419-3601 is done by
the interval arithmetic library; `minprodInf` is the value `SCIPintervalGetInf(minprod)` it
yields. The result is the LP, the statistics and `*safebound`. -/
def boundShift (ext : External) (minprodInf : ℚ) (lp : SCIP_LP) (stat : SCIP_STAT)
    (usefarkas : Bool) : SCIP_LP × SCIP_STAT × ℚ :=
  let lp := { lp with hasprovedbound := false }
  let safebound := minprodInf
  if usefarkas then
    let stat := { stat with nboundshiftinf := stat.nboundshiftinf + 1 }
    if safebound ≤ 0 then
      (lp, { stat with nfailboundshiftinf := stat.nfailboundshiftinf + 1 }, safebound)
    else ({ lp with hasprovedbound := true }, stat, safebound)
  else
    let stat := { stat with nboundshift := stat.nboundshift + 1 }
    if !ext.SCIPsetIsInfinity (-1 * safebound) then
      ({ lp with hasprovedbound := true }, stat, safebound)
    else (lp, { stat with nfailboundshift := stat.nfailboundshift + 1 }, safebound)

/-! ## Notions of the specification -/

/-- The approximate value of row `i < nrows` (dual or Farkas multiplier) or of column `i - nrows`
(reduced cost or negated Farkas coefficient), as the floating-point LP reports it. -/
def approxValue (lp : SCIP_LP) (nrows : Nat) (usefarkas : Bool) (i : Nat) : ℚ :=
  if i < nrows then (if usefarkas then (lp.rows i).dualfarkas else (lp.rows i).dualsol)
  else (if usefarkas then -(lp.cols (i - nrows)).farkascoef else (lp.cols (i - nrows)).redcost)

/-- The finite value of a bound, `0` for an infinite one. -/
def finVal : SCIP_Rational → ℚ
  | .fin q => q
  | _ => 0

/-- Order `b ≤ q` between a possibly infinite bound and a rational. -/
def boundLe (b : SCIP_Rational) (q : ℚ) : Prop :=
  match b with
  | .fin a => a ≤ q
  | .neginf => True
  | .inf => False

/-- Order `q ≤ b` between a rational and a possibly infinite bound. -/
def leBound (q : ℚ) (b : SCIP_Rational) : Prop :=
  match b with
  | .fin a => q ≤ a
  | .inf => True
  | .neginf => False

/-- Order `a ≤ b` between two possibly infinite bounds. -/
def Rle (a b : SCIP_Rational) : Prop :=
  match a, b with
  | .neginf, _ => True
  | _, .inf => True
  | .fin x, .fin y => x ≤ y
  | _, _ => False

/-- Activity `a_i · x` of row `i` at the primal point `x`. -/
def rowActivity (lpex : SCIP_LPEX) (x : Nat → ℚ) (i : Nat) : ℚ :=
  ∑ t ∈ Finset.range (lpex.rows i).len, (lpex.rows i).vals t * x ((lpex.rows i).cols_index t)

/-- Primal feasibility of `x` for the relaxation `lhs ≤ A x ≤ rhs`, `lb ≤ x ≤ ub`. -/
def primalFeasible (lpex : SCIP_LPEX) (x : Nat → ℚ) : Prop :=
  (∀ i, i < lpex.nrows →
    boundLe (lpex.rows i).lhs (rowActivity lpex x i) ∧ leBound (rowActivity lpex x i) (lpex.rows i).rhs)
  ∧ (∀ j, j < lpex.ncols → boundLe (lpex.cols j).lb (x j) ∧ leBound (x j) (lpex.cols j).ub)

/-- Objective value `c · x`. -/
def objValue (lpex : SCIP_LPEX) (x : Nat → ℚ) : ℚ :=
  ∑ j ∈ Finset.range lpex.ncols, (lpex.cols j).obj * x j

/-- Coefficient of column `j` in row `i` (the entries of the sparse row that carry index `j`). -/
def coef (lpex : SCIP_LPEX) (i j : Nat) : ℚ :=
  ∑ t ∈ Finset.range (lpex.rows i).len,
    if (lpex.rows i).cols_index t = j then (lpex.rows i).vals t else 0

/-- Entry `(j, e)` of the extended dual matrix `[A', -A', I, -I]` over the `nrowsps` rows known
to the project-and-shift data, as `psFactorizeD` assembles it (lines 432-478). -/
def extendedCoef (lpex : SCIP_LPEX) (nrowsps : Nat) (e j : Nat) : ℚ :=
  if e < nrowsps then coef lpex e j
  else if e < 2 * nrowsps then -coef lpex (e - nrowsps) j
  else if e < 2 * nrowsps + lpex.ncols then (if e - 2 * nrowsps = j then 1 else 0)
  else (if e - (2 * nrowsps + lpex.ncols) = j then -1 else 0)

/-- The number `nrowsps` of rows known to the project-and-shift data (line 2753). -/
def nrowsPS (lpex : SCIP_LPEX) : Nat := lpex.psdata.nextendedrows / 2 - lpex.ncols

/-- The triangular solve is exact: whenever it succeeds on a right-hand side `r`, the correction
`z` it returns solves `D z = r`, `D` being the columns `psbasis` of the extended dual matrix. -/
def solveIsExact (ext : External) (lpex : SCIP_LPEX) : Prop :=
  ∀ (r z : Nat → ℚ),
    ext.RECTLUsolveSystem lpex.ncols lpex.psdata.nextendedrows r = some z →
    ∀ j, j < lpex.ncols →
      ∑ k ∈ Finset.range lpex.psdata.npsbasis,
        extendedCoef lpex (nrowsPS lpex) (lpex.psdata.psbasis k) j * z k = r j

/-- The vector `w` over the extended dual space satisfies the dual equalities with right-hand
side `c` (`[A', -A', I, -I] w = c`). -/
def dualEqualities (lpex : SCIP_LPEX) (w : Nat → ℚ) (c : Nat → ℚ) : Prop :=
  ∀ j, j < lpex.ncols →
    ∑ e ∈ Finset.range (2 * nrowsPS lpex + 2 * lpex.ncols),
      extendedCoef lpex (nrowsPS lpex) e j * w e = c j

/-- The extended dual coordinate `e` of a signed dual vector over the current rows and columns:
the positive part on the `lhs`/`lb` side, the negative part on the `rhs`/`ub` side. -/
def extendedDual (nrows ncols : Nat) (y : Nat → ℚ) (e : Nat) : ℚ :=
  if e < nrows then max (y e) 0
  else if e < 2 * nrows then max (-(y (e - nrows))) 0
  else if e < 2 * nrows + ncols then max (y (e - nrows)) 0
  else max (-(y (e - nrows - ncols))) 0

/-- The bound paired with the extended dual coordinate `e`: `lhs`, `rhs`, `lb` or `ub`. -/
def extendedBound (lpex : SCIP_LPEX) (e : Nat) : SCIP_Rational :=
  if e < lpex.nrows then (lpex.rows e).lhs
  else if e < 2 * lpex.nrows then (lpex.rows (e - lpex.nrows)).rhs
  else if e < 2 * lpex.nrows + lpex.ncols then (lpex.cols (e - 2 * lpex.nrows)).lb
  else (lpex.cols (e - 2 * lpex.nrows - lpex.ncols)).ub

/-! ## Concrete relaxations -/

/-- The statistics with all counters at zero. -/
def zeroStat : SCIP_STAT :=
  { nprojshift := 0, nprojshiftinf := 0, nfailprojshift := 0, nfailprojshiftinf := 0,
    nboundshift := 0, nboundshiftinf := 0, nfailboundshift := 0, nfailboundshiftinf := 0 }

/-- The external collaborators used in the examples: exact conversion, infinity value `1e+20`;
the triangular solve is given. -/
def mkExternal (solve : (Nat → ℚ) → Option (Nat → ℚ)) : External :=
  { RECTLUsolveSystem := fun _ _ v => solve v
    RgetRealRelax := fun q => q
    infinity := 10 ^ 20
    SCIPsetIsInfinity := fun q => decide ((10 : ℚ) ^ 20 ≤ q) }

/-- Relaxation `min -x - y` subject to `x + y ≤ 10` (no left-hand side), `0 ≤ x, y ≤ 10`, with the
project-and-shift data of the all-finite selection: `S` holds the right-hand side of the row and
the four column bounds. -/
def sumLpex : SCIP_LPEX :=
  { rows := fun _ =>
      { lhs := .neginf, rhs := .fin 10, len := 2, cols_index := fun t => t, vals := fun _ => 1 }
    cols := fun _ => { obj := -1, lb := .fin 0, ub := .fin 10 }
    nrows := 1
    ncols := 2
    lpobjval := .fin 0
    psdata :=
      { interiorpt := fun e => if e = 0 then 0 else if e = 1 then 2 else if e < 4 then 2 else 1
        interiorray := fun e => if e = 0 then 0 else if e = 1 then 1 else if e < 4 then 2 else 1
        includedrows := fun e => decide (0 < e)
        psbasis := fun k => k + 1
        npsbasis := 5
        nextendedrows := 6
        psdatacon := true
        psdatafail := false
        pshaspoint := true
        pshasray := true
        psuseintpoint := true } }

/-- Floating-point LP state for `sumLpex`: row dual `rowdual`, both reduced costs `0`. -/
def sumLp (rowdual : ℚ) : SCIP_LP :=
  { rows := fun _ => { dualsol := rowdual, dualfarkas := 0 }
    cols := fun _ => { redcost := 0, farkascoef := 0 }
    hasprovedbound := false
    lpobjval := 0 }

/-- A corrected vector over the basis positions of `sumLpex` whose first entry (the right-hand
side coordinate of the row) is `v` and whose other entries are zero. -/
def firstEntry (v : ℚ) : Nat → ℚ := fun k => if k = 0 then v else 0

/-- The bound that the final evaluation of `getPSdual` pairs with entry `i` of the dual vector
`y`: `lhs`/`lb` for a strictly positive value, `rhs`/`ub` otherwise (lines 3186-3189). -/
def pairedBound (lpex : SCIP_LPEX) (y : Nat → ℚ) (i : Nat) : SCIP_Rational :=
  selectedSide lpex (!RisPositive (y i)) i

/-- The initial guard of `getPSdual` (line 2715) lets the call pass. -/
def passesGuard (lpex : SCIP_LPEX) (usefarkas : Bool) : Prop :=
  ((lpex.psdata.psdatafail && !usefarkas) || (usefarkas && !lpex.psdata.pshasray)) = false

/-- Infeasible relaxation `2 ≤ x`, `0 ≤ x ≤ 1` (objective `x`), with the project-and-shift data of
the all-finite selection: `S` holds the left-hand side of the row and both column bounds. -/
def farkasLpex : SCIP_LPEX :=
  { rows := fun _ =>
      { lhs := .fin 2, rhs := .inf, len := 1, cols_index := fun _ => 0, vals := fun _ => 1 }
    cols := fun _ => { obj := 1, lb := .fin 0, ub := .fin 1 }
    nrows := 1
    ncols := 1
    lpobjval := .fin 0
    psdata :=
      { interiorpt := fun e => if e = 1 then 0 else 1
        interiorray := fun e => if e = 0 then 1 else if e = 1 then 0 else if e = 2 then 1 else 2
        includedrows := fun e => decide (e ≠ 1)
        psbasis := fun k => if k = 0 then 0 else k + 1
        npsbasis := 3
        nextendedrows := 4
        psdatacon := true
        psdatafail := false
        pshaspoint := true
        pshasray := true
        psuseintpoint := true } }

/-- Floating-point LP state for `farkasLpex`: Farkas multiplier `1` of the row and Farkas
coefficient `farkascoef` of the column. -/
def farkasLp (farkascoef : ℚ) : SCIP_LP :=
  { rows := fun _ => { dualsol := 0, dualfarkas := 1 }
    cols := fun _ => { redcost := 0, farkascoef := farkascoef }
    hasprovedbound := false
    lpobjval := 0 }

/-- A triangular solve for `farkasLpex` (`D = [1, 1, -1]`): the violation is put, negated, on the
upper-bound coordinate. -/
def farkasSolve (v : Nat → ℚ) : Option (Nat → ℚ) := some (fun k => if k = 2 then -(v 0) else 0)

/-- The final dual vector of `getPSdual` on `farkasLpex` with the approximate Farkas proof
`farkasLp (1/2)` and the solve `farkasSolve`. -/
def farkasFinal : Nat → ℚ := fun c => if c = 0 then 1 else if c = 1 then -1 else 0

/-- An extended dual vector of `sumLpex` that uses both bounds of the first column: weight `1` on
its lower and weight `2` on its upper bound. -/
def bothSides : Nat → ℚ := fun e => if e = 2 then 1 else if e = 4 then 2 else 0

/-- The entry of the signed dual vector that the extended coordinate `e` is mapped to (lines
2967-2999 and 3078-3086 of `getPSdual`). -/
def compactIndex (nrowsps ncols shift e : Nat) : Nat :=
  if e < nrowsps then e
  else if e < 2 * nrowsps then e - nrowsps
  else if e < 2 * nrowsps + ncols then e - nrowsps + shift
  else e - nrowsps - ncols + shift

/-- The sign with which the extended coordinate `e` enters the signed dual vector: `+1` on the
`lhs`/`lb` side and `-1` on the `rhs`/`ub` side. -/
def sideSign (nrowsps ncols e : Nat) : ℚ :=
  if e < nrowsps then 1
  else if e < 2 * nrowsps then -1
  else if e < 2 * nrowsps + ncols then 1
  else -1

/-- Column `j` of `A^T y` plus the column multiplier, for a signed dual vector `y` over the current
rows and columns: the left-hand side of the dual equality of column `j`. -/
def dualLhs (lpex : SCIP_LPEX) (y : Nat → ℚ) (j : Nat) : ℚ :=
  ∑ i ∈ Finset.range lpex.nrows, y i * coef lpex i j + y (j + lpex.nrows)

/-- The rows refer to columns of the relaxation only. -/
def indicesInRange (lpex : SCIP_LPEX) : Prop :=
  ∀ i, i < lpex.nrows → ∀ t, t < (lpex.rows i).len → (lpex.rows i).cols_index t < lpex.ncols

/-- Relaxation `min x` subject to `1 ≤ x ≤ 20`, `0 ≤ x ≤ 10` and the later cut `2 ≤ x ≤ 20`; every
bound is finite. The project-and-shift data was built when only the first row was present
(`nextendedrows = 4`) with the selection of the coordinates active at the root solution `x = 1`:
`S` holds the left-hand side of the first row, the interior point is `1` there and `0` elsewhere,
no interior ray exists. -/
def cutLpex : SCIP_LPEX :=
  { rows := fun i =>
      { lhs := if i = 0 then .fin 1 else .fin 2, rhs := .fin 20, len := 1
        cols_index := fun _ => 0, vals := fun _ => 1 }
    cols := fun _ => { obj := 1, lb := .fin 0, ub := .fin 10 }
    nrows := 2
    ncols := 1
    lpobjval := .fin 0
    psdata :=
      { interiorpt := fun e => if e = 0 then 1 else 0
        interiorray := fun _ => 0
        includedrows := fun e => decide (e = 0)
        psbasis := fun _ => 0
        npsbasis := 1
        nextendedrows := 4
        psdatacon := true
        psdatafail := false
        pshaspoint := true
        pshasray := false
        psuseintpoint := true } }

/-- Floating-point LP state for `cutLpex`: dual `0` of the first row, dual `9/8` of the cut (the
exact dual `1` with an error of `1/8`), reduced cost `0`. -/
def cutLp : SCIP_LP :=
  { rows := fun i => { dualsol := if i = 0 then 0 else 9 / 8, dualfarkas := 0 }
    cols := fun _ => { redcost := 0, farkascoef := 0 }
    hasprovedbound := false
    lpobjval := 0 }

/-- The triangular solve for `cutLpex` (`D = [1]`): the correction is the violation itself. -/
def cutSolve (v : Nat → ℚ) : Option (Nat → ℚ) := some (fun k => if k = 0 then v 0 else 0)

/-- The final dual vector of `getPSdual` on `cutLpex` with `cutLp` and `cutSolve`. -/
def cutFinal : Nat → ℚ := fun c => if c = 1 then 9 / 8 else 0

/-- The signed dual vector that a vector `z` over the basis positions stands for: entry `c`
collects `± z k` from every basis position `k` whose extended coordinate is mapped to `c`. -/
def spread (psbasis : Nat → Nat) (npsbasis nrowsps ncols shift : Nat) (z : Nat → ℚ)
    (c : Nat) : ℚ :=
  ∑ k ∈ Finset.range npsbasis,
    (if compactIndex nrowsps ncols shift (psbasis k) = c then
      sideSign nrowsps ncols (psbasis k) * z k else 0)

/-- The signed dual vector that the interior point or ray stands for on the rows known to the
project-and-shift data and on the columns (lines 3116-3128 of `getPSdual`); zero elsewhere. -/
def shiftVector (nrows ncols nrowsps shift : Nat) (interior : Nat → ℚ) (c : Nat) : ℚ :=
  if c < nrows + ncols ∧ ¬ (c < nrows ∧ nrowsps ≤ c) then
    interior (if c < nrowsps then c else c + nrowsps - shift)
      - interior (if c < nrowsps then c + nrowsps else c + nrowsps + ncols - shift)
  else 0

/-- The bound paired with the extended coordinate `e` in the numbering of the project-and-shift
data (`nrowsps` rows): `lhs`, `rhs`, `lb` or `ub`. -/
def psBound (lpex : SCIP_LPEX) (nrowsps e : Nat) : SCIP_Rational :=
  if e < nrowsps then (lpex.rows e).lhs
  else if e < 2 * nrowsps then (lpex.rows (e - nrowsps)).rhs
  else if e < 2 * nrowsps + lpex.ncols then (lpex.cols (e - 2 * nrowsps)).lb
  else (lpex.cols (e - 2 * nrowsps - lpex.ncols)).ub

/-- The invariants that the construction of the project-and-shift data establishes for the
certificate in use (`interior` is the interior point or the interior ray): the basis lists each
included coordinate once, every coordinate of the basis has a finite bound, and the certificate is
nonnegative, positive on the basis and zero where the bound is infinite. -/
def certificateInvariants (lpex : SCIP_LPEX) (interior : Nat → ℚ) : Prop :=
  (∀ k k', k < lpex.psdata.npsbasis → k' < lpex.psdata.npsbasis →
    lpex.psdata.psbasis k = lpex.psdata.psbasis k' → k = k')
  ∧ (∀ k, k < lpex.psdata.npsbasis →
      lpex.psdata.includedrows (lpex.psdata.psbasis k) = true
      ∧ RisAbsInfinity (psBound lpex (nrowsPS lpex) (lpex.psdata.psbasis k)) = false
      ∧ 0 < interior (lpex.psdata.psbasis k))
  ∧ (∀ e, 0 ≤ interior e
      ∧ (RisAbsInfinity (psBound lpex (nrowsPS lpex) e) = true → interior e = 0))

/-! ## The exact LP solver, the selection of `S` and the factorization -/

/-- What the exact LP interface reports after `SCIPlpiexSolveDual` on the LP of the node:
whether the return code was `SCIP_LPERROR`, the iteration count, the three status tests, the
objective value (`SCIPlpiexGetObjval`), the flag `valid` of `SCIPlpexGetDualfarkas`, and the
primal solution and row activities of `SCIPlpiexGetSol`. -/
structure LpiexResult where
  lperror : Bool
  niterations : Nat
  isOptimal : Bool
  isPrimalUnbounded : Bool
  isPrimalInfeasible : Bool
  objval : ℚ
  farkasValid : Bool
  primsol : Nat → SCIP_Rational
  activity : Nat → SCIP_Rational

/-- A sparse matrix in the representation handed to the factorization and to the exact LP
interface: entry positions `beg[i], …` of line `i`, their number `len[i]`, and the index and value
at each position. -/
structure SparseMatrix where
  beg : Nat → Nat
  len : Nat → Nat
  ind : Nat → Nat
  val : Nat → ℚ

/-- The auxiliary LP handed to the exact LP interface by `psComputeSintPointRay`
(`SCIPlpiexCreate`, `SCIPlpiexAddCols`, `SCIPlpiexAddRows`): objective sense, sizes, objective,
column bounds, row sides and the rows in sparse form. -/
structure AuxLP where
  maximize : Bool
  ncols : Nat
  nrows : Nat
  nnonz : Nat
  obj : Nat → SCIP_Rational
  lb : Nat → SCIP_Rational
  ub : Nat → SCIP_Rational
  lhs : Nat → SCIP_Rational
  rhs : Nat → SCIP_Rational
  beg : Nat → Nat
  ind : Nat → Nat
  val : Nat → ℚ

/-- What the exact LP interface reports for an auxiliary LP: `SCIPlpiexIsOptimal` and the
objective value, primal solution and dual solution of `SCIPlpiexGetSol`. -/
structure AuxLPResult where
  isOptimal : Bool
  objval : ℚ
  primsol : Nat → ℚ
  dualsol : Nat → ℚ

/-- Collaborators of the bounding methods that are not part of `bounding_exact.c`: the exact LP
solver on the LP of the node and on an auxiliary LP (dual simplex, and primal simplex for the
second stage), the factorization `RECTLUbuildFactorization` (return value and handle), the
tolerance tests `SCIPsetIsFeasEQ` and `SCIPsetIsGE`, the rational product `Rmult` with a possibly
infinite factor, the floating-point rounding `pow(2, (int) (log(·)/log(2)))`, the getters
`SCIPlpGetObjval` and `SCIPgetDepth`, the tests `SCIPlpexBSpossible` and `SCIPlpexPSpossible`, and
the interval computation of `boundShift` (the value `SCIPintervalGetInf(minprod)`), and the
content of a freshly allocated `int` buffer (`SCIPsetAllocBufferArray` does not initialise). -/
structure Collaborators where
  SCIPlpiexSolveDual : SCIP_LP → SCIP_LPEX → LpiexResult
  auxSolveDual : AuxLP → AuxLPResult
  auxSolvePrimal : AuxLP → AuxLPResult
  RECTLUbuildFactorization : Nat → Nat → (Nat → Nat) → SparseMatrix → Int × Nat
  SCIPsetIsFeasEQ : ℚ → ℚ → Bool
  SCIPsetIsGE : ℚ → ℚ → Bool
  Rmult : SCIP_Rational → ℚ → SCIP_Rational
  roundPow2 : ℚ → ℚ
  SCIPlpGetObjval : SCIP_LP → ℚ
  SCIPgetDepth : Nat
  SCIPlpexBSpossible : SCIP_LPEX → Bool
  SCIPlpexPSpossible : SCIP_LPEX → Bool
  SCIPintervalGetInf : SCIP_LP → SCIP_LPEX → Bool → ℚ
  bufferContent : Nat → Nat

/-- The state that the bounding methods read and change: the floating-point LP, the exact LP
with the project-and-shift data, the statistics, and the two results `*lperror` and `*safebound`
of `SCIPcomputeSafeBound`. -/
structure BoundingState where
  lp : SCIP_LP
  lpex : SCIP_LPEX
  stat : SCIP_STAT
  lperror : Bool
  safebound : ℚ

/-- The function `solveLpExact` (lines 53-180): the LP of the node is solved exactly and the
proved-bound status is set from the status of the solver. The exact LP is taken after the flush
of lines 86-87; the solution values that `SCIPlpexGetSol`, `SCIPlpexGetPrimalRay` and
`SCIPlpexGetDualfarkas` store are not part of the state. -/
def solveLpExact (col : Collaborators) (ext : External) (st : BoundingState)
    (usefarkas : Bool) : BoundingState :=
  let r := col.SCIPlpiexSolveDual st.lp st.lpex
  let st1 : BoundingState :=
    { st with
      lperror := if r.lperror then true else st.lperror
      lpex := { st.lpex with solved := true }
      stat :=
        if usefarkas then
          { st.stat with niterationsexlpinf := st.stat.niterationsexlpinf + r.niterations }
        else { st.stat with niterationsexlp := st.stat.niterationsexlp + r.niterations } }
  let st2 : BoundingState :=
    if r.isOptimal then
      { st1 with
        lpex := { st1.lpex with lpobjval := SCIP_Rational.fin r.objval }
        lp := { st1.lp with
          lpobjval := ext.RgetRealRelax r.objval
          hasprovedbound := true
          lpsolstat := SCIP_LPSOLSTAT.OPTIMAL } }
    else if r.isPrimalUnbounded then
      { st1 with
        lp := { st1.lp with hasprovedbound := true, lpsolstat := SCIP_LPSOLSTAT.UNBOUNDEDRAY } }
    else if r.isPrimalInfeasible then
      if r.farkasValid then
        { st1 with
          lpex := { st1.lpex with lpsolstat := SCIP_LPSOLSTAT.INFEASIBLE }
          lp := { st1.lp with hasprovedbound := true, lpsolstat := SCIP_LPSOLSTAT.INFEASIBLE } }
      else { st1 with lpex := { st1.lpex with lpsolstat := SCIP_LPSOLSTAT.INFEASIBLE } }
    else
      { st1 with
        lp := { st1.lp with hasprovedbound := false }
        stat :=
          if usefarkas then { st1.stat with nfailexlpinf := st1.stat.nfailexlpinf + 1 }
          else { st1.stat with nfailexlp := st1.stat.nfailexlp + 1 } }
  { st2 with
    stat :=
      if usefarkas then { st2.stat with nexlpinf := st2.stat.nexlpinf + 1 }
      else { st2.stat with nexlp := st2.stat.nexlp + 1 } }

/-- Test `RisEqual` of two exact rationals. -/
def RisEqual (a b : SCIP_Rational) : Bool := decide (a = b)

/-- The two marking loops that `psChooseS` (lines 289-302, 321-334, 346-361) and
`psComputeSintPointRay` (lines 1447-1460) run over the rows and the columns: the flag of the
`lhs`, `rhs`, `lb` or `ub` coordinate is set to `1` where the test of that side holds. -/
def markSides (nrows ncols : Nat) (lhsTest rhsTest lbTest ubTest : Nat → Bool)
    (flags : Nat → Nat) : Nat → Nat :=
  let flags1 := forLoop (fun i f =>
      let f1 := if lhsTest i then Function.update f i 1 else f
      if rhsTest i then Function.update f1 (nrows + i) 1 else f1) nrows flags
  forLoop (fun i f =>
      let f1 := if lbTest i then Function.update f (2 * nrows + i) 1 else f
      if ubTest i then Function.update f1 (2 * nrows + ncols + i) 1 else f1) ncols flags1

/-- Lines 281-366 of `psChooseS`: the array `includedrows` of `int` flags, zeroed (lines 282-283)
and then marked according to the selection policy; `root` is what the exact LP interface reports
for the root LP (used by the policy `PS_DUALCOSTSEL_ACTIVE_EXLP` only). -/
def includedrowsArray (col : Collaborators) (lp : SCIP_LP) (lpex : SCIP_LPEX)
    (root : LpiexResult) : Nat → Nat :=
  if lpex.psdata.psdualcolselection = PS_DUALCOSTSEL.NO
      ∨ lp.lpsolstat = SCIP_LPSOLSTAT.INFEASIBLE then
    markSides lpex.nrows lpex.ncols
      (fun i => !RisNegInfinity (lpex.rows i).lhs) (fun i => !RisInfinity (lpex.rows i).rhs)
      (fun i => !RisNegInfinity (lpex.cols i).lb) (fun i => !RisInfinity (lpex.cols i).ub)
      (fun _ => 0)
  else if lpex.psdata.psdualcolselection = PS_DUALCOSTSEL.ACTIVE_EXLP then
    markSides lpex.nrows lpex.ncols
      (fun i => RisEqual (root.activity i) (lpex.rows i).lhs)
      (fun i => RisEqual (root.activity i) (lpex.rows i).rhs)
      (fun i => RisEqual (root.primsol i) (lpex.cols i).lb)
      (fun i => RisEqual (root.primsol i) (lpex.cols i).ub)
      (fun _ => 0)
  else
    markSides lpex.nrows lpex.ncols
      (fun i => col.SCIPsetIsFeasEQ (lp.rows i).activity (lp.rows i).lhs)
      (fun i => col.SCIPsetIsFeasEQ (lp.rows i).activity (lp.rows i).rhs)
      (fun i => col.SCIPsetIsFeasEQ (lp.cols i).primsol (lp.cols i).lb)
      (fun i => col.SCIPsetIsFeasEQ (lp.cols i).primsol (lp.cols i).ub)
      (fun _ => 0)

/-- The function `psChooseS` (lines 248-368): chooses the set `S` of dual columns. Under the
policy `PS_DUALCOSTSEL_ACTIVE_EXLP` (and a floating-point LP that is not infeasible) the root LP
is first solved exactly by `solveLpExact` (line 310), which changes the LP state; the flag
`lperror` that `solveLpExact` sets there is a local variable of `psChooseS` (line 269), so the
`*lperror` of the caller keeps its value. The `int` flags are kept as truth values in
`includedrows`. -/
def psChooseS (col : Collaborators) (ext : External) (st : BoundingState) : BoundingState :=
  let st1 : BoundingState :=
    if st.lpex.psdata.psdualcolselection = PS_DUALCOSTSEL.NO
        ∨ st.lp.lpsolstat = SCIP_LPSOLSTAT.INFEASIBLE then st
    else if st.lpex.psdata.psdualcolselection = PS_DUALCOSTSEL.ACTIVE_EXLP then
      { solveLpExact col ext st false with lperror := st.lperror }
    else st
  let flags := includedrowsArray col st.lp st.lpex (col.SCIPlpiexSolveDual st.lp st.lpex)
  { st1 with
    lpex := { st1.lpex with
      psdata := { st1.lpex.psdata with includedrows := fun e => decide (flags e ≠ 0) } } }

/-- The loop of lines 421-430 (`psbasis`) and 1462-1471 (`dvarmap`): the indices `i < n` whose
flag is set are stored one after the other; the result is the array and the number of entries. -/
def collectIndices (n : Nat) (flag : Nat → Bool) (arr : Nat → Nat) : (Nat → Nat) × Nat :=
  forLoop (fun i s => if flag i then (Function.update s.1 s.2 i, s.2 + 1) else s) n (arr, 0)

/-- The state of a loop that fills a sparse matrix: the running position `pos` and the arrays. -/
structure MatrixBuild where
  pos : Nat
  m : SparseMatrix

/-- Lines 410-411 and 433-478 of `psFactorizeD`: the sparse representation of `[A', -A', I, -I]`
that is passed to the factorization (`projind` is zeroed first; a fresh `projval` holds zeros). -/
def projMatrix (lpex : SCIP_LPEX) (nextendedrows : Nat) (projbeg projlen : Nat → Nat) :
    SparseMatrix :=
  let nrows := lpex.nrows
  let ncols := lpex.ncols
  (forLoop (fun i (s : MatrixBuild) =>
      if i < nrows then
        let m1 : SparseMatrix :=
          { s.m with len := Function.update s.m.len i (lpex.rows i).len
                     beg := Function.update s.m.beg i s.pos }
        let m2 := forLoop (fun j (m : SparseMatrix) =>
            { m with ind := Function.update m.ind (m.beg i + j) ((lpex.rows i).cols_index j)
                     val := Function.update m.val (m.beg i + j) ((lpex.rows i).vals j) })
          (lpex.rows i).len m1
        { pos := s.pos + m2.len i, m := m2 }
      else if i < 2 * nrows then
        let m1 : SparseMatrix :=
          { s.m with len := Function.update s.m.len i (lpex.rows (i - nrows)).len
                     beg := Function.update s.m.beg i s.pos }
        let m2 := forLoop (fun j (m : SparseMatrix) =>
            { m with ind := Function.update m.ind (m.beg i + j)
                              ((lpex.rows (i - nrows)).cols_index j)
                     val := Function.update m.val (m.beg i + j)
                              (-(lpex.rows (i - nrows)).vals j) })
          (lpex.rows (i - nrows)).len m1
        { pos := s.pos + m2.len i, m := m2 }
      else if i < 2 * nrows + ncols then
        { pos := s.pos + 1
          m := { beg := Function.update s.m.beg i s.pos
                 len := Function.update s.m.len i 1
                 ind := Function.update s.m.ind s.pos (i - 2 * nrows)
                 val := Function.update s.m.val s.pos 1 } }
      else
        { pos := s.pos + 1
          m := { beg := Function.update s.m.beg i s.pos
                 len := Function.update s.m.len i 1
                 ind := Function.update s.m.ind s.pos (i - (2 * nrows + ncols))
                 val := Function.update s.m.val s.pos (-1) } })
    nextendedrows
    { pos := 0, m := { beg := projbeg, len := projlen, ind := fun _ => 0, val := fun _ => 0 } }).m

/-- The function `psFactorizeD` (lines 370-524): `psbasis` lists the included coordinates, the
matrix `D` is handed to `RECTLUbuildFactorization`, and a nonzero return value marks the data as
failed. The buffers `projbeg` and `projlen` start with the content of a fresh buffer, and
`psbasis` with the content it had. -/
def psFactorizeD (col : Collaborators) (lpex : SCIP_LPEX) : SCIP_LPEX :=
  let psdata := lpex.psdata
  let basis := collectIndices psdata.nextendedrows psdata.includedrows psdata.psbasis
  let proj := projMatrix lpex psdata.nextendedrows col.bufferContent col.bufferContent
  let res := col.RECTLUbuildFactorization lpex.ncols basis.2 basis.1 proj
  { lpex with
    psdata := { psdata with
      psbasis := basis.1
      npsbasis := basis.2
      rectfactor := res.2
      psdatafail := if res.1 ≠ 0 then true else psdata.psdatafail } }

/-! ## The auxiliary problems of `psComputeSintPointRay` -/

/-- The constant `PSBIGM`. -/
def PSBIGM : ℚ := 100

/-- The arrays of an auxiliary problem that the `setupPs…` functions fill: objective, column
bounds, row sides and the sparse rows (`psbeg`, `pslen`, `psind`, `psval`). -/
structure PsArrays where
  psobj : Nat → SCIP_Rational
  pslb : Nat → SCIP_Rational
  psub : Nat → SCIP_Rational
  pslhs : Nat → SCIP_Rational
  psrhs : Nat → SCIP_Rational
  m : SparseMatrix

/-- The arrays as `allocIntMem` (lines 200-245) hands them out: fresh rationals, and `int` buffers
with the content of a fresh buffer. -/
def allocIntMem (col : Collaborators) : PsArrays :=
  { psobj := fun _ => SCIP_Rational.fin RcreateTemp
    pslb := fun _ => SCIP_Rational.fin RcreateTemp
    psub := fun _ => SCIP_Rational.fin RcreateTemp
    pslhs := fun _ => SCIP_Rational.fin RcreateTemp
    psrhs := fun _ => SCIP_Rational.fin RcreateTemp
    m := { beg := col.bufferContent, len := col.bufferContent, ind := col.bufferContent
           val := fun _ => RcreateTemp } }

/-- The LP that `SCIPlpiexCreate`, `SCIPlpiexAddCols` and `SCIPlpiexAddRows` build from the
arrays (`pslen` is not handed over: row `i` ends where row `i + 1` begins). -/
def mkAuxLP (maximize : Bool) (psncols psnrows psnnonz : Nat) (a : PsArrays) : AuxLP :=
  { maximize := maximize, ncols := psncols, nrows := psnrows, nnonz := psnnonz
    obj := a.psobj, lb := a.pslb, ub := a.psub, lhs := a.pslhs, rhs := a.psrhs
    beg := a.m.beg, ind := a.m.ind, val := a.m.val }

/-- Lines 1445-1461 of `psComputeSintPointRay`: the incidence vector of the dual variables with
finite cost. -/
def dvarincidence (lpex : SCIP_LPEX) : Nat → Nat :=
  markSides lpex.nrows lpex.ncols
    (fun i => !RisNegInfinity (lpex.rows i).lhs) (fun i => !RisInfinity (lpex.rows i).rhs)
    (fun i => !RisNegInfinity (lpex.cols i).lb) (fun i => !RisInfinity (lpex.cols i).ub)
    (fun _ => 0)

/-- The function `computePsNnonz` (lines 1338-1365). -/
def computePsNnonz (lpex : SCIP_LPEX) (dvarincidence : Nat → Nat) : Nat :=
  let ret1 := forLoop (fun i ret =>
      let r1 := if dvarincidence i ≠ 0 then ret + (lpex.rows i).len else ret
      if dvarincidence (lpex.nrows + i) ≠ 0 then r1 + (lpex.rows i).len else r1) lpex.nrows 0
  forLoop (fun i ret =>
      let r1 := if dvarincidence (2 * lpex.nrows + i) ≠ 0 then ret + 1 else ret
      if dvarincidence (2 * lpex.nrows + lpex.ncols + i) ≠ 0 then r1 + 1 else r1) lpex.ncols ret1

/-- The state of the loops that collect the objective. -/
structure ObjBuild where
  pos : Nat
  psobj : Nat → SCIP_Rational

/-- Lines 602-635 of `setupPsOpt` (and 1843-1876 of `psComputeSintPointRay`): the objective
`[lhs, -rhs, lb, -ub]` restricted to the dual variables with finite cost. -/
def objectiveOfBounds (lpex : SCIP_LPEX) (dvarincidence : Nat → Nat)
    (psobj : Nat → SCIP_Rational) : Nat → SCIP_Rational :=
  let s1 := forLoop (fun i (s : ObjBuild) =>
      if dvarincidence i ≠ 0 then
        { pos := s.pos + 1, psobj := Function.update s.psobj s.pos (lpex.rows i).lhs }
      else s) lpex.nrows { pos := 0, psobj := psobj }
  let s2 := forLoop (fun i (s : ObjBuild) =>
      if dvarincidence (lpex.nrows + i) ≠ 0 then
        { pos := s.pos + 1, psobj := Function.update s.psobj s.pos (Rneg (lpex.rows i).rhs) }
      else s) lpex.nrows s1
  let s3 := forLoop (fun i (s : ObjBuild) =>
      if dvarincidence (2 * lpex.nrows + i) ≠ 0 then
        { pos := s.pos + 1, psobj := Function.update s.psobj s.pos (lpex.cols i).lb }
      else s) lpex.ncols s2
  (forLoop (fun i (s : ObjBuild) =>
      if dvarincidence (2 * lpex.nrows + lpex.ncols + i) ≠ 0 then
        { pos := s.pos + 1, psobj := Function.update s.psobj s.pos (Rneg (lpex.cols i).ub) }
      else s) lpex.ncols s3).psobj

/-- Lines 688-708 of `setupPsOpt` (1061-1081, 1246-1266): the entries of each column of the
original problem are counted. -/
def countEntries (lpex : SCIP_LPEX) (dvarmap : Nat → Nat) (ndvarmap : Nat)
    (pslen : Nat → Nat) : Nat → Nat :=
  forLoop (fun i l =>
      if dvarmap i < 2 * lpex.nrows then
        let indx := if dvarmap i ≥ lpex.nrows then dvarmap i - lpex.nrows else dvarmap i
        forLoop (fun j l1 => Function.update l1 ((lpex.rows indx).cols_index j)
            (l1 ((lpex.rows indx).cols_index j) + 1)) (lpex.rows indx).len l
      else
        let indx := if dvarmap i < 2 * lpex.nrows + lpex.ncols then dvarmap i - 2 * lpex.nrows
          else dvarmap i - (2 * lpex.nrows + lpex.ncols)
        Function.update l indx (l indx + 1)) ndvarmap pslen

/-- Lines 714-719 of `setupPsOpt` (1094-1099, 1273-1278): the array `psbeg` and the final value
of `pos`. -/
def begArray (psnrows : Nat) (pslen : Nat → Nat) (psbeg : Nat → Nat) : (Nat → Nat) × Nat :=
  forLoop (fun i s => (Function.update s.1 i s.2, s.2 + pslen i)) psnrows (psbeg, 0)

/-- Lines 725-757 of `setupPsOpt` (1105-1137, 1284-1316): the entries are added one by one by
scanning through the matrix; `pslen` counts the entries placed so far. -/
def scanEntries (lpex : SCIP_LPEX) (dvarmap : Nat → Nat) (ndvarmap : Nat) (m : SparseMatrix) :
    SparseMatrix :=
  forLoop (fun i (m0 : SparseMatrix) =>
      if dvarmap i < 2 * lpex.nrows then
        let indx := if dvarmap i ≥ lpex.nrows then dvarmap i - lpex.nrows else dvarmap i
        forLoop (fun j (m1 : SparseMatrix) =>
            let c := (lpex.rows indx).cols_index j
            { m1 with
              ind := Function.update m1.ind (m1.beg c + m1.len c) i
              val := Function.update m1.val (m1.beg c + m1.len c)
                (if dvarmap i < lpex.nrows then (lpex.rows indx).vals j
                 else -(lpex.rows indx).vals j)
              len := Function.update m1.len c (m1.len c + 1) }) (lpex.rows indx).len m0
      else
        let indx := if dvarmap i < 2 * lpex.nrows + lpex.ncols then dvarmap i - 2 * lpex.nrows
          else dvarmap i - (2 * lpex.nrows + lpex.ncols)
        { m0 with
          ind := Function.update m0.ind (m0.beg indx + m0.len indx) i
          val := Function.update m0.val (m0.beg indx + m0.len indx)
            (if dvarmap i < 2 * lpex.nrows + lpex.ncols then 1 else -1)
          len := Function.update m0.len indx (m0.len indx + 1) }) ndvarmap m

/-- Lines 759-771 of `setupPsOpt` (1146-1158, 1319-1331): the last `npsbasis` rows, one for each
included dual variable: `+1` on the variable and `-1` on the column `slack pos`. -/
def lastRows (includedrows : Nat → Bool) (dvarmap : Nat → Nat) (ndvarmap ncols : Nat)
    (slack : Nat → Nat) (m : SparseMatrix) : MatrixBuild :=
  forLoop (fun i (s : MatrixBuild) =>
      if includedrows (dvarmap i) then
        { pos := s.pos + 1
          m := { s.m with
            ind := Function.update (Function.update s.m.ind (s.m.beg s.pos) i)
              (s.m.beg s.pos + 1) (slack s.pos)
            val := Function.update (Function.update s.m.val (s.m.beg s.pos) 1)
              (s.m.beg s.pos + 1) (-1) } }
      else s) ndvarmap { pos := ncols, m := m }

/-- Lines 683-771 of `setupPsOpt` (1241-1331 of `setupPsTwoStage`): the constraint matrix, the
transpose of the columns `dvarmap` of `[A', -A', I, -I]` followed by the last `npsbasis` rows. -/
def transposedMatrix (lpex : SCIP_LPEX) (dvarmap : Nat → Nat)
    (ndvarmap psnrows psncols : Nat) (m : SparseMatrix) : SparseMatrix :=
  let len0 := forLoop (fun i l => Function.update l i 0) psnrows m.len
  let len1 := countEntries lpex dvarmap ndvarmap len0
  let len2 := forLoop (fun i l => Function.update l (lpex.ncols + i) 2) lpex.psdata.npsbasis len1
  let beg := (begArray psnrows len2 m.beg).1
  let len3 := forLoop (fun i l => Function.update l i 0) lpex.ncols len2
  let m1 := scanEntries lpex dvarmap ndvarmap { m with beg := beg, len := len3 }
  (lastRows lpex.psdata.includedrows dvarmap ndvarmap lpex.ncols (fun _ => psncols - 1) m1).m

/-- The function `setupPsOpt` (lines 563-806): the auxiliary problem of the optimized selection,
for the interior point (`findintpoint`) or for the interior ray. -/
def setupPsOpt (col : Collaborators) (lp : SCIP_LP) (lpex : SCIP_LPEX)
    (dvarincidence dvarmap : Nat → Nat) (ndvarmap psnrows psncols : Nat) (findintpoint : Bool)
    (a : PsArrays) : PsArrays :=
  let psdata := lpex.psdata
  let obj0 := objectiveOfBounds lpex dvarincidence a.psobj
  let alpha0 : ℚ := psdata.psobjweight
  let beta0 : ℚ := 1
  let beta1 : ℚ :=
    if RisPositive alpha0 then
      let b1 := beta0 - alpha0
      let b2 := if |col.SCIPlpGetObjval lp| > 1 then b1 * |col.SCIPlpGetObjval lp| else b1
      col.roundPow2 (b2 / alpha0)
    else beta0
  let alpha1 : ℚ := if RisPositive alpha0 then 1 else alpha0
  let obj1 := forLoop (fun i o => Function.update o i (col.Rmult (o i) alpha1)) ndvarmap obj0
  let obj2 := Function.update obj1 ndvarmap (SCIP_Rational.fin beta1)
  let ub1 := forLoop (fun i u => Function.update u i SCIP_Rational.inf) ndvarmap a.psub
  let lb1 := forLoop (fun i l => Function.update l i (SCIP_Rational.fin 0)) ndvarmap a.pslb
  let ub2 := Function.update ub1 ndvarmap (SCIP_Rational.fin PSBIGM)
  let lb2 := Function.update lb1 ndvarmap (SCIP_Rational.fin 0)
  let lhs1 := forLoop (fun i l => Function.update l i (SCIP_Rational.fin (lpex.cols i).obj))
    lpex.ncols a.pslhs
  let rhs1 := forLoop (fun i r => Function.update r i (SCIP_Rational.fin (lpex.cols i).obj))
    lpex.ncols a.psrhs
  let lhs2 := forLoop (fun i l => Function.update l (lpex.ncols + i) (SCIP_Rational.fin 0))
    psdata.npsbasis lhs1
  let rhs2 := forLoop (fun i r => Function.update r (lpex.ncols + i) SCIP_Rational.inf)
    psdata.npsbasis rhs1
  let m1 := transposedMatrix lpex dvarmap ndvarmap psnrows psncols a.m
  if !findintpoint then
    { psobj := Function.update obj2 ndvarmap (SCIP_Rational.fin 0)
      pslhs := forLoop (fun i l => Function.update l i (SCIP_Rational.fin 0)) lpex.ncols lhs2
      psrhs := forLoop (fun i r => Function.update r i (SCIP_Rational.fin 0)) lpex.ncols rhs2
      psub := Function.update ub2 ndvarmap SCIP_Rational.inf
      pslb := Function.update lb2 ndvarmap (SCIP_Rational.fin 1)
      m := m1 }
  else
    { psobj := obj2, pslhs := lhs2, psrhs := rhs2, psub := ub2, pslb := lb2, m := m1 }

/-- The function `setupPsTwoStage` (lines 1164-1335): the first-stage problem of the two-stage
selection, which maximizes the interiorness alone. -/
def setupPsTwoStage (lpex : SCIP_LPEX) (dvarmap : Nat → Nat) (ndvarmap psnrows psncols : Nat)
    (a : PsArrays) : PsArrays :=
  let psdata := lpex.psdata
  let obj1 := forLoop (fun i o => Function.update o i (SCIP_Rational.fin 0)) ndvarmap a.psobj
  let obj2 := Function.update obj1 ndvarmap (SCIP_Rational.fin 1)
  let ub1 := forLoop (fun i u => Function.update u i SCIP_Rational.inf) ndvarmap a.psub
  let lb1 := forLoop (fun i l => Function.update l i (SCIP_Rational.fin 0)) ndvarmap a.pslb
  let ub2 := Function.update ub1 ndvarmap (SCIP_Rational.fin PSBIGM)
  let lb2 := Function.update lb1 ndvarmap (SCIP_Rational.fin 0)
  let lhs1 := forLoop (fun i l => Function.update l i (SCIP_Rational.fin (lpex.cols i).obj))
    lpex.ncols a.pslhs
  let rhs1 := forLoop (fun i r => Function.update r i (SCIP_Rational.fin (lpex.cols i).obj))
    lpex.ncols a.psrhs
  let lhs2 := forLoop (fun i l => Function.update l (lpex.ncols + i) (SCIP_Rational.fin 0))
    psdata.npsbasis lhs1
  let rhs2 := forLoop (fun i r => Function.update r (lpex.ncols + i) SCIP_Rational.inf)
    psdata.npsbasis rhs1
  { psobj := obj2, pslhs := lhs2, psrhs := rhs2, psub := ub2, pslb := lb2
    m := transposedMatrix lpex dvarmap ndvarmap psnrows psncols a.m }

/-- A counting loop `for( i = a; i < b; i++ )`. -/
def forRange {σ : Type} (a b : Nat) (body : Nat → σ → σ) (s : σ) : σ :=
  forLoop (fun k t => body (a + k) t) (b - a) s

/-- Lines 888-940 of `setupPsArb`: row `i` of the first `ndvarmap` rows, the row of the dual
variable `dvarmap i` followed by `-1` on the column `ncols + i`. -/
def arbFirstRow (lpex : SCIP_LPEX) (dvarmap : Nat → Nat) (i : Nat) (s : MatrixBuild) :
    MatrixBuild :=
  if dvarmap i < 2 * lpex.nrows then
    let indx := if dvarmap i ≥ lpex.nrows then dvarmap i - lpex.nrows else dvarmap i
    let m1 : SparseMatrix :=
      { s.m with len := Function.update s.m.len i ((lpex.rows indx).len + 1)
                 beg := Function.update s.m.beg i s.pos }
    let m2 := forLoop (fun j (m : SparseMatrix) =>
        { m with
          ind := Function.update m.ind (m.beg i + j) ((lpex.rows indx).cols_index j)
          val := Function.update m.val (m.beg i + j)
            (if dvarmap i < lpex.nrows then (lpex.rows indx).vals j
             else -(lpex.rows indx).vals j) }) (m1.len i - 1) m1
    { pos := s.pos + (lpex.rows indx).len + 1
      m := { m2 with
        ind := Function.update m2.ind (m2.beg i + m2.len i - 1) (lpex.ncols + i)
        val := Function.update m2.val (m2.beg i + m2.len i - 1) (-1) } }
  else if dvarmap i < 2 * lpex.nrows + lpex.ncols then
    { pos := s.pos + 2
      m := { beg := Function.update s.m.beg i s.pos
             len := Function.update s.m.len i 2
             ind := Function.update
               (Function.update s.m.ind s.pos (dvarmap i - 2 * lpex.nrows))
               (s.pos + 1) (lpex.ncols + i)
             val := Function.update (Function.update s.m.val s.pos 1) (s.pos + 1) (-1) } }
  else
    { pos := s.pos + 2
      m := { beg := Function.update s.m.beg i s.pos
             len := Function.update s.m.len i 2
             ind := Function.update
               (Function.update s.m.ind s.pos (dvarmap i - (2 * lpex.nrows + lpex.ncols)))
               (s.pos + 1) (lpex.ncols + i)
             val := Function.update (Function.update s.m.val s.pos (-1)) (s.pos + 1) (-1) } }

/-- Lines 885-941 of `setupPsArb`: the first `ndvarmap` rows. -/
def arbFirstRows (lpex : SCIP_LPEX) (dvarmap : Nat → Nat) (ndvarmap : Nat) (m : SparseMatrix) :
    MatrixBuild :=
  forLoop (arbFirstRow lpex dvarmap) ndvarmap { pos := 0, m := m }

/-- Lines 943-953 of `setupPsArb`: the next `ndvarmap` rows, `+1` on the columns `ncols + i` and
`ncols + ndvarmap + 1 + i`. -/
def arbSecondRows (ncols ndvarmap : Nat) (s1 : MatrixBuild) : MatrixBuild :=
  forLoop (fun i (s : MatrixBuild) =>
      { pos := s.pos + 2
        m := { beg := Function.update s.m.beg (ndvarmap + i) s.pos
               len := Function.update s.m.len (ndvarmap + i) 2
               ind := Function.update (Function.update s.m.ind s.pos (ncols + i))
                 (s.pos + 1) (ncols + ndvarmap + 1 + i)
               val := Function.update (Function.update s.m.val s.pos 1) (s.pos + 1) 1 } })
    ndvarmap s1

/-- Lines 958-970 of `setupPsArb`: the nonzeros of the objective are written, negated, to the
last row. -/
def arbObjectiveEntries (lpex : SCIP_LPEX) (s3 : MatrixBuild) : MatrixBuild :=
  forLoop (fun i (s : MatrixBuild) =>
      if !RisZero (lpex.cols i).obj then
        { pos := s.pos + 1
          m := { s.m with val := Function.update s.m.val s.pos (-(lpex.cols i).obj)
                          ind := Function.update s.m.ind s.pos i } }
      else s) lpex.ncols s3

/-- Lines 955-974 of `setupPsArb`: the last row, the negated objective followed by `-1` on the
column `ncols + ndvarmap`. The read of `psbeg[2 * nextendedrows]` into `j` (line 962) has no
effect. -/
def arbLastRow (lpex : SCIP_LPEX) (ndvarmap psnrows nobjnz : Nat) (s2 : MatrixBuild) :
    SparseMatrix :=
  let s3 : MatrixBuild :=
    { s2 with m := { s2.m with beg := Function.update s2.m.beg (psnrows - 1) s2.pos
                               len := Function.update s2.m.len (psnrows - 1) (nobjnz + 1) } }
  let s4 := arbObjectiveEntries lpex s3
  { s4.m with val := Function.update s4.m.val s4.pos (-1)
              ind := Function.update s4.m.ind s4.pos (lpex.ncols + ndvarmap) }

/-- The function `setupPsArb` (lines 808-979): the auxiliary problem of the arbitrary interior
point, in the dual form whose row multipliers give the point. -/
def setupPsArb (lpex : SCIP_LPEX) (dvarmap : Nat → Nat)
    (ndvarmap psnrows psncols nobjnz : Nat) (a : PsArrays) : PsArrays :=
  let ncols := lpex.ncols
  let obj1 := forLoop (fun i o => Function.update o i (SCIP_Rational.fin 0)) (ncols + ndvarmap)
    a.psobj
  let obj2 := Function.update obj1 (ncols + ndvarmap) (SCIP_Rational.fin (-1))
  let obj3 := forRange (ncols + ndvarmap + 1) psncols
    (fun i o => Function.update o i (SCIP_Rational.fin 1)) obj2
  let ub1 := forLoop (fun i u => Function.update u i SCIP_Rational.inf) psncols a.psub
  let lb1 := forLoop (fun i l =>
      if i < ncols then Function.update l i SCIP_Rational.neginf
      else Function.update l i (SCIP_Rational.fin 0)) psncols a.pslb
  let lhs1 := forLoop (fun i l =>
      if i < ndvarmap then Function.update l i (SCIP_Rational.fin 0)
      else if i = psnrows - 1 then Function.update l i (SCIP_Rational.fin 0)
      else Function.update l i (SCIP_Rational.fin 1)) psnrows a.pslhs
  let rhs1 := forLoop (fun i r =>
      if i < ndvarmap then Function.update r i (SCIP_Rational.fin 0)
      else Function.update r i SCIP_Rational.inf) psnrows a.psrhs
  { psobj := obj3, pslb := lb1, psub := ub1, pslhs := lhs1, psrhs := rhs1
    m := arbLastRow lpex ndvarmap psnrows nobjnz
      (arbSecondRows ncols ndvarmap (arbFirstRows lpex dvarmap ndvarmap a.m)) }

/-- The function `setupPsArbDual` (lines 981-1162): the auxiliary problem of the arbitrary
interior point in transposed form. -/
def setupPsArbDual (lpex : SCIP_LPEX) (dvarmap : Nat → Nat)
    (ndvarmap psnrows psncols : Nat) (a : PsArrays) : PsArrays :=
  let psdata := lpex.psdata
  let ncols := lpex.ncols
  let obj1 := forLoop (fun i o => Function.update o i (SCIP_Rational.fin 0)) (ndvarmap + 1)
    a.psobj
  let obj2 := forRange (ndvarmap + 1) psncols
    (fun i o => Function.update o i (SCIP_Rational.fin (-1))) obj1
  let ub1 := forLoop (fun i u => Function.update u i SCIP_Rational.inf) ndvarmap a.psub
  let lb1 := forLoop (fun i l => Function.update l i (SCIP_Rational.fin 0)) ndvarmap a.pslb
  let ub2 := Function.update ub1 ndvarmap SCIP_Rational.inf
  let lb2 := Function.update lb1 ndvarmap (SCIP_Rational.fin 1)
  let ub3 := forRange (ndvarmap + 1) psncols
    (fun i u => Function.update u i (SCIP_Rational.fin 1)) ub2
  let lb3 := forRange (ndvarmap + 1) psncols
    (fun i l => Function.update l i (SCIP_Rational.fin 0)) lb2
  let lhs1 := forLoop (fun i l => Function.update l i (SCIP_Rational.fin 0)) ncols a.pslhs
  let rhs1 := forLoop (fun i r => Function.update r i (SCIP_Rational.fin 0)) ncols a.psrhs
  let lhs2 := forLoop (fun i l => Function.update l (ncols + i) (SCIP_Rational.fin 0))
    psdata.npsbasis lhs1
  let rhs2 := forLoop (fun i r => Function.update r (ncols + i) SCIP_Rational.inf)
    psdata.npsbasis rhs1
  let len0 := forLoop (fun i l => Function.update l i 0) psnrows a.m.len
  let len1 := countEntries lpex dvarmap ndvarmap len0
  let len2 := forLoop (fun i l => Function.update l (ncols + i) 2) psdata.npsbasis len1
  let len3 := forLoop (fun i l => Function.update l i (l i + 1)) ncols len2
  let beg := (begArray psnrows len3 a.m.beg).1
  let len4 := forLoop (fun i l => Function.update l i 0) ncols len3
  let m1 := scanEntries lpex dvarmap ndvarmap { a.m with beg := beg, len := len4 }
  let m2 := forLoop (fun i (m : SparseMatrix) =>
      { m with val := Function.update m.val (m.beg i + m.len i) (-(lpex.cols i).obj)
               ind := Function.update m.ind (m.beg i + m.len i) ndvarmap
               len := Function.update m.len i (m.len i + 1) }) ncols m1
  { psobj := obj2, pslb := lb3, psub := ub3, pslhs := lhs2, psrhs := rhs2
    m := (lastRows psdata.includedrows dvarmap ndvarmap ncols
      (fun pos => psncols - psnrows + pos) m2).m }

/-- The state of the loop of lines 1656-1666 (1746-1756): the interior point, the flag
`pshaspoint`, and whether the loop was left (`i = ndvarmap`). -/
structure PointScan where
  interiorpt : Nat → ℚ
  pshaspoint : Bool
  left : Bool

/-- Lines 1655-1666 (and 1745-1756) of `psComputeSintPointRay`: the interior point is `y/lambda`,
unless an included dual variable is zero. -/
def scaledPoint (includedrows : Nat → Bool) (dvarmap : Nat → Nat) (ndvarmap : Nat)
    (sol : Nat → ℚ) (lambda : ℚ) (interiorpt : Nat → ℚ) : PointScan :=
  forLoop (fun i (s : PointScan) =>
      if s.left then s
      else if includedrows (dvarmap i) && RisZero (sol i) then
        { s with pshaspoint := false, left := true }
      else { s with interiorpt := Function.update s.interiorpt (dvarmap i) (sol i / lambda) })
    ndvarmap { interiorpt := interiorpt, pshaspoint := true, left := false }

/-- Lines 1462-1471 of `psComputeSintPointRay`: the array `dvarmap` and its length `ndvarmap`. -/
def dvarmapOf (col : Collaborators) (lpex : SCIP_LPEX) : (Nat → Nat) × Nat :=
  collectIndices lpex.psdata.nextendedrows (fun i => decide (dvarincidence lpex i ≠ 0))
    col.bufferContent

/-- Lines 1491-1524 of `psComputeSintPointRay`: the auxiliary LP of the optimized selection (also
used for every interior ray). -/
def auxProblemOpt (col : Collaborators) (lp : SCIP_LP) (lpex : SCIP_LPEX)
    (findintpoint : Bool) : AuxLP :=
  mkAuxLP true ((dvarmapOf col lpex).2 + 1) (lpex.ncols + lpex.psdata.npsbasis)
    (computePsNnonz lpex (dvarincidence lpex) + 2 * lpex.psdata.npsbasis)
    (setupPsOpt col lp lpex (dvarincidence lpex) (dvarmapOf col lpex).1 (dvarmapOf col lpex).2
      (lpex.ncols + lpex.psdata.npsbasis) ((dvarmapOf col lpex).2 + 1) findintpoint
      (allocIntMem col))

/-- Lines 1599-1608 of `psComputeSintPointRay`: the number of nonzeros of the objective. -/
def countObjNonz (lpex : SCIP_LPEX) : Nat :=
  forLoop (fun i n => if !RisZero (lpex.cols i).obj then n + 1 else n) lpex.ncols 0

/-- Lines 1597-1631 of `psComputeSintPointRay`: the auxiliary LP of the arbitrary interior
point. -/
def auxProblemArb (col : Collaborators) (lpex : SCIP_LPEX) : AuxLP :=
  mkAuxLP false (lpex.ncols + 2 * (dvarmapOf col lpex).2 + 1) (2 * (dvarmapOf col lpex).2 + 1)
    (computePsNnonz lpex (dvarincidence lpex)
      + (countObjNonz lpex + 1 + 3 * (dvarmapOf col lpex).2))
    (setupPsArb lpex (dvarmapOf col lpex).1 (dvarmapOf col lpex).2
      (2 * (dvarmapOf col lpex).2 + 1) (lpex.ncols + 2 * (dvarmapOf col lpex).2 + 1)
      (countObjNonz lpex) (allocIntMem col))

/-- Lines 1699-1721 of `psComputeSintPointRay`: the auxiliary LP of the arbitrary interior point
in transposed form. -/
def auxProblemArbDual (col : Collaborators) (lpex : SCIP_LPEX) : AuxLP :=
  mkAuxLP false ((dvarmapOf col lpex).2 + 1 + lpex.psdata.npsbasis)
    (lpex.ncols + lpex.psdata.npsbasis)
    (computePsNnonz lpex (dvarincidence lpex) + (2 * lpex.psdata.npsbasis + lpex.ncols))
    (setupPsArbDual lpex (dvarmapOf col lpex).1 (dvarmapOf col lpex).2
      (lpex.ncols + lpex.psdata.npsbasis) ((dvarmapOf col lpex).2 + 1 + lpex.psdata.npsbasis)
      (allocIntMem col))

/-- Lines 1803-1833 of `psComputeSintPointRay`: the first-stage LP of the two-stage
selection. -/
def auxProblemTwoStage (col : Collaborators) (lpex : SCIP_LPEX) : AuxLP :=
  mkAuxLP true ((dvarmapOf col lpex).2 + 1) (lpex.ncols + lpex.psdata.npsbasis)
    (computePsNnonz lpex (dvarincidence lpex) + 2 * lpex.psdata.npsbasis)
    (setupPsTwoStage lpex (dvarmapOf col lpex).1 (dvarmapOf col lpex).2
      (lpex.ncols + lpex.psdata.npsbasis) ((dvarmapOf col lpex).2 + 1) (allocIntMem col))

/-- Lines 1842-1886 of `psComputeSintPointRay`: the second-stage LP of the two-stage selection:
the objective is reset to `[lhs, -rhs, lb, -ub]` (and `0` for the interiorness), and the
objective value `objval` of the first stage becomes the lower bound of the interiorness
(`SCIPlpiexChgBounds` with the lower bounds only, `SCIPlpiexChgObj`). -/
def auxProblemSecondStage (col : Collaborators) (lpex : SCIP_LPEX) (objval : ℚ) : AuxLP :=
  { auxProblemTwoStage col lpex with
    lb := Function.update (auxProblemTwoStage col lpex).lb (dvarmapOf col lpex).2
      (SCIP_Rational.fin objval)
    obj := Function.update
      (objectiveOfBounds lpex (dvarincidence lpex) (auxProblemTwoStage col lpex).obj)
      (dvarmapOf col lpex).2 (SCIP_Rational.fin 0) }

/-- Lines 1545-1552 (1911-1914) of `psComputeSintPointRay`: the solution is stored in the
interior point or ray. -/
def storeCertificate (dvarmap : Nat → Nat) (ndvarmap : Nat) (sol : Nat → ℚ)
    (interior : Nat → ℚ) : Nat → ℚ :=
  forLoop (fun i p => Function.update p (dvarmap i) (sol i)) ndvarmap interior

/-- The function `psComputeSintPointRay` (lines 1367-1977): computes the `S`-interior point
(`findintpoint`) or the `S`-interior ray from the solution of an auxiliary LP. The final
`Rcanonicalize` loop (lines 1930-1936) does not change a value. -/
def psComputeSintPointRay (col : Collaborators) (lp : SCIP_LP) (lpex : SCIP_LPEX)
    (findintpoint : Bool) : SCIP_LPEX :=
  let psdata := lpex.psdata
  let dvarmap := (dvarmapOf col lpex).1
  let ndvarmap := (dvarmapOf col lpex).2
  if psdata.psintpointselection = PS_INTPOINTSEL.OPT ∨ findintpoint = false then
    let r := col.auxSolveDual (auxProblemOpt col lp lpex findintpoint)
    if r.isOptimal then
      if RisZero (r.primsol (ndvarmap + 1 - 1)) then
        { lpex with psdata := { psdata with commonslack := r.primsol (ndvarmap + 1 - 1) } }
      else if findintpoint then
        { lpex with psdata := { psdata with
            commonslack := r.primsol (ndvarmap + 1 - 1)
            interiorpt := storeCertificate dvarmap ndvarmap r.primsol psdata.interiorpt
            pshaspoint := true } }
      else
        { lpex with psdata := { psdata with
            commonslack := r.primsol (ndvarmap + 1 - 1)
            interiorray := storeCertificate dvarmap ndvarmap r.primsol psdata.interiorray
            pshasray := true } }
    else lpex
  else if psdata.psintpointselection = PS_INTPOINTSEL.ARB then
    let r := col.auxSolveDual (auxProblemArb col lpex)
    if r.isOptimal then
      let lambda := r.dualsol (2 * ndvarmap + 1 - 1)
      let scan := scaledPoint psdata.includedrows dvarmap ndvarmap r.dualsol lambda
        psdata.interiorpt
      { lpex with psdata := { psdata with
          commonslack := if !RisZero lambda then lambda⁻¹ else 0
          interiorpt := scan.interiorpt
          pshaspoint := scan.pshaspoint } }
    else lpex
  else if psdata.psintpointselection = PS_INTPOINTSEL.ARBDUAL then
    let r := col.auxSolveDual (auxProblemArbDual col lpex)
    if r.isOptimal then
      let lambda := r.primsol ndvarmap
      let scan := scaledPoint psdata.includedrows dvarmap ndvarmap r.primsol lambda
        psdata.interiorpt
      { lpex with psdata := { psdata with
          commonslack := if !RisZero lambda then lambda⁻¹ else 0
          interiorpt := scan.interiorpt
          pshaspoint := scan.pshaspoint } }
    else { lpex with psdata := { psdata with psdatafail := true } }
  else
    let r1 := col.auxSolveDual (auxProblemTwoStage col lpex)
    let r2 := col.auxSolvePrimal (auxProblemSecondStage col lpex r1.objval)
    if r2.isOptimal then
      if RisZero (r2.primsol (ndvarmap + 1 - 1)) then
        { lpex with psdata := { psdata with commonslack := r2.primsol (ndvarmap + 1 - 1) } }
      else
        { lpex with psdata := { psdata with
            commonslack := r2.primsol (ndvarmap + 1 - 1)
            interiorpt := storeCertificate dvarmap ndvarmap r2.primsol psdata.interiorpt
            pshaspoint := true } }
    else lpex

/-- Lines 2023-2034 of `constructPSData`: the data are marked as constructed, `commonslack` is
created, and the size of the extended dual space is recorded. -/
def beginConstruction (st : BoundingState) : BoundingState :=
  { st with lpex := { st.lpex with psdata := { st.lpex.psdata with
      psdatacon := true
      commonslack := RcreateTemp
      nextendedrows := 2 * st.lpex.nrows + 2 * st.lpex.ncols } } }

/-- Line 2048 of `constructPSData`: `RcreateArray` creates the array `interiorray`. -/
def createInteriorray (lpex : SCIP_LPEX) : SCIP_LPEX :=
  { lpex with psdata := { lpex.psdata with interiorray := fun _ => RcreateTemp } }

/-- Line 2054 of `constructPSData`: `RcreateArray` creates the array `interiorpt`. -/
def createInteriorpt (lpex : SCIP_LPEX) : SCIP_LPEX :=
  { lpex with psdata := { lpex.psdata with interiorpt := fun _ => RcreateTemp } }

/-- Lines 2042-2057 of `constructPSData`: if the factorization did not fail, the interior ray is
computed, and then the interior point if it is wanted or the ray was not built. -/
def computeCertificates (col : Collaborators) (lp : SCIP_LP) (lpex : SCIP_LPEX) : SCIP_LPEX :=
  if !lpex.psdata.psdatafail then
    if (psComputeSintPointRay col lp (createInteriorray lpex) false).psdata.psuseintpoint
        || !(psComputeSintPointRay col lp (createInteriorray lpex) false).psdata.pshasray then
      psComputeSintPointRay col lp
        (createInteriorpt (psComputeSintPointRay col lp (createInteriorray lpex) false)) true
    else psComputeSintPointRay col lp (createInteriorray lpex) false
  else lpex

/-- Lines 2059-2063 of `constructPSData`: if the construction of both point and ray has failed,
the data are marked as failed. -/
def markFailure (lpex : SCIP_LPEX) : SCIP_LPEX :=
  if !lpex.psdata.pshaspoint && !lpex.psdata.pshasray then
    { lpex with psdata := { lpex.psdata with psdatafail := true } }
  else lpex

/-- The function `constructPSData` (lines 1979-2074): constructs the data of the
project-and-shift method, once. The exact LP is taken after the flush of lines 2029-2030; fresh
rationals stand in the arrays that `RcreateArray` creates; the scratch arrays created at lines
2065-2068 are not part of the state. -/
def constructPSData (col : Collaborators) (ext : External) (st : BoundingState) :
    BoundingState :=
  if st.lpex.psdata.psdatacon then st
  else
    let st2 := psChooseS col ext (beginConstruction st)
    { st2 with lpex := markFailure (computeCertificates col st2.lp (psFactorizeD col st2.lpex)) }

/-! ## The selection of the bounding method -/

/-- The settings `misc_exactsolve` and `misc_dbmethod` of `SCIP_SET`. -/
structure SCIP_SET where
  misc_exactsolve : Bool
  misc_dbmethod : Char

/-- The call of `boundShift` on the state: the interval computation is done by the interval
arithmetic library. -/
def callBoundShift (col : Collaborators) (ext : External) (st : BoundingState)
    (usefarkas : Bool) : BoundingState :=
  let r := boundShift ext (col.SCIPintervalGetInf st.lp st.lpex usefarkas) st.lp st.stat usefarkas
  { st with lp := r.1, stat := r.2.1, safebound := r.2.2 }

/-- The call of `getPSdual` on the state; `none` where `getPSdual` has no defined result. -/
def callGetPSdual (ext : External) (st : BoundingState) (usefarkas : Bool) :
    Option BoundingState :=
  (getPSdual ext st.lp st.lpex st.stat usefarkas).map
    (fun r => { st with lp := r.1, lpex := r.2.1, stat := r.2.2 })

/-- Lines 3321-3324 of `chooseBoundingMethod`: is the exact LP to be interleaved? -/
def interleaveExactLp (col : Collaborators) (ext : External) (st : BoundingState) : Bool :=
  (decide (st.lpex.interleavedbfreq > 0) && ext.SCIPsetIsInfinity st.lp.cutoffbound
      && decide (col.SCIPgetDepth > 0)
      && decide ((col.SCIPgetDepth : Int) % st.lpex.interleavedbfreq = 0))
    || (decide (st.lpex.interleavedbfreq = 0)
      && col.SCIPsetIsGE (col.SCIPlpGetObjval st.lp) st.lp.cutoffbound
      && decide (col.SCIPlpGetObjval st.lp < st.lp.cutoffbound))

/-- Lines 3298-3312 (and 3331-3345) of `chooseBoundingMethod`: bound shifting if possible, else
project-and-shift if possible and its data did not fail, else the exact LP. -/
def chooseByPossibility (col : Collaborators) (ext : External) (st : BoundingState) :
    Char × BoundingState :=
  if col.SCIPlpexBSpossible st.lpex then ('n', st)
  else if col.SCIPlpexPSpossible st.lpex then
    let st1 := constructPSData col ext st
    if !st1.lpex.psdata.psdatafail then ('p', st1) else ('e', st1)
  else ('e', st)

/-- The function `chooseBoundingMethod` (lines 3274-3349): the method and the state, which
`constructPSData` may have changed. -/
def chooseBoundingMethod (col : Collaborators) (ext : External) (st : BoundingState)
    (dualfarkas : Bool) : Char × BoundingState :=
  if dualfarkas then chooseByPossibility col ext st
  else if interleaveExactLp col ext st then ('e', st)
  else chooseByPossibility col ext st

/-- Lines 3694-3699 of `SCIPcomputeSafeBound`: the bounding method, chosen by
`chooseBoundingMethod` in automatic mode and taken from the settings otherwise. -/
def selectMethod (col : Collaborators) (ext : External) (scipset : SCIP_SET)
    (st : BoundingState) (dualfarkas : Bool) : Char × BoundingState :=
  if scipset.misc_dbmethod = 'a' then chooseBoundingMethod col ext st dualfarkas
  else (scipset.misc_dbmethod, st)

/-- Lines 3701-3734 of `SCIPcomputeSafeBound`: the selected method is run; `none` where the code
aborts (`SCIPABORT` for a method that is not implemented) and where `getPSdual` has no defined
result. -/
def runMethod (col : Collaborators) (ext : External) (sel : Char × BoundingState)
    (dualfarkas : Bool) : Option BoundingState :=
  if sel.1 = 'n' then some (callBoundShift col ext sel.2 dualfarkas)
  else if sel.1 = 'v' then none
  else if sel.1 = 'r' then none
  else if sel.1 = 'p' then callGetPSdual ext (constructPSData col ext sel.2) dualfarkas
  else if sel.1 = 'e' then some (solveLpExact col ext sel.2 dualfarkas)
  else none

/-- The function `SCIPcomputeSafeBound` (lines 3670-3744): one bounding method is selected and
run, and the exact LP solver is called if no bound is proved afterwards. The result is the state
on return; it is `none` where `runMethod` is. -/
def SCIPcomputeSafeBound (col : Collaborators) (ext : External) (scipset : SCIP_SET)
    (st : BoundingState) (dualfarkas : Bool) : Option BoundingState :=
  if !scipset.misc_exactsolve || st.lp.hasprovedbound then some st
  else
    (runMethod col ext (selectMethod col ext scipset st dualfarkas) dualfarkas).bind
      (fun st1 =>
        if !st1.lp.hasprovedbound then some (solveLpExact col ext st1 dualfarkas) else some st1)

/-! ## Concrete collaborators and states -/

/-- Collaborators for the examples: bound shifting possible (`bs`), project-and-shift possible
(`ps`), interval computation yielding `intervalInf`, exact LP solver reporting `res`, auxiliary LP
solver `aux`, factorization returning `rval`; tolerance tests are exact comparisons. -/
def mkCollaborators (bs ps : Bool) (intervalInf : ℚ) (res : LpiexResult)
    (aux : AuxLP → AuxLPResult) (rval : Int) : Collaborators :=
  { SCIPlpiexSolveDual := fun _ _ => res
    auxSolveDual := aux
    auxSolvePrimal := aux
    RECTLUbuildFactorization := fun _ _ _ _ => (rval, 0)
    SCIPsetIsFeasEQ := fun a b => decide (a = b)
    SCIPsetIsGE := fun a b => decide (b ≤ a)
    Rmult := fun a q =>
      match a with
      | .fin x => SCIP_Rational.fin (x * q)
      | .inf => SCIP_Rational.inf
      | .neginf => SCIP_Rational.neginf
    roundPow2 := fun q => q
    SCIPlpGetObjval := fun lp => lp.lpobjval
    SCIPgetDepth := 0
    SCIPlpexBSpossible := fun _ => bs
    SCIPlpexPSpossible := fun _ => ps
    SCIPintervalGetInf := fun _ _ _ => intervalInf
    bufferContent := fun _ => 0 }

/-- An exact LP solve that ends without a result (none of the three status tests holds). -/
def failedSolve : LpiexResult :=
  { lperror := false, niterations := 7, isOptimal := false, isPrimalUnbounded := false
    isPrimalInfeasible := false, objval := 0, farkasValid := false
    primsol := fun _ => SCIP_Rational.fin 0, activity := fun _ => SCIP_Rational.fin 0 }

/-- An exact LP solve that ends optimal with objective value `v` at the solution `x`
(activity `act` in every row). -/
def optimalSolve (v x act : ℚ) : LpiexResult :=
  { lperror := false, niterations := 3, isOptimal := true, isPrimalUnbounded := false
    isPrimalInfeasible := false, objval := v, farkasValid := false
    primsol := fun _ => SCIP_Rational.fin x, activity := fun _ => SCIP_Rational.fin act }

/-- An auxiliary LP solver that never ends optimal. -/
def auxFails : AuxLP → AuxLPResult := fun _ =>
  { isOptimal := false, objval := 0, primsol := fun _ => 0, dualsol := fun _ => 0 }

/-- The relaxation `sumLpex` before its project-and-shift data is constructed. -/
def sumLpexFresh : SCIP_LPEX :=
  { sumLpex with psdata := { sumLpex.psdata with
      psdatacon := false, pshaspoint := false, pshasray := false, psdatafail := false } }

/-- The state of a bound computation on the relaxation `lpex` with floating-point LP `lp`. -/
def mkState (lp : SCIP_LP) (lpex : SCIP_LPEX) : BoundingState :=
  { lp := lp, lpex := lpex, stat := zeroStat, lperror := false, safebound := 0 }

/-- Collaborators of a run in which bound shifting and project-and-shift are both possible, the
interval computation yields `-1e+20` (no bound), and the exact LP solver ends optimal with the
value `-10`. -/
def shiftFailsCollaborators : Collaborators :=
  mkCollaborators true true (-(10 ^ 20)) (optimalSolve (-10) 5 10) auxFails 0

/-- Collaborators of a run in which neither certifying method is possible and the exact LP solver
ends without a result. -/
def exactFailsCollaborators : Collaborators :=
  mkCollaborators false false 0 failedSolve auxFails 0

/-- Exact solving mode with the automatic choice of the bounding method. -/
def automaticSet : SCIP_SET := { misc_exactsolve := true, misc_dbmethod := 'a' }

/-- An auxiliary LP solver under which the ray LP (a maximization) ends optimal with every value
`1`, and the LP of the arbitrary point in transposed form (a minimization) does not end
optimal. -/
def rayOnlySolver : AuxLP → AuxLPResult := fun l =>
  { isOptimal := l.maximize, objval := 0, primsol := fun _ => 1, dualsol := fun _ => 0 }

/-- Collaborators of a construction in which the factorization succeeds, the ray is built and
the point LP fails. -/
def rayOnlyCollaborators : Collaborators :=
  mkCollaborators false true 0 failedSolve rayOnlySolver 0

/-- The relaxation `sumLpex` before construction, with the arbitrary point in transposed form as
formulation and the interior point as preference. -/
def sumLpexArbDual : SCIP_LPEX :=
  { sumLpexFresh with psdata := { sumLpexFresh.psdata with
      psintpointselection := PS_INTPOINTSEL.ARBDUAL, psuseintpoint := true } }

/-- Collaborators of a construction in which the factorization fails. -/
def factorFailsCollaborators : Collaborators :=
  mkCollaborators false true 0 failedSolve auxFails 1

/-- Every bound lies on its own side: no left-hand side or lower bound is `+∞`, no right-hand
side or upper bound is `-∞` (the convention `lhs ∈ [-∞, ∞)`, `rhs ∈ (-∞, ∞]` of the
relaxation). -/
def properSides (lpex : SCIP_LPEX) : Prop :=
  (∀ i, i < lpex.nrows →
    RisInfinity (lpex.rows i).lhs = false ∧ RisNegInfinity (lpex.rows i).rhs = false)
  ∧ (∀ j, j < lpex.ncols →
    RisInfinity (lpex.cols j).lb = false ∧ RisNegInfinity (lpex.cols j).ub = false)

/-- Relaxation `min 0` subject to `-5 ≤ x ≤ 5`, `-10 ≤ x ≤ 10`, before construction, with the
policy that selects the constraints active at the exact root solution. -/
def activeLpex : SCIP_LPEX :=
  { rows := fun _ =>
      { lhs := .fin (-5), rhs := .fin 5, len := 1, cols_index := fun _ => 0, vals := fun _ => 1 }
    cols := fun _ => { obj := 0, lb := .fin (-10), ub := .fin 10 }
    nrows := 1
    ncols := 1
    lpobjval := .fin 0
    psdata :=
      { interiorpt := fun _ => 0
        interiorray := fun _ => 0
        includedrows := fun _ => false
        psbasis := fun _ => 0
        npsbasis := 0
        nextendedrows := 4
        psdatacon := false
        psdatafail := false
        pshaspoint := false
        pshasray := false
        psuseintpoint := true
        psdualcolselection := PS_DUALCOSTSEL.ACTIVE_EXLP } }

/-- Floating-point LP for `activeLpex` (solved to optimality, all values zero). -/
def activeLp : SCIP_LP :=
  { rows := fun _ => { dualsol := 0, dualfarkas := 0 }
    cols := fun _ => { redcost := 0, farkascoef := 0 }
    hasprovedbound := false
    lpobjval := 0
    lpsolstat := SCIP_LPSOLSTAT.OPTIMAL }

/-- Collaborators whose exact LP solver returns the optimal root solution `x = 0` (value `0`,
activity `0`). -/
def rootZeroCollaborators : Collaborators :=
  mkCollaborators false true 0 (optimalSolve 0 0 0) auxFails 0

/-! ## Feasibility for an auxiliary LP -/

/-- The position behind the last entry of row `r` of an auxiliary LP: where row `r + 1` begins,
or `nnonz` for the last row. -/
def auxRowEnd (l : AuxLP) (r : Nat) : Nat := if r + 1 < l.nrows then l.beg (r + 1) else l.nnonz

/-- The activity of row `r` of an auxiliary LP at the point `x`. -/
def auxActivity (l : AuxLP) (x : Nat → ℚ) (r : Nat) : ℚ :=
  ∑ k ∈ Finset.Ico (l.beg r) (auxRowEnd l r), l.val k * x (l.ind k)

/-- The point `x` is feasible for the auxiliary LP: it respects the column bounds and the row
sides. -/
def auxFeasible (l : AuxLP) (x : Nat → ℚ) : Prop :=
  (∀ j, j < l.ncols → boundLe (l.lb j) (x j) ∧ leBound (x j) (l.ub j))
  ∧ (∀ r, r < l.nrows →
      boundLe (l.lhs r) (auxActivity l x r) ∧ leBound (auxActivity l x r) (l.rhs r))

/-- The objective value of the point `x` in an auxiliary LP. -/
def auxObjective (l : AuxLP) (x : Nat → ℚ) : ℚ :=
  ∑ j ∈ Finset.range l.ncols, finVal (l.obj j) * x j

/-- The entry `(A^T y)_j` of the row multipliers `y` of an auxiliary LP at column `j`. -/
def auxColumnDual (l : AuxLP) (y : Nat → ℚ) (j : Nat) : ℚ :=
  ∑ r ∈ Finset.range l.nrows,
    ∑ k ∈ Finset.Ico (l.beg r) (auxRowEnd l r), if l.ind k = j then y r * l.val k else 0

/-- The row multipliers `y` are dual feasible for an auxiliary LP that is minimized: a
multiplier is nonnegative where the row has no right-hand side and nonpositive where it has no
left-hand side, and the reduced cost `c_j - (A^T y)_j` is nonnegative where the column has no
upper bound and nonpositive where it has no lower bound. -/
def auxDualFeasible (l : AuxLP) (y : Nat → ℚ) : Prop :=
  (∀ r, r < l.nrows →
    (RisInfinity (l.rhs r) = true → 0 ≤ y r) ∧ (RisNegInfinity (l.lhs r) = true → y r ≤ 0))
  ∧ (∀ j, j < l.ncols →
    (RisInfinity (l.ub j) = true → 0 ≤ finVal (l.obj j) - auxColumnDual l y j)
    ∧ (RisNegInfinity (l.lb j) = true → finVal (l.obj j) - auxColumnDual l y j ≤ 0))

/-- The state in which `constructPSData` calls `psComputeSintPointRay`: the size of the extended
dual space is that of the relaxation, `npsbasis` counts the included coordinates, every included
coordinate has a bound that is not the infinity of its own side (the assertion
`pos == psnrows` of lines 772, 1159 and 1332), and the rows refer to existing columns. -/
def readyForCertificate (lpex : SCIP_LPEX) : Prop :=
  lpex.psdata.nextendedrows = 2 * lpex.nrows + 2 * lpex.ncols
  ∧ lpex.psdata.npsbasis
      = ((Finset.range lpex.psdata.nextendedrows).filter
          (fun e => lpex.psdata.includedrows e = true)).card
  ∧ (∀ e, e < lpex.psdata.nextendedrows → lpex.psdata.includedrows e = true →
      dvarincidence lpex e ≠ 0)
  ∧ indicesInRange lpex

/-- The auxiliary LP solver returns what the certificate is built from: for each formulation, if
the LP ends optimal the solution read by `psComputeSintPointRay` is feasible for the LP as
assembled (dual feasible where the row multipliers are read, in the arbitrary formulation); the
first stage of the two-stage formulation, whose status the code does not test, reports the
objective value of a feasible solution. -/
def auxSolverSound (col : Collaborators) (lp : SCIP_LP) (lpex : SCIP_LPEX)
    (findintpoint : Bool) : Prop :=
  if lpex.psdata.psintpointselection = PS_INTPOINTSEL.OPT ∨ findintpoint = false then
    (col.auxSolveDual (auxProblemOpt col lp lpex findintpoint)).isOptimal = true →
      auxFeasible (auxProblemOpt col lp lpex findintpoint)
        (col.auxSolveDual (auxProblemOpt col lp lpex findintpoint)).primsol
  else if lpex.psdata.psintpointselection = PS_INTPOINTSEL.ARB then
    (col.auxSolveDual (auxProblemArb col lpex)).isOptimal = true →
      auxDualFeasible (auxProblemArb col lpex) (col.auxSolveDual (auxProblemArb col lpex)).dualsol
  else if lpex.psdata.psintpointselection = PS_INTPOINTSEL.ARBDUAL then
    (col.auxSolveDual (auxProblemArbDual col lpex)).isOptimal = true →
      auxFeasible (auxProblemArbDual col lpex)
        (col.auxSolveDual (auxProblemArbDual col lpex)).primsol
  else
    (auxFeasible (auxProblemTwoStage col lpex)
        (col.auxSolveDual (auxProblemTwoStage col lpex)).primsol
      ∧ (col.auxSolveDual (auxProblemTwoStage col lpex)).objval
          = auxObjective (auxProblemTwoStage col lpex)
              (col.auxSolveDual (auxProblemTwoStage col lpex)).primsol)
    ∧ ((col.auxSolvePrimal (auxProblemSecondStage col lpex
          (col.auxSolveDual (auxProblemTwoStage col lpex)).objval)).isOptimal = true →
        auxFeasible (auxProblemSecondStage col lpex
            (col.auxSolveDual (auxProblemTwoStage col lpex)).objval)
          (col.auxSolvePrimal (auxProblemSecondStage col lpex
            (col.auxSolveDual (auxProblemTwoStage col lpex)).objval)).primsol)

/-- The flag of the certificate that a call of `psComputeSintPointRay` computes. -/
def builtFlag (lpex : SCIP_LPEX) (findintpoint : Bool) : Bool :=
  if findintpoint then lpex.psdata.pshaspoint else lpex.psdata.pshasray

/-- The certificate that a call of `psComputeSintPointRay` computes. -/
def builtCertificate (lpex : SCIP_LPEX) (findintpoint : Bool) : Nat → ℚ :=
  if findintpoint then lpex.psdata.interiorpt else lpex.psdata.interiorray

/-- The number of entries that the extended coordinate `e` contributes to the auxiliary problem:
the length of its row, or `1` for a column bound. -/
def coordWeight (lpex : SCIP_LPEX) (e : Nat) : Nat :=
  if e < 2 * lpex.nrows then
    (lpex.rows (if e ≥ lpex.nrows then e - lpex.nrows else e)).len
  else 1

/-- The number of entries that the extended coordinate `e` has in column `c` of the original
problem. -/
def coordCount (lpex : SCIP_LPEX) (e c : Nat) : Nat :=
  if e < 2 * lpex.nrows then
    ∑ j ∈ Finset.range (lpex.rows (if e ≥ lpex.nrows then e - lpex.nrows else e)).len,
      if (lpex.rows (if e ≥ lpex.nrows then e - lpex.nrows else e)).cols_index j = c then 1
      else 0
  else if (if e < 2 * lpex.nrows + lpex.ncols then e - 2 * lpex.nrows
      else e - (2 * lpex.nrows + lpex.ncols)) = c then 1
  else 0


/-- The position at which row `n` of the first rows of `setupPsArb` begins: each earlier row `i`
holds the entries of the dual variable `dvarmap i` and one more. -/
def arbRowBegin (lpex : SCIP_LPEX) (dvarmap : Nat → Nat) (n : Nat) : Nat :=
  ∑ i ∈ Finset.range n, (coordWeight lpex (dvarmap i) + 1)

/-- Relaxation `min x` subject to `0 ≤ x` (no rows, no upper bound) when `psComputeSintPointRay`
is called for the interior point with the optimized selection: `S` holds the lower bound of the
column. -/
def lowerBoundLpex : SCIP_LPEX :=
  { rows := fun _ =>
      { lhs := .neginf, rhs := .inf, len := 0, cols_index := fun _ => 0, vals := fun _ => 0 }
    cols := fun _ => { obj := 1, lb := .fin 0, ub := .inf }
    nrows := 0
    ncols := 1
    lpobjval := .fin 0
    psdata :=
      { interiorpt := fun _ => 0
        interiorray := fun _ => 0
        includedrows := fun e => decide (e = 0)
        psbasis := fun _ => 0
        npsbasis := 1
        nextendedrows := 2
        psdatacon := true
        psdatafail := false
        pshaspoint := false
        pshasray := false
        psuseintpoint := true } }

/-- An auxiliary LP solver that ends optimal with every value `1`. -/
def unitSolver : AuxLP → AuxLPResult := fun _ =>
  { isOptimal := true, objval := 1, primsol := fun _ => 1, dualsol := fun _ => 1 }

/-- Collaborators whose auxiliary LP solver is `unitSolver`. -/
def unitCollaborators : Collaborators :=
  mkCollaborators false true 0 failedSolve unitSolver 0
/-- The relaxation with the all-finite selection policy in place of its own. -/
def withAllFinitePolicy (lpex : SCIP_LPEX) : SCIP_LPEX :=
  { lpex with psdata := { lpex.psdata with psdualcolselection := PS_DUALCOSTSEL.NO } }

/-- The return codes `SCIP_RETCODE` that are told apart: `SCIP_OKAY`, `SCIP_LPERROR` and any other
error code. -/
inductive SCIP_RETCODE where
  | OKAY
  | LPERROR
  | ERROR
  deriving DecidableEq

/-- The return value of `psChooseS` (lines 248-368). Under the policy of the constraints active
at the exact root solution the code `getSolCode` of `SCIPlpiexGetSol` (line 316, under
`SCIP_CALL`) is passed on. The call of `solveLpExact` at line 310 is not under `SCIP_CALL`: its
return code `solveCode` is not looked at, and the flag `lperror` it sets is a local variable that
is not read. Every other path ends at `return SCIP_OKAY` (line 367). -/
def psChooseSReturn (st : BoundingState) (solveCode getSolCode : SCIP_RETCODE) : SCIP_RETCODE :=
  if st.lpex.psdata.psdualcolselection = PS_DUALCOSTSEL.NO
      ∨ st.lp.lpsolstat = SCIP_LPSOLSTAT.INFEASIBLE then SCIP_RETCODE.OKAY
  else if st.lpex.psdata.psdualcolselection = PS_DUALCOSTSEL.ACTIVE_EXLP then
    match solveCode with
    | _ => getSolCode
  else SCIP_RETCODE.OKAY

/-- An exact LP solve that ends with `SCIP_LPERROR` and no solution status; the interface then
reports the row activity `5` and the primal value `0`. -/
def errorSolve : LpiexResult :=
  { lperror := true, niterations := 0, isOptimal := false, isPrimalUnbounded := false
    isPrimalInfeasible := false, objval := 0, farkasValid := false
    primsol := fun _ => SCIP_Rational.fin 0, activity := fun _ => SCIP_Rational.fin 5 }

/-- Collaborators whose exact LP solver ends with an LP error. -/
def lperrorCollaborators : Collaborators :=
  mkCollaborators false true 0 errorSolve auxFails 0

/-- Lines 1930-1936 of `psComputeSintPointRay`: `Rcanonicalize` is applied to the entries
`i < ndvarmap` of a certificate whose flag is set. The rational value of an entry is not changed
by it; the result marks the entries it is applied to. -/
def canonicalizedEntries (ndvarmap : Nat) : Nat → Bool :=
  forLoop (fun i t => Function.update t i true) ndvarmap (fun _ => false)

/-- Lines 1545-1552 (and 1911-1914) of `psComputeSintPointRay`: the entries `dvarmap[i]`,
`i < ndvarmap`, of the certificate are written; the result marks the entries written. -/
def storedEntries (dvarmap : Nat → Nat) (ndvarmap : Nat) : Nat → Bool :=
  forLoop (fun i t => Function.update t (dvarmap i) true) ndvarmap (fun _ => false)

/-- The dual vector `(-1, 0, 0)` of `sumLpex`: multiplier `-1` on the row, `0` on both columns. -/
def sumFinal : Nat → ℚ := fun i => if i = 0 then -1 else 0

/-- The external collaborators with a conversion that rounds downwards to the next integer (a
coarse floating-point grid); infinity value `1e+20`; the triangular solve is given. -/
def roundingExternal (solve : (Nat → ℚ) → Option (Nat → ℚ)) : External :=
  { RECTLUsolveSystem := fun _ _ v => solve v
    RgetRealRelax := fun q => ((⌊q⌋ : Int) : ℚ)
    infinity := 10 ^ 20
    SCIPsetIsInfinity := fun q => decide ((10 : ℚ) ^ 20 ≤ q) }

/-! ## `scip_solex.c`: values of exact solutions -/

/-- The stages of SCIP, in the order of the flags of `SCIPcheckStage`. -/
inductive SCIP_STAGE where
  | INIT
  | PROBLEM
  | TRANSFORMING
  | TRANSFORMED
  | INITPRESOLVE
  | PRESOLVING
  | EXITPRESOLVE
  | PRESOLVED
  | INITSOLVE
  | SOLVING
  | SOLVED
  | EXITSOLVE
  | FREETRANS
  | FREE
  deriving DecidableEq

/-- Position of a stage among the flags of `SCIPcheckStage`. -/
def SCIP_STAGE.position : SCIP_STAGE → Nat
  | .INIT => 0
  | .PROBLEM => 1
  | .TRANSFORMING => 2
  | .TRANSFORMED => 3
  | .INITPRESOLVE => 4
  | .PRESOLVING => 5
  | .EXITPRESOLVE => 6
  | .PRESOLVED => 7
  | .INITSOLVE => 8
  | .SOLVING => 9
  | .SOLVED => 10
  | .EXITSOLVE => 11
  | .FREETRANS => 12
  | .FREE => 13

/-- The stage test `SCIPcheckStage` is not part of the sources and is a parameter of the
functions below (`true` is `SCIP_OKAY`). This instance is the test of a build with assertions:
the call is allowed exactly when the flag of the current stage is `TRUE`. -/
def stageCheck (stage : SCIP_STAGE) (flags : List Bool) : Bool := flags.getD stage.position false

/-- The stage test of an optimized build, where every call is allowed. -/
def stageUnchecked (_flags : List Bool) : Bool := true

/-- The assignment `Rset(res, src)`: the value of `res` afterwards. -/
def Rset (_res src : ℚ) : ℚ := src

/-- The function `SCIPgetSolExVal` of `scip_solex.c` (lines 170-184). `sol` is `none` for the
`NULL` pointer and otherwise carries the value `SCIPsolexGetVal` writes for `var`; `varSolEx` is
the value of `SCIPvarGetSolEx(var, SCIPtreeHasCurrentNodeLP(scip->tree))`, the current LP or
pseudo solution value; `res` is the value of the result rational at entry. The result is the
value of `res` on return, `none` when `SCIP_CALL_ABORT` aborts. -/
def SCIPgetSolExVal (checkStage : List Bool → Bool) (sol : Option ℚ) (varSolEx : ℚ) (res : ℚ) :
    Option ℚ :=
  if checkStage [false, true, true, true, true, true, true, true, true, true, true, true, true,
      false] = false then none
  else
    let res := match sol with
      | some v => Rset res v
      | none => res
    if checkStage [false, false, false, false, false, false, false, true, false, true, false,
        false, false, false] = false then none
    else some (Rset res varSolEx)

/-- The function `SCIPgetSolExTransObj` of `scip_solex.c` (lines 203-222). `sol` is `none` for the
`NULL` pointer and otherwise carries the value of `SCIPsolexGetObj`; `lpObjval` is the LP or
pseudo objective value written by `SCIPlpexGetObjval` or `SCIPlpexGetPseudoObjval`. -/
def SCIPgetSolExTransObj (checkStage : List Bool → Bool) (sol : Option ℚ) (lpObjval : ℚ)
    (res : ℚ) : Option ℚ :=
  if checkStage [false, false, true, true, true, true, true, true, true, true, true, true, true,
      false] = false then none
  else
    match sol with
    | some v => some (Rset res v)
    | none =>
      if checkStage [false, false, false, false, false, false, false, false, false, true, false,
          false, false, false] = false then none
      else some (Rset res lpObjval)

/-! ## `getPSdual`: the scratch arrays kept in the project-and-shift data -/

/-- The allocation state of the scratch arrays `psdata->approxdual`, `psdata->violation` and
`psdata->correction`: the number of entries of the block each pointer refers to, and the field
`psdata->approxdualsize`. -/
structure PsScratch where
  approxdualcap : Nat
  approxdualsize : Nat
  violationcap : Nat
  correctioncap : Nat

/-- The contents of the three scratch arrays at the entry of a call. -/
structure PsBuffers where
  approxdual : Nat → ℚ
  violation : Nat → ℚ
  correction : Nat → ℚ

/-- Lines 2065-2068 of `constructPSData`: the scratch arrays are created for the rows and
columns of the relaxation at construction. -/
def constructedScratch (lpex : SCIP_LPEX) : PsScratch :=
  { approxdualcap := lpex.ncols + lpex.nrows
    approxdualsize := lpex.ncols + lpex.nrows
    violationcap := lpex.ncols
    correctioncap := lpex.psdata.nextendedrows }

/-- The entries of a block of `cap` entries; positions outside the block hold no value and read
as zero. -/
def block (cap : Nat) (a : Nat → ℚ) : Nat → ℚ := fun i => if i < cap then a i else 0

/-- Lines 2771-2780 of `getPSdual`: the entries `i < nrows + ncols` of `approxdual`, `i < ncols`
of `violation` and `i < nextendedrows` of `correction` are set to zero. -/
def zeroScratch (nrows ncols nextendedrows : Nat) (approxdual violation correction : Nat → ℚ) :
    (Nat → ℚ) × (Nat → ℚ) × (Nat → ℚ) :=
  let s := forLoop (fun i (s : (Nat → ℚ) × (Nat → ℚ)) =>
      let a := Function.update s.1 i 0
      if i < ncols then (a, Function.update s.2 i 0) else (a, s.2))
    (nrows + ncols) (approxdual, violation)
  (s.1, s.2, forLoop (fun i c => Function.update c i 0) nextendedrows correction)

/-- Lines 2790-2830 of `getPSdual` on the array `a0`: the approximate dual vector as read from the
floating-point LP, rows first and columns behind them. -/
def readApproxdualFrom (a0 : Nat → ℚ) (lp : SCIP_LP) (nrows ncols : Nat) (usefarkas : Bool) :
    Nat → ℚ :=
  let a1 := forLoop (fun i a => Function.update a i
      (if usefarkas then (lp.rows i).dualfarkas else (lp.rows i).dualsol)) nrows a0
  forLoop (fun i a => Function.update a (i + nrows)
      (if usefarkas then -(lp.cols i).farkascoef else (lp.cols i).redcost)) ncols a1

/-- Lines 2875-2889 of `getPSdual` on the array `v0`: `violation[i]` is set to `obj - redcost`
(`0 - redcost` for a Farkas proof). -/
def initViolationFrom (v0 : Nat → ℚ) (lpex : SCIP_LPEX) (usefarkas : Bool)
    (approxdual : Nat → ℚ) : Nat → ℚ :=
  forLoop (fun i v => Function.update v i
      (if !usefarkas then (lpex.cols i).obj - approxdual (i + lpex.nrows)
       else -(approxdual (i + lpex.nrows)))) lpex.ncols v0

/-- The final dual vector of `getPSdual` (lines 2786-3141) computed in the arrays `a0` and `v0`;
`none` when the triangular solve fails. -/
def finalDualFrom (a0 v0 : Nat → ℚ) (ext : External) (lp : SCIP_LP) (lpex : SCIP_LPEX)
    (usefarkas : Bool) : Option (Nat → ℚ) :=
  let psdata := lpex.psdata
  let useinteriorpoint := !usefarkas && psdata.psuseintpoint && psdata.pshaspoint
  let approxdual0 := readApproxdualFrom a0 lp lpex.nrows lpex.ncols usefarkas
  let isupper := computeIsupper approxdual0
  let approxdual := fixArtificial lpex isupper approxdual0
  let violation := subtractRows lpex approxdual (initViolationFrom v0 lpex usefarkas approxdual)
  if !computeIsfeas lpex.ncols violation then
    projectAndShift ext lpex useinteriorpoint isupper violation approxdual
  else some approxdual

/-- The function `getPSdual` (lines 2646-3272) with the scratch arrays of `psdata` as they are
kept between calls. `sc` is their allocation state and `buf` their contents at entry. Lines
2757-2768: the local pointer `approxdual` is a copy of `psdata->approxdual`; if
`nrows + ncols > psdata->approxdualsize` the local pointer is reallocated to `nrows + ncols`
entries and `psdata->approxdualsize` is set, while `psdata->approxdual` is not assigned and keeps
referring to the block of the old size. An access outside a block has no defined result (`none`).
The result is the state on return and the allocation state on return. -/
def getPSdualPersistent (ext : External) (lp : SCIP_LP) (lpex : SCIP_LPEX) (stat : SCIP_STAT)
    (usefarkas : Bool) (sc : PsScratch) (buf : PsBuffers) :
    Option ((SCIP_LP × SCIP_LPEX × SCIP_STAT) × PsScratch) :=
  let stat : SCIP_STAT :=
    if usefarkas then { stat with nprojshift := stat.nprojshift + 1 }
    else { stat with nprojshiftinf := stat.nprojshiftinf + 1 }
  let psdata := lpex.psdata
  if (psdata.psdatafail && !usefarkas) || (usefarkas && !psdata.pshasray) then
    some (({ lp with hasprovedbound := false }, lpex, stat), sc)
  else
    let lp := { lp with hasprovedbound := true }
    let grow := decide (lpex.nrows + lpex.ncols > sc.approxdualsize)
    let localcap := if grow then lpex.nrows + lpex.ncols else sc.approxdualcap
    let approxdual : Nat → ℚ :=
      if grow then block sc.approxdualsize (block sc.approxdualcap buf.approxdual)
      else block sc.approxdualcap buf.approxdual
    let sc : PsScratch :=
      if grow then { sc with approxdualsize := lpex.nrows + lpex.ncols } else sc
    if lpex.nrows + lpex.ncols ≤ localcap ∧ lpex.ncols ≤ sc.violationcap
        ∧ psdata.nextendedrows ≤ sc.correctioncap then
      let z := zeroScratch lpex.nrows lpex.ncols psdata.nextendedrows approxdual
        (block sc.violationcap buf.violation) (block sc.correctioncap buf.correction)
      if hasInvalidRow lp lpex.nrows usefarkas then
        some (({ lp with hasprovedbound := false }, lpex,
          if usefarkas then { stat with nfailprojshiftinf := stat.nfailprojshiftinf + 1 }
          else { stat with nfailprojshift := stat.nfailprojshift + 1 }), sc)
      else
        match finalDualFrom z.1 z.2.1 ext lp lpex usefarkas with
        | none =>
          some (({ lp with hasprovedbound := false }, lpex,
            if usefarkas then { stat with nfailprojshiftinf := stat.nfailprojshiftinf + 1 }
            else { stat with nfailprojshift := stat.nfailprojshift + 1 }), sc)
        | some approxdual =>
          match dualObjective lpex approxdual with
          | none => none
          | some dualbound => some (storeBound ext lp lpex stat usefarkas dualbound, sc)
    else none

/-- The relaxation `cutLpex` when the project-and-shift data was constructed: the first row
only. -/
def cutLpexAtConstruction : SCIP_LPEX := { cutLpex with nrows := 1 }

/-! ## `boundShift`: the interval computation -/

/-- Primal feasibility of `x` for the relaxation that `boundShift` reads: the sides and
constants of the floating-point rows, the coefficients of the exact rows and the bounds of the
floating-point columns. -/
def shiftFeasible (lp : SCIP_LP) (lpex : SCIP_LPEX) (x : Nat → ℚ) : Prop :=
  (∀ r, r < lp.nrows →
    (lp.rows r).lhs ≤ rowActivity lpex x r + (lp.rows r).constant
    ∧ rowActivity lpex x r + (lp.rows r).constant ≤ (lp.rows r).rhs)
  ∧ (∀ j, j < lp.ncols → (lp.cols j).lb ≤ x j ∧ x j ≤ (lp.cols j).ub)

/-- The floating-point sides and bounds that `boundShift` reads relax the exact ones: every point
that is primal feasible for the exact relaxation (`primalFeasible`, on the exact sides and bounds)
satisfies the sides of the floating-point rows, with their constants, and the bounds of the
floating-point columns. A finite exact side is relaxed by a floating-point side rounded outwards;
an infinite exact side by a floating-point value that no feasible point passes. -/
def fpRelaxesExact (lp : SCIP_LP) (lpex : SCIP_LPEX) : Prop :=
  ∀ x, primalFeasible lpex x → shiftFeasible lp lpex x

/-- Relaxation `min x + y` subject to `x + 2 y ≥ 4`, `2 x + y ≥ 3`, `0 ≤ x, y ≤ 10`, with the
optimal value `7 / 3` at `(2 / 3, 5 / 3)`; the intervals of the coefficients are points. -/
def shiftLpex : SCIP_LPEX :=
  { rows := fun r =>
      { lhs := if r = 0 then .fin 4 else .fin 3, rhs := .inf, len := 2, cols_index := fun t => t
        vals := fun t => if r = t then 1 else 2
        valsinterval := fun t =>
          if r = t then { inf := 1, sup := 1 } else { inf := 2, sup := 2 } }
    cols := fun _ => { obj := 1, lb := .fin 0, ub := .fin 10 }
    nrows := 2
    ncols := 2
    lpobjval := .fin 0
    psdata := sumLpex.psdata }

/-- Floating-point LP for `shiftLpex` with the approximate row multipliers `0.333`. -/
def shiftLp : SCIP_LP :=
  { rows := fun r =>
      { dualsol := 333 / 1000, dualfarkas := 0, lhs := if r = 0 then 4 else 3, rhs := 10 ^ 20 }
    cols := fun j =>
      { redcost := 0, farkascoef := 0, lb := 0, ub := 10, obj := 1, nlprows := 2
        rowpos := fun i => i, linkpos := fun _ => j }
    hasprovedbound := false
    lpobjval := 0
    nrows := 2
    ncols := 2 }

/-- The optimal point `(2 / 3, 5 / 3)` of `shiftLpex`. -/
def shiftPoint : Nat → ℚ := fun j => if j = 0 then 2 / 3 else 5 / 3

/-! ## `getPSdualTwo`: the function on the extended dual vector -/

/-- Lines 2186-2236 of `getPSdualTwo`: the approximate dual solution in the extended space: a
strictly positive value is stored in the `lhs` (`lb`) coordinate, any other value negated in the
`rhs` (`ub`) coordinate; a fresh array holds zeros. -/
def readExtendedTwo (lp : SCIP_LP) (nrowsps ncols : Nat) (usefarkas : Bool) : Nat → ℚ :=
  let a1 := forLoop (fun i a =>
      let tmp := if !usefarkas then (lp.rows i).dualsol else (lp.rows i).dualfarkas
      if RisPositive tmp then Function.update a i tmp
      else Function.update a (i + nrowsps) (-tmp)) nrowsps (fun _ => 0)
  forLoop (fun i a =>
      let tmp := if !usefarkas then (lp.cols i).redcost else -(lp.cols i).farkascoef
      if RisPositive tmp then Function.update a (i + 2 * nrowsps) tmp
      else Function.update a (i + 2 * nrowsps + ncols) (-tmp)) ncols a1

/-- Lines 2267-2279 of `getPSdualTwo`: negative entries and the entries whose cost is `-∞` are
set to zero. -/
def clampTwo (nextendedrows : Nat) (costvect : Nat → SCIP_Rational) (a : Nat → ℚ) : Nat → ℚ :=
  forLoop (fun i a =>
      if RisNegative (a i) then Function.update a i 0
      else if RisNegInfinity (costvect i) then Function.update a i 0
      else a) nextendedrows a

/-- Lines 2281-2330 of `getPSdualTwo`: the violation `r = c - A^T y` of the equality constraints,
from the rows known to the project-and-shift data (a row whose two coordinates are equal is
skipped), the rows added later (with the value read from the floating-point LP) and the bounds
of the columns. -/
def violationTwo (lp : SCIP_LP) (lpex : SCIP_LPEX) (nrowsps : Nat) (usefarkas : Bool)
    (a : Nat → ℚ) : Nat → ℚ :=
  let v0 := forLoop (fun i v => Function.update v i
      (if !usefarkas then (lpex.cols i).obj else 0)) lpex.ncols (fun _ => 0)
  let v1 := forLoop (fun i v =>
      forLoop (fun j w =>
          let currentrow := (lpex.rows i).cols_index j
          if a i = a (i + nrowsps) then w
          else
            let w1 := Function.update w currentrow (w currentrow - a i * (lpex.rows i).vals j)
            Function.update w1 currentrow
              (w1 currentrow + a (i + nrowsps) * (lpex.rows i).vals j))
        (lpex.rows i).len v) nrowsps v0
  let v2 := forRange nrowsps lpex.nrows (fun i v =>
      forLoop (fun j w =>
          let tmp := if !usefarkas then (lp.rows i).dualsol else (lp.rows i).dualfarkas
          let currentrow := (lpex.rows i).cols_index j
          Function.update w currentrow (w currentrow - tmp * (lpex.rows i).vals j))
        (lpex.rows i).len v) v1
  forLoop (fun i v =>
      if a (i + 2 * nrowsps) = a (i + 2 * nrowsps + lpex.ncols) then v
      else
        let v1 := Function.update v i (v i - a (i + 2 * nrowsps))
        Function.update v1 i (v1 i + a (i + 2 * nrowsps + lpex.ncols))) lpex.ncols v2

/-- Lines 2377-2383 of `getPSdualTwo`: the correction is added to the coordinates of the
basis. -/
def projectTwo (psbasis : Nat → Nat) (npsbasis : Nat) (correction a : Nat → ℚ) : Nat → ℚ :=
  forLoop (fun i a => Function.update a (psbasis i) (a (psbasis i) + correction i)) npsbasis a

/-- Lines 2446-2457 of `getPSdualTwo`: the shift by the interior point or ray. -/
def shiftTwo (nextendedrows : Nat) (interior : Nat → ℚ) (lambda1 lambda2 : ℚ) (a : Nat → ℚ) :
    Nat → ℚ :=
  if !RisZero lambda2 then
    let a1 := forLoop (fun i a => Function.update a i (a i * lambda1)) nextendedrows a
    forLoop (fun i a => Function.update a i (a i + interior i * lambda2)) nextendedrows a1
  else a

/-- The final dual vector of `getPSdualTwo` over the extended space (lines 2186-2488), for a call
that passed the initial guard and the `SCIP_INVALID` test; `none` when the triangular solve
fails. -/
def finalDualTwo (ext : External) (lp : SCIP_LP) (lpex : SCIP_LPEX) (usefarkas : Bool) :
    Option (Nat → ℚ) :=
  let psdata := lpex.psdata
  let nextendedrows := psdata.nextendedrows
  let ncols := lpex.ncols
  let nrowsps := psdata.nextendedrows / 2 - ncols
  let useinteriorpoint := !usefarkas && psdata.psuseintpoint && psdata.pshaspoint
  let costvect := costvectTwo lpex nrowsps
  let approxdual := clampTwo nextendedrows costvect (readExtendedTwo lp nrowsps ncols usefarkas)
  let violation := violationTwo lp lpex nrowsps usefarkas approxdual
  let projected : Option (Nat → ℚ) :=
    if !computeIsfeas ncols violation then
      match ext.RECTLUsolveSystem ncols nextendedrows violation with
      | none => none
      | some correction => some (projectTwo psdata.psbasis psdata.npsbasis correction approxdual)
    else some approxdual
  projected.map (fun approxdual =>
    let lambda := computeLambdaTwo psdata useinteriorpoint approxdual
    let shifted := shiftTwo nextendedrows
      (if useinteriorpoint then psdata.interiorpt else psdata.interiorray) lambda.1 lambda.2
      approxdual
    pairwiseSimplify nrowsps ncols shifted)

/-- Lines 2577-2593 of `getPSdualTwo`: the bound is stored, or the infeasibility proof is
accepted or rejected; `lpex->lpobjval` is not written. -/
def storeBoundTwo (ext : External) (lp : SCIP_LP) (lpex : SCIP_LPEX) (stat : SCIP_STAT)
    (usefarkas : Bool) (dualbound : ℚ) : SCIP_LP × SCIP_LPEX × SCIP_STAT :=
  if !usefarkas then
    ({ lp with lpobjval := ext.RgetRealRelax dualbound, hasprovedbound := true }, lpex, stat)
  else if RisPositive dualbound then
    ({ lp with hasprovedbound := true }, lpex, stat)
  else
    ({ lp with hasprovedbound := false }, lpex,
     { stat with nfailprojshiftinf := stat.nfailprojshiftinf + 1 })

/-- The function `getPSdualTwo` of `bounding_exact.c` (lines 2077-2643): the project-and-shift
method on the extended dual vector with one nonnegative coordinate per side. The `SCIP_INVALID`
test of the rows known to the project-and-shift data (lines 2191-2202) leaves the loop at the
first such row. The result is the state on return; it is `none` only where `RaddProd` has no
defined result. -/
def getPSdualTwo (ext : External) (lp : SCIP_LP) (lpex : SCIP_LPEX) (stat : SCIP_STAT)
    (usefarkas : Bool) : Option (SCIP_LP × SCIP_LPEX × SCIP_STAT) :=
  let stat : SCIP_STAT :=
    if usefarkas then { stat with nprojshift := stat.nprojshift + 1 }
    else { stat with nprojshiftinf := stat.nprojshiftinf + 1 }
  let psdata := lpex.psdata
  if (psdata.psdatafail && !usefarkas) || (usefarkas && !psdata.pshasray) then
    some ({ lp with hasprovedbound := false }, lpex, stat)
  else
    let lp := { lp with hasprovedbound := true }
    let nrowsps := psdata.nextendedrows / 2 - lpex.ncols
    if hasInvalidRow lp nrowsps usefarkas then
      some ({ lp with hasprovedbound := false }, lpex,
        if usefarkas then { stat with nfailprojshiftinf := stat.nfailprojshiftinf + 1 }
        else { stat with nfailprojshift := stat.nfailprojshift + 1 })
    else
      match finalDualTwo ext lp lpex usefarkas with
      | none =>
        some ({ lp with hasprovedbound := false }, lpex,
          if usefarkas then { stat with nfailprojshiftinf := stat.nfailprojshiftinf + 1 }
          else { stat with nfailprojshift := stat.nfailprojshift + 1 })
      | some approxdual =>
        match dualObjectiveTwo psdata.nextendedrows (costvectTwo lpex nrowsps) approxdual with
        | none => none
        | some dualbound => some (storeBoundTwo ext lp lpex stat usefarkas dualbound)

/-- The extended coordinate of the `lhs` (`lb`) side of row or column `c`. -/
def lhsCoord (nrows : Nat) (c : Nat) : Nat := if c < nrows then c else c + nrows

/-- The extended coordinate of the `rhs` (`ub`) side of row or column `c`. -/
def rhsCoord (nrows ncols : Nat) (c : Nat) : Nat :=
  if c < nrows then c + nrows else c + nrows + ncols

/-- Does the projection step of `getPSdual` move the multiplier of the row or column of the
extended coordinate `e` into the correction: on the `lhs` (`lb`) side when `isupper` is `FALSE`,
on the `rhs` (`ub`) side when it is `TRUE` (lines 2968-2999). -/
def matchesSide (nrowsps ncols shift : Nat) (isupper : Nat → Bool) (e : Nat) : Bool :=
  if sideSign nrowsps ncols e = 1 then !isupper (compactIndex nrowsps ncols shift e)
  else isupper (compactIndex nrowsps ncols shift e)

/-! ## `getPSdual`: the choice of the certificate -/

/-- Lines 2715-2735 of `getPSdual`: the assertion `assert( psdata->pshasray )` of the branch that
takes the interior ray. The branch is reached when the guard of line 2715 lets the call pass and
the interior point is not taken (line 2724); where it is not reached nothing is asserted. -/
def rayAssertion (psdata : SCIP_PSDATA) (usefarkas : Bool) : Bool :=
  if (psdata.psdatafail && !usefarkas) || (usefarkas && !psdata.pshasray) then true
  else if !usefarkas && psdata.psuseintpoint && psdata.pshaspoint then true
  else psdata.pshasray

/-- An auxiliary LP solver under which the ray LP (a maximization) does not end optimal and the
LP of the arbitrary point in transposed form (a minimization) ends optimal with every value
`1`. -/
def pointOnlySolver : AuxLP → AuxLPResult := fun l =>
  { isOptimal := !l.maximize, objval := 0, primsol := fun _ => 1, dualsol := fun _ => 0 }

/-- Collaborators of a construction in which the factorization succeeds, the ray LP fails and the
point is built. -/
def pointOnlyCollaborators : Collaborators :=
  mkCollaborators false true 0 failedSolve pointOnlySolver 0

/-- The relaxation `sumLpex` before construction, with the arbitrary point in transposed form as
formulation and the interior ray as preference (`psuseintpoint = FALSE`). -/
def sumLpexRayPreferred : SCIP_LPEX :=
  { sumLpexFresh with psdata := { sumLpexFresh.psdata with
      psintpointselection := PS_INTPOINTSEL.ARBDUAL, psuseintpoint := false } }

/-- Line 962 of `setupPsArb`: `j = psbeg[ 2 * nextendedrows ]`, the position of `psbeg` that is
read into `j`. -/
def arbPsbegRead (lpex : SCIP_LPEX) : Nat := 2 * lpex.psdata.nextendedrows

/-! ## The transposed matrix of `setupPsOpt`: where the entries are placed -/

/-- The structural column of entry `t` of the extended coordinate `e`: the column index of the
`t`-th entry of its row, or the column of the bound. -/
def coordCol (lpex : SCIP_LPEX) (e t : Nat) : Nat :=
  if e < 2 * lpex.nrows then
    (lpex.rows (if e ≥ lpex.nrows then e - lpex.nrows else e)).cols_index t
  else if e < 2 * lpex.nrows + lpex.ncols then e - 2 * lpex.nrows
  else e - (2 * lpex.nrows + lpex.ncols)

/-- The value of entry `t` of the extended coordinate `e` in `[A', -A', I, -I]`: the value of the
`t`-th entry of its row with sign `+` for a left-hand side and `-` for a right-hand side, `+1` for
a lower and `-1` for an upper bound. -/
def coordVal (lpex : SCIP_LPEX) (e t : Nat) : ℚ :=
  if e < 2 * lpex.nrows then
    (if e < lpex.nrows then (lpex.rows (if e ≥ lpex.nrows then e - lpex.nrows else e)).vals t
     else -(lpex.rows (if e ≥ lpex.nrows then e - lpex.nrows else e)).vals t)
  else if e < 2 * lpex.nrows + lpex.ncols then 1
  else -1

/-- The number of entries with key `c` among the `Len i` entries of item `i`. -/
def placeCount (Len : Nat → Nat) (K : Nat → Nat → Nat) (i c : Nat) : Nat :=
  ∑ s ∈ Finset.range (Len i), if K i s = c then 1 else 0

/-- The number of entries with key `c` that come before entry `t` of item `i` when the items are
scanned one after the other. -/
def placeRank (Len : Nat → Nat) (K : Nat → Nat → Nat) (i t c : Nat) : Nat :=
  ∑ k ∈ Finset.range i, placeCount Len K k c
    + ∑ s ∈ Finset.range t, if K i s = c then 1 else 0

/-- The number of entries of structural column `c` that the scan of lines 725-757 of `setupPsOpt`
has placed before it reaches entry `t` of the dual variable `dvarmap[i]`. -/
def entryRank (lpex : SCIP_LPEX) (dvarmap : Nat → Nat) (i t c : Nat) : Nat :=
  placeRank (fun i => coordWeight lpex (dvarmap i)) (fun i t => coordCol lpex (dvarmap i) t) i t c

/-- The state of a scan that places the entries of the items one after the other, when it
reaches entry `t0` of item `i0`, starting from the matrix `m`: `beg` is unchanged, `len` has
grown by the number of entries placed, and every entry placed so far sits in the line of its key
at the position of its rank, with the number of its item as index. -/
def placedUpTo (Len : Nat → Nat) (K : Nat → Nat → Nat) (V : Nat → Nat → ℚ) (m : SparseMatrix)
    (i0 t0 : Nat) (M : SparseMatrix) : Prop :=
  M.beg = m.beg
  ∧ (∀ c, M.len c = m.len c + placeRank Len K i0 t0 c)
  ∧ ∀ i t, ((i < i0 ∧ t < Len i) ∨ (i = i0 ∧ t < t0)) →
      M.ind (m.beg (K i t) + m.len (K i t) + placeRank Len K i t (K i t)) = i
      ∧ M.val (m.beg (K i t) + m.len (K i t) + placeRank Len K i t (K i t)) = V i t

/-- Lines 683-712 of `setupPsOpt`: the array `pslen` when `psbeg` is set up, the counted lengths
of the first `ncols` rows and `2` for each of the last `npsbasis` rows. -/
def countedLengths (lpex : SCIP_LPEX) (dvarmap : Nat → Nat) (ndvarmap psnrows : Nat)
    (pslen : Nat → Nat) : Nat → Nat :=
  forLoop (fun i l => Function.update l (lpex.ncols + i) 2) lpex.psdata.npsbasis
    (countEntries lpex dvarmap ndvarmap (forLoop (fun i l => Function.update l i 0) psnrows pslen))

/-- Lines 713-720 of `setupPsOpt`: the value of `pos` at `assert(pos == psnnonz)`. -/
def transposedBegPos (lpex : SCIP_LPEX) (dvarmap : Nat → Nat) (ndvarmap psnrows : Nat)
    (m : SparseMatrix) : Nat :=
  (begArray psnrows (countedLengths lpex dvarmap ndvarmap psnrows m.len) m.beg).2

/-- Lines 683-757 of `setupPsOpt`: the matrix after the scan that adds the entries one by one,
before the last `npsbasis` rows are written. -/
def scannedMatrix (lpex : SCIP_LPEX) (dvarmap : Nat → Nat) (ndvarmap psnrows : Nat)
    (m : SparseMatrix) : SparseMatrix :=
  scanEntries lpex dvarmap ndvarmap
    { m with
      beg := (begArray psnrows (countedLengths lpex dvarmap ndvarmap psnrows m.len) m.beg).1
      len := forLoop (fun i l => Function.update l i 0) lpex.ncols
        (countedLengths lpex dvarmap ndvarmap psnrows m.len) }

/-- Lines 758-772 of `setupPsOpt`: the value of `pos` at `assert( pos == psnrows)`. -/
def transposedLastPos (lpex : SCIP_LPEX) (dvarmap : Nat → Nat) (ndvarmap psnrows psncols : Nat)
    (m : SparseMatrix) : Nat :=
  (lastRows lpex.psdata.includedrows dvarmap ndvarmap lpex.ncols (fun _ => psncols - 1)
    (scannedMatrix lpex dvarmap ndvarmap psnrows m)).pos

/-! # Properties -/

/-! ## General lemmas on loops -/

theorem forLoop_zero {σ : Type} (body : Nat → σ → σ) (s : σ) : forLoop body 0 s = s := rfl

theorem forLoop_succ {σ : Type} (body : Nat → σ → σ) (n : Nat) (s : σ) :
    forLoop body (n + 1) s = body n (forLoop body n s) := rfl

/-- Loop invariant rule: `P 0` holds at entry and every pass `i < n` takes `P i` to `P (i+1)`. -/
theorem forLoop_induction {σ : Type} (P : Nat → σ → Prop) (body : Nat → σ → σ) (s : σ) (n : Nat)
    (h0 : P 0 s) (hstep : ∀ i, i < n → ∀ t, P i t → P (i + 1) (body i t)) :
    P n (forLoop body n s) := by
  induction n with
  | zero => exact h0
  | succ k ih =>
    rw [forLoop_succ]
    exact hstep k (Nat.lt_succ_self k) _
      (ih (fun i hi t ht => hstep i (Nat.lt_succ_of_lt hi) t ht))

/-- A loop that rewrites entry `i` of an array in pass `i` from the old entry `i` alone. -/
theorem forLoop_pointwise (g : Nat → ℚ → ℚ) (body : Nat → (Nat → ℚ) → (Nat → ℚ))
    (hbody : ∀ i a, body i a = Function.update a i (g i (a i))) (n : Nat) (a : Nat → ℚ)
    (k : Nat) : forLoop body n a k = if k < n then g k (a k) else a k := by
  induction n with
  | zero => simp [forLoop_zero]
  | succ m ih =>
    rw [forLoop_succ, hbody]
    by_cases hk : k = m
    · subst hk
      simp [ih]
    · rw [Function.update_noteq hk, ih]
      by_cases hlt : k < m
      · simp [hlt, Nat.lt_succ_of_lt hlt]
      · have : ¬ k < m + 1 := by omega
        simp [hlt, this]

/-! ## Lifting (`getPSdual`, lines 2790-2844) -/

theorem readApproxdual_eq (lp : SCIP_LP) (nrows ncols : Nat) (usefarkas : Bool) (i : Nat)
    (hi : i < nrows + ncols) :
    readApproxdual lp nrows ncols usefarkas i = approxValue lp nrows usefarkas i := by
  unfold readApproxdual approxValue
  have h1 : ∀ n (a0 : Nat → ℚ) k,
      forLoop (fun i a => Function.update a i
        (if usefarkas then (lp.rows i).dualfarkas else (lp.rows i).dualsol)) n a0 k
      = if k < n then (if usefarkas then (lp.rows k).dualfarkas else (lp.rows k).dualsol)
        else a0 k := by
    intro n a0 k
    exact forLoop_pointwise
      (fun i _ => if usefarkas then (lp.rows i).dualfarkas else (lp.rows i).dualsol) _
      (fun _ _ => rfl) n a0 k
  have h2 : ∀ m (a1 : Nat → ℚ) k,
      forLoop (fun i a => Function.update a (i + nrows)
        (if usefarkas then -(lp.cols i).farkascoef else (lp.cols i).redcost)) m a1 k
      = if nrows ≤ k ∧ k < nrows + m then
          (if usefarkas then -(lp.cols (k - nrows)).farkascoef else (lp.cols (k - nrows)).redcost)
        else a1 k := by
    intro m a1 k
    induction m with
    | zero =>
      have : ¬ (nrows ≤ k ∧ k < nrows + 0) := by omega
      rw [forLoop_zero, if_neg this]
    | succ m ih =>
      rw [forLoop_succ]
      by_cases hk : k = m + nrows
      · subst hk
        have : nrows ≤ m + nrows ∧ m + nrows < nrows + (m + 1) := by omega
        rw [Function.update_same, if_pos this, Nat.add_sub_cancel]
      · rw [Function.update_noteq hk, ih]
        by_cases hc : nrows ≤ k ∧ k < nrows + m
        · have : nrows ≤ k ∧ k < nrows + (m + 1) := by omega
          rw [if_pos hc, if_pos this]
        · have : ¬ (nrows ≤ k ∧ k < nrows + (m + 1)) := by omega
          rw [if_neg hc, if_neg this]
  rw [h2, h1]
  by_cases hlt : i < nrows
  · have : ¬ (nrows ≤ i ∧ i < nrows + ncols) := by omega
    simp [hlt, this]
  · have : nrows ≤ i ∧ i < nrows + ncols := by omega
    simp [hlt, this]

theorem fixArtificial_eq (lpex : SCIP_LPEX) (isupper : Nat → Bool) (approxdual : Nat → ℚ)
    (k : Nat) :
    fixArtificial lpex isupper approxdual k
      = if k < lpex.nrows + lpex.ncols ∧ RisAbsInfinity (selectedSide lpex (isupper k) k) = true
        then 0 else approxdual k := by
  unfold fixArtificial
  rw [forLoop_pointwise
    (fun i v => if RisAbsInfinity (selectedSide lpex (isupper i) i) = true then 0 else v)]
  · by_cases hk : k < lpex.nrows + lpex.ncols <;> simp [hk]
  · intro i a
    by_cases hc : RisAbsInfinity (selectedSide lpex (isupper i) i) = true
    · simp [hc]
    · simp [hc]

theorem liftedDual_eq (lp : SCIP_LP) (lpex : SCIP_LPEX) (usefarkas : Bool) (i : Nat)
    (hi : i < lpex.nrows + lpex.ncols) :
    liftedDual lp lpex usefarkas i
      = if RisAbsInfinity (selectedSide lpex
            (!RisPositive (approxValue lp lpex.nrows usefarkas i)) i) = true
        then 0 else approxValue lp lpex.nrows usefarkas i := by
  unfold liftedDual
  rw [fixArtificial_eq]
  simp only [computeIsupper, readApproxdual_eq lp lpex.nrows lpex.ncols usefarkas i hi, hi,
    true_and]

/-- C5: after the lifting step of `getPSdual`, every row and every column whose selected side
(`lhs`/`lb` when the approximate value is strictly positive, `rhs`/`ub` otherwise) is infinite has
the lifted dual value zero; equivalently, no coordinate of the extended dual space that is paired
with an infinite bound carries a nonzero weight after lifting. -/
theorem getPSdual_lifting_fixes_infinite_sides (lp : SCIP_LP) (lpex : SCIP_LPEX)
    (usefarkas : Bool) :
    (∀ i, i < lpex.nrows + lpex.ncols →
      RisAbsInfinity (selectedSide lpex
        (!RisPositive (approxValue lp lpex.nrows usefarkas i)) i) = true →
      liftedDual lp lpex usefarkas i = 0)
    ∧ (∀ e, e < 2 * lpex.nrows + 2 * lpex.ncols →
      RisAbsInfinity (extendedBound lpex e) = true →
      extendedDual lpex.nrows lpex.ncols (liftedDual lp lpex usefarkas) e = 0) := by
  constructor
  · intro i hi hinf
    rw [liftedDual_eq lp lpex usefarkas i hi, if_pos hinf]
  · intro e he hinf
    have key : ∀ i, i < lpex.nrows + lpex.ncols →
        (RisAbsInfinity (selectedSide lpex false i) = true → liftedDual lp lpex usefarkas i ≤ 0)
        ∧ (RisAbsInfinity (selectedSide lpex true i) = true → 0 ≤ liftedDual lp lpex usefarkas i) := by
      intro i hi
      rw [liftedDual_eq lp lpex usefarkas i hi]
      by_cases hpos : 0 < approxValue lp lpex.nrows usefarkas i
      · have hP : RisPositive (approxValue lp lpex.nrows usefarkas i) = true := by
          simp [RisPositive, hpos]
        constructor
        · intro h
          simp [hP, h]
        · intro _
          split_ifs
          · exact le_refl _
          · exact le_of_lt hpos
      · have hP : RisPositive (approxValue lp lpex.nrows usefarkas i) = false := by
          simp [RisPositive, hpos]
        constructor
        · intro _
          split_ifs
          · exact le_refl _
          · exact not_lt.mp hpos
        · intro h
          simp [hP, h]
    unfold extendedDual
    unfold extendedBound at hinf
    by_cases h1 : e < lpex.nrows
    · rw [if_pos h1] at hinf ⊢
      have := (key e (by omega)).1 (by simpa [selectedSide, h1] using hinf)
      exact max_eq_right this
    · rw [if_neg h1] at hinf ⊢
      by_cases h2 : e < 2 * lpex.nrows
      · rw [if_pos h2] at hinf ⊢
        have hlt : e - lpex.nrows < lpex.nrows := by omega
        have := (key (e - lpex.nrows) (by omega)).2 (by simpa [selectedSide, hlt] using hinf)
        exact max_eq_right (by linarith)
      · rw [if_neg h2] at hinf ⊢
        have hge : ¬ e - lpex.nrows < lpex.nrows := by omega
        by_cases h3 : e < 2 * lpex.nrows + lpex.ncols
        · rw [if_pos h3] at hinf ⊢
          have hidx : e - lpex.nrows - lpex.nrows = e - 2 * lpex.nrows := by omega
          have := (key (e - lpex.nrows) (by omega)).1
            (by simpa [selectedSide, hge, hidx] using hinf)
          exact max_eq_right this
        · rw [if_neg h3] at hinf ⊢
          have hge2 : ¬ e - lpex.nrows - lpex.ncols < lpex.nrows := by omega
          have hidx : e - lpex.nrows - lpex.ncols - lpex.nrows
              = e - 2 * lpex.nrows - lpex.ncols := by omega
          have := (key (e - lpex.nrows - lpex.ncols) (by omega)).2
            (by simpa [selectedSide, hge2, hidx] using hinf)
          exact max_eq_right (by linarith)

/-- Witness of C5: in `x + y ≤ 10` a row dual `1` selects the infinite left-hand side and is
lifted to zero. -/
theorem getPSdual_lifting_fixes_infinite_sides_witness :
    RisAbsInfinity (selectedSide sumLpex
        (!RisPositive (approxValue (sumLp 1) sumLpex.nrows false 0)) 0) = true
    ∧ liftedDual (sumLp 1) sumLpex false 0 = 0 :=
  ⟨by simp [selectedSide, RisPositive, approxValue, sumLp, sumLpex, RisAbsInfinity],
   (getPSdual_lifting_fixes_infinite_sides (sumLp 1) sumLpex false).1 0
     (by simp [sumLpex])
     (by simp [selectedSide, RisPositive, approxValue, sumLp, sumLpex, RisAbsInfinity])⟩


/-! ## The shifting weights (`getPSdual`, lines 3013-3055; `getPSdualTwo`, lines 2402-2444) -/

/-- A loop that lowers an accumulator to the minimum of the selected values. -/
theorem forLoop_min (cond : Nat → Bool) (t : Nat → ℚ) (n : Nat) (l0 : ℚ) :
    forLoop (fun i l => if cond i then min l (t i) else l) n l0 ≤ l0
    ∧ (∀ i, i < n → cond i = true →
        forLoop (fun i l => if cond i then min l (t i) else l) n l0 ≤ t i)
    ∧ (forLoop (fun i l => if cond i then min l (t i) else l) n l0 = l0
        ∨ ∃ i, i < n ∧ cond i = true ∧
          forLoop (fun i l => if cond i then min l (t i) else l) n l0 = t i) := by
  induction n with
  | zero => exact ⟨le_refl _, fun i hi => absurd hi (Nat.not_lt_zero i), Or.inl rfl⟩
  | succ m ih =>
    obtain ⟨h1, h2, h3⟩ := ih
    rw [forLoop_succ]
    by_cases hc : cond m = true
    · simp only [hc, if_true]
      refine ⟨le_trans (min_le_left _ _) h1, ?_, ?_⟩
      · intro i hi hci
        by_cases him : i = m
        · subst him
          exact min_le_right _ _
        · exact le_trans (min_le_left _ _) (h2 i (by omega) hci)
      · rcases le_total (forLoop (fun i l => if cond i then min l (t i) else l) m l0) (t m)
          with hle | hle
        · rw [min_eq_left hle]
          rcases h3 with h | ⟨i, hi, hci, h⟩
          · exact Or.inl h
          · exact Or.inr ⟨i, by omega, hci, h⟩
        · rw [min_eq_right hle]
          exact Or.inr ⟨m, by omega, hc, rfl⟩
    · simp only [hc]
      refine ⟨h1, ?_, ?_⟩
      · intro i hi hci
        by_cases him : i = m
        · subst him
          exact absurd hci hc
        · exact h2 i (by omega) hci
      · rcases h3 with h | ⟨i, hi, hci, h⟩
        · exact Or.inl h
        · exact Or.inr ⟨i, by omega, hci, h⟩

/-- A loop that raises an accumulator to the maximum of the selected values. -/
theorem forLoop_max (cond : Nat → Bool) (t : Nat → ℚ) (n : Nat) (l0 : ℚ) :
    l0 ≤ forLoop (fun i l => if cond i then max l (t i) else l) n l0
    ∧ (∀ i, i < n → cond i = true →
        t i ≤ forLoop (fun i l => if cond i then max l (t i) else l) n l0)
    ∧ (forLoop (fun i l => if cond i then max l (t i) else l) n l0 = l0
        ∨ ∃ i, i < n ∧ cond i = true ∧
          forLoop (fun i l => if cond i then max l (t i) else l) n l0 = t i) := by
  induction n with
  | zero => exact ⟨le_refl _, fun i hi => absurd hi (Nat.not_lt_zero i), Or.inl rfl⟩
  | succ m ih =>
    obtain ⟨h1, h2, h3⟩ := ih
    rw [forLoop_succ]
    by_cases hc : cond m = true
    · simp only [hc, if_true]
      refine ⟨le_trans h1 (le_max_left _ _), ?_, ?_⟩
      · intro i hi hci
        by_cases him : i = m
        · subst him
          exact le_max_right _ _
        · exact le_trans (h2 i (by omega) hci) (le_max_left _ _)
      · rcases le_total (forLoop (fun i l => if cond i then max l (t i) else l) m l0) (t m)
          with hle | hle
        · rw [max_eq_right hle]
          exact Or.inr ⟨m, by omega, hc, rfl⟩
        · rw [max_eq_left hle]
          rcases h3 with h | ⟨i, hi, hci, h⟩
          · exact Or.inl h
          · exact Or.inr ⟨i, by omega, hci, h⟩
    · simp only [hc]
      refine ⟨h1, ?_, ?_⟩
      · intro i hi hci
        by_cases him : i = m
        · subst him
          exact absurd hci hc
        · exact h2 i (by omega) hci
      · rcases h3 with h | ⟨i, hi, hci, h⟩
        · exact Or.inl h
        · exact Or.inr ⟨i, by omega, hci, h⟩

theorem lambda1Point_eq (psdata : SCIP_PSDATA) (correction : Nat → ℚ) :
    lambda1Point psdata correction
      = forLoop (fun i l => if RisNegative (correction i) then
          min l (psdata.interiorpt (psdata.psbasis i)
            / (psdata.interiorpt (psdata.psbasis i) - correction i)) else l)
        psdata.npsbasis 1 := rfl

theorem lambda2Ray_eq (psdata : SCIP_PSDATA) (correction : Nat → ℚ) (l0 : ℚ) :
    lambda2Ray psdata correction l0
      = forLoop (fun i l =>
          if (RisNegative (correction i) && psdata.includedrows (psdata.psbasis i)) then
            max l (-(correction i / psdata.interiorray (psdata.psbasis i))) else l)
        psdata.npsbasis l0 := rfl

theorem computeLambdaTwo_point (psdata : SCIP_PSDATA) (approxdual : Nat → ℚ) :
    computeLambdaTwo psdata true approxdual
      = (forLoop (fun i l => if RisNegative (approxdual i) then
            min l (psdata.interiorpt i / (psdata.interiorpt i - approxdual i)) else l)
          psdata.nextendedrows 1,
         1 - forLoop (fun i l => if RisNegative (approxdual i) then
            min l (psdata.interiorpt i / (psdata.interiorpt i - approxdual i)) else l)
          psdata.nextendedrows 1) := by
  have hbody : (fun (i : Nat) (lambda1 : ℚ) =>
        if RisNegative (approxdual i) = true then
          (if lambda1 > psdata.interiorpt i / (psdata.interiorpt i - approxdual i) then
            psdata.interiorpt i / (psdata.interiorpt i - approxdual i) else lambda1)
        else lambda1)
      = (fun i l => if RisNegative (approxdual i) = true then
          min l (psdata.interiorpt i / (psdata.interiorpt i - approxdual i)) else l) := by
    funext i l
    by_cases hc : RisNegative (approxdual i) = true
    · simp only [hc, if_true]
      by_cases h : l > psdata.interiorpt i / (psdata.interiorpt i - approxdual i)
      · rw [if_pos h, min_eq_right (le_of_lt h)]
      · rw [if_neg h, min_eq_left (not_lt.mp h)]
    · rw [if_neg hc, if_neg hc]
  simp only [computeLambdaTwo, if_true]
  rw [hbody]

theorem computeLambdaTwo_ray (psdata : SCIP_PSDATA) (approxdual : Nat → ℚ) :
    computeLambdaTwo psdata false approxdual
      = (1, forLoop (fun i l =>
          if (RisNegative (approxdual i) && psdata.includedrows i) then
            max l (-(approxdual i / psdata.interiorray i)) else l)
          psdata.nextendedrows RcreateTemp) := by
  have hbody : (fun (i : Nat) (lambda2 : ℚ) =>
        if (RisNegative (approxdual i) && psdata.includedrows i) = true then
          (if lambda2 < -(approxdual i / psdata.interiorray i) then
            -(approxdual i / psdata.interiorray i) else lambda2)
        else lambda2)
      = (fun i l => if (RisNegative (approxdual i) && psdata.includedrows i) = true then
          max l (-(approxdual i / psdata.interiorray i)) else l) := by
    funext i l
    by_cases hc : (RisNegative (approxdual i) && psdata.includedrows i) = true
    · simp only [hc, if_true]
      by_cases h : l < -(approxdual i / psdata.interiorray i)
      · rw [if_pos h, max_eq_right (le_of_lt h)]
      · rw [if_neg h, max_eq_left (not_lt.mp h)]
    · rw [if_neg hc, if_neg hc]
  simp only [computeLambdaTwo, Bool.false_eq_true, if_false]
  rw [hbody]

/-- The weight of a convex combination with a positive point: the properties of
`lambda1 = min(1, min over the negative entries of p / (p - c))`. -/
theorem pointWeight_spec (n : Nat) (c p : Nat → ℚ) (incl : Nat → Prop)
    (hneg : ∀ i, i < n → c i < 0 → incl i)
    (hp : ∀ i, i < n → incl i → 0 < p i) :
    let lambda1 := forLoop (fun i l => if RisNegative (c i) then min l (p i / (p i - c i)) else l)
      n 1
    0 < lambda1 ∧ lambda1 ≤ 1
    ∧ (∀ i, i < n → incl i → 0 ≤ lambda1 * c i + (1 - lambda1) * p i)
    ∧ (∀ l, 0 ≤ l → l ≤ 1 → (∀ i, i < n → incl i → 0 ≤ (1 - l) * c i + l * p i) →
        1 - lambda1 ≤ l) := by
  intro lambda1
  obtain ⟨h1, h2, h3⟩ := forLoop_min (fun i => RisNegative (c i)) (fun i => p i / (p i - c i)) n 1
  have hratio : ∀ i, i < n → c i < 0 → 0 < p i / (p i - c i) := by
    intro i hi hci
    have hpi := hp i hi (hneg i hi hci)
    exact div_pos hpi (by linarith)
  have hpos : 0 < lambda1 := by
    rcases h3 with h | ⟨i, hi, hci, h⟩
    · show 0 < forLoop _ n 1
      rw [h]; norm_num
    · show 0 < forLoop _ n 1
      rw [h]
      exact hratio i hi (by simpa [RisNegative] using hci)
  refine ⟨hpos, h1, ?_, ?_⟩
  · intro i hi hinc
    have hpi := hp i hi hinc
    by_cases hci : c i < 0
    · have hle : lambda1 ≤ p i / (p i - c i) := h2 i hi (by simp [RisNegative, hci])
      have hden : 0 < p i - c i := by linarith
      have := (le_div_iff₀ hden).mp hle
      nlinarith
    · have hc0 : 0 ≤ c i := not_lt.mp hci
      have : 0 ≤ 1 - lambda1 := by linarith
      positivity
  · intro l hl0 _ hbl
    rcases h3 with h | ⟨i, hi, hci, h⟩
    · have : lambda1 = 1 := h
      linarith
    · have hci' : c i < 0 := by simpa [RisNegative] using hci
      have hpi := hp i hi (hneg i hi hci')
      have hden : 0 < p i - c i := by linarith
      have hb := hbl i hi (hneg i hi hci')
      have hl1 : lambda1 = p i / (p i - c i) := h
      have hle : 1 - l ≤ p i / (p i - c i) := by
        rw [le_div_iff₀ hden]
        nlinarith
      rw [hl1]
      linarith

/-- The multiple of a positive ray that is added: the properties of
`lambda2 = max(0, max over the negative included entries of -c / r)`. -/
theorem rayWeight_spec (n : Nat) (c r : Nat → ℚ) (incl : Nat → Bool) :
    let lambda2 := forLoop (fun i l =>
      if (RisNegative (c i) && incl i) then max l (-(c i / r i)) else l) n 0
    0 ≤ lambda2
    ∧ (∀ i, i < n → c i < 0 → incl i = true → -(c i / r i) ≤ lambda2)
    ∧ (lambda2 = 0 ∨ ∃ i, i < n ∧ c i < 0 ∧ incl i = true ∧ lambda2 = -(c i / r i))
    ∧ ((∀ i, i < n → incl i = true → 0 < r i) →
        ∀ i, i < n → incl i = true → 0 ≤ c i + lambda2 * r i) := by
  intro lambda2
  obtain ⟨h1, h2, h3⟩ := forLoop_max (fun i => RisNegative (c i) && incl i)
    (fun i => -(c i / r i)) n 0
  refine ⟨h1, ?_, ?_, ?_⟩
  · intro i hi hci hinc
    exact h2 i hi (by simp [RisNegative, hci, hinc])
  · rcases h3 with h | ⟨i, hi, hci, h⟩
    · exact Or.inl h
    · simp only [RisNegative, Bool.and_eq_true, decide_eq_true_eq] at hci
      exact Or.inr ⟨i, hi, hci.1, hci.2, h⟩
  · intro hr i hi hinc
    have hri := hr i hi hinc
    by_cases hci : c i < 0
    · have hle : -(c i / r i) ≤ lambda2 := h2 i hi (by simp [RisNegative, hci, hinc])
      have : -(c i) ≤ lambda2 * r i := by
        have := mul_le_mul_of_nonneg_right hle (le_of_lt hri)
        have hcancel : -(c i / r i) * r i = -(c i) := by
          field_simp
        linarith
      linarith
    · have hc0 : 0 ≤ c i := not_lt.mp hci
      have : 0 ≤ lambda2 * r i := mul_nonneg h1 (le_of_lt hri)
      linarith


/-- C7 as stated fails: with the interior point of `sumLpex` and a corrected vector whose only
negative entry is `-2` (where the point has the value `2`), `getPSdual` computes
`lambda2 = 1/2`, yet the larger weight `1` lies in `[0,1]` and gives a nonnegative combination
as well; the computed `lambda2` is not the maximal admissible value. -/
theorem interiorPoint_lambda2_not_maximal :
    ¬ (∀ l : ℚ, 0 ≤ l → l ≤ 1 →
        (∀ k, k < sumLpex.psdata.npsbasis →
          0 ≤ (1 - l) * firstEntry (-2) k
            + l * sumLpex.psdata.interiorpt (sumLpex.psdata.psbasis k)) →
        l ≤ (computeLambda sumLpex.psdata true (firstEntry (-2))).2) := by
  intro h
  have hl : (computeLambda sumLpex.psdata true (firstEntry (-2))).2 = 1 / 2 := by
    simp [computeLambda, lambda1Point, forLoop, sumLpex, firstEntry, RisNegative]
    norm_num
  have h1 := h 1 (by norm_num) (le_refl _) (by
    intro k _
    simp only [sub_self, zero_mul, one_mul, zero_add, sumLpex]
    split_ifs <;> first | contradiction | norm_num)
  rw [hl] at h1
  norm_num at h1

/-- C7 (amended): in the interior-point case, with `lambda1 = 1 - lambda2`, the `lambda2`
computed by `getPSdual` (and by `getPSdualTwo`) is the minimal value in `[0,1]` such that
`(1 - lambda2) * corrected + lambda2 * point` is nonnegative on all included coordinates, for
every corrected vector and every point strictly positive on `S` (in `getPSdual` the included
coordinates are the entries of `psbasis`; in `getPSdualTwo`, which scans every coordinate, the
negative entries of the corrected vector lie on included coordinates). -/
theorem interiorPoint_lambda2_minimal (psdata : SCIP_PSDATA) (correction approxdual : Nat → ℚ)
    (hpt : ∀ k, k < psdata.npsbasis → 0 < psdata.interiorpt (psdata.psbasis k))
    (hptTwo : ∀ e, e < psdata.nextendedrows → psdata.includedrows e = true →
      0 < psdata.interiorpt e)
    (hnegTwo : ∀ e, e < psdata.nextendedrows → approxdual e < 0 →
      psdata.includedrows e = true) :
    ((computeLambda psdata true correction).1 = 1 - (computeLambda psdata true correction).2
      ∧ 0 ≤ (computeLambda psdata true correction).2
      ∧ (computeLambda psdata true correction).2 ≤ 1
      ∧ (∀ k, k < psdata.npsbasis →
          0 ≤ (1 - (computeLambda psdata true correction).2) * correction k
            + (computeLambda psdata true correction).2 * psdata.interiorpt (psdata.psbasis k))
      ∧ (∀ l : ℚ, 0 ≤ l → l ≤ 1 →
          (∀ k, k < psdata.npsbasis →
            0 ≤ (1 - l) * correction k + l * psdata.interiorpt (psdata.psbasis k)) →
          (computeLambda psdata true correction).2 ≤ l))
    ∧ ((computeLambdaTwo psdata true approxdual).1
          = 1 - (computeLambdaTwo psdata true approxdual).2
      ∧ 0 ≤ (computeLambdaTwo psdata true approxdual).2
      ∧ (computeLambdaTwo psdata true approxdual).2 ≤ 1
      ∧ (∀ e, e < psdata.nextendedrows → psdata.includedrows e = true →
          0 ≤ (1 - (computeLambdaTwo psdata true approxdual).2) * approxdual e
            + (computeLambdaTwo psdata true approxdual).2 * psdata.interiorpt e)
      ∧ (∀ l : ℚ, 0 ≤ l → l ≤ 1 →
          (∀ e, e < psdata.nextendedrows → psdata.includedrows e = true →
            0 ≤ (1 - l) * approxdual e + l * psdata.interiorpt e) →
          (computeLambdaTwo psdata true approxdual).2 ≤ l)) := by
  constructor
  · obtain ⟨h0, h1, h2, h3⟩ := pointWeight_spec psdata.npsbasis correction
      (fun k => psdata.interiorpt (psdata.psbasis k)) (fun _ => True)
      (fun _ _ _ => trivial) (fun k hk _ => hpt k hk)
    simp only [computeLambda, if_true, lambda1Point_eq]
    refine ⟨by ring, by linarith, by linarith, ?_, ?_⟩
    · intro k hk
      have := h2 k hk trivial
      simp only [sub_sub_cancel]
      exact this
    · intro l hl0 hl1 hbl
      exact h3 l hl0 hl1 (fun k hk _ => hbl k hk)
  · obtain ⟨h0, h1, h2, h3⟩ := pointWeight_spec psdata.nextendedrows approxdual
      psdata.interiorpt (fun e => psdata.includedrows e = true) hnegTwo hptTwo
    rw [computeLambdaTwo_point]
    refine ⟨by ring, by linarith, by linarith, ?_, ?_⟩
    · intro e he hinc
      have := h2 e he hinc
      simp only [sub_sub_cancel]
      exact this
    · intro l hl0 hl1 hbl
      exact h3 l hl0 hl1 hbl

/-- Witness of C7 (amended): for the interior point of `sumLpex` and the corrected vector with
the single negative entry `-2`, the computed `lambda2` is at most the admissible weight `1`. -/
theorem interiorPoint_lambda2_minimal_witness :
    (computeLambda sumLpex.psdata true (firstEntry (-2))).2 ≤ 1 :=
  (interiorPoint_lambda2_minimal sumLpex.psdata (firstEntry (-2)) (fun _ => 0)
    (by intro k _; simp only [sumLpex]; split_ifs <;> first | contradiction | norm_num)
    (by
      intro e _ he
      have he' : 0 < e := by simpa [sumLpex] using he
      have h0 : e ≠ 0 := by omega
      simp only [sumLpex, h0, if_false]
      split_ifs <;> first | contradiction | norm_num)
    (by intro e _ he; norm_num at he)).1.2.2.1

/-- C8: in the interior-ray case `lambda1 = 1` and `lambda2` is the maximum of `0` and of the
quotients `-corrected_i / ray_i` over the included coordinates with `corrected_i < 0`; it is not
bounded above by `1`; for a ray strictly positive on `S` the vector `corrected + lambda2 * ray` is
nonnegative on every included coordinate. In the interior-point case `0 ≤ lambda2 ≤ 1` and
`lambda1 + lambda2 = 1`. Both hold for `getPSdual` and for `getPSdualTwo`. -/
theorem interiorRay_lambda_spec (psdata : SCIP_PSDATA) (correction approxdual : Nat → ℚ) :
    ((computeLambda psdata false correction).1 = 1
      ∧ 0 ≤ (computeLambda psdata false correction).2
      ∧ (∀ k, k < psdata.npsbasis → correction k < 0 →
          psdata.includedrows (psdata.psbasis k) = true →
          -(correction k / psdata.interiorray (psdata.psbasis k))
            ≤ (computeLambda psdata false correction).2)
      ∧ ((computeLambda psdata false correction).2 = 0
          ∨ ∃ k, k < psdata.npsbasis ∧ correction k < 0
            ∧ psdata.includedrows (psdata.psbasis k) = true
            ∧ (computeLambda psdata false correction).2
                = -(correction k / psdata.interiorray (psdata.psbasis k)))
      ∧ ((∀ k, k < psdata.npsbasis → psdata.includedrows (psdata.psbasis k) = true →
            0 < psdata.interiorray (psdata.psbasis k)) →
          ∀ k, k < psdata.npsbasis → psdata.includedrows (psdata.psbasis k) = true →
            0 ≤ correction k
              + (computeLambda psdata false correction).2
                * psdata.interiorray (psdata.psbasis k)))
    ∧ ((computeLambdaTwo psdata false approxdual).1 = 1
      ∧ 0 ≤ (computeLambdaTwo psdata false approxdual).2
      ∧ (∀ e, e < psdata.nextendedrows → approxdual e < 0 → psdata.includedrows e = true →
          -(approxdual e / psdata.interiorray e) ≤ (computeLambdaTwo psdata false approxdual).2)
      ∧ ((computeLambdaTwo psdata false approxdual).2 = 0
          ∨ ∃ e, e < psdata.nextendedrows ∧ approxdual e < 0 ∧ psdata.includedrows e = true
            ∧ (computeLambdaTwo psdata false approxdual).2
                = -(approxdual e / psdata.interiorray e))
      ∧ ((∀ e, e < psdata.nextendedrows → psdata.includedrows e = true →
            0 < psdata.interiorray e) →
          ∀ e, e < psdata.nextendedrows → psdata.includedrows e = true →
            0 ≤ approxdual e
              + (computeLambdaTwo psdata false approxdual).2 * psdata.interiorray e))
    ∧ (∃ (psd : SCIP_PSDATA) (corr : Nat → ℚ),
        (∀ k, k < psd.npsbasis → 0 < psd.interiorray (psd.psbasis k))
        ∧ 1 < (computeLambda psd false corr).2)
    ∧ ((∀ k, k < psdata.npsbasis → 0 < psdata.interiorpt (psdata.psbasis k)) →
        0 ≤ (computeLambda psdata true correction).2
        ∧ (computeLambda psdata true correction).2 ≤ 1
        ∧ (computeLambda psdata true correction).1
            + (computeLambda psdata true correction).2 = 1)
    ∧ ((∀ e, e < psdata.nextendedrows → approxdual e < 0 → 0 < psdata.interiorpt e) →
        0 ≤ (computeLambdaTwo psdata true approxdual).2
        ∧ (computeLambdaTwo psdata true approxdual).2 ≤ 1
        ∧ (computeLambdaTwo psdata true approxdual).1
            + (computeLambdaTwo psdata true approxdual).2 = 1) := by
  refine ⟨?_, ?_, ?_, ?_, ?_⟩
  · obtain ⟨h0, h1, h2, h3⟩ := rayWeight_spec psdata.npsbasis correction
      (fun k => psdata.interiorray (psdata.psbasis k))
      (fun k => psdata.includedrows (psdata.psbasis k))
    simp only [computeLambda, Bool.false_eq_true, if_false, lambda2Ray_eq, RcreateTemp]
    exact ⟨trivial, h0, h1, h2, h3⟩
  · obtain ⟨h0, h1, h2, h3⟩ := rayWeight_spec psdata.nextendedrows approxdual
      psdata.interiorray psdata.includedrows
    rw [computeLambdaTwo_ray]
    simp only [RcreateTemp]
    exact ⟨trivial, h0, h1, h2, h3⟩
  · refine ⟨sumLpex.psdata, firstEntry (-3), ?_, ?_⟩
    · intro k _
      simp only [sumLpex]
      split_ifs <;> first | contradiction | norm_num
    · simp [computeLambda, lambda2Ray, forLoop, sumLpex, firstEntry, RisNegative, RcreateTemp]
  · intro hpt
    obtain ⟨h0, h1, _, _⟩ := pointWeight_spec psdata.npsbasis correction
      (fun k => psdata.interiorpt (psdata.psbasis k)) (fun _ => True)
      (fun _ _ _ => trivial) (fun k hk _ => hpt k hk)
    simp only [computeLambda, if_true, lambda1Point_eq]
    exact ⟨by linarith, by linarith, by ring⟩
  · intro hpt
    obtain ⟨h0, h1, _, _⟩ := pointWeight_spec psdata.nextendedrows approxdual
      psdata.interiorpt (fun e => approxdual e < 0) (fun _ _ h => h) hpt
    rw [computeLambdaTwo_point]
    exact ⟨by linarith, by linarith, by ring⟩

/-- Witness of C8: for the interior ray of `sumLpex` (positive on `S`) and the corrected vector
with the single negative entry `-3`, the shifted right-hand side coordinate is nonnegative. -/
theorem interiorRay_lambda_spec_witness :
    0 ≤ firstEntry (-3) 0
      + (computeLambda sumLpex.psdata false (firstEntry (-3))).2
        * sumLpex.psdata.interiorray (sumLpex.psdata.psbasis 0) :=
  (interiorRay_lambda_spec sumLpex.psdata (firstEntry (-3)) (fun _ => 0)).1.2.2.2.2
    (by intro k _ _; simp only [sumLpex]; split_ifs <;> first | contradiction | norm_num)
    0 (by simp [sumLpex]) (by simp [sumLpex])


/-! ## Evaluation of the dual objective (`getPSdual`, lines 3182-3214) -/

theorem raddProdLoop_some (y : Nat → ℚ) (c : Nat → SCIP_Rational) (N : Nat)
    (h : ∀ i, i < N → RisAbsInfinity (c i) = true → y i = 0) :
    forLoop (fun i dualbound => dualbound.bind (fun d => RaddProd d (y i) (c i))) N (some 0)
      = some (∑ i ∈ Finset.range N, y i * finVal (c i)) := by
  induction N with
  | zero => simp [forLoop_zero]
  | succ m ih =>
    rw [forLoop_succ, ih (fun i hi => h i (Nat.lt_succ_of_lt hi)), Finset.sum_range_succ]
    have hm := h m (Nat.lt_succ_self m)
    cases hc : c m with
    | fin b => simp [RaddProd, finVal]
    | inf =>
      have : y m = 0 := hm (by simp [hc, RisAbsInfinity])
      simp [RaddProd, finVal, this]
    | neginf =>
      have : y m = 0 := hm (by simp [hc, RisAbsInfinity])
      simp [RaddProd, finVal, this]

theorem raddProdLoop_none (y : Nat → ℚ) (c : Nat → SCIP_Rational) (N : Nat)
    (h : ∃ i, i < N ∧ RisAbsInfinity (c i) = true ∧ y i ≠ 0) :
    forLoop (fun i dualbound => dualbound.bind (fun d => RaddProd d (y i) (c i))) N (some 0)
      = none := by
  induction N with
  | zero =>
    obtain ⟨i, hi, _⟩ := h
    exact absurd hi (Nat.not_lt_zero i)
  | succ m ih =>
    rw [forLoop_succ]
    obtain ⟨i, hi, hinf, hy⟩ := h
    by_cases him : i = m
    · subst him
      cases hl : forLoop (fun i dualbound => dualbound.bind (fun d => RaddProd d (y i) (c i)))
          i (some 0) with
      | none => rfl
      | some d =>
        cases hc : c i with
        | fin b => simp [hc, RisAbsInfinity] at hinf
        | inf => simp [RaddProd, hy]
        | neginf => simp [RaddProd, hy]
    · rw [ih ⟨i, by omega, hinf, hy⟩]
      rfl

theorem raddProdLoop_eq_some (y : Nat → ℚ) (c : Nat → SCIP_Rational) (N : Nat) (d : ℚ)
    (h : forLoop (fun i dualbound => dualbound.bind (fun d => RaddProd d (y i) (c i))) N (some 0)
      = some d) :
    (∀ i, i < N → RisAbsInfinity (c i) = true → y i = 0)
    ∧ d = ∑ i ∈ Finset.range N, y i * finVal (c i) := by
  have hall : ∀ i, i < N → RisAbsInfinity (c i) = true → y i = 0 := by
    intro i hi hinf
    by_contra hy
    rw [raddProdLoop_none y c N ⟨i, hi, hinf, hy⟩] at h
    exact Option.noConfusion h
  refine ⟨hall, ?_⟩
  rw [raddProdLoop_some y c N hall] at h
  exact (Option.some.inj h).symm

theorem sum_filter_finite (y : Nat → ℚ) (c : Nat → SCIP_Rational) (N : Nat) :
    ∑ i ∈ (Finset.range N).filter (fun i => RisAbsInfinity (c i) = false), y i * finVal (c i)
      = ∑ i ∈ Finset.range N, y i * finVal (c i) := by
  rw [Finset.sum_filter]
  apply Finset.sum_congr rfl
  intro i _
  cases hc : c i <;> simp [RisAbsInfinity, finVal]

theorem dualObjective_eq (lpex : SCIP_LPEX) (y : Nat → ℚ) :
    dualObjective lpex y
      = forLoop (fun i dualbound => dualbound.bind
          (fun d => RaddProd d (y i) (pairedBound lpex y i))) (lpex.nrows + lpex.ncols) (some 0) :=
  rfl

theorem finalDual_congr (ext : External) (lp : SCIP_LP) (lpex : SCIP_LPEX) (usefarkas b : Bool) :
    finalDual ext { lp with hasprovedbound := b } lpex usefarkas
      = finalDual ext lp lpex usefarkas := rfl

theorem hasInvalidRow_congr (lp : SCIP_LP) (nrows : Nat) (usefarkas b : Bool) :
    hasInvalidRow { lp with hasprovedbound := b } nrows usefarkas
      = hasInvalidRow lp nrows usefarkas := rfl

/-- A call of `getPSdual` that passes the guard and the `SCIP_INVALID` test, and whose final dual
vector has a defined objective value, returns what `storeBound` makes of that value. -/
theorem getPSdual_of_evaluated (ext : External) (lp : SCIP_LP) (lpex : SCIP_LPEX)
    (stat : SCIP_STAT) (usefarkas : Bool) (y : Nat → ℚ) (d : ℚ)
    (hguard : passesGuard lpex usefarkas)
    (hvalid : hasInvalidRow lp lpex.nrows usefarkas = false)
    (hy : finalDual ext lp lpex usefarkas = some y)
    (hd : dualObjective lpex y = some d) :
    getPSdual ext lp lpex stat usefarkas
      = some (storeBound ext { lp with hasprovedbound := true } lpex
          (if usefarkas then { stat with nprojshift := stat.nprojshift + 1 }
           else { stat with nprojshiftinf := stat.nprojshiftinf + 1 }) usefarkas d) := by
  unfold passesGuard at hguard
  unfold getPSdual
  simp only [hguard, Bool.false_eq_true, if_false, hasInvalidRow_congr, hvalid, finalDual_congr,
    hy, hd]

/-- Whenever `getPSdual` returns with a proved bound, the call went through the evaluation. -/
theorem getPSdual_proved_inv (ext : External) (lp : SCIP_LP) (lpex : SCIP_LPEX)
    (stat : SCIP_STAT) (usefarkas : Bool) (r : SCIP_LP × SCIP_LPEX × SCIP_STAT)
    (hret : getPSdual ext lp lpex stat usefarkas = some r)
    (hproved : r.1.hasprovedbound = true) :
    ∃ y d, finalDual ext lp lpex usefarkas = some y ∧ dualObjective lpex y = some d
      ∧ (usefarkas = false → r.2.1.lpobjval = SCIP_Rational.fin d)
      ∧ (usefarkas = true → 0 < d ∧ r.2.1.lpobjval = SCIP_Rational.inf) := by
  unfold getPSdual at hret
  simp only [hasInvalidRow_congr, finalDual_congr] at hret
  by_cases hg : ((lpex.psdata.psdatafail && !usefarkas)
      || (usefarkas && !lpex.psdata.pshasray)) = true
  · rw [if_pos hg] at hret
    have := Option.some.inj hret
    subst this
    exact absurd hproved (by simp)
  · rw [if_neg hg] at hret
    by_cases hinv : hasInvalidRow lp lpex.nrows usefarkas = true
    · rw [if_pos hinv] at hret
      have := Option.some.inj hret
      subst this
      exact absurd hproved (by simp)
    · rw [if_neg hinv] at hret
      cases hy : finalDual ext lp lpex usefarkas with
      | none =>
        simp only [hy] at hret
        have := Option.some.inj hret
        subst this
        exact absurd hproved (by simp)
      | some y =>
        simp only [hy] at hret
        cases hd : dualObjective lpex y with
        | none =>
          simp only [hd] at hret
          exact Option.noConfusion hret
        | some d =>
          simp only [hd] at hret
          have := Option.some.inj hret
          subst this
          refine ⟨y, d, rfl, hd, ?_, ?_⟩
          · intro hu
            subst hu
            simp [storeBound]
          · intro hu
            subst hu
            by_cases hpos : RisPositive d = true
            · have : 0 < d := by simpa [RisPositive] using hpos
              simp [storeBound, hpos, this]
            · simp [storeBound, hpos] at hproved


/-! ## Concrete runs -/

theorem farkas_finalDual :
    finalDual (mkExternal farkasSolve) (farkasLp (1 / 2)) farkasLpex true = some farkasFinal := by
  norm_num [finalDual, Function.update_apply, farkasLpex, farkasLp, mkExternal, farkasSolve,
    readApproxdual, forLoop,
    computeIsupper, fixArtificial, computeViolation, initViolation, subtractRows, computeIsfeas,
    projectAndShift, projectionStep, computeLambda, lambda1Point, lambda2Ray, transformBack,
    performShift, selectedSide, RisAbsInfinity, RisPositive, RisNegative, RisZero, RcreateTemp,
    List.range, List.range.loop]
  funext c
  simp only [Function.update_apply, farkasFinal]
  split_ifs <;> first | rfl | omega

theorem farkas_dualObjective : dualObjective farkasLpex farkasFinal = some 1 := by
  norm_num [dualObjective, forLoop, farkasLpex, farkasFinal, RaddProd, selectedSide, RisPositive]

theorem farkas_passesGuard : passesGuard farkasLpex true := by
  simp [passesGuard, farkasLpex]

theorem farkas_valid (c : ℚ) : hasInvalidRow (farkasLp c) farkasLpex.nrows true = false := by
  norm_num [hasInvalidRow, farkasLp, farkasLpex, SCIP_INVALID, List.range, List.range.loop]

theorem sum_passesGuard (usefarkas : Bool) : passesGuard sumLpex usefarkas := by
  cases usefarkas <;> simp [passesGuard, sumLpex]

theorem sum_valid (y : ℚ) (hy : y ≠ SCIP_INVALID) :
    hasInvalidRow (sumLp y) sumLpex.nrows false = false := by
  simp [hasInvalidRow, sumLp, sumLpex, List.range, List.range.loop, hy]

theorem sum_violation_zero :
    ∀ j, j < sumLpex.ncols →
      computeViolation sumLpex false (liftedDual (sumLp (-1)) sumLpex false) j = 0 := by
  intro j hj
  have hj2 : j < 2 := hj
  interval_cases j <;>
    norm_num [computeViolation, initViolation, subtractRows, liftedDual, readApproxdual,
      fixArtificial, computeIsupper, forLoop, Function.update_apply, sumLpex, sumLp, selectedSide,
      RisAbsInfinity, RisPositive]

/-! ## Claims on the evaluation -/

/-- C6: the certified objective computed by `getPSdual` equals the sum, over exactly those rows
and columns whose paired bound is finite, of final dual value times that bound (`lhs`/`lb` for a
strictly positive value, `rhs`/`ub` otherwise); a coordinate paired with an infinite bound is
skipped (it carries the value zero) and does not enter the sum. The value stored by a successful
call in bound mode is this sum. -/
theorem getPSdual_objective_finite_sum (ext : External) (lp : SCIP_LP) (lpex : SCIP_LPEX)
    (stat : SCIP_STAT) (usefarkas : Bool) :
    (∀ (y : Nat → ℚ) (d : ℚ), dualObjective lpex y = some d →
      d = ∑ i ∈ (Finset.range (lpex.nrows + lpex.ncols)).filter
            (fun i => RisAbsInfinity (pairedBound lpex y i) = false),
          y i * finVal (pairedBound lpex y i)
      ∧ ∀ i, i < lpex.nrows + lpex.ncols →
          RisAbsInfinity (pairedBound lpex y i) = true → y i = 0)
    ∧ (∀ y : Nat → ℚ,
        (∀ i, i < lpex.nrows + lpex.ncols →
          RisAbsInfinity (pairedBound lpex y i) = true → y i = 0) →
        dualObjective lpex y
          = some (∑ i ∈ (Finset.range (lpex.nrows + lpex.ncols)).filter
              (fun i => RisAbsInfinity (pairedBound lpex y i) = false),
            y i * finVal (pairedBound lpex y i)))
    ∧ (∀ r, getPSdual ext lp lpex stat usefarkas = some r → r.1.hasprovedbound = true →
        usefarkas = false →
        ∃ y, finalDual ext lp lpex usefarkas = some y
          ∧ r.2.1.lpobjval
            = SCIP_Rational.fin (∑ i ∈ (Finset.range (lpex.nrows + lpex.ncols)).filter
                (fun i => RisAbsInfinity (pairedBound lpex y i) = false),
              y i * finVal (pairedBound lpex y i))) := by
  refine ⟨?_, ?_, ?_⟩
  · intro y d hd
    rw [dualObjective_eq] at hd
    obtain ⟨h1, h2⟩ := raddProdLoop_eq_some y (pairedBound lpex y) _ d hd
    exact ⟨by rw [sum_filter_finite]; exact h2, h1⟩
  · intro y hy
    rw [dualObjective_eq, raddProdLoop_some y (pairedBound lpex y) _ hy, sum_filter_finite]
  · intro r hret hproved hu
    obtain ⟨y, d, hy, hd, hb, _⟩ := getPSdual_proved_inv ext lp lpex stat usefarkas r hret hproved
    refine ⟨y, hy, ?_⟩
    rw [hb hu]
    rw [dualObjective_eq] at hd
    obtain ⟨_, h2⟩ := raddProdLoop_eq_some y (pairedBound lpex y) _ d hd
    rw [sum_filter_finite, h2]

/-- Witness of C6: the Farkas vector `(1, -1)` of `farkasLpex` has the dual objective `1`, the sum
over the two finite paired bounds `lhs = 2` and `ub = 1`. -/
theorem getPSdual_objective_finite_sum_witness :
    dualObjective farkasLpex farkasFinal = some 1
    ∧ (1 : ℚ) = ∑ i ∈ (Finset.range (farkasLpex.nrows + farkasLpex.ncols)).filter
            (fun i => RisAbsInfinity (pairedBound farkasLpex farkasFinal i) = false),
          farkasFinal i * finVal (pairedBound farkasLpex farkasFinal i) :=
  ⟨farkas_dualObjective,
   ((getPSdual_objective_finite_sum (mkExternal farkasSolve) (farkasLp (1 / 2)) farkasLpex
      zeroStat true).1 farkasFinal 1 farkas_dualObjective).1⟩

/-- C4: if the lifted (clamped) approximate dual has zero equality violation in every column,
`getPSdual` performs no triangular solve and applies no correction and no shift: whatever the
solver is, the dual vector from which the bound is evaluated is exactly the lifted input, and the
certified value is the sum over rows and columns of lifted value times the bound on its selected
side. -/
theorem getPSdual_feasible_input_unchanged (ext : External) (lp : SCIP_LP) (lpex : SCIP_LPEX)
    (stat : SCIP_STAT) (usefarkas : Bool)
    (hguard : passesGuard lpex usefarkas)
    (hvalid : hasInvalidRow lp lpex.nrows usefarkas = false)
    (hzero : ∀ j, j < lpex.ncols →
      computeViolation lpex usefarkas (liftedDual lp lpex usefarkas) j = 0) :
    finalDual ext lp lpex usefarkas = some (liftedDual lp lpex usefarkas)
    ∧ dualObjective lpex (liftedDual lp lpex usefarkas)
        = some (∑ i ∈ Finset.range (lpex.nrows + lpex.ncols),
            liftedDual lp lpex usefarkas i
              * finVal (selectedSide lpex
                  (!RisPositive (approxValue lp lpex.nrows usefarkas i)) i))
    ∧ getPSdual ext lp lpex stat usefarkas
        = some (storeBound ext { lp with hasprovedbound := true } lpex
            (if usefarkas then { stat with nprojshift := stat.nprojshift + 1 }
             else { stat with nprojshiftinf := stat.nprojshiftinf + 1 }) usefarkas
            (∑ i ∈ Finset.range (lpex.nrows + lpex.ncols),
              liftedDual lp lpex usefarkas i
                * finVal (selectedSide lpex
                    (!RisPositive (approxValue lp lpex.nrows usefarkas i)) i))) := by
  have hfeas : computeIsfeas lpex.ncols
      (computeViolation lpex usefarkas (liftedDual lp lpex usefarkas)) = true := by
    unfold computeIsfeas
    rw [List.all_eq_true]
    intro j hj
    simp only [RisZero, decide_eq_true_eq]
    exact hzero j (List.mem_range.mp hj)
  have hfinal : finalDual ext lp lpex usefarkas = some (liftedDual lp lpex usefarkas) := by
    unfold liftedDual at hfeas
    unfold finalDual liftedDual
    simp only [hfeas, Bool.not_true, Bool.false_eq_true, if_false]
  have hterm : ∀ i, i < lpex.nrows + lpex.ncols →
      (RisAbsInfinity (pairedBound lpex (liftedDual lp lpex usefarkas) i) = true →
        liftedDual lp lpex usefarkas i = 0)
      ∧ liftedDual lp lpex usefarkas i * finVal (pairedBound lpex (liftedDual lp lpex usefarkas) i)
        = liftedDual lp lpex usefarkas i
          * finVal (selectedSide lpex (!RisPositive (approxValue lp lpex.nrows usefarkas i)) i) := by
    intro i hi
    have hl := liftedDual_eq lp lpex usefarkas i hi
    by_cases hinf : RisAbsInfinity (selectedSide lpex
        (!RisPositive (approxValue lp lpex.nrows usefarkas i)) i) = true
    · rw [if_pos hinf] at hl
      exact ⟨fun _ => hl, by rw [hl, zero_mul, zero_mul]⟩
    · rw [if_neg hinf] at hl
      have hpb : pairedBound lpex (liftedDual lp lpex usefarkas) i
          = selectedSide lpex (!RisPositive (approxValue lp lpex.nrows usefarkas i)) i := by
        unfold pairedBound
        rw [hl]
      rw [hpb]
      exact ⟨fun h => absurd h hinf, rfl⟩
  have hobj : dualObjective lpex (liftedDual lp lpex usefarkas)
      = some (∑ i ∈ Finset.range (lpex.nrows + lpex.ncols),
          liftedDual lp lpex usefarkas i
            * finVal (selectedSide lpex
                (!RisPositive (approxValue lp lpex.nrows usefarkas i)) i)) := by
    rw [dualObjective_eq, raddProdLoop_some _ _ _ (fun i hi => (hterm i hi).1)]
    congr 1
    exact Finset.sum_congr rfl (fun i hi => (hterm i (Finset.mem_range.mp hi)).2)
  exact ⟨hfinal, hobj, getPSdual_of_evaluated ext lp lpex stat usefarkas _ _ hguard hvalid hfinal hobj⟩

/-- Witness of C4: for `x + y ≤ 10`, `min -x - y` with row dual `-1` and reduced costs `0` the
violation is zero and the final dual vector is the lifted one, even with a solver that fails. -/
theorem getPSdual_feasible_input_unchanged_witness :
    (∀ j, j < sumLpex.ncols →
      computeViolation sumLpex false (liftedDual (sumLp (-1)) sumLpex false) j = 0)
    ∧ finalDual (mkExternal (fun _ => none)) (sumLp (-1)) sumLpex false
        = some (liftedDual (sumLp (-1)) sumLpex false) :=
  ⟨sum_violation_zero,
   (getPSdual_feasible_input_unchanged (mkExternal (fun _ => none)) (sumLp (-1)) sumLpex zeroStat
      false (sum_passesGuard false) (sum_valid (-1) (by norm_num [SCIP_INVALID]))
      sum_violation_zero).1⟩

/-- C10: in infeasibility mode both certifying methods report a proof only for a strictly
positive value: `getPSdual` with `usefarkas = TRUE`, when it reaches the evaluation step with the
dual objective `d`, ends with `hasprovedbound = TRUE` if and only if `d > 0`, and `boundShift`
with `usefarkas = TRUE` ends with `hasprovedbound = TRUE` if and only if the safe bound it stores
is `> 0`. -/
theorem farkas_proof_iff_positive (ext : External) (lp : SCIP_LP) (lpex : SCIP_LPEX)
    (stat : SCIP_STAT) (y : Nat → ℚ) (d minprodInf : ℚ)
    (hguard : passesGuard lpex true)
    (hvalid : hasInvalidRow lp lpex.nrows true = false)
    (hy : finalDual ext lp lpex true = some y)
    (hd : dualObjective lpex y = some d) :
    (∃ r, getPSdual ext lp lpex stat true = some r ∧ (r.1.hasprovedbound = true ↔ 0 < d))
    ∧ ((boundShift ext minprodInf lp stat true).1.hasprovedbound = true
        ↔ 0 < (boundShift ext minprodInf lp stat true).2.2) := by
  constructor
  · refine ⟨_, getPSdual_of_evaluated ext lp lpex stat true y d hguard hvalid hy hd, ?_⟩
    by_cases hpos : 0 < d
    · simp [storeBound, RisPositive, hpos]
    · simp [storeBound, RisPositive, hpos]
  · unfold boundShift
    by_cases h0 : minprodInf ≤ 0
    · simp [h0]
    · simp [h0, not_le.mp h0]

/-- Witness of C10: on the infeasible relaxation `farkasLpex` the evaluation step is reached with
the dual objective `1`, and `getPSdual` reports the proof. -/
theorem farkas_proof_iff_positive_witness :
    finalDual (mkExternal farkasSolve) (farkasLp (1 / 2)) farkasLpex true = some farkasFinal
    ∧ dualObjective farkasLpex farkasFinal = some 1
    ∧ ∃ r, getPSdual (mkExternal farkasSolve) (farkasLp (1 / 2)) farkasLpex zeroStat true = some r
        ∧ (r.1.hasprovedbound = true ↔ (0 : ℚ) < 1) :=
  ⟨farkas_finalDual, farkas_dualObjective,
   (farkas_proof_iff_positive (mkExternal farkasSolve) (farkasLp (1 / 2)) farkasLpex zeroStat
      farkasFinal 1 0 farkas_passesGuard (farkas_valid (1 / 2)) farkas_finalDual
      farkas_dualObjective).1⟩


/-! ## Pairwise simplification (`getPSdualTwo`, lines 2459-2488) -/

theorem sum_update_mul (N : Nat) (a w : Nat → ℚ) (u : Nat) (x : ℚ) (hu : u < N) :
    ∑ e ∈ Finset.range N, Function.update a u x e * w e
      = ∑ e ∈ Finset.range N, a e * w e + (x - a u) * w u := by
  have h : ∀ e ∈ Finset.range N, Function.update a u x e * w e
      = a e * w e + (if e = u then (x - a u) * w u else 0) := by
    intro e _
    by_cases he : e = u
    · subst he
      simp only [Function.update_same, if_true]
      ring
    · simp only [Function.update_noteq he, he, if_false, add_zero]
  rw [Finset.sum_congr rfl h, Finset.sum_add_distrib, Finset.sum_ite_eq' (Finset.range N) u,
    if_pos (Finset.mem_range.mpr hu)]

theorem costvectTwo_spec (lpex : SCIP_LPEX) (nrowsps : Nat) :
    (∀ i, i < nrowsps → costvectTwo lpex nrowsps i = (lpex.rows i).lhs
      ∧ costvectTwo lpex nrowsps (i + nrowsps) = Rneg (lpex.rows i).rhs)
    ∧ (∀ j, j < lpex.ncols → costvectTwo lpex nrowsps (j + 2 * nrowsps) = (lpex.cols j).lb
      ∧ costvectTwo lpex nrowsps (j + 2 * nrowsps + lpex.ncols) = Rneg (lpex.cols j).ub) := by
  unfold costvectTwo
  have h1 := forLoop_induction
    (fun k (c : Nat → SCIP_Rational) => ∀ i, i < k → c i = (lpex.rows i).lhs
      ∧ c (i + nrowsps) = Rneg (lpex.rows i).rhs)
    (fun i c => Function.update (Function.update c i (lpex.rows i).lhs) (i + nrowsps)
      (Rneg (lpex.rows i).rhs))
    (fun _ => SCIP_Rational.fin 0) nrowsps
    (fun i hi => absurd hi (Nat.not_lt_zero i))
    (by
      intro k hk c hc i hi
      beta_reduce
      by_cases hik : i = k
      · subst hik
        have hne : i ≠ i + nrowsps := by omega
        exact ⟨by rw [Function.update_noteq hne, Function.update_same],
          by rw [Function.update_same]⟩
      · have hlt : i < k := by omega
        have hn1 : i ≠ k + nrowsps := by omega
        have hn2 : i + nrowsps ≠ k + nrowsps := by omega
        have hn3 : i + nrowsps ≠ k := by omega
        exact ⟨by rw [Function.update_noteq hn1, Function.update_noteq hik]; exact (hc i hlt).1,
          by rw [Function.update_noteq hn2, Function.update_noteq hn3]; exact (hc i hlt).2⟩)
  have h2 := forLoop_induction
    (fun k (c : Nat → SCIP_Rational) =>
      (∀ i, i < nrowsps → c i = (lpex.rows i).lhs ∧ c (i + nrowsps) = Rneg (lpex.rows i).rhs)
      ∧ (∀ j, j < k → c (j + 2 * nrowsps) = (lpex.cols j).lb
          ∧ c (j + 2 * nrowsps + lpex.ncols) = Rneg (lpex.cols j).ub))
    (fun i c => Function.update (Function.update c (i + 2 * nrowsps) (lpex.cols i).lb)
      (i + 2 * nrowsps + lpex.ncols) (Rneg (lpex.cols i).ub))
    _ lpex.ncols
    ⟨h1, fun j hj => absurd hj (Nat.not_lt_zero j)⟩
    (by
      intro k hk c hc
      beta_reduce
      refine ⟨?_, ?_⟩
      · intro i hi
        have hn1 : i ≠ k + 2 * nrowsps + lpex.ncols := by omega
        have hn2 : i ≠ k + 2 * nrowsps := by omega
        have hn3 : i + nrowsps ≠ k + 2 * nrowsps + lpex.ncols := by omega
        have hn4 : i + nrowsps ≠ k + 2 * nrowsps := by omega
        exact ⟨by rw [Function.update_noteq hn1, Function.update_noteq hn2]; exact (hc.1 i hi).1,
          by rw [Function.update_noteq hn3, Function.update_noteq hn4]; exact (hc.1 i hi).2⟩
      · intro j hj
        by_cases hjk : j = k
        · subst hjk
          have hne : j + 2 * nrowsps ≠ j + 2 * nrowsps + lpex.ncols := by omega
          exact ⟨by rw [Function.update_noteq hne, Function.update_same],
            by rw [Function.update_same]⟩
        · have hlt : j < k := by omega
          have hn1 : j + 2 * nrowsps ≠ k + 2 * nrowsps + lpex.ncols := by omega
          have hn2 : j + 2 * nrowsps ≠ k + 2 * nrowsps := by omega
          have hn3 : j + 2 * nrowsps + lpex.ncols ≠ k + 2 * nrowsps + lpex.ncols := by omega
          have hn4 : j + 2 * nrowsps + lpex.ncols ≠ k + 2 * nrowsps := by omega
          exact ⟨by rw [Function.update_noteq hn1, Function.update_noteq hn2]
                    exact (hc.2 j hlt).1,
            by rw [Function.update_noteq hn3, Function.update_noteq hn4]
               exact (hc.2 j hlt).2⟩)
  exact h2

/-- One pass of the pairwise simplification on the pair `(u, v)`: the vector stays nonnegative
and zero on the infinite coordinates, and the objective does not decrease. -/
theorem pairStep_spec (N : Nat) (w : Nat → SCIP_Rational) (a : Nat → ℚ) (u v : Nat)
    (hu : u < N) (hv : v < N) (huv : u ≠ v)
    (hnn : ∀ e, e < N → 0 ≤ a e)
    (hzero : ∀ e, e < N → RisAbsInfinity (w e) = true → a e = 0)
    (hpair : RisAbsInfinity (w u) = false → RisAbsInfinity (w v) = false →
      finVal (w u) + finVal (w v) ≤ 0) :
    (∀ e, e < N → 0 ≤ (if RisPositive (min (a u) (a v)) then
        Function.update (Function.update a u (a u - min (a u) (a v))) v
          (Function.update a u (a u - min (a u) (a v)) v - min (a u) (a v)) else a) e)
    ∧ (∀ e, e < N → RisAbsInfinity (w e) = true →
        (if RisPositive (min (a u) (a v)) then
          Function.update (Function.update a u (a u - min (a u) (a v))) v
            (Function.update a u (a u - min (a u) (a v)) v - min (a u) (a v)) else a) e = 0)
    ∧ ∑ e ∈ Finset.range N, a e * finVal (w e)
        ≤ ∑ e ∈ Finset.range N,
          (if RisPositive (min (a u) (a v)) then
            Function.update (Function.update a u (a u - min (a u) (a v))) v
              (Function.update a u (a u - min (a u) (a v)) v - min (a u) (a v)) else a) e
            * finVal (w e) := by
  by_cases ht : 0 < min (a u) (a v)
  · have hP : RisPositive (min (a u) (a v)) = true := by simp [RisPositive, ht]
    simp only [hP, if_true]
    have hau : 0 < a u := lt_of_lt_of_le ht (min_le_left _ _)
    have hav : 0 < a v := lt_of_lt_of_le ht (min_le_right _ _)
    have hfu : RisAbsInfinity (w u) = false := by
      by_contra h
      have := hzero u hu (by simpa using h)
      linarith
    have hfv : RisAbsInfinity (w v) = false := by
      by_contra h
      have := hzero v hv (by simpa using h)
      linarith
    have hvu : v ≠ u := fun h => huv h.symm
    have hval : ∀ e, Function.update (Function.update a u (a u - min (a u) (a v))) v
          (Function.update a u (a u - min (a u) (a v)) v - min (a u) (a v)) e
        = if e = v then a v - min (a u) (a v) else if e = u then a u - min (a u) (a v)
          else a e := by
      intro e
      by_cases hev : e = v
      · subst hev
        rw [Function.update_same, Function.update_noteq hvu, if_pos rfl]
      · rw [Function.update_noteq hev, if_neg hev]
        by_cases heu : e = u
        · subst heu
          rw [Function.update_same, if_pos rfl]
        · rw [Function.update_noteq heu, if_neg heu]
    refine ⟨?_, ?_, ?_⟩
    · intro e he
      rw [hval]
      split_ifs
      · linarith [min_le_right (a u) (a v)]
      · linarith [min_le_left (a u) (a v)]
      · exact hnn e he
    · intro e he hinf
      rw [hval]
      split_ifs with h1 h2
      · subst h1
        rw [hfv] at hinf
        exact absurd hinf (by simp)
      · subst h2
        rw [hfu] at hinf
        exact absurd hinf (by simp)
      · exact hzero e he hinf
    · rw [sum_update_mul N _ _ v _ hv, sum_update_mul N _ _ u _ hu,
        Function.update_noteq hvu]
      have := hpair hfu hfv
      nlinarith
  · have hP : RisPositive (min (a u) (a v)) = false := by simp [RisPositive, ht]
    simp only [hP, Bool.false_eq_true, if_false]
    exact ⟨hnn, hzero, le_refl _⟩

theorem finVal_pair_le (l r : SCIP_Rational) (h : Rle l r)
    (hl : RisAbsInfinity l = false) (hr : RisAbsInfinity (Rneg r) = false) :
    finVal l + finVal (Rneg r) ≤ 0 := by
  cases l <;> cases r <;> simp_all [Rle, Rneg, finVal, RisAbsInfinity]

/-- C9: pairwise simplification in `getPSdualTwo` never decreases the certified objective: for
every entrywise-nonnegative extended dual vector that is zero on the coordinates with infinite
bound, and bounds with `lhs ≤ rhs` and `lb ≤ ub`, the value `Σ y_i * cost_i`
(`cost = [lhs, -rhs, lb, -ub]`) after subtracting the pair minimum from both coordinates of every
pair is at least the value before. -/
theorem pairwiseSimplify_objective_mono (lpex : SCIP_LPEX) (nrowsps : Nat) (y : Nat → ℚ)
    (hnn : ∀ e, e < 2 * nrowsps + 2 * lpex.ncols → 0 ≤ y e)
    (hzero : ∀ e, e < 2 * nrowsps + 2 * lpex.ncols →
      RisAbsInfinity (costvectTwo lpex nrowsps e) = true → y e = 0)
    (hrow : ∀ i, i < nrowsps → Rle (lpex.rows i).lhs (lpex.rows i).rhs)
    (hcol : ∀ j, j < lpex.ncols → Rle (lpex.cols j).lb (lpex.cols j).ub) :
    ∃ v1 v2 : ℚ,
      dualObjectiveTwo (2 * nrowsps + 2 * lpex.ncols) (costvectTwo lpex nrowsps) y = some v1
      ∧ dualObjectiveTwo (2 * nrowsps + 2 * lpex.ncols) (costvectTwo lpex nrowsps)
          (pairwiseSimplify nrowsps lpex.ncols y) = some v2
      ∧ v1 ≤ v2 := by
  obtain ⟨hcr, hcc⟩ := costvectTwo_spec lpex nrowsps
  have hloop1 := forLoop_induction
    (fun _ (a : Nat → ℚ) => (∀ e, e < 2 * nrowsps + 2 * lpex.ncols → 0 ≤ a e)
      ∧ (∀ e, e < 2 * nrowsps + 2 * lpex.ncols →
          RisAbsInfinity (costvectTwo lpex nrowsps e) = true → a e = 0)
      ∧ ∑ e ∈ Finset.range (2 * nrowsps + 2 * lpex.ncols), y e * finVal (costvectTwo lpex nrowsps e)
        ≤ ∑ e ∈ Finset.range (2 * nrowsps + 2 * lpex.ncols),
            a e * finVal (costvectTwo lpex nrowsps e))
    (fun i a =>
      let tmp := min (a i) (a (i + nrowsps))
      if RisPositive tmp then
        let a' := Function.update a i (a i - tmp)
        Function.update a' (i + nrowsps) (a' (i + nrowsps) - tmp)
      else a)
    y nrowsps ⟨hnn, hzero, le_refl _⟩
    (by
      intro k hk a ⟨ha1, ha2, ha3⟩
      obtain ⟨g1, g2, g3⟩ := pairStep_spec (2 * nrowsps + 2 * lpex.ncols)
        (costvectTwo lpex nrowsps) a k (k + nrowsps) (by omega) (by omega) (by omega) ha1 ha2
        (by
          intro hf1 hf2
          rw [(hcr k hk).1] at hf1 ⊢
          rw [(hcr k hk).2] at hf2 ⊢
          exact finVal_pair_le _ _ (hrow k hk) hf1 hf2)
      exact ⟨g1, g2, le_trans ha3 g3⟩)
  have hloop2 := forLoop_induction
    (fun _ (a : Nat → ℚ) => (∀ e, e < 2 * nrowsps + 2 * lpex.ncols → 0 ≤ a e)
      ∧ (∀ e, e < 2 * nrowsps + 2 * lpex.ncols →
          RisAbsInfinity (costvectTwo lpex nrowsps e) = true → a e = 0)
      ∧ ∑ e ∈ Finset.range (2 * nrowsps + 2 * lpex.ncols), y e * finVal (costvectTwo lpex nrowsps e)
        ≤ ∑ e ∈ Finset.range (2 * nrowsps + 2 * lpex.ncols),
            a e * finVal (costvectTwo lpex nrowsps e))
    (fun i a =>
      let tmp := min (a (i + 2 * nrowsps)) (a (i + 2 * nrowsps + lpex.ncols))
      if RisPositive tmp then
        let a' := Function.update a (i + 2 * nrowsps) (a (i + 2 * nrowsps) - tmp)
        Function.update a' (i + 2 * nrowsps + lpex.ncols)
          (a' (i + 2 * nrowsps + lpex.ncols) - tmp)
      else a)
    _ lpex.ncols hloop1
    (by
      intro k hk a ⟨ha1, ha2, ha3⟩
      obtain ⟨g1, g2, g3⟩ := pairStep_spec (2 * nrowsps + 2 * lpex.ncols)
        (costvectTwo lpex nrowsps) a (k + 2 * nrowsps) (k + 2 * nrowsps + lpex.ncols)
        (by omega) (by omega) (by omega) ha1 ha2
        (by
          intro hf1 hf2
          rw [(hcc k hk).1] at hf1 ⊢
          rw [(hcc k hk).2] at hf2 ⊢
          exact finVal_pair_le _ _ (hcol k hk) hf1 hf2)
      exact ⟨g1, g2, le_trans ha3 g3⟩)
  obtain ⟨f1, f2, f3⟩ := hloop2
  exact ⟨_, _, raddProdLoop_some y _ _ hzero,
    raddProdLoop_some (pairwiseSimplify nrowsps lpex.ncols y) _ _ f2, f3⟩


/-- Witness of C9: on `x + y ≤ 10` with `0 ≤ x, y ≤ 10` the vector with weight `1` on the lower and
`2` on the upper bound of the first column keeps or improves its objective. -/
theorem pairwiseSimplify_objective_mono_witness :
    ∃ v1 v2 : ℚ,
      dualObjectiveTwo (2 * 1 + 2 * sumLpex.ncols) (costvectTwo sumLpex 1) bothSides = some v1
      ∧ dualObjectiveTwo (2 * 1 + 2 * sumLpex.ncols) (costvectTwo sumLpex 1)
          (pairwiseSimplify 1 sumLpex.ncols bothSides) = some v2
      ∧ v1 ≤ v2 :=
  pairwiseSimplify_objective_mono sumLpex 1 bothSides
    (by
      intro e _
      simp only [bothSides]
      split_ifs <;> norm_num)
    (by
      intro e _ hinf
      by_cases h2 : e = 2
      · subst h2
        norm_num [costvectTwo, forLoop, Function.update_apply, sumLpex, Rneg, RisAbsInfinity]
          at hinf
      · by_cases h4 : e = 4
        · subst h4
          norm_num [costvectTwo, forLoop, Function.update_apply, sumLpex, Rneg, RisAbsInfinity]
            at hinf
        · simp [bothSides, h2, h4])
    (by intro i _; simp [sumLpex, Rle])
    (by intro j _; simp [sumLpex, Rle])


/-! ## A run with an added row and the interior point -/

theorem cut_finalDual :
    finalDual (mkExternal cutSolve) cutLp cutLpex false = some cutFinal := by
  norm_num [finalDual, Function.update_apply, cutLpex, cutLp, mkExternal, cutSolve,
    readApproxdual, forLoop,
    computeIsupper, fixArtificial, computeViolation, initViolation, subtractRows, computeIsfeas,
    projectAndShift, projectionStep, computeLambda, lambda1Point, lambda2Ray, transformBack,
    performShift, selectedSide, RisAbsInfinity, RisPositive, RisNegative, RisZero, RcreateTemp,
    List.range, List.range.loop]
  funext c
  simp only [Function.update_apply, cutFinal]
  split_ifs <;> first | rfl | omega

theorem cut_dualObjective : dualObjective cutLpex cutFinal = some (9 / 4) := by
  norm_num [dualObjective, forLoop, cutLpex, cutFinal, RaddProd, selectedSide, RisPositive]

theorem cut_passesGuard : passesGuard cutLpex false := by
  simp [passesGuard, cutLpex]

theorem cut_valid : hasInvalidRow cutLp cutLpex.nrows false = false := by
  norm_num [hasInvalidRow, cutLp, cutLpex, SCIP_INVALID, List.range, List.range.loop]

theorem cut_solveIsExact : solveIsExact (mkExternal cutSolve) cutLpex := by
  intro r z hz j hj
  have hj0 : j = 0 := by
    have : j < 1 := hj
    omega
  subst hj0
  have hz' : z = fun k => if k = 0 then r 0 else 0 := by
    simp only [mkExternal, cutSolve] at hz
    exact (Option.some.inj hz).symm
  subst hz'
  norm_num [cutLpex, extendedCoef, coef, nrowsPS, Finset.sum_range_succ]

theorem cut_point_dualEqualities :
    dualEqualities cutLpex cutLpex.psdata.interiorpt (fun j => (cutLpex.cols j).obj) := by
  intro j hj
  have hj0 : j = 0 := by
    have : j < 1 := hj
    omega
  subst hj0
  norm_num [cutLpex, extendedCoef, coef, nrowsPS, Finset.sum_range_succ]

theorem cut_feasible : primalFeasible cutLpex (fun _ => 2) := by
  constructor
  · intro i _
    simp only [cutLpex, rowActivity, boundLe, leBound, Finset.sum_range_one]
    split_ifs <;> norm_num
  · intro j _
    simp only [cutLpex, boundLe, leBound]
    norm_num

theorem cut_objValue : objValue cutLpex (fun _ => 2) = 2 := by
  norm_num [objValue, cutLpex, Finset.sum_range_succ]


/-! ## The equality violation as a linear expression -/

theorem scatterRow_eq (idx : Nat → Nat) (vals : Nat → ℚ) (yi : ℚ) (len : Nat) (w0 : Nat → ℚ)
    (j : Nat) :
    forLoop (fun t w => Function.update w (idx t) (w (idx t) - yi * vals t)) len w0 j
      = w0 j - yi * ∑ t ∈ Finset.range len, (if idx t = j then vals t else 0) := by
  induction len with
  | zero => simp [forLoop_zero]
  | succ n ih =>
    rw [forLoop_succ, Finset.sum_range_succ]
    by_cases h : idx n = j
    · subst h
      rw [Function.update_same, ih, if_pos rfl]
      ring
    · have h' : j ≠ idx n := fun e => h e.symm
      rw [Function.update_noteq h', ih, if_neg h]
      ring

theorem subtractRows_eq (lpex : SCIP_LPEX) (y v : Nat → ℚ) (j : Nat) :
    subtractRows lpex y v j = v j - ∑ i ∈ Finset.range lpex.nrows, y i * coef lpex i j := by
  unfold subtractRows
  generalize lpex.nrows = n
  induction n with
  | zero => simp [forLoop_zero]
  | succ n ih =>
    rw [forLoop_succ, scatterRow_eq, ih, Finset.sum_range_succ]
    unfold coef
    ring

theorem computeViolation_eq (lpex : SCIP_LPEX) (usefarkas : Bool) (y : Nat → ℚ) (j : Nat)
    (hj : j < lpex.ncols) :
    computeViolation lpex usefarkas y j
      = (if usefarkas then 0 else (lpex.cols j).obj) - dualLhs lpex y j := by
  unfold computeViolation initViolation dualLhs
  rw [subtractRows_eq]
  rw [forLoop_pointwise (fun i _ => if !usefarkas then (lpex.cols i).obj - y (i + lpex.nrows)
      else -(y (i + lpex.nrows))) _ (fun _ _ => rfl), if_pos hj]
  cases usefarkas
  · simp only [Bool.not_false, if_true, Bool.false_eq_true, if_false]
    ring
  · simp only [Bool.not_true, Bool.false_eq_true, if_false, if_true]
    ring

theorem debugViolation_eq (lpex : SCIP_LPEX) (usefarkas : Bool) (y : Nat → ℚ) (j : Nat)
    (hj : j < lpex.ncols) :
    debugViolation lpex usefarkas y j
      = (if usefarkas then 0 else (lpex.cols j).obj) - dualLhs lpex y j := by
  unfold debugViolation dualLhs
  rw [forLoop_pointwise (fun i v => v - y (i + lpex.nrows)) _ (fun _ _ => rfl), if_pos hj,
    subtractRows_eq,
    forLoop_pointwise (fun i _ => if !usefarkas then (lpex.cols i).obj else 0) _
      (fun _ _ => rfl), if_pos hj]
  cases usefarkas
  · simp only [Bool.not_false, if_true, Bool.false_eq_true, if_false]
    ring
  · simp only [Bool.not_true, Bool.false_eq_true, if_false, if_true]
    ring

/-! ## Weak duality for the evaluated vector -/

theorem sum_coef_mul (lpex : SCIP_LPEX) (x : Nat → ℚ) (i : Nat)
    (hidx : ∀ t, t < (lpex.rows i).len → (lpex.rows i).cols_index t < lpex.ncols) :
    ∑ j ∈ Finset.range lpex.ncols, coef lpex i j * x j = rowActivity lpex x i := by
  unfold coef rowActivity
  simp only [Finset.sum_mul]
  rw [Finset.sum_comm]
  apply Finset.sum_congr rfl
  intro t ht
  have hlt := hidx t (Finset.mem_range.mp ht)
  have h : ∀ j ∈ Finset.range lpex.ncols,
      (if (lpex.rows i).cols_index t = j then (lpex.rows i).vals t else 0) * x j
        = if (lpex.rows i).cols_index t = j then
            (lpex.rows i).vals t * x ((lpex.rows i).cols_index t) else 0 := by
    intro j _
    by_cases hj : (lpex.rows i).cols_index t = j
    · rw [if_pos hj, if_pos hj, hj]
    · rw [if_neg hj, if_neg hj, zero_mul]
  rw [Finset.sum_congr rfl h, Finset.sum_ite_eq (Finset.range lpex.ncols),
    if_pos (Finset.mem_range.mpr hlt)]

theorem sum_dualLhs_mul (lpex : SCIP_LPEX) (y x : Nat → ℚ) (hidx : indicesInRange lpex) :
    ∑ j ∈ Finset.range lpex.ncols, dualLhs lpex y j * x j
      = ∑ i ∈ Finset.range lpex.nrows, y i * rowActivity lpex x i
        + ∑ j ∈ Finset.range lpex.ncols, y (j + lpex.nrows) * x j := by
  unfold dualLhs
  simp only [add_mul, Finset.sum_add_distrib, Finset.sum_mul]
  congr 1
  rw [Finset.sum_comm]
  apply Finset.sum_congr rfl
  intro i hi
  rw [← sum_coef_mul lpex x i (hidx i (Finset.mem_range.mp hi)), Finset.mul_sum]
  apply Finset.sum_congr rfl
  intro j _
  ring

theorem term_le_of_bounds (yc q : ℚ) (lo hi : SCIP_Rational) (hlo : boundLe lo q)
    (hhi : leBound q hi)
    (hz : RisAbsInfinity (if RisPositive yc then lo else hi) = true → yc = 0) :
    yc * finVal (if RisPositive yc then lo else hi) ≤ yc * q := by
  by_cases hpos : 0 < yc
  · have hP : RisPositive yc = true := by simp [RisPositive, hpos]
    rw [hP] at hz ⊢
    simp only [if_true] at hz ⊢
    cases lo with
    | fin a =>
      simp only [finVal]
      exact mul_le_mul_of_nonneg_left hlo (le_of_lt hpos)
    | inf => exact absurd (hz rfl) (ne_of_gt hpos)
    | neginf => exact absurd (hz rfl) (ne_of_gt hpos)
  · have hP : RisPositive yc = false := by simp [RisPositive, hpos]
    rw [hP] at hz ⊢
    simp only [Bool.false_eq_true, if_false] at hz ⊢
    have hle : yc ≤ 0 := not_lt.mp hpos
    cases hi with
    | fin a =>
      simp only [finVal]
      exact mul_le_mul_of_nonpos_left hhi hle
    | inf =>
      have := hz rfl
      simp [this]
    | neginf =>
      have := hz rfl
      simp [this]

/-- Weak duality in the model: the value that the evaluation of `getPSdual` gives for a dual
vector `y` is at most `(A^T y + r) · x` at every primal-feasible `x`. -/
theorem dualObjective_le (lpex : SCIP_LPEX) (y x : Nat → ℚ) (d : ℚ)
    (hidx : indicesInRange lpex) (hd : dualObjective lpex y = some d)
    (hx : primalFeasible lpex x) :
    d ≤ ∑ j ∈ Finset.range lpex.ncols, dualLhs lpex y j * x j := by
  rw [dualObjective_eq] at hd
  obtain ⟨hz, hsum⟩ := raddProdLoop_eq_some y (pairedBound lpex y) _ d hd
  rw [hsum, sum_dualLhs_mul lpex y x hidx, Finset.sum_range_add]
  apply add_le_add
  · apply Finset.sum_le_sum
    intro i hi
    have hi' := Finset.mem_range.mp hi
    have hpb : pairedBound lpex y i
        = if RisPositive (y i) then (lpex.rows i).lhs else (lpex.rows i).rhs := by
      unfold pairedBound selectedSide
      cases RisPositive (y i) <;> simp [hi']
    have hz' := hz i (by omega)
    rw [hpb] at hz' ⊢
    exact term_le_of_bounds _ _ _ _ (hx.1 i hi').1 (hx.1 i hi').2 hz'
  · apply Finset.sum_le_sum
    intro j hj
    have hj' := Finset.mem_range.mp hj
    have hnot : ¬ lpex.nrows + j < lpex.nrows := by omega
    have hpb : pairedBound lpex y (lpex.nrows + j)
        = if RisPositive (y (lpex.nrows + j)) then (lpex.cols j).lb else (lpex.cols j).ub := by
      unfold pairedBound selectedSide
      cases RisPositive (y (lpex.nrows + j)) <;> simp [hnot]
    have hz' := hz (lpex.nrows + j) (by omega)
    rw [hpb] at hz' ⊢
    rw [Nat.add_comm j lpex.nrows]
    exact term_le_of_bounds _ _ _ _ (hx.2 j hj').1 (hx.2 j hj').2 hz'


/-! ## Projection and transformation back (`getPSdual`, lines 2964-3087) -/

theorem spread_update (psbasis : Nat → Nat) (K p m shift : Nat) (corr : Nat → ℚ) (i : Nat)
    (x : ℚ) (c : Nat) (hi : i < K) :
    spread psbasis K p m shift (Function.update corr i x) c
      = spread psbasis K p m shift corr c
        + (if compactIndex p m shift (psbasis i) = c then
            sideSign p m (psbasis i) * (x - corr i) else 0) := by
  unfold spread
  have h : ∀ k ∈ Finset.range K,
      (if compactIndex p m shift (psbasis k) = c then
          sideSign p m (psbasis k) * Function.update corr i x k else 0)
        = (if compactIndex p m shift (psbasis k) = c then
            sideSign p m (psbasis k) * corr k else 0)
          + (if k = i then
              (if compactIndex p m shift (psbasis i) = c then
                sideSign p m (psbasis i) * (x - corr i) else 0) else 0) := by
    intro k _
    by_cases hk : k = i
    · subst hk
      rw [Function.update_same, if_pos rfl]
      split_ifs
      · ring
      · ring
    · rw [Function.update_noteq hk, if_neg hk, add_zero]
  rw [Finset.sum_congr rfl h, Finset.sum_add_distrib, Finset.sum_ite_eq' (Finset.range K) i,
    if_pos (Finset.mem_range.mpr hi)]

theorem projectionStep_cases (psbasis : Nat → Nat) (m p shift : Nat) (isupper : Nat → Bool)
    (i : Nat) (s : ProjState) :
    projectionStep psbasis m p shift isupper i s = s
    ∨ projectionStep psbasis m p shift isupper i s
      = { correction := Function.update s.correction i
            (s.correction i + sideSign p m (psbasis i)
              * s.approxdual (compactIndex p m shift (psbasis i)))
          approxdual := Function.update s.approxdual (compactIndex p m shift (psbasis i)) 0 } := by
  unfold projectionStep compactIndex sideSign
  by_cases h1 : psbasis i < p
  · simp only [h1, if_true]
    by_cases hu : isupper (psbasis i) = true
    · left; simp [hu]
    · right; simp [hu]
  · simp only [h1, if_false]
    by_cases h2 : psbasis i < 2 * p
    · simp only [h2, if_true]
      by_cases hu : isupper (psbasis i - p) = true
      · right
        simp only [hu, if_true]
        rw [neg_one_mul, ← sub_eq_add_neg]
      · left; simp [hu]
    · simp only [h2, if_false]
      by_cases h3 : psbasis i < 2 * p + m
      · simp only [h3, if_true]
        by_cases hu : isupper (psbasis i - p + shift) = true
        · left; simp [hu]
        · right; simp [hu]
      · simp only [h3, if_false]
        by_cases hu : isupper (psbasis i - p - m + shift) = true
        · right
          simp only [hu, if_true]
          rw [neg_one_mul, ← sub_eq_add_neg]
        · left; simp [hu]

theorem sideSign_sq (p m e : Nat) : sideSign p m e * sideSign p m e = 1 := by
  unfold sideSign
  split_ifs <;> norm_num

theorem projectionStep_preserves (psbasis : Nat → Nat) (K m p shift : Nat)
    (isupper : Nat → Bool) (i : Nat) (hi : i < K) (s : ProjState) (c : Nat) :
    (projectionStep psbasis m p shift isupper i s).approxdual c
        + spread psbasis K p m shift (projectionStep psbasis m p shift isupper i s).correction c
      = s.approxdual c + spread psbasis K p m shift s.correction c := by
  rcases projectionStep_cases psbasis m p shift isupper i s with h | h
  · rw [h]
  · rw [h]
    simp only []
    rw [spread_update psbasis K p m shift s.correction i _ c hi]
    by_cases hc : compactIndex p m shift (psbasis i) = c
    · subst hc
      rw [Function.update_same, if_pos rfl]
      have := sideSign_sq p m (psbasis i)
      have hring : sideSign p m (psbasis i) * (s.correction i + sideSign p m (psbasis i)
            * s.approxdual (compactIndex p m shift (psbasis i)) - s.correction i)
          = (sideSign p m (psbasis i) * sideSign p m (psbasis i))
            * s.approxdual (compactIndex p m shift (psbasis i)) := by ring
      rw [hring, this]
      ring
    · have hc' : c ≠ compactIndex p m shift (psbasis i) := fun e => hc e.symm
      rw [Function.update_noteq hc', if_neg hc, add_zero]

theorem projectionLoop_preserves (psbasis : Nat → Nat) (K m p shift : Nat)
    (isupper : Nat → Bool) (s : ProjState) (c : Nat) :
    (forLoop (projectionStep psbasis m p shift isupper) K s).approxdual c
        + spread psbasis K p m shift
            (forLoop (projectionStep psbasis m p shift isupper) K s).correction c
      = s.approxdual c + spread psbasis K p m shift s.correction c := by
  have h := forLoop_induction
    (fun _ (t : ProjState) => t.approxdual c + spread psbasis K p m shift t.correction c
      = s.approxdual c + spread psbasis K p m shift s.correction c)
    (projectionStep psbasis m p shift isupper) s K rfl
    (by
      intro i hi t ht
      rw [projectionStep_preserves psbasis K m p shift isupper i hi t c]
      exact ht)
  exact h

theorem transformBack_eq (psbasis : Nat → Nat) (K m p shift : Nat) (corr a : Nat → ℚ)
    (c : Nat) :
    transformBack psbasis K m p shift corr a c = a c + spread psbasis K p m shift corr c := by
  unfold transformBack spread
  induction K with
  | zero => simp [forLoop_zero]
  | succ n ih =>
    rw [forLoop_succ, Finset.sum_range_succ, ← add_assoc, ← ih]
    generalize forLoop _ n a = b
    unfold compactIndex sideSign
    by_cases h1 : psbasis n < p
    · simp only [h1, if_true]
      by_cases hc : psbasis n = c
      · subst hc
        simp
      · have hc' : c ≠ psbasis n := fun e => hc e.symm
        simp [Function.update_noteq hc', hc]
    · simp only [h1, if_false]
      by_cases h2 : psbasis n < 2 * p
      · simp only [h2, if_true]
        by_cases hc : psbasis n - p = c
        · subst hc
          simp only [Function.update_same, if_true]
          ring
        · have hc' : c ≠ psbasis n - p := fun e => hc e.symm
          simp [Function.update_noteq hc', hc]
      · simp only [h2, if_false]
        by_cases h3 : psbasis n < 2 * p + m
        · simp only [h3, if_true]
          by_cases hc : psbasis n - p + shift = c
          · subst hc
            simp
          · have hc' : c ≠ psbasis n - p + shift := fun e => hc e.symm
            simp [Function.update_noteq hc', hc]
        · simp only [h3, if_false]
          by_cases hc : psbasis n - p - m + shift = c
          · subst hc
            simp only [Function.update_same, if_true]
            ring
          · have hc' : c ≠ psbasis n - p - m + shift := fun e => hc e.symm
            simp [Function.update_noteq hc', hc]

/-! ## The shift (`getPSdual`, lines 3107-3129) -/

theorem performShift_eq (n m p shift : Nat) (interior : Nat → ℚ) (lambda1 lambda2 : ℚ)
    (a : Nat → ℚ) (c : Nat) :
    performShift n m p shift interior lambda1 lambda2 a c
      = if lambda2 = 0 then a c
        else if c < n + m ∧ ¬ (c < n ∧ p ≤ c) then
          a c * lambda1 + lambda2 * shiftVector n m p shift interior c
        else a c := by
  unfold performShift
  by_cases h0 : lambda2 = 0
  · simp [RisZero, h0]
  · have hZ : RisZero lambda2 = false := by simp [RisZero, h0]
    simp only [hZ, Bool.not_false, if_true, if_neg h0]
    rw [forLoop_pointwise
      (fun i v => if (decide (i < n) && decide (i ≥ p)) = true then v
        else v - interior (if i < p then i + p else i + p + m - shift) * lambda2
          + interior (if i < p then i else i + p - shift) * lambda2)]
    · rw [forLoop_pointwise
        (fun i v => if (decide (i < n) && decide (i ≥ p)) = true then v else v * lambda1)]
      · unfold shiftVector
        by_cases hc : c < n + m
        · by_cases hx : c < n ∧ p ≤ c
          · have hb : (decide (c < n) && decide (c ≥ p)) = true := by simp [hx.1, hx.2]
            have hn : ¬ (c < n + m ∧ ¬ (c < n ∧ p ≤ c)) := fun h => h.2 hx
            rw [if_pos hc, if_pos hc, if_neg hn]
            rw [if_pos hb, if_pos hb]
          · have hb : ¬ (decide (c < n) && decide (c ≥ p)) = true := by
              simpa using hx
            have hy : c < n + m ∧ ¬ (c < n ∧ p ≤ c) := ⟨hc, hx⟩
            rw [if_pos hc, if_pos hc, if_pos hy, if_pos hy]
            rw [if_neg hb, if_neg hb]
            ring
        · have hn : ¬ (c < n + m ∧ ¬ (c < n ∧ p ≤ c)) := fun h => hc h.1
          rw [if_neg hc, if_neg hc, if_neg hn]
      · intro i v
        by_cases hb : (decide (i < n) && decide (i ≥ p)) = true
        · rw [if_pos hb, if_pos hb]
          exact (Function.update_eq_self i v).symm
        · rw [if_neg hb, if_neg hb]
    · intro i v
      by_cases hb : (decide (i < n) && decide (i ≥ p)) = true
      · rw [if_pos hb, if_pos hb]
        exact (Function.update_eq_self i v).symm
      · rw [if_neg hb, if_neg hb]
        simp only [Function.update_same, Function.update_idem]


/-! ## The dual equalities after projection and shift by the interior ray -/

theorem dualLhs_linear (lpex : SCIP_LPEX) (a s r : Nat → ℚ) (l : ℚ) (j : Nat) :
    dualLhs lpex (fun c => a c + s c + l * r c) j
      = dualLhs lpex a j + dualLhs lpex s j + l * dualLhs lpex r j := by
  unfold dualLhs
  simp only [add_mul, Finset.sum_add_distrib, mul_add, Finset.mul_sum]
  have h : ∀ i ∈ Finset.range lpex.nrows, l * r i * coef lpex i j = l * (r i * coef lpex i j) :=
    fun i _ => mul_assoc _ _ _
  rw [Finset.sum_congr rfl h]
  ring

theorem spread_term (lpex : SCIP_LPEX) (p e j : Nat) (zk : ℚ) (hp : p ≤ lpex.nrows) :
    ∑ i ∈ Finset.range lpex.nrows,
        (if compactIndex p lpex.ncols (lpex.nrows - p) e = i then
          sideSign p lpex.ncols e * zk else 0) * coef lpex i j
      + (if compactIndex p lpex.ncols (lpex.nrows - p) e = j + lpex.nrows then
          sideSign p lpex.ncols e * zk else 0)
      = extendedCoef lpex p e j * zk := by
  have hsum : ∀ (X : ℚ) (c : Nat),
      ∑ i ∈ Finset.range lpex.nrows, (if c = i then X else 0) * coef lpex i j
        = if c < lpex.nrows then X * coef lpex c j else 0 := by
    intro X c
    have h : ∀ i ∈ Finset.range lpex.nrows, (if c = i then X else 0) * coef lpex i j
        = if c = i then X * coef lpex i j else 0 := by
      intro i _
      split_ifs
      · rfl
      · exact zero_mul _
    rw [Finset.sum_congr rfl h, Finset.sum_ite_eq]
    simp only [Finset.mem_range]
  rw [hsum]
  unfold compactIndex sideSign extendedCoef
  by_cases h1 : e < p
  · have hlt : e < lpex.nrows := by omega
    have hne : ¬ e = j + lpex.nrows := by omega
    simp only [h1, if_true, hlt, if_neg hne]
    ring
  · by_cases h2 : e < 2 * p
    · have hlt : e - p < lpex.nrows := by omega
      have hne : ¬ e - p = j + lpex.nrows := by omega
      simp only [h1, if_false, h2, if_true, hlt, if_neg hne]
      ring
    · by_cases h3 : e < 2 * p + lpex.ncols
      · have hlt : ¬ e - p + (lpex.nrows - p) < lpex.nrows := by omega
        simp only [h1, if_false, h2, h3, if_true, if_neg hlt]
        by_cases hej : e - 2 * p = j
        · have : e - p + (lpex.nrows - p) = j + lpex.nrows := by omega
          simp only [this, hej, if_true]
          ring
        · have : ¬ e - p + (lpex.nrows - p) = j + lpex.nrows := by omega
          simp only [if_neg this, if_neg hej]
          ring
      · have hlt : ¬ e - p - lpex.ncols + (lpex.nrows - p) < lpex.nrows := by omega
        simp only [h1, if_false, h2, h3, if_neg hlt]
        by_cases hej : e - (2 * p + lpex.ncols) = j
        · have : e - p - lpex.ncols + (lpex.nrows - p) = j + lpex.nrows := by omega
          simp only [this, hej, if_true]
          ring
        · have : ¬ e - p - lpex.ncols + (lpex.nrows - p) = j + lpex.nrows := by omega
          simp only [if_neg this, if_neg hej]
          ring

theorem dualLhs_spread (lpex : SCIP_LPEX) (psbasis : Nat → Nat) (K p : Nat) (z : Nat → ℚ)
    (j : Nat) (hp : p ≤ lpex.nrows) :
    dualLhs lpex (spread psbasis K p lpex.ncols (lpex.nrows - p) z) j
      = ∑ k ∈ Finset.range K, extendedCoef lpex p (psbasis k) j * z k := by
  unfold dualLhs spread
  simp only [Finset.sum_mul]
  rw [Finset.sum_comm, ← Finset.sum_add_distrib]
  apply Finset.sum_congr rfl
  intro k _
  exact spread_term lpex p (psbasis k) j (z k) hp

theorem dualLhs_shiftVector (lpex : SCIP_LPEX) (p : Nat) (w : Nat → ℚ) (j : Nat)
    (hp : p ≤ lpex.nrows) (hj : j < lpex.ncols) :
    dualLhs lpex (shiftVector lpex.nrows lpex.ncols p (lpex.nrows - p) w) j
      = ∑ e ∈ Finset.range (2 * p + 2 * lpex.ncols), extendedCoef lpex p e j * w e := by
  have hN : 2 * p + 2 * lpex.ncols = p + (p + (lpex.ncols + lpex.ncols)) := by ring
  have hn : lpex.nrows = p + (lpex.nrows - p) := by omega
  rw [hN, Finset.sum_range_add, Finset.sum_range_add, Finset.sum_range_add]
  -- the four blocks of the extended matrix
  have b1 : ∑ x ∈ Finset.range p, extendedCoef lpex p x j * w x
      = ∑ x ∈ Finset.range p, coef lpex x j * w x := by
    apply Finset.sum_congr rfl
    intro x hx
    have := Finset.mem_range.mp hx
    simp only [extendedCoef, this, if_true]
  have b2 : ∑ x ∈ Finset.range p, extendedCoef lpex p (p + x) j * w (p + x)
      = ∑ x ∈ Finset.range p, -coef lpex x j * w (p + x) := by
    apply Finset.sum_congr rfl
    intro x hx
    have hx' := Finset.mem_range.mp hx
    have h1 : ¬ p + x < p := by omega
    have h2 : p + x < 2 * p := by omega
    simp only [extendedCoef, h1, if_false, h2, if_true, Nat.add_sub_cancel_left]
  have b3 : ∑ x ∈ Finset.range lpex.ncols,
        extendedCoef lpex p (p + (p + x)) j * w (p + (p + x))
      = w (j + 2 * p) := by
    have h : ∀ x ∈ Finset.range lpex.ncols,
        extendedCoef lpex p (p + (p + x)) j * w (p + (p + x))
          = if x = j then w (j + 2 * p) else 0 := by
      intro x hx
      have hx' := Finset.mem_range.mp hx
      have h1 : ¬ p + (p + x) < p := by omega
      have h2 : ¬ p + (p + x) < 2 * p := by omega
      have h3 : p + (p + x) < 2 * p + lpex.ncols := by omega
      have h4 : p + (p + x) - 2 * p = x := by omega
      simp only [extendedCoef, h1, if_false, h2, h3, if_true, h4]
      by_cases hxj : x = j
      · subst hxj
        have : p + (p + x) = x + 2 * p := by omega
        simp [this]
      · simp [hxj]
    rw [Finset.sum_congr rfl h, Finset.sum_ite_eq' (Finset.range lpex.ncols) j,
      if_pos (Finset.mem_range.mpr hj)]
  have b4 : ∑ x ∈ Finset.range lpex.ncols,
        extendedCoef lpex p (p + (p + (lpex.ncols + x))) j * w (p + (p + (lpex.ncols + x)))
      = -w (j + 2 * p + lpex.ncols) := by
    have h : ∀ x ∈ Finset.range lpex.ncols,
        extendedCoef lpex p (p + (p + (lpex.ncols + x))) j * w (p + (p + (lpex.ncols + x)))
          = if x = j then -w (j + 2 * p + lpex.ncols) else 0 := by
      intro x hx
      have h1 : ¬ p + (p + (lpex.ncols + x)) < p := by omega
      have h2 : ¬ p + (p + (lpex.ncols + x)) < 2 * p := by omega
      have h3 : ¬ p + (p + (lpex.ncols + x)) < 2 * p + lpex.ncols := by omega
      have h4 : p + (p + (lpex.ncols + x)) - (2 * p + lpex.ncols) = x := by omega
      simp only [extendedCoef, h1, if_false, h2, h3, h4]
      by_cases hxj : x = j
      · subst hxj
        have : p + (p + (lpex.ncols + x)) = x + 2 * p + lpex.ncols := by omega
        simp [this]
      · simp [hxj]
    rw [Finset.sum_congr rfl h, Finset.sum_ite_eq' (Finset.range lpex.ncols) j,
      if_pos (Finset.mem_range.mpr hj)]
  rw [b1, b2, b3, b4]
  -- the left-hand side
  unfold dualLhs
  have c1 : ∑ i ∈ Finset.range lpex.nrows,
        shiftVector lpex.nrows lpex.ncols p (lpex.nrows - p) w i * coef lpex i j
      = ∑ x ∈ Finset.range p, (w x - w (x + p)) * coef lpex x j := by
    rw [hn, Finset.sum_range_add]
    have z2 : ∑ x ∈ Finset.range (lpex.nrows - p),
        shiftVector (p + (lpex.nrows - p)) lpex.ncols p (p + (lpex.nrows - p) - p) w (p + x)
          * coef lpex (p + x) j = 0 := by
      apply Finset.sum_eq_zero
      intro x hx
      have hx' := Finset.mem_range.mp hx
      have : ¬ (p + x < p + (lpex.nrows - p) + lpex.ncols
          ∧ ¬ (p + x < p + (lpex.nrows - p) ∧ p ≤ p + x)) := by
        intro h
        exact h.2 ⟨by omega, by omega⟩
      simp only [shiftVector, if_neg this, zero_mul]
    rw [z2, add_zero]
    apply Finset.sum_congr rfl
    intro x hx
    have hx' := Finset.mem_range.mp hx
    have hcond : x < p + (lpex.nrows - p) + lpex.ncols
        ∧ ¬ (x < p + (lpex.nrows - p) ∧ p ≤ x) := ⟨by omega, fun h => by omega⟩
    simp only [shiftVector, if_pos hcond, hx', if_true]
  have c2 : shiftVector lpex.nrows lpex.ncols p (lpex.nrows - p) w (j + lpex.nrows)
      = w (j + 2 * p) - w (j + 2 * p + lpex.ncols) := by
    have hcond : j + lpex.nrows < lpex.nrows + lpex.ncols
        ∧ ¬ (j + lpex.nrows < lpex.nrows ∧ p ≤ j + lpex.nrows) := ⟨by omega, fun h => by omega⟩
    have hnp : ¬ j + lpex.nrows < p := by omega
    have e1 : j + lpex.nrows + p - (lpex.nrows - p) = j + 2 * p := by omega
    have e2 : j + lpex.nrows + p + lpex.ncols - (lpex.nrows - p) = j + 2 * p + lpex.ncols := by
      omega
    simp only [shiftVector, if_pos hcond, if_neg hnp, e1, e2]
  rw [c1, c2]
  have hsplit : ∀ x ∈ Finset.range p, (w x - w (x + p)) * coef lpex x j
      = coef lpex x j * w x + -coef lpex x j * w (p + x) := by
    intro x _
    rw [Nat.add_comm x p]
    ring
  rw [Finset.sum_congr rfl hsplit, Finset.sum_add_distrib]
  ring


/-- With the interior ray, the final dual vector of `getPSdual` satisfies the dual equalities:
`A^T y + r` equals the objective (zero for a Farkas proof) in every column. -/
theorem finalDual_ray_dualLhs (ext : External) (lp : SCIP_LP) (lpex : SCIP_LPEX)
    (usefarkas : Bool) (y : Nat → ℚ)
    (hps : nrowsPS lpex ≤ lpex.nrows)
    (hsolve : solveIsExact ext lpex)
    (hray : dualEqualities lpex lpex.psdata.interiorray (fun _ => 0))
    (huse : (!usefarkas && lpex.psdata.psuseintpoint && lpex.psdata.pshaspoint) = false)
    (hfinal : finalDual ext lp lpex usefarkas = some y) :
    ∀ j, j < lpex.ncols →
      dualLhs lpex y j = if usefarkas then 0 else (lpex.cols j).obj := by
  intro j hj
  unfold finalDual at hfinal
  simp only [huse] at hfinal
  by_cases hfeas : computeIsfeas lpex.ncols (computeViolation lpex usefarkas
      (fixArtificial lpex (computeIsupper (readApproxdual lp lpex.nrows lpex.ncols usefarkas))
        (readApproxdual lp lpex.nrows lpex.ncols usefarkas))) = true
  · simp only [hfeas, Bool.not_true, Bool.false_eq_true, if_false] at hfinal
    have hy := Option.some.inj hfinal
    subst hy
    unfold computeIsfeas at hfeas
    rw [List.all_eq_true] at hfeas
    have h0 := hfeas j (List.mem_range.mpr hj)
    simp only [RisZero, decide_eq_true_eq] at h0
    rw [computeViolation_eq lpex usefarkas _ j hj] at h0
    linarith
  · simp only [hfeas, Bool.not_false, if_true] at hfinal
    unfold projectAndShift at hfinal
    cases hz : ext.RECTLUsolveSystem lpex.ncols lpex.psdata.nextendedrows
        (computeViolation lpex usefarkas
          (fixArtificial lpex (computeIsupper (readApproxdual lp lpex.nrows lpex.ncols usefarkas))
            (readApproxdual lp lpex.nrows lpex.ncols usefarkas))) with
    | none =>
      simp only [hz] at hfinal
      exact Option.noConfusion hfinal
    | some z =>
      simp only [hz] at hfinal
      have hy := Option.some.inj hfinal
      have hform : y = fun c =>
          fixArtificial lpex (computeIsupper (readApproxdual lp lpex.nrows lpex.ncols usefarkas))
              (readApproxdual lp lpex.nrows lpex.ncols usefarkas) c
            + spread lpex.psdata.psbasis lpex.psdata.npsbasis (nrowsPS lpex) lpex.ncols
                (lpex.nrows - nrowsPS lpex) z c
            + (computeLambda lpex.psdata false
                (forLoop (projectionStep lpex.psdata.psbasis lpex.ncols (nrowsPS lpex)
                  (lpex.nrows - nrowsPS lpex)
                  (computeIsupper (readApproxdual lp lpex.nrows lpex.ncols usefarkas)))
                  lpex.psdata.npsbasis
                  { correction := z
                    approxdual := fixArtificial lpex
                      (computeIsupper (readApproxdual lp lpex.nrows lpex.ncols usefarkas))
                      (readApproxdual lp lpex.nrows lpex.ncols usefarkas) }).correction).2
              * shiftVector lpex.nrows lpex.ncols (nrowsPS lpex) (lpex.nrows - nrowsPS lpex)
                  lpex.psdata.interiorray c := by
        rw [← hy]
        funext c
        simp only [Bool.false_eq_true, if_false]
        rw [performShift_eq, transformBack_eq]
        have hpres := projectionLoop_preserves lpex.psdata.psbasis lpex.psdata.npsbasis lpex.ncols
          (nrowsPS lpex) (lpex.nrows - nrowsPS lpex)
          (computeIsupper (readApproxdual lp lpex.nrows lpex.ncols usefarkas))
          { correction := z
            approxdual := fixArtificial lpex
              (computeIsupper (readApproxdual lp lpex.nrows lpex.ncols usefarkas))
              (readApproxdual lp lpex.nrows lpex.ncols usefarkas) } c
        simp only [nrowsPS] at hpres ⊢
        rw [hpres]
        have hl1 : ∀ corr, (computeLambda lpex.psdata false corr).1 = 1 := by
          intro corr
          simp [computeLambda]
        rw [hl1]
        split_ifs with h1 h2
        · rw [h1, zero_mul, add_zero]
        · ring
        · have : shiftVector lpex.nrows lpex.ncols (lpex.psdata.nextendedrows / 2 - lpex.ncols)
              (lpex.nrows - (lpex.psdata.nextendedrows / 2 - lpex.ncols))
              lpex.psdata.interiorray c = 0 := by
            unfold shiftVector
            rw [if_neg h2]
          rw [this, mul_zero, add_zero]
      rw [hform, dualLhs_linear, dualLhs_spread lpex _ _ _ z j hps,
        dualLhs_shiftVector lpex _ _ j hps hj, hray j hj, mul_zero, add_zero,
        hsolve _ z hz j hj, computeViolation_eq lpex usefarkas _ j hj]
      ring

/-! ## Claims on soundness -/

/-- C2: soundness of the project-and-shift infeasibility proof. If `getPSdual` is called with
`usefarkas = TRUE` and returns with `hasprovedbound = TRUE`, the relaxation has no primal-feasible
point, provided the triangular solve is exact and the stored interior ray satisfies the
homogeneous dual equalities (the rows refer to columns of the relaxation, and the relaxation has
at least the rows known to the project-and-shift data). -/
theorem getPSdual_farkas_sound (ext : External) (lp : SCIP_LP) (lpex : SCIP_LPEX)
    (stat : SCIP_STAT) (r : SCIP_LP × SCIP_LPEX × SCIP_STAT)
    (hidx : indicesInRange lpex)
    (hps : nrowsPS lpex ≤ lpex.nrows)
    (hsolve : solveIsExact ext lpex)
    (hray : dualEqualities lpex lpex.psdata.interiorray (fun _ => 0))
    (hret : getPSdual ext lp lpex stat true = some r)
    (hproved : r.1.hasprovedbound = true) :
    ∀ x : Nat → ℚ, ¬ primalFeasible lpex x := by
  intro x hx
  obtain ⟨y, d, hy, hd, _, hpos⟩ := getPSdual_proved_inv ext lp lpex stat true r hret hproved
  have hle := dualObjective_le lpex y x d hidx hd hx
  have heq := finalDual_ray_dualLhs ext lp lpex true y hps hsolve hray (by simp) hy
  have hzero : ∑ j ∈ Finset.range lpex.ncols, dualLhs lpex y j * x j = 0 := by
    apply Finset.sum_eq_zero
    intro j hj
    rw [heq j (Finset.mem_range.mp hj)]
    simp
  have := (hpos rfl).1
  linarith


theorem farkas_indicesInRange : indicesInRange farkasLpex := by
  intro i _ t _
  simp [farkasLpex]

theorem farkas_solveIsExact : solveIsExact (mkExternal farkasSolve) farkasLpex := by
  intro r z hz j hj
  have hj0 : j = 0 := by
    have : j < 1 := hj
    omega
  subst hj0
  have hz' : z = fun k => if k = 2 then -(r 0) else 0 := by
    simp only [mkExternal, farkasSolve] at hz
    exact (Option.some.inj hz).symm
  subst hz'
  norm_num [farkasLpex, extendedCoef, coef, nrowsPS, Finset.sum_range_succ]

theorem farkas_ray_dualEqualities :
    dualEqualities farkasLpex farkasLpex.psdata.interiorray (fun _ => 0) := by
  intro j hj
  have hj0 : j = 0 := by
    have : j < 1 := hj
    omega
  subst hj0
  norm_num [farkasLpex, extendedCoef, coef, nrowsPS, Finset.sum_range_succ]

theorem farkas_getPSdual :
    getPSdual (mkExternal farkasSolve) (farkasLp (1 / 2)) farkasLpex zeroStat true
      = some (storeBound (mkExternal farkasSolve)
          { farkasLp (1 / 2) with hasprovedbound := true } farkasLpex
          { zeroStat with nprojshift := zeroStat.nprojshift + 1 } true 1) :=
  getPSdual_of_evaluated (mkExternal farkasSolve) (farkasLp (1 / 2)) farkasLpex zeroStat true
    farkasFinal 1 farkas_passesGuard (farkas_valid (1 / 2)) farkas_finalDual farkas_dualObjective

/-- Witness of C2: on `2 ≤ x`, `0 ≤ x ≤ 1` with the approximate Farkas proof `farkasLp (1/2)`,
`getPSdual` returns with the proof accepted, and the relaxation has no feasible point. -/
theorem getPSdual_farkas_sound_witness :
    (storeBound (mkExternal farkasSolve) { farkasLp (1 / 2) with hasprovedbound := true }
        farkasLpex { zeroStat with nprojshift := zeroStat.nprojshift + 1 } true 1).1.hasprovedbound
      = true
    ∧ ∀ x : Nat → ℚ, ¬ primalFeasible farkasLpex x :=
  ⟨by simp [storeBound, RisPositive],
   getPSdual_farkas_sound (mkExternal farkasSolve) (farkasLp (1 / 2)) farkasLpex zeroStat _
     farkas_indicesInRange (by simp [nrowsPS, farkasLpex]) farkas_solveIsExact
     farkas_ray_dualEqualities farkas_getPSdual (by simp [storeBound, RisPositive])⟩

/-- With the interior ray the bound of `getPSdual` is sound in bound mode as well: a bound that
is stored while the interior point is not in use is at most `c · x` at every primal-feasible
`x`. -/
theorem getPSdual_bound_sound_with_ray (ext : External) (lp : SCIP_LP) (lpex : SCIP_LPEX)
    (stat : SCIP_STAT) (r : SCIP_LP × SCIP_LPEX × SCIP_STAT) (x : Nat → ℚ)
    (hidx : indicesInRange lpex)
    (hps : nrowsPS lpex ≤ lpex.nrows)
    (hsolve : solveIsExact ext lpex)
    (hray : dualEqualities lpex lpex.psdata.interiorray (fun _ => 0))
    (huse : (lpex.psdata.psuseintpoint && lpex.psdata.pshaspoint) = false)
    (hret : getPSdual ext lp lpex stat false = some r)
    (hproved : r.1.hasprovedbound = true)
    (hx : primalFeasible lpex x) :
    ∃ d : ℚ, r.2.1.lpobjval = SCIP_Rational.fin d ∧ d ≤ objValue lpex x := by
  obtain ⟨y, d, hy, hd, hval, _⟩ := getPSdual_proved_inv ext lp lpex stat false r hret hproved
  refine ⟨d, hval rfl, ?_⟩
  have hle := dualObjective_le lpex y x d hidx hd hx
  have heq := finalDual_ray_dualLhs ext lp lpex false y hps hsolve hray
    (by simpa using huse) hy
  have hobj : ∑ j ∈ Finset.range lpex.ncols, dualLhs lpex y j * x j = objValue lpex x := by
    unfold objValue
    apply Finset.sum_congr rfl
    intro j hj
    rw [heq j (Finset.mem_range.mp hj)]
    simp
  linarith

theorem cut_indicesInRange : indicesInRange cutLpex := by
  intro i _ t _
  simp [cutLpex]

theorem cut_getPSdual :
    getPSdual (mkExternal cutSolve) cutLp cutLpex zeroStat false
      = some (storeBound (mkExternal cutSolve) { cutLp with hasprovedbound := true } cutLpex
          { zeroStat with nprojshiftinf := zeroStat.nprojshiftinf + 1 } false (9 / 4)) :=
  getPSdual_of_evaluated (mkExternal cutSolve) cutLp cutLpex zeroStat false cutFinal (9 / 4)
    cut_passesGuard cut_valid cut_finalDual cut_dualObjective

/-- C1 on the code: for `min x` subject to `1 ≤ x ≤ 20`, `0 ≤ x ≤ 10` and the cut `2 ≤ x ≤ 20`
that was added after the project-and-shift data was built, with an exact solve and an interior
point that is nonnegative, positive on `S` and satisfies the dual equalities, `getPSdual` returns
in bound mode with `hasprovedbound = TRUE` and stores the bound `9/4`, although `x = 2` is primal
feasible with objective value `2`. -/
theorem getPSdual_bound_exceeds_optimum :
    indicesInRange cutLpex
    ∧ solveIsExact (mkExternal cutSolve) cutLpex
    ∧ (∀ e, 0 ≤ cutLpex.psdata.interiorpt e)
    ∧ (∀ e, cutLpex.psdata.includedrows e = true → 0 < cutLpex.psdata.interiorpt e)
    ∧ dualEqualities cutLpex cutLpex.psdata.interiorpt (fun j => (cutLpex.cols j).obj)
    ∧ primalFeasible cutLpex (fun _ => 2)
    ∧ objValue cutLpex (fun _ => 2) = 2
    ∧ ∃ r, getPSdual (mkExternal cutSolve) cutLp cutLpex zeroStat false = some r
        ∧ r.1.hasprovedbound = true
        ∧ r.2.1.lpobjval = SCIP_Rational.fin (9 / 4) := by
  refine ⟨cut_indicesInRange, cut_solveIsExact, ?_, ?_, cut_point_dualEqualities, cut_feasible,
    cut_objValue, _, cut_getPSdual, ?_, ?_⟩
  · intro e
    simp only [cutLpex]
    split_ifs <;> norm_num
  · intro e he
    have : e = 0 := by simpa [cutLpex] using he
    subst this
    simp [cutLpex]
  · simp [storeBound]
  · simp [storeBound]

/-- C3 on the code: in the same run (a row added after construction, interior point in use) the
final dual vector of `getPSdual` is `(0, 9/8, 0)`, and the violation of the dual equality that
the debug test of lines 3144-3179 recomputes is `-1/8`, not zero. -/
theorem getPSdual_final_violates_equalities :
    finalDual (mkExternal cutSolve) cutLp cutLpex false = some cutFinal
    ∧ debugViolation cutLpex false cutFinal 0 = -(1 / 8)
    ∧ debugViolation cutLpex false cutFinal 0 ≠ 0 := by
  have h : debugViolation cutLpex false cutFinal 0 = -(1 / 8) := by
    norm_num [debugViolation, subtractRows, forLoop, Function.update_apply, cutLpex, cutFinal]
  refine ⟨cut_finalDual, h, ?_⟩
  rw [h]
  norm_num


/-! ## The interior point without added rows -/

theorem dualLhs_congr (lpex : SCIP_LPEX) (y y2 : Nat → ℚ) (j : Nat) (hj : j < lpex.ncols)
    (h : ∀ c, c < lpex.nrows + lpex.ncols → y c = y2 c) :
    dualLhs lpex y j = dualLhs lpex y2 j := by
  unfold dualLhs
  rw [h (j + lpex.nrows) (by omega)]
  congr 1
  apply Finset.sum_congr rfl
  intro i hi
  rw [h i (by have := Finset.mem_range.mp hi; omega)]

theorem dualLhs_combination (lpex : SCIP_LPEX) (a s r : Nat → ℚ) (l1 l2 : ℚ) (j : Nat) :
    dualLhs lpex (fun c => l1 * (a c + s c) + l2 * r c) j
      = l1 * (dualLhs lpex a j + dualLhs lpex s j) + l2 * dualLhs lpex r j := by
  unfold dualLhs
  simp only [add_mul, mul_add, Finset.sum_add_distrib, Finset.mul_sum]
  have h1 : ∀ i ∈ Finset.range lpex.nrows, l1 * a i * coef lpex i j = l1 * (a i * coef lpex i j) :=
    fun i _ => mul_assoc _ _ _
  have h2 : ∀ i ∈ Finset.range lpex.nrows, l1 * s i * coef lpex i j = l1 * (s i * coef lpex i j) :=
    fun i _ => mul_assoc _ _ _
  have h3 : ∀ i ∈ Finset.range lpex.nrows, l2 * r i * coef lpex i j = l2 * (r i * coef lpex i j) :=
    fun i _ => mul_assoc _ _ _
  rw [Finset.sum_congr rfl h1, Finset.sum_congr rfl h2, Finset.sum_congr rfl h3]
  ring

theorem computeLambda_point (psdata : SCIP_PSDATA) (correction : Nat → ℚ) :
    computeLambda psdata true correction
      = (lambda1Point psdata correction, 1 - lambda1Point psdata correction) := by
  simp [computeLambda]

/-- With the interior point and no row added since the construction of the project-and-shift
data, the final dual vector of `getPSdual` satisfies the dual equalities. -/
theorem finalDual_point_dualLhs (ext : External) (lp : SCIP_LP) (lpex : SCIP_LPEX)
    (y : Nat → ℚ)
    (hps : nrowsPS lpex = lpex.nrows)
    (hsolve : solveIsExact ext lpex)
    (hpt : dualEqualities lpex lpex.psdata.interiorpt (fun j => (lpex.cols j).obj))
    (huse : (lpex.psdata.psuseintpoint && lpex.psdata.pshaspoint) = true)
    (hfinal : finalDual ext lp lpex false = some y) :
    ∀ j, j < lpex.ncols → dualLhs lpex y j = (lpex.cols j).obj := by
  intro j hj
  unfold finalDual at hfinal
  have huse' : (!false && lpex.psdata.psuseintpoint && lpex.psdata.pshaspoint) = true := by
    simpa using huse
  simp only [huse'] at hfinal
  by_cases hfeas : computeIsfeas lpex.ncols (computeViolation lpex false
      (fixArtificial lpex (computeIsupper (readApproxdual lp lpex.nrows lpex.ncols false))
        (readApproxdual lp lpex.nrows lpex.ncols false))) = true
  · simp only [hfeas, Bool.not_true, Bool.false_eq_true, if_false] at hfinal
    have hy := Option.some.inj hfinal
    subst hy
    unfold computeIsfeas at hfeas
    rw [List.all_eq_true] at hfeas
    have h0 := hfeas j (List.mem_range.mpr hj)
    simp only [RisZero, decide_eq_true_eq] at h0
    rw [computeViolation_eq lpex false _ j hj] at h0
    simp only [Bool.false_eq_true, if_false] at h0
    linarith
  · simp only [hfeas, Bool.not_false, if_true] at hfinal
    unfold projectAndShift at hfinal
    cases hz : ext.RECTLUsolveSystem lpex.ncols lpex.psdata.nextendedrows
        (computeViolation lpex false
          (fixArtificial lpex (computeIsupper (readApproxdual lp lpex.nrows lpex.ncols false))
            (readApproxdual lp lpex.nrows lpex.ncols false))) with
    | none =>
      simp only [hz] at hfinal
      exact Option.noConfusion hfinal
    | some z =>
      simp only [hz] at hfinal
      have hy := Option.some.inj hfinal
      obtain ⟨l1, hl⟩ : ∃ l1 : ℚ, computeLambda lpex.psdata true
          (forLoop (projectionStep lpex.psdata.psbasis lpex.ncols (nrowsPS lpex)
            (lpex.nrows - nrowsPS lpex)
            (computeIsupper (readApproxdual lp lpex.nrows lpex.ncols false)))
            lpex.psdata.npsbasis
            { correction := z
              approxdual := fixArtificial lpex
                (computeIsupper (readApproxdual lp lpex.nrows lpex.ncols false))
                (readApproxdual lp lpex.nrows lpex.ncols false) }).correction = (l1, 1 - l1) :=
        ⟨_, computeLambda_point _ _⟩
      have hform : ∀ c, c < lpex.nrows + lpex.ncols → y c =
          l1 * (fixArtificial lpex (computeIsupper (readApproxdual lp lpex.nrows lpex.ncols false))
              (readApproxdual lp lpex.nrows lpex.ncols false) c
            + spread lpex.psdata.psbasis lpex.psdata.npsbasis (nrowsPS lpex) lpex.ncols
                (lpex.nrows - nrowsPS lpex) z c)
            + (1 - l1) * shiftVector lpex.nrows lpex.ncols (nrowsPS lpex)
                (lpex.nrows - nrowsPS lpex) lpex.psdata.interiorpt c := by
        intro c hc
        rw [← hy]
        simp only [if_true]
        rw [performShift_eq, transformBack_eq]
        have hpres := projectionLoop_preserves lpex.psdata.psbasis lpex.psdata.npsbasis lpex.ncols
          (nrowsPS lpex) (lpex.nrows - nrowsPS lpex)
          (computeIsupper (readApproxdual lp lpex.nrows lpex.ncols false))
          { correction := z
            approxdual := fixArtificial lpex
              (computeIsupper (readApproxdual lp lpex.nrows lpex.ncols false))
              (readApproxdual lp lpex.nrows lpex.ncols false) } c
        simp only [nrowsPS] at hpres hl hps ⊢
        rw [hpres, hl]
        have hcond : c < lpex.nrows + lpex.ncols
            ∧ ¬ (c < lpex.nrows ∧ lpex.psdata.nextendedrows / 2 - lpex.ncols ≤ c) :=
          ⟨hc, fun h => by omega⟩
        simp only [if_pos hcond]
        split_ifs with h1
        · have : l1 = 1 := by linarith
          rw [this]
          ring
        · ring
      rw [dualLhs_congr lpex y _ j hj hform, dualLhs_combination,
        dualLhs_spread lpex _ _ _ z j (le_of_eq hps),
        dualLhs_shiftVector lpex _ _ j (le_of_eq hps) hj, hpt j hj,
        hsolve _ z hz j hj, computeViolation_eq lpex false _ j hj]
      simp only [Bool.false_eq_true, if_false]
      ring

/-- Without added rows the bound of `getPSdual` is sound with the interior point as well. -/
theorem getPSdual_bound_sound_without_added_rows (ext : External) (lp : SCIP_LP)
    (lpex : SCIP_LPEX) (stat : SCIP_STAT) (r : SCIP_LP × SCIP_LPEX × SCIP_STAT) (x : Nat → ℚ)
    (hidx : indicesInRange lpex)
    (hps : nrowsPS lpex = lpex.nrows)
    (hsolve : solveIsExact ext lpex)
    (hpt : dualEqualities lpex lpex.psdata.interiorpt (fun j => (lpex.cols j).obj))
    (huse : (lpex.psdata.psuseintpoint && lpex.psdata.pshaspoint) = true)
    (hret : getPSdual ext lp lpex stat false = some r)
    (hproved : r.1.hasprovedbound = true)
    (hx : primalFeasible lpex x) :
    ∃ d : ℚ, r.2.1.lpobjval = SCIP_Rational.fin d ∧ d ≤ objValue lpex x := by
  obtain ⟨y, d, hy, hd, hval, _⟩ := getPSdual_proved_inv ext lp lpex stat false r hret hproved
  refine ⟨d, hval rfl, ?_⟩
  have hle := dualObjective_le lpex y x d hidx hd hx
  have heq := finalDual_point_dualLhs ext lp lpex y hps hsolve hpt huse hy
  have hobj : ∑ j ∈ Finset.range lpex.ncols, dualLhs lpex y j * x j = objValue lpex x := by
    unfold objValue
    apply Finset.sum_congr rfl
    intro j hj
    rw [heq j (Finset.mem_range.mp hj)]
  linarith


/-! ## The evaluation is defined under the invariants of the certificate -/

theorem projectionLoop_approxdual (psbasis : Nat → Nat) (K m p shift : Nat)
    (isupper : Nat → Bool) (s : ProjState) (c : Nat) :
    (forLoop (projectionStep psbasis m p shift isupper) K s).approxdual c = s.approxdual c
    ∨ (forLoop (projectionStep psbasis m p shift isupper) K s).approxdual c = 0 := by
  have h := forLoop_induction
    (fun _ (t : ProjState) => t.approxdual c = s.approxdual c ∨ t.approxdual c = 0)
    (projectionStep psbasis m p shift isupper) s K (Or.inl rfl)
    (by
      intro i _ t ht
      rcases projectionStep_cases psbasis m p shift isupper i t with h | h
      · rw [h]
        exact ht
      · rw [h]
        by_cases hc : c = compactIndex p m shift (psbasis i)
        · right
          subst hc
          exact Function.update_same _ _ _
        · simp only [Function.update_noteq hc]
          exact ht)
  exact h

/-- The two extended coordinates that are mapped to the entry `c` of the signed dual vector. -/
theorem compactIndex_eq_iff (n m p e c : Nat) (hp : p ≤ n) (hc : c < n + m)
    (hx : ¬ (c < n ∧ p ≤ c)) :
    compactIndex p m (n - p) e = c
      ↔ (e = (if c < p then c else c + p - (n - p)) ∧ sideSign p m e = 1)
        ∨ (e = (if c < p then c + p else c + p + m - (n - p)) ∧ sideSign p m e = -1) := by
  unfold compactIndex sideSign
  by_cases hcp : c < p
  · simp only [hcp, if_true]
    by_cases h1 : e < p
    · simp only [h1, if_true]
      constructor
      · intro h
        exact Or.inl ⟨h, trivial⟩
      · rintro (⟨h, _⟩ | ⟨_, h⟩)
        · exact h
        · norm_num at h
    · by_cases h2 : e < 2 * p
      · simp only [h1, if_false, h2, if_true]
        constructor
        · intro h
          exact Or.inr ⟨by omega, trivial⟩
        · rintro (⟨_, h⟩ | ⟨h, _⟩)
          · norm_num at h
          · omega
      · by_cases h3 : e < 2 * p + m
        · simp only [h1, if_false, h2, h3, if_true]
          constructor
          · intro h
            omega
          · rintro (⟨h, _⟩ | ⟨_, h⟩)
            · omega
            · norm_num at h
        · simp only [h1, if_false, h2, h3]
          constructor
          · intro h
            omega
          · rintro (⟨_, h⟩ | ⟨h, _⟩)
            · norm_num at h
            · omega
  · have hcn : n ≤ c := by
      by_contra h
      exact hx ⟨by omega, by omega⟩
    simp only [hcp, if_false]
    by_cases h1 : e < p
    · simp only [h1, if_true]
      constructor
      · intro h
        omega
      · rintro (⟨h, _⟩ | ⟨_, h⟩)
        · omega
        · norm_num at h
    · by_cases h2 : e < 2 * p
      · simp only [h1, if_false, h2, if_true]
        constructor
        · intro h
          omega
        · rintro (⟨_, h⟩ | ⟨h, _⟩)
          · norm_num at h
          · omega
      · by_cases h3 : e < 2 * p + m
        · simp only [h1, if_false, h2, h3, if_true]
          constructor
          · intro h
            exact Or.inl ⟨by omega, trivial⟩
          · rintro (⟨h, _⟩ | ⟨_, h⟩)
            · omega
            · norm_num at h
        · simp only [h1, if_false, h2, h3]
          constructor
          · intro h
            exact Or.inr ⟨by omega, trivial⟩
          · rintro (⟨_, h⟩ | ⟨h, _⟩)
            · norm_num at h
            · omega

/-- No extended coordinate is mapped to a row that was added after construction. -/
theorem compactIndex_ne_added (n m p e c : Nat) (hp : p ≤ n) (hc : c < n ∧ p ≤ c) :
    compactIndex p m (n - p) e ≠ c := by
  unfold compactIndex
  split_ifs <;> omega


/-- When only one extended coordinate `e0` of the basis can be mapped to the entry `c`, the
correction collected at `c` is zero or the signed correction of that coordinate. -/
theorem spread_single (psbasis : Nat → Nat) (K p m shift c e0 : Nat) (s0 : ℚ) (corr : Nat → ℚ)
    (hinj : ∀ k k', k < K → k' < K → psbasis k = psbasis k' → k = k')
    (hcid : ∀ k, k < K → compactIndex p m shift (psbasis k) = c →
      psbasis k = e0 ∧ sideSign p m (psbasis k) = s0) :
    spread psbasis K p m shift corr c = 0
    ∨ ∃ k0, k0 < K ∧ psbasis k0 = e0 ∧ spread psbasis K p m shift corr c = s0 * corr k0 := by
  unfold spread
  by_cases hex : ∃ k0, k0 < K ∧ compactIndex p m shift (psbasis k0) = c
  · obtain ⟨k0, hk0, hc0⟩ := hex
    right
    refine ⟨k0, hk0, (hcid k0 hk0 hc0).1, ?_⟩
    rw [Finset.sum_eq_single k0]
    · rw [if_pos hc0, (hcid k0 hk0 hc0).2]
    · intro k hk hne
      have hk' := Finset.mem_range.mp hk
      by_cases hck : compactIndex p m shift (psbasis k) = c
      · exfalso
        apply hne
        apply hinj k k0 hk' hk0
        rw [(hcid k hk' hck).1, (hcid k0 hk0 hc0).1]
      · rw [if_neg hck]
    · intro hnot
      exact absurd (Finset.mem_range.mpr hk0) hnot
  · left
    apply Finset.sum_eq_zero
    intro k hk
    have hk' := Finset.mem_range.mp hk
    have : ¬ compactIndex p m shift (psbasis k) = c := fun h => hex ⟨k, hk', h⟩
    rw [if_neg this]

/-- The weights of the shifting step are nonnegative, `lambda2 = 0` forces `lambda1 = 1`, and the
combination of every corrected coordinate of the basis with the certificate is nonnegative. -/
theorem computeLambda_guarantee (psdata : SCIP_PSDATA) (useinteriorpoint : Bool)
    (corr : Nat → ℚ)
    (hpos : ∀ k, k < psdata.npsbasis → psdata.includedrows (psdata.psbasis k) = true
      ∧ 0 < (if useinteriorpoint then psdata.interiorpt else psdata.interiorray)
          (psdata.psbasis k)) :
    0 ≤ (computeLambda psdata useinteriorpoint corr).1
    ∧ 0 ≤ (computeLambda psdata useinteriorpoint corr).2
    ∧ ((computeLambda psdata useinteriorpoint corr).2 = 0 →
        (computeLambda psdata useinteriorpoint corr).1 = 1)
    ∧ ∀ k, k < psdata.npsbasis →
        0 ≤ (computeLambda psdata useinteriorpoint corr).1 * corr k
          + (computeLambda psdata useinteriorpoint corr).2
            * (if useinteriorpoint then psdata.interiorpt else psdata.interiorray)
                (psdata.psbasis k) := by
  cases useinteriorpoint
  · simp only [Bool.false_eq_true, if_false] at hpos ⊢
    obtain ⟨h0, _, _, h3⟩ := rayWeight_spec psdata.npsbasis corr
      (fun k => psdata.interiorray (psdata.psbasis k))
      (fun k => psdata.includedrows (psdata.psbasis k))
    simp only [computeLambda, Bool.false_eq_true, if_false, lambda2Ray_eq, RcreateTemp]
    refine ⟨by norm_num, h0, fun _ => trivial, ?_⟩
    intro k hk
    have := h3 (fun i hi _ => (hpos i hi).2) k hk (hpos k hk).1
    linarith
  · simp only [if_true] at hpos ⊢
    obtain ⟨h0, h1, h2, _⟩ := pointWeight_spec psdata.npsbasis corr
      (fun k => psdata.interiorpt (psdata.psbasis k)) (fun _ => True)
      (fun _ _ _ => trivial) (fun k hk _ => (hpos k hk).2)
    simp only [computeLambda, if_true, lambda1Point_eq]
    refine ⟨le_of_lt h0, by linarith, fun h => by linarith, ?_⟩
    intro k hk
    exact h2 k hk trivial


theorem liftedDual_unfold (lp : SCIP_LP) (lpex : SCIP_LPEX) (usefarkas : Bool) :
    fixArtificial lpex (computeIsupper (readApproxdual lp lpex.nrows lpex.ncols usefarkas))
        (readApproxdual lp lpex.nrows lpex.ncols usefarkas)
      = liftedDual lp lpex usefarkas := rfl

theorem liftedDual_sign (lp : SCIP_LP) (lpex : SCIP_LPEX) (usefarkas : Bool) (i : Nat)
    (hi : i < lpex.nrows + lpex.ncols) :
    (RisAbsInfinity (selectedSide lpex false i) = true → liftedDual lp lpex usefarkas i ≤ 0)
    ∧ (RisAbsInfinity (selectedSide lpex true i) = true → 0 ≤ liftedDual lp lpex usefarkas i) := by
  rw [liftedDual_eq lp lpex usefarkas i hi]
  by_cases hpos : 0 < approxValue lp lpex.nrows usefarkas i
  · have hP : RisPositive (approxValue lp lpex.nrows usefarkas i) = true := by
      simp [RisPositive, hpos]
    constructor
    · intro h
      simp [hP, h]
    · intro _
      split_ifs
      · exact le_refl _
      · exact le_of_lt hpos
  · have hP : RisPositive (approxValue lp lpex.nrows usefarkas i) = false := by
      simp [RisPositive, hpos]
    constructor
    · intro _
      split_ifs
      · exact le_refl _
      · exact not_lt.mp hpos
    · intro h
      simp [hP, h]

theorem liftedDual_pairedBound (lp : SCIP_LP) (lpex : SCIP_LPEX) (usefarkas : Bool) (i : Nat)
    (hi : i < lpex.nrows + lpex.ncols)
    (hinf : RisAbsInfinity (selectedSide lpex
      (!RisPositive (liftedDual lp lpex usefarkas i)) i) = true) :
    liftedDual lp lpex usefarkas i = 0 := by
  have hl := liftedDual_eq lp lpex usefarkas i hi
  by_cases hc : RisAbsInfinity (selectedSide lpex
      (!RisPositive (approxValue lp lpex.nrows usefarkas i)) i) = true
  · rw [if_pos hc] at hl
    exact hl
  · rw [if_neg hc] at hl
    rw [hl] at hinf
    exact absurd hinf hc

theorem psBound_sides (lpex : SCIP_LPEX) (p c : Nat) (hp : p ≤ lpex.nrows)
    (hc : c < lpex.nrows + lpex.ncols)
    (hx : ¬ (c < lpex.nrows ∧ p ≤ c)) :
    psBound lpex p (if c < p then c else c + p - (lpex.nrows - p)) = selectedSide lpex false c
    ∧ psBound lpex p (if c < p then c + p else c + p + lpex.ncols - (lpex.nrows - p))
        = selectedSide lpex true c := by
  unfold psBound selectedSide
  by_cases hcp : c < p
  · have hcn : c < lpex.nrows := by omega
    have h1 : ¬ c + p < p := by omega
    have h2 : c + p < 2 * p := by omega
    simp only [hcp, if_true, hcn, h1, if_false, h2, Nat.add_sub_cancel, Bool.not_false,
      Bool.not_true, Bool.false_eq_true]
    exact ⟨trivial, trivial⟩
  · have hcn : lpex.nrows ≤ c := by
      by_contra h
      exact hx ⟨by omega, by omega⟩
    have hnn : ¬ c < lpex.nrows := by omega
    have a1 : ¬ c + p - (lpex.nrows - p) < p := by omega
    have a2 : ¬ c + p - (lpex.nrows - p) < 2 * p := by omega
    have a3 : c + p - (lpex.nrows - p) < 2 * p + lpex.ncols := by omega
    have a4 : c + p - (lpex.nrows - p) - 2 * p = c - lpex.nrows := by omega
    have b1 : ¬ c + p + lpex.ncols - (lpex.nrows - p) < p := by omega
    have b2 : ¬ c + p + lpex.ncols - (lpex.nrows - p) < 2 * p := by omega
    have b3 : ¬ c + p + lpex.ncols - (lpex.nrows - p) < 2 * p + lpex.ncols := by omega
    have b4 : c + p + lpex.ncols - (lpex.nrows - p) - 2 * p - lpex.ncols = c - lpex.nrows := by
      omega
    simp only [hcp, if_false, hnn, a1, a2, a3, a4, b1, b2, b3, b4, Bool.not_false, Bool.not_true,
      Bool.false_eq_true, if_true]
    exact ⟨trivial, trivial⟩


theorem shift_entry_zero (lpex : SCIP_LPEX) (interior : Nat → ℚ) (l1 l2 : ℚ)
    (corr rest a : Nat → ℚ)
    (hps : nrowsPS lpex ≤ lpex.nrows)
    (hinv : certificateInvariants lpex interior)
    (hl1 : 0 ≤ l1) (hl2 : 0 ≤ l2) (hl21 : l2 = 0 → l1 = 1)
    (hk : ∀ k, k < lpex.psdata.npsbasis →
      0 ≤ l1 * corr k + l2 * interior (lpex.psdata.psbasis k))
    (hrest : ∀ c, rest c = a c ∨ rest c = 0)
    (hsign : ∀ i, i < lpex.nrows + lpex.ncols →
      (RisAbsInfinity (selectedSide lpex false i) = true → a i ≤ 0)
      ∧ (RisAbsInfinity (selectedSide lpex true i) = true → 0 ≤ a i))
    (hpair : ∀ i, i < lpex.nrows + lpex.ncols →
      RisAbsInfinity (selectedSide lpex (!RisPositive (a i)) i) = true → a i = 0)
    (y : Nat → ℚ)
    (hy : y = performShift lpex.nrows lpex.ncols (nrowsPS lpex) (lpex.nrows - nrowsPS lpex)
      interior l1 l2 (transformBack lpex.psdata.psbasis lpex.psdata.npsbasis lpex.ncols
        (nrowsPS lpex) (lpex.nrows - nrowsPS lpex) corr rest))
    (c : Nat) (hc : c < lpex.nrows + lpex.ncols)
    (hinf : RisAbsInfinity (pairedBound lpex y c) = true) :
    y c = 0 := by
  obtain ⟨hinj, hbasis, hint⟩ := hinv
  unfold pairedBound at hinf
  by_cases hx : c < lpex.nrows ∧ nrowsPS lpex ≤ c
  · have hsp : spread lpex.psdata.psbasis lpex.psdata.npsbasis (nrowsPS lpex) lpex.ncols
        (lpex.nrows - nrowsPS lpex) corr c = 0 := by
      unfold spread
      apply Finset.sum_eq_zero
      intro k _
      rw [if_neg (compactIndex_ne_added lpex.nrows lpex.ncols (nrowsPS lpex) _ c hps hx)]
    have hv : y c = rest c := by
      rw [hy, performShift_eq, transformBack_eq, hsp, add_zero]
      have hcond : ¬ (c < lpex.nrows + lpex.ncols ∧ ¬ (c < lpex.nrows ∧ nrowsPS lpex ≤ c)) :=
        fun h => h.2 hx
      rw [if_neg hcond, ite_self]
    rw [hv] at hinf ⊢
    rcases hrest c with h | h
    · rw [h] at hinf ⊢
      exact hpair c hc hinf
    · exact h
  · obtain ⟨hL, hR⟩ := psBound_sides lpex (nrowsPS lpex) c hps hc hx
    have hiff := fun e =>
      compactIndex_eq_iff lpex.nrows lpex.ncols (nrowsPS lpex) e c hps hc hx
    have hv : y c = l1 * (rest c + spread lpex.psdata.psbasis lpex.psdata.npsbasis
          (nrowsPS lpex) lpex.ncols (lpex.nrows - nrowsPS lpex) corr c)
        + l2 * (interior (if c < nrowsPS lpex then c
              else c + nrowsPS lpex - (lpex.nrows - nrowsPS lpex))
            - interior (if c < nrowsPS lpex then c + nrowsPS lpex
              else c + nrowsPS lpex + lpex.ncols - (lpex.nrows - nrowsPS lpex))) := by
      have hcond : c < lpex.nrows + lpex.ncols ∧ ¬ (c < lpex.nrows ∧ nrowsPS lpex ≤ c) :=
        ⟨hc, hx⟩
      rw [hy, performShift_eq, transformBack_eq, if_pos hcond]
      unfold shiftVector
      rw [if_pos hcond]
      by_cases h0 : l2 = 0
      · rw [if_pos h0, hl21 h0, h0]
        ring
      · rw [if_neg h0]
        ring
    generalize (if c < nrowsPS lpex then c
      else c + nrowsPS lpex - (lpex.nrows - nrowsPS lpex)) = eL at hL hiff hv
    generalize (if c < nrowsPS lpex then c + nrowsPS lpex
      else c + nrowsPS lpex + lpex.ncols - (lpex.nrows - nrowsPS lpex)) = eR at hR hiff hv
    have hrestcases := hrest c
    by_cases hpos : 0 < y c
    · exfalso
      have hP : RisPositive (y c) = true := by simp [RisPositive, hpos]
      rw [hP, Bool.not_true, ← hL] at hinf
      have hintL : interior eL = 0 := (hint eL).2 hinf
      have haneg : a c ≤ 0 := (hsign c hc).1 (by rw [← hL]; exact hinf)
      have hrestneg : rest c ≤ 0 := by
        rcases hrestcases with h | h
        · rw [h]
          exact haneg
        · rw [h]
      have hcid : ∀ k, k < lpex.psdata.npsbasis →
          compactIndex (nrowsPS lpex) lpex.ncols (lpex.nrows - nrowsPS lpex)
            (lpex.psdata.psbasis k) = c →
          lpex.psdata.psbasis k = eR
            ∧ sideSign (nrowsPS lpex) lpex.ncols (lpex.psdata.psbasis k) = -1 := by
        intro k hk hck
        rcases (hiff _).mp hck with ⟨he, _⟩ | h
        · exfalso
          have hfin := (hbasis k hk).2.1
          rw [he, hinf] at hfin
          exact Bool.noConfusion hfin
        · exact h
      have hintR := (hint eR).1
      rcases spread_single lpex.psdata.psbasis lpex.psdata.npsbasis (nrowsPS lpex) lpex.ncols
          (lpex.nrows - nrowsPS lpex) c eR (-1) corr hinj hcid with hs | ⟨k0, hk0, he0, hs⟩
      · rw [hv, hs, hintL] at hpos
        nlinarith [mul_nonneg hl1 (neg_nonneg.mpr hrestneg), mul_nonneg hl2 hintR]
      · rw [hv, hs, hintL] at hpos
        have hk0 := hk k0 hk0
        rw [he0] at hk0
        nlinarith [mul_nonneg hl1 (neg_nonneg.mpr hrestneg)]
    · have hP : RisPositive (y c) = false := by simp [RisPositive, hpos]
      rw [hP, Bool.not_false, ← hR] at hinf
      have hintR : interior eR = 0 := (hint eR).2 hinf
      have hapos : 0 ≤ a c := (hsign c hc).2 (by rw [← hR]; exact hinf)
      have hrestpos : 0 ≤ rest c := by
        rcases hrestcases with h | h
        · rw [h]
          exact hapos
        · rw [h]
      have hcid : ∀ k, k < lpex.psdata.npsbasis →
          compactIndex (nrowsPS lpex) lpex.ncols (lpex.nrows - nrowsPS lpex)
            (lpex.psdata.psbasis k) = c →
          lpex.psdata.psbasis k = eL
            ∧ sideSign (nrowsPS lpex) lpex.ncols (lpex.psdata.psbasis k) = 1 := by
        intro k hk hck
        rcases (hiff _).mp hck with h | ⟨he, _⟩
        · exact h
        · exfalso
          have hfin := (hbasis k hk).2.1
          rw [he, hinf] at hfin
          exact Bool.noConfusion hfin
      have hintL := (hint eL).1
      have hle : y c ≤ 0 := not_lt.mp hpos
      apply le_antisymm hle
      rcases spread_single lpex.psdata.psbasis lpex.psdata.npsbasis (nrowsPS lpex) lpex.ncols
          (lpex.nrows - nrowsPS lpex) c eL 1 corr hinj hcid with hs | ⟨k0, hk0, he0, hs⟩
      · rw [hv, hs, hintR]
        nlinarith [mul_nonneg hl1 hrestpos, mul_nonneg hl2 hintL]
      · rw [hv, hs, hintR]
        have hk0 := hk k0 hk0
        rw [he0] at hk0
        nlinarith [mul_nonneg hl1 hrestpos]


/-- Under the invariants of the certificate, every entry of the final dual vector that is paired
with an infinite bound is zero. -/
theorem finalDual_entry_zero (ext : External) (lp : SCIP_LP) (lpex : SCIP_LPEX)
    (usefarkas : Bool) (y : Nat → ℚ)
    (hps : nrowsPS lpex ≤ lpex.nrows)
    (hinv : certificateInvariants lpex
      (if (!usefarkas && lpex.psdata.psuseintpoint && lpex.psdata.pshaspoint) = true
        then lpex.psdata.interiorpt else lpex.psdata.interiorray))
    (hfinal : finalDual ext lp lpex usefarkas = some y) :
    ∀ c, c < lpex.nrows + lpex.ncols →
      RisAbsInfinity (pairedBound lpex y c) = true → y c = 0 := by
  intro c hc hinf
  unfold finalDual at hfinal
  simp only [liftedDual_unfold] at hfinal
  by_cases hfeas : computeIsfeas lpex.ncols
      (computeViolation lpex usefarkas (liftedDual lp lpex usefarkas)) = true
  · simp only [hfeas, Bool.not_true, Bool.false_eq_true, if_false] at hfinal
    have hy := Option.some.inj hfinal
    subst hy
    exact liftedDual_pairedBound lp lpex usefarkas c hc hinf
  · simp only [hfeas, Bool.not_false, if_true] at hfinal
    unfold projectAndShift at hfinal
    cases hz : ext.RECTLUsolveSystem lpex.ncols lpex.psdata.nextendedrows
        (computeViolation lpex usefarkas (liftedDual lp lpex usefarkas)) with
    | none =>
      simp only [hz] at hfinal
      exact Option.noConfusion hfinal
    | some z =>
      simp only [hz] at hfinal
      have hy := (Option.some.inj hfinal).symm
      have hlam := computeLambda_guarantee lpex.psdata
        (!usefarkas && lpex.psdata.psuseintpoint && lpex.psdata.pshaspoint)
        (forLoop (projectionStep lpex.psdata.psbasis lpex.ncols (nrowsPS lpex)
          (lpex.nrows - nrowsPS lpex)
          (computeIsupper (readApproxdual lp lpex.nrows lpex.ncols usefarkas)))
          lpex.psdata.npsbasis
          { correction := z, approxdual := liftedDual lp lpex usefarkas }).correction
        (fun k hk => ⟨(hinv.2.1 k hk).1, (hinv.2.1 k hk).2.2⟩)
      obtain ⟨h1, h2, h21, hk⟩ := hlam
      exact shift_entry_zero lpex _ _ _ _ _ (liftedDual lp lpex usefarkas) hps hinv h1 h2 h21 hk
        (fun c => projectionLoop_approxdual lpex.psdata.psbasis lpex.psdata.npsbasis lpex.ncols
          (nrowsPS lpex) (lpex.nrows - nrowsPS lpex)
          (computeIsupper (readApproxdual lp lpex.nrows lpex.ncols usefarkas))
          { correction := z, approxdual := liftedDual lp lpex usefarkas } c)
        (fun i hi => liftedDual_sign lp lpex usefarkas i hi)
        (fun i hi => liftedDual_pairedBound lp lpex usefarkas i hi)
        y hy c hc hinf

/-- Under the invariants of the certificate the objective value of the final dual vector is
defined: no nonzero entry meets an infinite bound. -/
theorem finalDual_objective_defined (ext : External) (lp : SCIP_LP) (lpex : SCIP_LPEX)
    (usefarkas : Bool) (y : Nat → ℚ)
    (hps : nrowsPS lpex ≤ lpex.nrows)
    (hinv : certificateInvariants lpex
      (if (!usefarkas && lpex.psdata.psuseintpoint && lpex.psdata.pshaspoint) = true
        then lpex.psdata.interiorpt else lpex.psdata.interiorray))
    (hfinal : finalDual ext lp lpex usefarkas = some y) :
    dualObjective lpex y
      = some (∑ i ∈ Finset.range (lpex.nrows + lpex.ncols), y i * finVal (pairedBound lpex y i)) := by
  rw [dualObjective_eq]
  exact raddProdLoop_some y (pairedBound lpex y) (lpex.nrows + lpex.ncols)
    (finalDual_entry_zero ext lp lpex usefarkas y hps hinv hfinal)

/-- Under the invariants of the certificate `getPSdual` returns: the evaluation of the objective
never meets an undefined product. -/
theorem getPSdual_returns (ext : External) (lp : SCIP_LP) (lpex : SCIP_LPEX) (stat : SCIP_STAT)
    (usefarkas : Bool)
    (hps : nrowsPS lpex ≤ lpex.nrows)
    (hinv : certificateInvariants lpex
      (if (!usefarkas && lpex.psdata.psuseintpoint && lpex.psdata.pshaspoint) = true
        then lpex.psdata.interiorpt else lpex.psdata.interiorray)) :
    ∃ r, getPSdual ext lp lpex stat usefarkas = some r := by
  unfold getPSdual
  simp only [hasInvalidRow_congr, finalDual_congr]
  by_cases hg : ((lpex.psdata.psdatafail && !usefarkas)
      || (usefarkas && !lpex.psdata.pshasray)) = true
  · rw [if_pos hg]
    exact ⟨_, rfl⟩
  · rw [if_neg hg]
    by_cases hir : hasInvalidRow lp lpex.nrows usefarkas = true
    · rw [if_pos hir]
      exact ⟨_, rfl⟩
    · rw [if_neg hir]
      cases hy : finalDual ext lp lpex usefarkas with
      | none => exact ⟨_, rfl⟩
      | some y =>
        simp only [finalDual_objective_defined ext lp lpex usefarkas y hps hinv hy]
        exact ⟨_, rfl⟩

/-- The certificate of `sumLpex` (interior point) has the invariants of the construction. -/
theorem sum_certificateInvariants :
    certificateInvariants sumLpex sumLpex.psdata.interiorpt := by
  have hp : nrowsPS sumLpex = 1 := rfl
  refine ⟨?_, ?_, ?_⟩
  · intro k k' _ _ h
    simp only [sumLpex] at h
    omega
  · intro k hk
    rw [hp]
    have hk5 : k < 5 := hk
    simp only [sumLpex, psBound]
    interval_cases k <;> simp [RisAbsInfinity]
  · intro e
    rw [hp]
    simp only [sumLpex, psBound]
    constructor
    · split_ifs <;> norm_num
    · intro h
      by_cases h0 : e = 0
      · simp [h0]
      · have h1 : ¬ e < 1 := by omega
        rw [if_neg h1] at h
        split_ifs at h <;> simp [RisAbsInfinity] at h

/-- On `sumLpex` in bound mode the hypotheses of `getPSdual_returns` hold, for every floating-point
LP state and every triangular solver. -/
theorem getPSdual_returns_sum (ext : External) (lp : SCIP_LP) (stat : SCIP_STAT) :
    ∃ r, getPSdual ext lp sumLpex stat false = some r :=
  getPSdual_returns ext lp sumLpex stat false (by decide) sum_certificateInvariants

/-- The certificate of `cutLpex` (interior point) has the invariants of the construction: the
input on which the bound is unsound is a state the construction can produce. -/
theorem cut_certificateInvariants :
    certificateInvariants cutLpex cutLpex.psdata.interiorpt := by
  have hp : nrowsPS cutLpex = 1 := rfl
  refine ⟨?_, ?_, ?_⟩
  · intro k k' hk hk' _
    have h1 : k < 1 := hk
    have h2 : k' < 1 := hk'
    omega
  · intro k _
    rw [hp]
    simp [cutLpex, psBound, RisAbsInfinity]
  · intro e
    rw [hp]
    simp only [cutLpex, psBound]
    constructor
    · split_ifs <;> norm_num
    · intro h
      split_ifs at h <;> simp [RisAbsInfinity] at h


/-! ## Failure paths of `getPSdual` -/

/-- C11: every failure of `getPSdual` is non-fatal and leaves no bound behind: when (a) the
certificate data failed in bound mode, (b) there is no interior ray in Farkas mode, (c) some row
carries `SCIP_INVALID` as its approximate dual or Farkas value, or (d) the violation is not zero
and the triangular solve returns nonzero, `getPSdual` returns with `hasprovedbound = FALSE` and
with `lp->lpobjval` and `lpex->lpobjval` as they were at entry. -/
theorem getPSdual_failure_leaves_no_bound (ext : External) (lp : SCIP_LP) (lpex : SCIP_LPEX)
    (stat : SCIP_STAT) (usefarkas : Bool)
    (hfail : (lpex.psdata.psdatafail = true ∧ usefarkas = false)
      ∨ (usefarkas = true ∧ lpex.psdata.pshasray = false)
      ∨ hasInvalidRow lp lpex.nrows usefarkas = true
      ∨ (computeIsfeas lpex.ncols
            (computeViolation lpex usefarkas (liftedDual lp lpex usefarkas)) = false
          ∧ ext.RECTLUsolveSystem lpex.ncols lpex.psdata.nextendedrows
              (computeViolation lpex usefarkas (liftedDual lp lpex usefarkas)) = none)) :
    ∃ r, getPSdual ext lp lpex stat usefarkas = some r
      ∧ r.1.hasprovedbound = false
      ∧ r.1.lpobjval = lp.lpobjval
      ∧ r.2.1.lpobjval = lpex.lpobjval := by
  unfold getPSdual
  simp only [hasInvalidRow_congr, finalDual_congr]
  by_cases hg : ((lpex.psdata.psdatafail && !usefarkas)
      || (usefarkas && !lpex.psdata.pshasray)) = true
  · rw [if_pos hg]
    exact ⟨_, rfl, rfl, rfl, rfl⟩
  · rw [if_neg hg]
    by_cases hir : hasInvalidRow lp lpex.nrows usefarkas = true
    · rw [if_pos hir]
      exact ⟨_, rfl, rfl, rfl, rfl⟩
    · rw [if_neg hir]
      have hnone : finalDual ext lp lpex usefarkas = none := by
        rcases hfail with ⟨h1, h2⟩ | ⟨h1, h2⟩ | h | ⟨h1, h2⟩
        · exact absurd (by simp [h1, h2]) hg
        · exact absurd (by simp [h1, h2]) hg
        · exact absurd h hir
        · unfold finalDual
          simp only [liftedDual_unfold, h1, Bool.not_false, if_true]
          unfold projectAndShift
          simp only [h2]
      simp only [hnone]
      exact ⟨_, rfl, rfl, rfl, rfl⟩

theorem sum_violation_nonzero :
    computeIsfeas sumLpex.ncols
      (computeViolation sumLpex false (liftedDual (sumLp 1) sumLpex false)) = false := by
  have h0 : computeViolation sumLpex false (liftedDual (sumLp 1) sumLpex false) 0 = -1 := by
    norm_num [computeViolation, initViolation, subtractRows, liftedDual, readApproxdual,
      fixArtificial, computeIsupper, forLoop, Function.update_apply, sumLpex, sumLp, selectedSide,
      RisAbsInfinity, RisPositive]
  have hne : computeIsfeas sumLpex.ncols
      (computeViolation sumLpex false (liftedDual (sumLp 1) sumLpex false)) ≠ true := by
    intro h
    unfold computeIsfeas at h
    rw [List.all_eq_true] at h
    have := h 0 (List.mem_range.mpr (by decide))
    rw [h0] at this
    simp [RisZero] at this
  simpa using hne

theorem getPSdual_failure_leaves_no_bound_witness :
    ∃ r, getPSdual (mkExternal (fun _ => none)) (sumLp 1) sumLpex zeroStat false = some r
      ∧ r.1.hasprovedbound = false
      ∧ r.1.lpobjval = (sumLp 1).lpobjval
      ∧ r.2.1.lpobjval = sumLpex.lpobjval :=
  getPSdual_failure_leaves_no_bound (mkExternal (fun _ => none)) (sumLp 1) sumLpex zeroStat false
    (Or.inr (Or.inr (Or.inr ⟨sum_violation_nonzero, rfl⟩)))


/-! ## The selection of the bounding method and the final fallback -/

theorem solveLpExact_psdata (col : Collaborators) (ext : External) (st : BoundingState)
    (usefarkas : Bool) :
    (solveLpExact col ext st usefarkas).lpex.psdata = st.lpex.psdata := by
  unfold solveLpExact
  simp only []
  split_ifs <;> rfl

theorem solveLpExact_projshift (col : Collaborators) (ext : External) (st : BoundingState)
    (usefarkas : Bool) :
    (solveLpExact col ext st usefarkas).stat.nprojshift = st.stat.nprojshift
    ∧ (solveLpExact col ext st usefarkas).stat.nprojshiftinf = st.stat.nprojshiftinf := by
  unfold solveLpExact
  simp only []
  split_ifs <;> exact ⟨rfl, rfl⟩

/-- The exact LP solver was called: one of its call counters has grown by one. -/
theorem solveLpExact_counted (col : Collaborators) (ext : External) (st : BoundingState)
    (usefarkas : Bool) :
    (solveLpExact col ext st usefarkas).stat.nexlp
        + (solveLpExact col ext st usefarkas).stat.nexlpinf
      = st.stat.nexlp + st.stat.nexlpinf + 1 := by
  unfold solveLpExact
  simp only []
  split_ifs <;> simp only [] <;> omega

theorem solveLpExact_hasprovedbound (col : Collaborators) (ext : External)
    (st : BoundingState) (usefarkas : Bool) (h : st.lp.hasprovedbound = false) :
    (solveLpExact col ext st usefarkas).lp.hasprovedbound
      = ((col.SCIPlpiexSolveDual st.lp st.lpex).isOptimal
          || (col.SCIPlpiexSolveDual st.lp st.lpex).isPrimalUnbounded
          || ((col.SCIPlpiexSolveDual st.lp st.lpex).isPrimalInfeasible
              && (col.SCIPlpiexSolveDual st.lp st.lpex).farkasValid)) := by
  unfold solveLpExact
  simp only []
  split_ifs <;> simp_all

theorem solveLpExact_optimal (col : Collaborators) (ext : External) (st : BoundingState)
    (usefarkas : Bool) (h : (col.SCIPlpiexSolveDual st.lp st.lpex).isOptimal = true) :
    (solveLpExact col ext st usefarkas).lp.hasprovedbound = true
    ∧ (solveLpExact col ext st usefarkas).lp.lpsolstat = SCIP_LPSOLSTAT.OPTIMAL
    ∧ (solveLpExact col ext st usefarkas).lp.lpobjval
        = ext.RgetRealRelax (col.SCIPlpiexSolveDual st.lp st.lpex).objval
    ∧ (solveLpExact col ext st usefarkas).lpex.lpobjval
        = SCIP_Rational.fin (col.SCIPlpiexSolveDual st.lp st.lpex).objval := by
  unfold solveLpExact
  simp [h]

theorem callBoundShift_frame (col : Collaborators) (ext : External) (st : BoundingState)
    (usefarkas : Bool) :
    (callBoundShift col ext st usefarkas).lpex = st.lpex
    ∧ (callBoundShift col ext st usefarkas).stat.nprojshift = st.stat.nprojshift
    ∧ (callBoundShift col ext st usefarkas).stat.nprojshiftinf = st.stat.nprojshiftinf
    ∧ (callBoundShift col ext st usefarkas).stat.nexlp = st.stat.nexlp
    ∧ (callBoundShift col ext st usefarkas).stat.nexlpinf = st.stat.nexlpinf := by
  unfold callBoundShift boundShift
  simp only []
  split_ifs <;> simp

theorem chooseByPossibility_shift (col : Collaborators) (ext : External) (st : BoundingState) :
    ((chooseByPossibility col ext st).1 = 'n' ↔ col.SCIPlpexBSpossible st.lpex = true)
    ∧ ((chooseByPossibility col ext st).1 = 'n' → (chooseByPossibility col ext st).2 = st) := by
  unfold chooseByPossibility
  by_cases hb : col.SCIPlpexBSpossible st.lpex = true
  · simp [hb]
  · simp only [hb, Bool.false_eq_true, if_false]
    constructor
    · constructor
      · intro h
        split_ifs at h <;> simp at h
      · intro h
        exact absurd h (by simp)
    · intro h
      split_ifs at h <;> simp at h

theorem chooseBoundingMethod_shift (col : Collaborators) (ext : External) (st : BoundingState)
    (dualfarkas : Bool) :
    ((chooseBoundingMethod col ext st dualfarkas).1 = 'n'
      ↔ (col.SCIPlpexBSpossible st.lpex = true
          ∧ (dualfarkas = true ∨ interleaveExactLp col ext st = false)))
    ∧ ((chooseBoundingMethod col ext st dualfarkas).1 = 'n'
        → (chooseBoundingMethod col ext st dualfarkas).2 = st) := by
  unfold chooseBoundingMethod
  have h := chooseByPossibility_shift col ext st
  by_cases hd : dualfarkas = true
  · simp only [hd, if_true, true_or, and_true]
    exact h
  · by_cases hi : interleaveExactLp col ext st = true
    · simp only [hd, hi, if_true, Bool.false_eq_true, if_false, Bool.true_eq_false, or_self,
        and_false]
      exact ⟨⟨fun h => absurd h (by decide), fun h => h.elim⟩, fun h => absurd h (by decide)⟩
    · simp only [hd, hi, Bool.false_eq_true, if_false, false_or]
      have hi2 : interleaveExactLp col ext st = false := by simpa using hi
      simp only [hi2, and_true]
      exact h


theorem SCIPcomputeSafeBound_of_run (col : Collaborators) (ext : External)
    (scipset : SCIP_SET) (st st1 : BoundingState) (dualfarkas : Bool)
    (hexact : scipset.misc_exactsolve = true) (hnb : st.lp.hasprovedbound = false)
    (hrun : runMethod col ext (selectMethod col ext scipset st dualfarkas) dualfarkas
      = some st1) :
    SCIPcomputeSafeBound col ext scipset st dualfarkas
      = some (if st1.lp.hasprovedbound = false then solveLpExact col ext st1 dualfarkas
          else st1) := by
  unfold SCIPcomputeSafeBound
  simp only [hexact, hnb, Bool.not_true, Bool.or_self, Bool.false_eq_true, if_false, hrun,
    Option.some_bind]
  by_cases h : st1.lp.hasprovedbound = false
  · simp [h]
  · have h2 : st1.lp.hasprovedbound = true := by simpa using h
    simp [h2]

theorem shiftFails_interleave :
    interleaveExactLp shiftFailsCollaborators (mkExternal (fun _ => none))
      (mkState (sumLp (-1)) sumLpexFresh) = false := by
  simp [interleaveExactLp, shiftFailsCollaborators, mkCollaborators, mkState, sumLp,
    sumLpexFresh, sumLpex, mkExternal]

theorem shiftFails_boundShift :
    (callBoundShift shiftFailsCollaborators (mkExternal (fun _ => none))
      (mkState (sumLp (-1)) sumLpexFresh) false).lp.hasprovedbound = false
    ∧ (callBoundShift shiftFailsCollaborators (mkExternal (fun _ => none))
      (mkState (sumLp (-1)) sumLpexFresh) false).stat.nboundshift = 1 := by
  norm_num [callBoundShift, boundShift, shiftFailsCollaborators, mkCollaborators, mkState,
    mkExternal, zeroStat]

/-- C12 (counterexample): in automatic mode `boundShift` is selected and fails on this input, and
the exact LP solver is called next; project-and-shift is not attempted: the certificate data are
not constructed and neither counter of `getPSdual` has moved. -/
theorem automatic_boundShift_failure_skips_projectShift :
    ∃ s, SCIPcomputeSafeBound shiftFailsCollaborators (mkExternal (fun _ => none)) automaticSet
        (mkState (sumLp (-1)) sumLpexFresh) false = some s
      ∧ (selectMethod shiftFailsCollaborators (mkExternal (fun _ => none)) automaticSet
          (mkState (sumLp (-1)) sumLpexFresh) false).1 = 'n'
      ∧ shiftFailsCollaborators.SCIPlpexPSpossible sumLpexFresh = true
      ∧ (callBoundShift shiftFailsCollaborators (mkExternal (fun _ => none))
          (mkState (sumLp (-1)) sumLpexFresh) false).lp.hasprovedbound = false
      ∧ s.stat.nboundshift = 1
      ∧ s.stat.nexlp + s.stat.nexlpinf = 1
      ∧ s.stat.nprojshift = 0 ∧ s.stat.nprojshiftinf = 0
      ∧ s.lpex.psdata.psdatacon = false := by
  have hsel := chooseBoundingMethod_shift shiftFailsCollaborators (mkExternal (fun _ => none))
    (mkState (sumLp (-1)) sumLpexFresh) false
  have hn : (chooseBoundingMethod shiftFailsCollaborators (mkExternal (fun _ => none))
      (mkState (sumLp (-1)) sumLpexFresh) false).1 = 'n' :=
    hsel.1.mpr ⟨rfl, Or.inr shiftFails_interleave⟩
  have hst := hsel.2 hn
  have hsm : selectMethod shiftFailsCollaborators (mkExternal (fun _ => none)) automaticSet
      (mkState (sumLp (-1)) sumLpexFresh) false
      = chooseBoundingMethod shiftFailsCollaborators (mkExternal (fun _ => none))
          (mkState (sumLp (-1)) sumLpexFresh) false := by
    simp [selectMethod, automaticSet]
  have hrun : runMethod shiftFailsCollaborators (mkExternal (fun _ => none))
      (selectMethod shiftFailsCollaborators (mkExternal (fun _ => none)) automaticSet
        (mkState (sumLp (-1)) sumLpexFresh) false) false
      = some (callBoundShift shiftFailsCollaborators (mkExternal (fun _ => none))
          (mkState (sumLp (-1)) sumLpexFresh) false) := by
    rw [hsm]
    unfold runMethod
    rw [if_pos hn, hst]
  have hres := SCIPcomputeSafeBound_of_run shiftFailsCollaborators (mkExternal (fun _ => none))
    automaticSet (mkState (sumLp (-1)) sumLpexFresh) _ false rfl rfl hrun
  rw [if_pos shiftFails_boundShift.1] at hres
  have hfr := callBoundShift_frame shiftFailsCollaborators (mkExternal (fun _ => none))
    (mkState (sumLp (-1)) sumLpexFresh) false
  have hcnt := solveLpExact_counted shiftFailsCollaborators (mkExternal (fun _ => none))
    (callBoundShift shiftFailsCollaborators (mkExternal (fun _ => none))
      (mkState (sumLp (-1)) sumLpexFresh) false) false
  have hps := solveLpExact_projshift shiftFailsCollaborators (mkExternal (fun _ => none))
    (callBoundShift shiftFailsCollaborators (mkExternal (fun _ => none))
      (mkState (sumLp (-1)) sumLpexFresh) false) false
  have hpd := solveLpExact_psdata shiftFailsCollaborators (mkExternal (fun _ => none))
    (callBoundShift shiftFailsCollaborators (mkExternal (fun _ => none))
      (mkState (sumLp (-1)) sumLpexFresh) false) false
  refine ⟨_, hres, ?_, rfl, shiftFails_boundShift.1, ?_, ?_, ?_, ?_, ?_⟩
  · rw [hsm]
    exact hn
  · unfold solveLpExact
    simp only []
    split_ifs <;> exact shiftFails_boundShift.2
  · rw [hcnt, hfr.2.2.2.1, hfr.2.2.2.2]
    rfl
  · rw [hps.1, hfr.2.1]
    rfl
  · rw [hps.2, hfr.2.2.1]
    rfl
  · rw [hpd, hfr.1]
    rfl

theorem chooseByPossibility_cases (col : Collaborators) (ext : External) (st : BoundingState) :
    ((chooseByPossibility col ext st).1 = 'p'
      ↔ (col.SCIPlpexBSpossible st.lpex = false ∧ col.SCIPlpexPSpossible st.lpex = true
          ∧ (constructPSData col ext st).lpex.psdata.psdatafail = false))
    ∧ ((chooseByPossibility col ext st).1 = 'e'
      ↔ (col.SCIPlpexBSpossible st.lpex = false
          ∧ (col.SCIPlpexPSpossible st.lpex = false
            ∨ (constructPSData col ext st).lpex.psdata.psdatafail = true)))
    ∧ (chooseByPossibility col ext st).2
        = (if col.SCIPlpexBSpossible st.lpex = false ∧ col.SCIPlpexPSpossible st.lpex = true
            then constructPSData col ext st else st) := by
  unfold chooseByPossibility
  cases hb : col.SCIPlpexBSpossible st.lpex <;> cases hp : col.SCIPlpexPSpossible st.lpex <;>
    cases hf : (constructPSData col ext st).lpex.psdata.psdatafail <;> simp [hf]

theorem chooseBoundingMethod_cases (col : Collaborators) (ext : External) (st : BoundingState)
    (dualfarkas : Bool) :
    ((chooseBoundingMethod col ext st dualfarkas).1 = 'p'
      ↔ ((dualfarkas = true ∨ interleaveExactLp col ext st = false)
          ∧ col.SCIPlpexBSpossible st.lpex = false ∧ col.SCIPlpexPSpossible st.lpex = true
          ∧ (constructPSData col ext st).lpex.psdata.psdatafail = false))
    ∧ ((chooseBoundingMethod col ext st dualfarkas).1 = 'e'
      ↔ ((dualfarkas = false ∧ interleaveExactLp col ext st = true)
          ∨ (col.SCIPlpexBSpossible st.lpex = false
            ∧ (col.SCIPlpexPSpossible st.lpex = false
              ∨ (constructPSData col ext st).lpex.psdata.psdatafail = true))))
    ∧ (chooseBoundingMethod col ext st dualfarkas).2
        = (if (dualfarkas = true ∨ interleaveExactLp col ext st = false)
              ∧ col.SCIPlpexBSpossible st.lpex = false ∧ col.SCIPlpexPSpossible st.lpex = true
            then constructPSData col ext st else st) := by
  have h := chooseByPossibility_cases col ext st
  unfold chooseBoundingMethod
  cases hd : dualfarkas
  · cases hi : interleaveExactLp col ext st
    · simpa using h
    · simp
  · simpa using h

theorem runMethod_shift (col : Collaborators) (ext : External) (sel : Char × BoundingState)
    (dualfarkas : Bool) (h : sel.1 = 'n') :
    runMethod col ext sel dualfarkas = some (callBoundShift col ext sel.2 dualfarkas) := by
  unfold runMethod
  rw [if_pos h]

theorem runMethod_projectShift (col : Collaborators) (ext : External)
    (sel : Char × BoundingState) (dualfarkas : Bool) (h : sel.1 = 'p') :
    runMethod col ext sel dualfarkas
      = callGetPSdual ext (constructPSData col ext sel.2) dualfarkas := by
  unfold runMethod
  rw [h]
  simp

theorem runMethod_exact (col : Collaborators) (ext : External) (sel : Char × BoundingState)
    (dualfarkas : Bool) (h : sel.1 = 'e') :
    runMethod col ext sel dualfarkas = some (solveLpExact col ext sel.2 dualfarkas) := by
  unfold runMethod
  rw [h]
  simp

/-- In automatic mode with no bound proved at entry, `SCIPcomputeSafeBound` runs the method that
`chooseBoundingMethod` selects and then, if no bound is proved, the exact LP solver. -/
theorem SCIPcomputeSafeBound_automatic (col : Collaborators) (ext : External)
    (scipset : SCIP_SET) (st : BoundingState) (dualfarkas : Bool)
    (hexact : scipset.misc_exactsolve = true) (hnb : st.lp.hasprovedbound = false)
    (hauto : scipset.misc_dbmethod = 'a') :
    SCIPcomputeSafeBound col ext scipset st dualfarkas
      = (runMethod col ext (chooseBoundingMethod col ext st dualfarkas) dualfarkas).bind
          (fun st1 => some (if st1.lp.hasprovedbound = false
            then solveLpExact col ext st1 dualfarkas else st1)) := by
  have hsm : selectMethod col ext scipset st dualfarkas
      = chooseBoundingMethod col ext st dualfarkas := by
    simp [selectMethod, hauto]
  unfold SCIPcomputeSafeBound
  simp only [hexact, hnb, Bool.not_true, Bool.or_self, Bool.false_eq_true, if_false, hsm]
  congr 1
  funext st1
  cases h : st1.lp.hasprovedbound <;> simp


theorem shiftFails_run :
    runMethod shiftFailsCollaborators (mkExternal (fun _ => none))
      (selectMethod shiftFailsCollaborators (mkExternal (fun _ => none)) automaticSet
        (mkState (sumLp (-1)) sumLpexFresh) false) false
      = some (callBoundShift shiftFailsCollaborators (mkExternal (fun _ => none))
          (mkState (sumLp (-1)) sumLpexFresh) false) := by
  have hsel := chooseBoundingMethod_shift shiftFailsCollaborators (mkExternal (fun _ => none))
    (mkState (sumLp (-1)) sumLpexFresh) false
  have hn : (chooseBoundingMethod shiftFailsCollaborators (mkExternal (fun _ => none))
      (mkState (sumLp (-1)) sumLpexFresh) false).1 = 'n' :=
    hsel.1.mpr ⟨rfl, Or.inr shiftFails_interleave⟩
  have hsm : selectMethod shiftFailsCollaborators (mkExternal (fun _ => none)) automaticSet
      (mkState (sumLp (-1)) sumLpexFresh) false
      = chooseBoundingMethod shiftFailsCollaborators (mkExternal (fun _ => none))
          (mkState (sumLp (-1)) sumLpexFresh) false := by
    simp [selectMethod, automaticSet]
  rw [hsm]
  unfold runMethod
  rw [if_pos hn, hsel.2 hn]

/-- C13: final fallback. In exact solving mode with no bound proved at entry, when the method
that was selected and run (`'n'`, `'p'`, or any other) ends with `hasprovedbound = FALSE`,
`solveLpExact` is invoked on the state it left (one of its call counters grows by one); and if
the exact solver then terminates optimal, the call returns with `hasprovedbound = TRUE`,
`lpsolstat = OPTIMAL` and `lp->lpobjval` equal to the exact optimal objective value converted
with rounding downwards. -/
theorem SCIPcomputeSafeBound_final_fallback (col : Collaborators) (ext : External)
    (scipset : SCIP_SET) (st st1 : BoundingState) (dualfarkas : Bool)
    (hexact : scipset.misc_exactsolve = true) (hnb : st.lp.hasprovedbound = false)
    (hrun : runMethod col ext (selectMethod col ext scipset st dualfarkas) dualfarkas
      = some st1)
    (hfail : st1.lp.hasprovedbound = false) :
    ∃ s, SCIPcomputeSafeBound col ext scipset st dualfarkas = some s
      ∧ s = solveLpExact col ext st1 dualfarkas
      ∧ s.stat.nexlp + s.stat.nexlpinf = st1.stat.nexlp + st1.stat.nexlpinf + 1
      ∧ ((col.SCIPlpiexSolveDual st1.lp st1.lpex).isOptimal = true →
          s.lp.hasprovedbound = true
          ∧ s.lp.lpsolstat = SCIP_LPSOLSTAT.OPTIMAL
          ∧ s.lp.lpobjval = ext.RgetRealRelax (col.SCIPlpiexSolveDual st1.lp st1.lpex).objval) := by
  have hres := SCIPcomputeSafeBound_of_run col ext scipset st st1 dualfarkas hexact hnb hrun
  rw [if_pos hfail] at hres
  refine ⟨_, hres, rfl, solveLpExact_counted col ext st1 dualfarkas, ?_⟩
  intro hopt
  have h := solveLpExact_optimal col ext st1 dualfarkas hopt
  exact ⟨h.1, h.2.1, h.2.2.1⟩

theorem SCIPcomputeSafeBound_final_fallback_witness :
    ∃ s, SCIPcomputeSafeBound shiftFailsCollaborators (mkExternal (fun _ => none)) automaticSet
        (mkState (sumLp (-1)) sumLpexFresh) false = some s
      ∧ s = solveLpExact shiftFailsCollaborators (mkExternal (fun _ => none))
          (callBoundShift shiftFailsCollaborators (mkExternal (fun _ => none))
            (mkState (sumLp (-1)) sumLpexFresh) false) false
      ∧ s.stat.nexlp + s.stat.nexlpinf
          = (callBoundShift shiftFailsCollaborators (mkExternal (fun _ => none))
              (mkState (sumLp (-1)) sumLpexFresh) false).stat.nexlp
            + (callBoundShift shiftFailsCollaborators (mkExternal (fun _ => none))
              (mkState (sumLp (-1)) sumLpexFresh) false).stat.nexlpinf + 1
      ∧ ((shiftFailsCollaborators.SCIPlpiexSolveDual
            (callBoundShift shiftFailsCollaborators (mkExternal (fun _ => none))
              (mkState (sumLp (-1)) sumLpexFresh) false).lp
            (callBoundShift shiftFailsCollaborators (mkExternal (fun _ => none))
              (mkState (sumLp (-1)) sumLpexFresh) false).lpex).isOptimal = true →
          s.lp.hasprovedbound = true
          ∧ s.lp.lpsolstat = SCIP_LPSOLSTAT.OPTIMAL
          ∧ s.lp.lpobjval = (mkExternal (fun _ => none)).RgetRealRelax
              (shiftFailsCollaborators.SCIPlpiexSolveDual
                (callBoundShift shiftFailsCollaborators (mkExternal (fun _ => none))
                  (mkState (sumLp (-1)) sumLpexFresh) false).lp
                (callBoundShift shiftFailsCollaborators (mkExternal (fun _ => none))
                  (mkState (sumLp (-1)) sumLpexFresh) false).lpex).objval) :=
  SCIPcomputeSafeBound_final_fallback shiftFailsCollaborators (mkExternal (fun _ => none))
    automaticSet (mkState (sumLp (-1)) sumLpexFresh) _ false rfl rfl shiftFails_run
    shiftFails_boundShift.1

theorem exactFails_run :
    runMethod exactFailsCollaborators (mkExternal (fun _ => none))
      (selectMethod exactFailsCollaborators (mkExternal (fun _ => none)) automaticSet
        (mkState (sumLp (-1)) sumLpexFresh) false) false
      = some (solveLpExact exactFailsCollaborators (mkExternal (fun _ => none))
          (mkState (sumLp (-1)) sumLpexFresh) false) := by
  have hsm : selectMethod exactFailsCollaborators (mkExternal (fun _ => none)) automaticSet
      (mkState (sumLp (-1)) sumLpexFresh) false = ('e', mkState (sumLp (-1)) sumLpexFresh) := by
    simp [selectMethod, automaticSet, chooseBoundingMethod, chooseByPossibility,
      exactFailsCollaborators, mkCollaborators]
  rw [hsm]
  simp [runMethod]

/-- C14 (counterexample): in exact solving mode, with the automatic choice, a call whose exact LP
solver ends without a result returns with `hasprovedbound = FALSE`. -/
theorem exact_solver_failure_leaves_no_bound :
    ∃ s, SCIPcomputeSafeBound exactFailsCollaborators (mkExternal (fun _ => none)) automaticSet
        (mkState (sumLp (-1)) sumLpexFresh) false = some s
      ∧ s.lp.hasprovedbound = false
      ∧ s.stat.nfailexlp = 2 := by
  have hres := SCIPcomputeSafeBound_of_run exactFailsCollaborators (mkExternal (fun _ => none))
    automaticSet (mkState (sumLp (-1)) sumLpexFresh) _ false rfl rfl exactFails_run
  refine ⟨_, hres, ?_, ?_⟩ <;>
    simp [solveLpExact, exactFailsCollaborators, mkCollaborators, failedSolve, mkState,
      zeroStat]

/-- C14 (amended): in exact solving mode every call whose selected method returns a state
returns, and on return `hasprovedbound = TRUE` exactly when the method proved its bound or the
exact LP solver called afterwards terminated optimal, primal unbounded, or primal infeasible with
a valid Farkas proof; with any other status of the exact LP solver the call returns with
`hasprovedbound = FALSE`. -/
theorem SCIPcomputeSafeBound_proved_iff (col : Collaborators) (ext : External)
    (scipset : SCIP_SET) (st st1 : BoundingState) (dualfarkas : Bool)
    (hexact : scipset.misc_exactsolve = true) (hnb : st.lp.hasprovedbound = false)
    (hrun : runMethod col ext (selectMethod col ext scipset st dualfarkas) dualfarkas
      = some st1) :
    ∃ s, SCIPcomputeSafeBound col ext scipset st dualfarkas = some s
      ∧ (s.lp.hasprovedbound = true ↔
          (st1.lp.hasprovedbound = true
            ∨ (col.SCIPlpiexSolveDual st1.lp st1.lpex).isOptimal = true
            ∨ (col.SCIPlpiexSolveDual st1.lp st1.lpex).isPrimalUnbounded = true
            ∨ ((col.SCIPlpiexSolveDual st1.lp st1.lpex).isPrimalInfeasible = true
                ∧ (col.SCIPlpiexSolveDual st1.lp st1.lpex).farkasValid = true))) := by
  have hres := SCIPcomputeSafeBound_of_run col ext scipset st st1 dualfarkas hexact hnb hrun
  refine ⟨_, hres, ?_⟩
  by_cases h : st1.lp.hasprovedbound = false
  · rw [if_pos h, solveLpExact_hasprovedbound col ext st1 dualfarkas h]
    simp [h, or_assoc]
  · have h2 : st1.lp.hasprovedbound = true := by simpa using h
    rw [if_neg h]
    simp [h2]

theorem SCIPcomputeSafeBound_proved_iff_witness :
    ∃ s, SCIPcomputeSafeBound exactFailsCollaborators (mkExternal (fun _ => none)) automaticSet
        (mkState (sumLp (-1)) sumLpexFresh) false = some s
      ∧ (s.lp.hasprovedbound = true ↔
          ((solveLpExact exactFailsCollaborators (mkExternal (fun _ => none))
              (mkState (sumLp (-1)) sumLpexFresh) false).lp.hasprovedbound = true
            ∨ (exactFailsCollaborators.SCIPlpiexSolveDual
                (solveLpExact exactFailsCollaborators (mkExternal (fun _ => none))
                  (mkState (sumLp (-1)) sumLpexFresh) false).lp
                (solveLpExact exactFailsCollaborators (mkExternal (fun _ => none))
                  (mkState (sumLp (-1)) sumLpexFresh) false).lpex).isOptimal = true
            ∨ (exactFailsCollaborators.SCIPlpiexSolveDual
                (solveLpExact exactFailsCollaborators (mkExternal (fun _ => none))
                  (mkState (sumLp (-1)) sumLpexFresh) false).lp
                (solveLpExact exactFailsCollaborators (mkExternal (fun _ => none))
                  (mkState (sumLp (-1)) sumLpexFresh) false).lpex).isPrimalUnbounded = true
            ∨ ((exactFailsCollaborators.SCIPlpiexSolveDual
                (solveLpExact exactFailsCollaborators (mkExternal (fun _ => none))
                  (mkState (sumLp (-1)) sumLpexFresh) false).lp
                (solveLpExact exactFailsCollaborators (mkExternal (fun _ => none))
                  (mkState (sumLp (-1)) sumLpexFresh) false).lpex).isPrimalInfeasible = true
              ∧ (exactFailsCollaborators.SCIPlpiexSolveDual
                (solveLpExact exactFailsCollaborators (mkExternal (fun _ => none))
                  (mkState (sumLp (-1)) sumLpexFresh) false).lp
                (solveLpExact exactFailsCollaborators (mkExternal (fun _ => none))
                  (mkState (sumLp (-1)) sumLpexFresh) false).lpex).farkasValid = true))) :=
  SCIPcomputeSafeBound_proved_iff exactFailsCollaborators (mkExternal (fun _ => none))
    automaticSet (mkState (sumLp (-1)) sumLpexFresh) _ false rfl rfl exactFails_run


/-! ## Construction of the project-and-shift data -/

theorem psComputeSintPointRay_frame (col : Collaborators) (lp : SCIP_LP) (lpex : SCIP_LPEX)
    (findintpoint : Bool) :
    (psComputeSintPointRay col lp lpex findintpoint).psdata.psdatacon = lpex.psdata.psdatacon
    ∧ (psComputeSintPointRay col lp lpex findintpoint).psdata.psuseintpoint
        = lpex.psdata.psuseintpoint
    ∧ (psComputeSintPointRay col lp lpex findintpoint).psdata.psintpointselection
        = lpex.psdata.psintpointselection := by
  unfold psComputeSintPointRay
  simp only []
  split_ifs <;> exact ⟨rfl, rfl, rfl⟩

/-- The flags after the computation of the interior ray: the ray is marked as built exactly when
the auxiliary LP ended optimal with a nonzero common slack. -/
theorem psComputeSintPointRay_ray_flags (col : Collaborators) (lp : SCIP_LP)
    (lpex : SCIP_LPEX) :
    (psComputeSintPointRay col lp lpex false).psdata.pshasray
        = (if (col.auxSolveDual (auxProblemOpt col lp lpex false)).isOptimal = true
              ∧ (col.auxSolveDual (auxProblemOpt col lp lpex false)).primsol
                  ((dvarmapOf col lpex).2 + 1 - 1) ≠ 0
            then true else lpex.psdata.pshasray)
    ∧ (psComputeSintPointRay col lp lpex false).psdata.pshaspoint = lpex.psdata.pshaspoint
    ∧ (psComputeSintPointRay col lp lpex false).psdata.psdatafail = lpex.psdata.psdatafail := by
  unfold psComputeSintPointRay
  simp only [or_true, if_true, RisZero, decide_eq_true_eq, Bool.false_eq_true, if_false]
  split_ifs <;> simp_all

/-- The flag `psdatafail` after the computation of the interior point: only the arbitrary point
in transposed form touches it, when its auxiliary LP does not end optimal. -/
theorem psComputeSintPointRay_point_psdatafail (col : Collaborators) (lp : SCIP_LP)
    (lpex : SCIP_LPEX) :
    (psComputeSintPointRay col lp lpex true).psdata.pshasray = lpex.psdata.pshasray
    ∧ (psComputeSintPointRay col lp lpex true).psdata.psdatafail
        = (if lpex.psdata.psintpointselection = PS_INTPOINTSEL.ARBDUAL
              ∧ (col.auxSolveDual (auxProblemArbDual col lpex)).isOptimal = false
            then true else lpex.psdata.psdatafail) := by
  unfold psComputeSintPointRay
  simp only [Bool.true_eq_false, or_false]
  split_ifs <;> simp_all

theorem psChooseS_flags (col : Collaborators) (ext : External) (st : BoundingState) :
    (psChooseS col ext st).lpex.psdata.psdatacon = st.lpex.psdata.psdatacon
    ∧ (psChooseS col ext st).lpex.psdata.psdatafail = st.lpex.psdata.psdatafail
    ∧ (psChooseS col ext st).lpex.psdata.pshaspoint = st.lpex.psdata.pshaspoint
    ∧ (psChooseS col ext st).lpex.psdata.pshasray = st.lpex.psdata.pshasray
    ∧ (psChooseS col ext st).lpex.psdata.psuseintpoint = st.lpex.psdata.psuseintpoint
    ∧ (psChooseS col ext st).lpex.psdata.psintpointselection
        = st.lpex.psdata.psintpointselection := by
  unfold psChooseS
  simp only []
  split_ifs
  · exact ⟨rfl, rfl, rfl, rfl, rfl, rfl⟩
  · rw [solveLpExact_psdata]
    exact ⟨rfl, rfl, rfl, rfl, rfl, rfl⟩
  · exact ⟨rfl, rfl, rfl, rfl, rfl, rfl⟩

theorem psFactorizeD_flags (col : Collaborators) (lpex : SCIP_LPEX) :
    (psFactorizeD col lpex).psdata.psdatacon = lpex.psdata.psdatacon
    ∧ (psFactorizeD col lpex).psdata.pshaspoint = lpex.psdata.pshaspoint
    ∧ (psFactorizeD col lpex).psdata.pshasray = lpex.psdata.pshasray
    ∧ (psFactorizeD col lpex).psdata.psuseintpoint = lpex.psdata.psuseintpoint
    ∧ (psFactorizeD col lpex).psdata.psintpointselection = lpex.psdata.psintpointselection
    ∧ (lpex.psdata.psdatafail = false →
        ((psFactorizeD col lpex).psdata.psdatafail = false ↔
          (col.RECTLUbuildFactorization lpex.ncols
            (collectIndices lpex.psdata.nextendedrows lpex.psdata.includedrows
              lpex.psdata.psbasis).2
            (collectIndices lpex.psdata.nextendedrows lpex.psdata.includedrows
              lpex.psdata.psbasis).1
            (projMatrix lpex lpex.psdata.nextendedrows col.bufferContent
              col.bufferContent)).1 = 0)) := by
  unfold psFactorizeD
  refine ⟨rfl, rfl, rfl, rfl, rfl, ?_⟩
  intro h
  simp [h]

theorem computeCertificates_frame (col : Collaborators) (lp : SCIP_LP) (lpex : SCIP_LPEX) :
    (computeCertificates col lp lpex).psdata.psdatacon = lpex.psdata.psdatacon
    ∧ (computeCertificates col lp lpex).psdata.psintpointselection
        = lpex.psdata.psintpointselection := by
  unfold computeCertificates
  have h1 := psComputeSintPointRay_frame col lp (createInteriorray lpex) false
  have h2 := psComputeSintPointRay_frame col lp
    (createInteriorpt (psComputeSintPointRay col lp (createInteriorray lpex) false)) true
  split_ifs
  · exact ⟨h2.1.trans h1.1, h2.2.2.trans h1.2.2⟩
  · exact ⟨h1.1, h1.2.2⟩
  · exact ⟨rfl, rfl⟩

theorem markFailure_psdatacon (lpex : SCIP_LPEX) :
    (markFailure lpex).psdata.psdatacon = lpex.psdata.psdatacon := by
  unfold markFailure
  split_ifs <;> rfl

theorem constructPSData_psdatacon (col : Collaborators) (ext : External)
    (st : BoundingState) :
    (constructPSData col ext st).lpex.psdata.psdatacon = true := by
  unfold constructPSData
  by_cases h : st.lpex.psdata.psdatacon = true
  · rw [if_pos h]
    exact h
  · rw [if_neg h]
    simp only []
    rw [markFailure_psdatacon, (computeCertificates_frame _ _ _).1, (psFactorizeD_flags _ _).1,
      (psChooseS_flags _ _ _).1]
    rfl

/-- C12 (amended): in automatic mode `chooseBoundingMethod` selects one method by priority: bound
shifting exactly when the exact LP is not interleaved (the interleaving test is made in bound
mode only) and bound shifting is possible; project-and-shift exactly when the exact LP is not
interleaved, bound shifting is not possible, project-and-shift is possible and `constructPSData`
leaves `psdatafail = FALSE`; the exact LP exactly in the remaining cases; the state is changed by
the selection only where `constructPSData` is called. `SCIPcomputeSafeBound` runs the selected
method only, and where it ends with `hasprovedbound = FALSE` the exact LP solver is called next
on the state it left. In particular a failed `boundShift` falls through directly to the exact LP
solver, and project-and-shift is not attempted: the certificate data and the counters of
`getPSdual` are those at entry. -/
theorem automatic_runs_selected_method_then_exact_lp (col : Collaborators) (ext : External)
    (scipset : SCIP_SET) (st : BoundingState) (dualfarkas : Bool)
    (hexact : scipset.misc_exactsolve = true) (hnb : st.lp.hasprovedbound = false)
    (hauto : scipset.misc_dbmethod = 'a') :
    ((chooseBoundingMethod col ext st dualfarkas).1 = 'n'
      ↔ ((dualfarkas = true ∨ interleaveExactLp col ext st = false)
          ∧ col.SCIPlpexBSpossible st.lpex = true))
    ∧ ((chooseBoundingMethod col ext st dualfarkas).1 = 'p'
      ↔ ((dualfarkas = true ∨ interleaveExactLp col ext st = false)
          ∧ col.SCIPlpexBSpossible st.lpex = false ∧ col.SCIPlpexPSpossible st.lpex = true
          ∧ (constructPSData col ext st).lpex.psdata.psdatafail = false))
    ∧ ((chooseBoundingMethod col ext st dualfarkas).1 = 'e'
      ↔ ((dualfarkas = false ∧ interleaveExactLp col ext st = true)
          ∨ (col.SCIPlpexBSpossible st.lpex = false
            ∧ (col.SCIPlpexPSpossible st.lpex = false
              ∨ (constructPSData col ext st).lpex.psdata.psdatafail = true))))
    ∧ ((chooseBoundingMethod col ext st dualfarkas).2
        = (if (dualfarkas = true ∨ interleaveExactLp col ext st = false)
              ∧ col.SCIPlpexBSpossible st.lpex = false ∧ col.SCIPlpexPSpossible st.lpex = true
            then constructPSData col ext st else st))
    ∧ ((chooseBoundingMethod col ext st dualfarkas).1 = 'n' →
        SCIPcomputeSafeBound col ext scipset st dualfarkas
          = some (if (callBoundShift col ext st dualfarkas).lp.hasprovedbound = false
              then solveLpExact col ext (callBoundShift col ext st dualfarkas) dualfarkas
              else callBoundShift col ext st dualfarkas))
    ∧ ((chooseBoundingMethod col ext st dualfarkas).1 = 'p' →
        SCIPcomputeSafeBound col ext scipset st dualfarkas
          = (callGetPSdual ext (constructPSData col ext st) dualfarkas).bind
              (fun st1 => some (if st1.lp.hasprovedbound = false
                then solveLpExact col ext st1 dualfarkas else st1)))
    ∧ ((chooseBoundingMethod col ext st dualfarkas).1 = 'e' →
        SCIPcomputeSafeBound col ext scipset st dualfarkas
          = some (if (solveLpExact col ext (chooseBoundingMethod col ext st dualfarkas).2
                dualfarkas).lp.hasprovedbound = false
              then solveLpExact col ext
                (solveLpExact col ext (chooseBoundingMethod col ext st dualfarkas).2 dualfarkas)
                dualfarkas
              else solveLpExact col ext (chooseBoundingMethod col ext st dualfarkas).2
                dualfarkas))
    ∧ ((chooseBoundingMethod col ext st dualfarkas).1 = 'n' →
        (callBoundShift col ext st dualfarkas).lp.hasprovedbound = false →
        ∃ s, SCIPcomputeSafeBound col ext scipset st dualfarkas = some s
          ∧ s = solveLpExact col ext (callBoundShift col ext st dualfarkas) dualfarkas
          ∧ s.stat.nexlp + s.stat.nexlpinf = st.stat.nexlp + st.stat.nexlpinf + 1
          ∧ s.lpex.psdata = st.lpex.psdata
          ∧ s.stat.nprojshift = st.stat.nprojshift
          ∧ s.stat.nprojshiftinf = st.stat.nprojshiftinf) := by
  have hn := chooseBoundingMethod_shift col ext st dualfarkas
  have hc := chooseBoundingMethod_cases col ext st dualfarkas
  have hrun := SCIPcomputeSafeBound_automatic col ext scipset st dualfarkas hexact hnb hauto
  have hshift : (chooseBoundingMethod col ext st dualfarkas).1 = 'n' →
      SCIPcomputeSafeBound col ext scipset st dualfarkas
        = some (if (callBoundShift col ext st dualfarkas).lp.hasprovedbound = false
            then solveLpExact col ext (callBoundShift col ext st dualfarkas) dualfarkas
            else callBoundShift col ext st dualfarkas) := by
    intro hsel
    rw [hrun, runMethod_shift col ext _ dualfarkas hsel, hn.2 hsel]
    rfl
  refine ⟨?_, hc.1, hc.2.1, hc.2.2, hshift, ?_, ?_, ?_⟩
  · constructor
    · intro h
      exact ⟨(hn.1.mp h).2, (hn.1.mp h).1⟩
    · intro h
      exact hn.1.mpr ⟨h.2, h.1⟩
  · intro hsel
    have hcond := hc.1.mp hsel
    rw [hrun, runMethod_projectShift col ext _ dualfarkas hsel, hc.2.2,
      if_pos ⟨hcond.1, hcond.2.1, hcond.2.2.1⟩]
    have hcon := constructPSData_psdatacon col ext st
    have hid : constructPSData col ext (constructPSData col ext st)
        = constructPSData col ext st := by
      generalize constructPSData col ext st = st1 at hcon
      unfold constructPSData
      rw [if_pos hcon]
    rw [hid]
  · intro hsel
    rw [hrun, runMethod_exact col ext _ dualfarkas hsel]
    rfl
  · intro hsel hfail
    have hres := hshift hsel
    rw [if_pos hfail] at hres
    have hfr := callBoundShift_frame col ext st dualfarkas
    have hcnt := solveLpExact_counted col ext (callBoundShift col ext st dualfarkas) dualfarkas
    have hps := solveLpExact_projshift col ext (callBoundShift col ext st dualfarkas) dualfarkas
    have hpd := solveLpExact_psdata col ext (callBoundShift col ext st dualfarkas) dualfarkas
    refine ⟨_, hres, rfl, ?_, ?_, ?_, ?_⟩
    · rw [hcnt, hfr.2.2.2.1, hfr.2.2.2.2]
    · rw [hpd, hfr.1]
    · rw [hps.1, hfr.2.1]
    · rw [hps.2, hfr.2.2.1]

/-- Witness of C12 (amended): with bound shifting possible it is selected, fails, and the exact
LP solver is called on the state it left; with bound shifting not possible, project-and-shift
possible and its data constructed without failure, project-and-shift is selected and run; with
neither possible the exact LP is selected and run. -/
theorem automatic_runs_selected_method_then_exact_lp_witness :
    (∃ s, SCIPcomputeSafeBound shiftFailsCollaborators (mkExternal (fun _ => none))
        automaticSet (mkState (sumLp (-1)) sumLpexFresh) false = some s
      ∧ s = solveLpExact shiftFailsCollaborators (mkExternal (fun _ => none))
          (callBoundShift shiftFailsCollaborators (mkExternal (fun _ => none))
            (mkState (sumLp (-1)) sumLpexFresh) false) false
      ∧ s.stat.nexlp + s.stat.nexlpinf
          = (mkState (sumLp (-1)) sumLpexFresh).stat.nexlp
            + (mkState (sumLp (-1)) sumLpexFresh).stat.nexlpinf + 1
      ∧ s.lpex.psdata = (mkState (sumLp (-1)) sumLpexFresh).lpex.psdata
      ∧ s.stat.nprojshift = (mkState (sumLp (-1)) sumLpexFresh).stat.nprojshift
      ∧ s.stat.nprojshiftinf = (mkState (sumLp (-1)) sumLpexFresh).stat.nprojshiftinf)
    ∧ ((chooseBoundingMethod rayOnlyCollaborators (mkExternal (fun _ => none))
          (mkState (sumLp (-1)) sumLpex) false).1 = 'p'
      ∧ SCIPcomputeSafeBound rayOnlyCollaborators (mkExternal (fun _ => none)) automaticSet
          (mkState (sumLp (-1)) sumLpex) false
        = (callGetPSdual (mkExternal (fun _ => none))
            (constructPSData rayOnlyCollaborators (mkExternal (fun _ => none))
              (mkState (sumLp (-1)) sumLpex)) false).bind
            (fun st1 => some (if st1.lp.hasprovedbound = false
              then solveLpExact rayOnlyCollaborators (mkExternal (fun _ => none)) st1 false
              else st1)))
    ∧ ((chooseBoundingMethod exactFailsCollaborators (mkExternal (fun _ => none))
          (mkState (sumLp (-1)) sumLpexFresh) false).1 = 'e'
      ∧ SCIPcomputeSafeBound exactFailsCollaborators (mkExternal (fun _ => none)) automaticSet
          (mkState (sumLp (-1)) sumLpexFresh) false
        = some (if (solveLpExact exactFailsCollaborators (mkExternal (fun _ => none))
              (chooseBoundingMethod exactFailsCollaborators (mkExternal (fun _ => none))
                (mkState (sumLp (-1)) sumLpexFresh) false).2 false).lp.hasprovedbound = false
            then solveLpExact exactFailsCollaborators (mkExternal (fun _ => none))
              (solveLpExact exactFailsCollaborators (mkExternal (fun _ => none))
                (chooseBoundingMethod exactFailsCollaborators (mkExternal (fun _ => none))
                  (mkState (sumLp (-1)) sumLpexFresh) false).2 false) false
            else solveLpExact exactFailsCollaborators (mkExternal (fun _ => none))
              (chooseBoundingMethod exactFailsCollaborators (mkExternal (fun _ => none))
                (mkState (sumLp (-1)) sumLpexFresh) false).2 false)) := by
  have hA := automatic_runs_selected_method_then_exact_lp shiftFailsCollaborators
    (mkExternal (fun _ => none)) automaticSet (mkState (sumLp (-1)) sumLpexFresh) false rfl rfl
    rfl
  have hB := automatic_runs_selected_method_then_exact_lp rayOnlyCollaborators
    (mkExternal (fun _ => none)) automaticSet (mkState (sumLp (-1)) sumLpex) false rfl rfl rfl
  have hC := automatic_runs_selected_method_then_exact_lp exactFailsCollaborators
    (mkExternal (fun _ => none)) automaticSet (mkState (sumLp (-1)) sumLpexFresh) false rfl rfl
    rfl
  have hi : interleaveExactLp rayOnlyCollaborators (mkExternal (fun _ => none))
      (mkState (sumLp (-1)) sumLpex) = false := by
    simp [interleaveExactLp, rayOnlyCollaborators, mkCollaborators, mkState, sumLp, sumLpex,
      mkExternal]
  have hf : (constructPSData rayOnlyCollaborators (mkExternal (fun _ => none))
      (mkState (sumLp (-1)) sumLpex)).lpex.psdata.psdatafail = false := by
    have hcon : (mkState (sumLp (-1)) sumLpex).lpex.psdata.psdatacon = true := rfl
    unfold constructPSData
    rw [if_pos hcon]
    rfl
  have hp := hB.2.1.mpr ⟨Or.inr hi, rfl, rfl, hf⟩
  have he := hC.2.2.1.mpr (Or.inr ⟨rfl, Or.inl rfl⟩)
  exact ⟨hA.2.2.2.2.2.2.2 (hA.1.mpr ⟨Or.inr shiftFails_interleave, rfl⟩)
      shiftFails_boundShift.1,
    ⟨hp, hB.2.2.2.2.2.1 hp⟩, ⟨he, hC.2.2.2.2.2.2.1 he⟩⟩

/-- C15: `constructPSData` is idempotent. After a call the data are marked as constructed; a
call on data marked as constructed returns at once and leaves the whole state unchanged (the set
`S`, the basis, the factorization handle, interior point and ray, `commonslack`, and the flags
`pshaspoint`, `pshasray` and `psdatafail`, whether the construction succeeded or failed); hence a
second call changes nothing. -/
theorem constructPSData_idempotent (col : Collaborators) (ext : External)
    (st : BoundingState) :
    (constructPSData col ext st).lpex.psdata.psdatacon = true
    ∧ (st.lpex.psdata.psdatacon = true → constructPSData col ext st = st)
    ∧ constructPSData col ext (constructPSData col ext st) = constructPSData col ext st := by
  have hcon := constructPSData_psdatacon col ext st
  refine ⟨hcon, ?_, ?_⟩
  · intro h
    unfold constructPSData
    rw [if_pos h]
  · generalize constructPSData col ext st = st1 at hcon
    unfold constructPSData
    rw [if_pos hcon]

theorem constructPSData_idempotent_witness :
    (mkState (sumLp (-1)) sumLpex).lpex.psdata.psdatacon = true
    ∧ constructPSData rayOnlyCollaborators (mkExternal (fun _ => none))
        (mkState (sumLp (-1)) sumLpex) = mkState (sumLp (-1)) sumLpex :=
  ⟨rfl, (constructPSData_idempotent rayOnlyCollaborators (mkExternal (fun _ => none))
    (mkState (sumLp (-1)) sumLpex)).2.1 rfl⟩

/-- C16: in automatic mode `chooseBoundingMethod` returns one of `'n'`, `'p'`, `'e'`; it returns
`'p'` only after `constructPSData` and only when `psdatafail` is `FALSE` afterwards; and for
both purposes it returns `'e'` whenever bound shifting is not possible, project-and-shift is
possible and the construction of the certificate has failed. -/
theorem chooseBoundingMethod_never_p_after_failure (col : Collaborators) (ext : External)
    (st : BoundingState) (dualfarkas : Bool) :
    ((chooseBoundingMethod col ext st dualfarkas).1 = 'n'
      ∨ (chooseBoundingMethod col ext st dualfarkas).1 = 'p'
      ∨ (chooseBoundingMethod col ext st dualfarkas).1 = 'e')
    ∧ ((chooseBoundingMethod col ext st dualfarkas).1 = 'p' →
        (chooseBoundingMethod col ext st dualfarkas).2 = constructPSData col ext st
        ∧ (constructPSData col ext st).lpex.psdata.psdatafail = false)
    ∧ (col.SCIPlpexBSpossible st.lpex = false → col.SCIPlpexPSpossible st.lpex = true →
        (constructPSData col ext st).lpex.psdata.psdatafail = true →
        (chooseBoundingMethod col ext st dualfarkas).1 = 'e') := by
  have key : ((chooseByPossibility col ext st).1 = 'n'
        ∨ (chooseByPossibility col ext st).1 = 'p'
        ∨ (chooseByPossibility col ext st).1 = 'e')
      ∧ ((chooseByPossibility col ext st).1 = 'p' →
          (chooseByPossibility col ext st).2 = constructPSData col ext st
          ∧ (constructPSData col ext st).lpex.psdata.psdatafail = false)
      ∧ (col.SCIPlpexBSpossible st.lpex = false → col.SCIPlpexPSpossible st.lpex = true →
          (constructPSData col ext st).lpex.psdata.psdatafail = true →
          (chooseByPossibility col ext st).1 = 'e') := by
    unfold chooseByPossibility
    by_cases hb : col.SCIPlpexBSpossible st.lpex = true
    · simp [hb]
    · by_cases hp : col.SCIPlpexPSpossible st.lpex = true
      · by_cases hf : (constructPSData col ext st).lpex.psdata.psdatafail = true
        · simp [hb, hp, hf]
        · simp [hb, hp, hf]
      · simp [hb, hp]
  unfold chooseBoundingMethod
  by_cases hd : dualfarkas = true
  · simp only [hd, if_true]
    exact key
  · by_cases hi : interleaveExactLp col ext st = true
    · simp [hd, hi]
    · simp only [hd, hi, Bool.false_eq_true, if_false]
      exact key

theorem factorFails_psdatafail :
    (constructPSData factorFailsCollaborators (mkExternal (fun _ => none))
      (mkState (sumLp (-1)) sumLpexFresh)).lpex.psdata.psdatafail = true := by
  unfold constructPSData
  have hcon : (mkState (sumLp (-1)) sumLpexFresh).lpex.psdata.psdatacon = false := rfl
  simp only [hcon, Bool.false_eq_true, if_false]
  have hfd : (psFactorizeD factorFailsCollaborators
      (psChooseS factorFailsCollaborators (mkExternal (fun _ => none))
        (beginConstruction (mkState (sumLp (-1)) sumLpexFresh))).lpex).psdata.psdatafail
      = true := by
    simp [psFactorizeD, factorFailsCollaborators, mkCollaborators]
  unfold computeCertificates markFailure
  simp only [hfd, Bool.not_true, Bool.false_eq_true, if_false]
  split_ifs
  · rfl
  · exact hfd

theorem chooseBoundingMethod_never_p_after_failure_witness :
    factorFailsCollaborators.SCIPlpexBSpossible (mkState (sumLp (-1)) sumLpexFresh).lpex = false
    ∧ factorFailsCollaborators.SCIPlpexPSpossible (mkState (sumLp (-1)) sumLpexFresh).lpex = true
    ∧ (constructPSData factorFailsCollaborators (mkExternal (fun _ => none))
        (mkState (sumLp (-1)) sumLpexFresh)).lpex.psdata.psdatafail = true
    ∧ (chooseBoundingMethod factorFailsCollaborators (mkExternal (fun _ => none))
        (mkState (sumLp (-1)) sumLpexFresh) true).1 = 'e' :=
  ⟨rfl, rfl, factorFails_psdatafail,
    (chooseBoundingMethod_never_p_after_failure factorFailsCollaborators
      (mkExternal (fun _ => none)) (mkState (sumLp (-1)) sumLpexFresh) true).2.2 rfl rfl
      factorFails_psdatafail⟩


theorem psComputeSintPointRay_point_failed (col : Collaborators) (lp : SCIP_LP)
    (lpex : SCIP_LPEX) (hsel : lpex.psdata.psintpointselection = PS_INTPOINTSEL.ARBDUAL)
    (hopt : (col.auxSolveDual (auxProblemArbDual col lpex)).isOptimal = false) :
    psComputeSintPointRay col lp lpex true
      = { lpex with psdata := { lpex.psdata with psdatafail := true } } := by
  unfold psComputeSintPointRay
  simp [hsel, hopt]

theorem computeCertificates_psdatafail (col : Collaborators) (lp : SCIP_LP) (lpex : SCIP_LPEX)
    (hf : lpex.psdata.psdatafail = false)
    (hsel : lpex.psdata.psintpointselection ≠ PS_INTPOINTSEL.ARBDUAL) :
    (computeCertificates col lp lpex).psdata.psdatafail = false := by
  unfold computeCertificates
  simp only [hf, Bool.not_false, if_true]
  have hray := psComputeSintPointRay_ray_flags col lp (createInteriorray lpex)
  have hfr := psComputeSintPointRay_frame col lp (createInteriorray lpex) false
  have hrf : (psComputeSintPointRay col lp (createInteriorray lpex) false).psdata.psdatafail
      = false := by
    rw [hray.2.2]
    exact hf
  split_ifs
  · rw [(psComputeSintPointRay_point_psdatafail _ _ _).2]
    have hs : ¬ ((createInteriorpt (psComputeSintPointRay col lp (createInteriorray lpex)
        false)).psdata.psintpointselection = PS_INTPOINTSEL.ARBDUAL) := by
      show ¬ ((psComputeSintPointRay col lp (createInteriorray lpex)
        false).psdata.psintpointselection = PS_INTPOINTSEL.ARBDUAL)
      rw [hfr.2.2]
      exact hsel
    simp only [hs, false_and, if_false]
    exact hrf
  · exact hrf

/-- For every formulation other than the arbitrary point in transposed form: after a
construction from fresh data with a successful factorization, the data are marked as failed
exactly when neither the point nor the ray exists. -/
theorem constructPSData_fail_iff_no_certificate (col : Collaborators) (ext : External)
    (st : BoundingState)
    (hcon : st.lpex.psdata.psdatacon = false)
    (hfac : (psFactorizeD col
      (psChooseS col ext (beginConstruction st)).lpex).psdata.psdatafail = false)
    (hsel : st.lpex.psdata.psintpointselection ≠ PS_INTPOINTSEL.ARBDUAL) :
    (constructPSData col ext st).lpex.psdata.psdatafail = false
      ↔ ((constructPSData col ext st).lpex.psdata.pshaspoint = true
          ∨ (constructPSData col ext st).lpex.psdata.pshasray = true) := by
  unfold constructPSData
  simp only [hcon, Bool.false_eq_true, if_false]
  have hs3 : (psFactorizeD col
      (psChooseS col ext (beginConstruction st)).lpex).psdata.psintpointselection
      ≠ PS_INTPOINTSEL.ARBDUAL := by
    rw [(psFactorizeD_flags _ _).2.2.2.2.1, (psChooseS_flags _ _ _).2.2.2.2.2]
    exact hsel
  have h5 := computeCertificates_psdatafail col
    (psChooseS col ext (beginConstruction st)).lp
    (psFactorizeD col (psChooseS col ext (beginConstruction st)).lpex) hfac hs3
  generalize computeCertificates col (psChooseS col ext (beginConstruction st)).lp
    (psFactorizeD col (psChooseS col ext (beginConstruction st)).lpex) = L at h5
  unfold markFailure
  by_cases hp : L.psdata.pshaspoint = true
  · simp [hp, h5]
  · by_cases hr : L.psdata.pshasray = true
    · simp [hp, hr, h5]
    · simp [hp, hr]

/-- C17 (failing input): with the arbitrary point in transposed form as formulation and the
point preferred, a successful factorization, an interior ray that is built and a point LP that
does not end optimal, `constructPSData` ends with `psdatafail = TRUE` although `pshasray` is
`TRUE`: the data are reported as failed while a certificate exists. -/
theorem constructPSData_marks_failed_with_ray :
    (psFactorizeD rayOnlyCollaborators
      (psChooseS rayOnlyCollaborators (mkExternal (fun _ => none))
        (beginConstruction (mkState (sumLp (-1)) sumLpexArbDual))).lpex).psdata.psdatafail
      = false
    ∧ (constructPSData rayOnlyCollaborators (mkExternal (fun _ => none))
        (mkState (sumLp (-1)) sumLpexArbDual)).lpex.psdata.pshasray = true
    ∧ (constructPSData rayOnlyCollaborators (mkExternal (fun _ => none))
        (mkState (sumLp (-1)) sumLpexArbDual)).lpex.psdata.pshaspoint = false
    ∧ (constructPSData rayOnlyCollaborators (mkExternal (fun _ => none))
        (mkState (sumLp (-1)) sumLpexArbDual)).lpex.psdata.psdatafail = true := by
  have hfl := psFactorizeD_flags rayOnlyCollaborators
    (psChooseS rayOnlyCollaborators (mkExternal (fun _ => none))
      (beginConstruction (mkState (sumLp (-1)) sumLpexArbDual))).lpex
  have hch := psChooseS_flags rayOnlyCollaborators (mkExternal (fun _ => none))
    (beginConstruction (mkState (sumLp (-1)) sumLpexArbDual))
  have hfac : (psFactorizeD rayOnlyCollaborators
      (psChooseS rayOnlyCollaborators (mkExternal (fun _ => none))
        (beginConstruction (mkState (sumLp (-1)) sumLpexArbDual))).lpex).psdata.psdatafail
      = false := by
    simp [psFactorizeD, rayOnlyCollaborators, mkCollaborators, hch.2.1]
    rfl
  refine ⟨hfac, ?_⟩
  unfold constructPSData
  have hcon : (mkState (sumLp (-1)) sumLpexArbDual).lpex.psdata.psdatacon = false := rfl
  simp only [hcon, Bool.false_eq_true, if_false]
  generalize hL : psFactorizeD rayOnlyCollaborators
    (psChooseS rayOnlyCollaborators (mkExternal (fun _ => none))
      (beginConstruction (mkState (sumLp (-1)) sumLpexArbDual))).lpex = L at hfl hfac
  generalize (psChooseS rayOnlyCollaborators (mkExternal (fun _ => none))
      (beginConstruction (mkState (sumLp (-1)) sumLpexArbDual))).lp = lp0
  have huse : L.psdata.psuseintpoint = true := by
    rw [hfl.2.2.2.1, hch.2.2.2.2.1]
    rfl
  have hsel : L.psdata.psintpointselection = PS_INTPOINTSEL.ARBDUAL := by
    rw [hfl.2.2.2.2.1, hch.2.2.2.2.2]
    rfl
  have hpt : L.psdata.pshaspoint = false := by
    rw [hfl.2.1, hch.2.2.1]
    rfl
  have hray := psComputeSintPointRay_ray_flags rayOnlyCollaborators lp0 (createInteriorray L)
  have hfr := psComputeSintPointRay_frame rayOnlyCollaborators lp0 (createInteriorray L) false
  have hray1 : (psComputeSintPointRay rayOnlyCollaborators lp0 (createInteriorray L)
      false).psdata.pshasray = true := by
    rw [hray.1]
    simp [rayOnlyCollaborators, mkCollaborators, rayOnlySolver, auxProblemOpt, mkAuxLP]
  generalize hM : psComputeSintPointRay rayOnlyCollaborators lp0 (createInteriorray L) false = M
    at hray hfr hray1
  have hMuse : M.psdata.psuseintpoint = true := by
    rw [hfr.2.1]
    exact huse
  have hMsel : M.psdata.psintpointselection = PS_INTPOINTSEL.ARBDUAL := by
    rw [hfr.2.2]
    exact hsel
  have hMpt : M.psdata.pshaspoint = false := by
    rw [hray.2.1]
    exact hpt
  have hcc : computeCertificates rayOnlyCollaborators lp0 L
      = { createInteriorpt M with psdata := { (createInteriorpt M).psdata with
            psdatafail := true } } := by
    unfold computeCertificates
    simp only [hfac, Bool.not_false, if_true, hM, hMuse, Bool.true_or]
    exact psComputeSintPointRay_point_failed rayOnlyCollaborators lp0 _ hMsel
      (by simp [rayOnlyCollaborators, mkCollaborators, rayOnlySolver, auxProblemArbDual,
        mkAuxLP])
  rw [hcc]
  unfold markFailure
  simp [hray1, hMpt, createInteriorpt]


/-! ## The selection of the set `S` -/

/-- A marking loop sets an entry to `1` where one of its two tests hits it and leaves it as it
was elsewhere. -/
theorem markLoop_spec (ia ib : Nat → Nat) (t1 t2 : Nat → Bool) (n : Nat) (flags : Nat → Nat)
    (e : Nat) :
    forLoop (fun i f =>
        if t2 i = true then
          Function.update (if t1 i = true then Function.update f (ia i) 1 else f) (ib i) 1
        else (if t1 i = true then Function.update f (ia i) 1 else f)) n flags e
      = if ∃ i, i < n ∧ ((ia i = e ∧ t1 i = true) ∨ (ib i = e ∧ t2 i = true)) then 1
        else flags e := by
  induction n with
  | zero => simp [forLoop_zero]
  | succ m ih =>
    rw [forLoop_succ]
    have hsplit : (∃ i, i < m + 1 ∧ ((ia i = e ∧ t1 i = true) ∨ (ib i = e ∧ t2 i = true)))
        ↔ ((∃ i, i < m ∧ ((ia i = e ∧ t1 i = true) ∨ (ib i = e ∧ t2 i = true)))
            ∨ ((ia m = e ∧ t1 m = true) ∨ (ib m = e ∧ t2 m = true))) := by
      constructor
      · rintro ⟨i, hi, hq⟩
        rcases Nat.lt_succ_iff_lt_or_eq.mp hi with h | h
        · exact Or.inl ⟨i, h, hq⟩
        · subst h
          exact Or.inr hq
      · rintro (⟨i, hi, hq⟩ | hq)
        · exact ⟨i, Nat.lt_succ_of_lt hi, hq⟩
        · exact ⟨m, Nat.lt_succ_self m, hq⟩
    simp only [hsplit]
    generalize forLoop _ m flags = g at ih
    by_cases hex : ∃ i, i < m ∧ ((ia i = e ∧ t1 i = true) ∨ (ib i = e ∧ t2 i = true))
    · rw [if_pos hex] at ih
      rw [if_pos (Or.inl hex)]
      by_cases h1 : t1 m = true <;> by_cases h2 : t2 m = true <;>
        simp [h1, h2, Function.update_apply, ih]
    · rw [if_neg hex] at ih
      simp only [hex, false_or]
      by_cases h1 : t1 m = true
      · by_cases h2 : t2 m = true
        · simp only [h1, h2, if_true, and_true, Function.update_apply]
          by_cases hb : e = ib m
          · rw [if_pos hb, if_pos (Or.inr hb.symm)]
          · rw [if_neg hb]
            by_cases ha : e = ia m
            · rw [if_pos ha, if_pos (Or.inl ha.symm)]
            · rw [if_neg ha, if_neg (fun h => h.elim (fun x => ha x.symm) (fun x => hb x.symm))]
              exact ih
        · simp only [h1, h2, if_true, and_true, and_false, or_false, Bool.false_eq_true,
            if_false, Function.update_apply]
          by_cases ha : e = ia m
          · rw [if_pos ha, if_pos ha.symm]
          · rw [if_neg ha, if_neg (fun x => ha x.symm)]
            exact ih
      · by_cases h2 : t2 m = true
        · simp only [h1, h2, if_true, and_true, and_false, false_or, Bool.false_eq_true,
            if_false, Function.update_apply]
          by_cases hb : e = ib m
          · rw [if_pos hb, if_pos hb.symm]
          · rw [if_neg hb, if_neg (fun x => hb x.symm)]
            exact ih
        · simp only [h1, h2, and_false, or_self, Bool.false_eq_true, if_false]
          exact ih

/-- The flags that `markSides` leaves on a zeroed array: `1` exactly on the coordinates whose
test holds. -/
theorem markSides_spec (nrows ncols : Nat) (tl tr cl cr : Nat → Bool) (e : Nat) :
    markSides nrows ncols tl tr cl cr (fun _ => 0) e
      = if (∃ j, j < ncols ∧ ((2 * nrows + j = e ∧ cl j = true)
              ∨ (2 * nrows + ncols + j = e ∧ cr j = true)))
            ∨ (∃ i, i < nrows ∧ ((i = e ∧ tl i = true) ∨ (nrows + i = e ∧ tr i = true)))
        then 1 else 0 := by
  unfold markSides
  have h2 := markLoop_spec (fun j => 2 * nrows + j) (fun j => 2 * nrows + ncols + j) cl cr ncols
    (forLoop (fun i f =>
        if tr i = true then
          Function.update (if tl i = true then Function.update f i 1 else f) (nrows + i) 1
        else (if tl i = true then Function.update f i 1 else f)) nrows (fun _ => 0)) e
  have h1 := markLoop_spec (fun i => i) (fun i => nrows + i) tl tr nrows (fun _ => 0) e
  simp only [] at h1 h2 ⊢
  rw [h2, h1]
  by_cases ha : ∃ j, j < ncols ∧ ((2 * nrows + j = e ∧ cl j = true)
      ∨ (2 * nrows + ncols + j = e ∧ cr j = true))
  · rw [if_pos ha, if_pos (Or.inl ha)]
  · rw [if_neg ha]
    by_cases hb : ∃ i, i < nrows ∧ ((i = e ∧ tl i = true) ∨ (nrows + i = e ∧ tr i = true))
    · rw [if_pos hb, if_pos (Or.inr hb)]
    · rw [if_neg hb, if_neg (fun h => h.elim ha hb)]

/-- The flags of `markSides` on a zeroed array, coordinate by coordinate. -/
theorem markSides_sides (nrows ncols : Nat) (tl tr cl cr : Nat → Bool) :
    (∀ i, i < nrows → (markSides nrows ncols tl tr cl cr (fun _ => 0) i = 1 ↔ tl i = true))
    ∧ (∀ i, i < nrows →
        (markSides nrows ncols tl tr cl cr (fun _ => 0) (nrows + i) = 1 ↔ tr i = true))
    ∧ (∀ j, j < ncols →
        (markSides nrows ncols tl tr cl cr (fun _ => 0) (2 * nrows + j) = 1 ↔ cl j = true))
    ∧ (∀ j, j < ncols →
        (markSides nrows ncols tl tr cl cr (fun _ => 0) (2 * nrows + ncols + j) = 1
          ↔ cr j = true))
    ∧ (∀ e, markSides nrows ncols tl tr cl cr (fun _ => 0) e = 0
        ∨ markSides nrows ncols tl tr cl cr (fun _ => 0) e = 1)
    ∧ (∀ e, markSides nrows ncols tl tr cl cr (fun _ => 0) e = 1 → e < 2 * nrows + 2 * ncols) := by
  refine ⟨?_, ?_, ?_, ?_, ?_, ?_⟩
  · intro i hi
    rw [markSides_spec]
    constructor
    · intro h
      split_ifs at h with hc
      · rcases hc with ⟨j, hj, h1 | h1⟩ | ⟨k, hk, h1 | h1⟩
        · omega
        · omega
        · rw [← h1.1]
          exact h1.2
        · omega
    · intro h
      rw [if_pos (Or.inr ⟨i, hi, Or.inl ⟨rfl, h⟩⟩)]
  · intro i hi
    rw [markSides_spec]
    constructor
    · intro h
      split_ifs at h with hc
      · rcases hc with ⟨j, hj, h1 | h1⟩ | ⟨k, hk, h1 | h1⟩
        · omega
        · omega
        · omega
        · have : k = i := by omega
          rw [← this]
          exact h1.2
    · intro h
      rw [if_pos (Or.inr ⟨i, hi, Or.inr ⟨rfl, h⟩⟩)]
  · intro j hj
    rw [markSides_spec]
    constructor
    · intro h
      split_ifs at h with hc
      · rcases hc with ⟨k, hk, h1 | h1⟩ | ⟨k, hk, h1 | h1⟩
        · have : k = j := by omega
          rw [← this]
          exact h1.2
        · omega
        · omega
        · omega
    · intro h
      rw [if_pos (Or.inl ⟨j, hj, Or.inl ⟨rfl, h⟩⟩)]
  · intro j hj
    rw [markSides_spec]
    constructor
    · intro h
      split_ifs at h with hc
      · rcases hc with ⟨k, hk, h1 | h1⟩ | ⟨k, hk, h1 | h1⟩
        · omega
        · have : k = j := by omega
          rw [← this]
          exact h1.2
        · omega
        · omega
    · intro h
      rw [if_pos (Or.inl ⟨j, hj, Or.inr ⟨rfl, h⟩⟩)]
  · intro e
    rw [markSides_spec]
    split_ifs
    · exact Or.inr rfl
    · exact Or.inl rfl
  · intro e h
    rw [markSides_spec] at h
    split_ifs at h with hc
    · rcases hc with ⟨k, hk, h1 | h1⟩ | ⟨k, hk, h1 | h1⟩ <;> omega

theorem markSides_exists (nrows ncols : Nat) (tl tr cl cr : Nat → Bool) :
    (∃ e, markSides nrows ncols tl tr cl cr (fun _ => 0) e = 1)
      ↔ ((∃ i, i < nrows ∧ (tl i = true ∨ tr i = true))
          ∨ (∃ j, j < ncols ∧ (cl j = true ∨ cr j = true))) := by
  have hs := markSides_sides nrows ncols tl tr cl cr
  constructor
  · rintro ⟨e, he⟩
    rw [markSides_spec] at he
    split_ifs at he with hc
    rcases hc with ⟨j, hj, h1 | h1⟩ | ⟨i, hi, h1 | h1⟩
    · exact Or.inr ⟨j, hj, Or.inl h1.2⟩
    · exact Or.inr ⟨j, hj, Or.inr h1.2⟩
    · exact Or.inl ⟨i, hi, Or.inl h1.2⟩
    · exact Or.inl ⟨i, hi, Or.inr h1.2⟩
  · rintro (⟨i, hi, h | h⟩ | ⟨j, hj, h | h⟩)
    · exact ⟨i, (hs.1 i hi).mpr h⟩
    · exact ⟨nrows + i, (hs.2.1 i hi).mpr h⟩
    · exact ⟨2 * nrows + j, (hs.2.2.1 j hj).mpr h⟩
    · exact ⟨2 * nrows + ncols + j, (hs.2.2.2.1 j hj).mpr h⟩

/-- The truth values that `psChooseS` stores are those of the `int` flags. -/
theorem psChooseS_includedrows (col : Collaborators) (ext : External) (st : BoundingState)
    (e : Nat) :
    (psChooseS col ext st).lpex.psdata.includedrows e
      = decide (includedrowsArray col st.lp st.lpex (col.SCIPlpiexSolveDual st.lp st.lpex) e
          ≠ 0) := by
  unfold psChooseS
  rfl

theorem finite_of_proper_left (b : SCIP_Rational) (h : RisInfinity b = false) :
    RisNegInfinity b = false ↔ RisAbsInfinity b = false := by
  cases b <;> simp_all [RisInfinity, RisNegInfinity, RisAbsInfinity]

theorem finite_of_proper_right (b : SCIP_Rational) (h : RisNegInfinity b = false) :
    RisInfinity b = false ↔ RisAbsInfinity b = false := by
  cases b <;> simp_all [RisInfinity, RisNegInfinity, RisAbsInfinity]

/-- C19: under the all-finite policy `psChooseS` marks a coordinate exactly when its bound is
not the infinity of its own side (`lhs`, `lb` not `-∞`; `rhs`, `ub` not `+∞`), every flag is `0`
or `1`, and for a relaxation whose bounds lie on their own sides this is: a coordinate is
included if and only if its paired bound is finite. -/
theorem psChooseS_all_finite (col : Collaborators) (lp : SCIP_LP) (lpex : SCIP_LPEX)
    (root : LpiexResult)
    (hpol : lpex.psdata.psdualcolselection = PS_DUALCOSTSEL.NO) :
    (∀ i, i < lpex.nrows →
      (includedrowsArray col lp lpex root i = 1 ↔ RisNegInfinity (lpex.rows i).lhs = false)
      ∧ (includedrowsArray col lp lpex root (lpex.nrows + i) = 1
          ↔ RisInfinity (lpex.rows i).rhs = false))
    ∧ (∀ j, j < lpex.ncols →
      (includedrowsArray col lp lpex root (2 * lpex.nrows + j) = 1
          ↔ RisNegInfinity (lpex.cols j).lb = false)
      ∧ (includedrowsArray col lp lpex root (2 * lpex.nrows + lpex.ncols + j) = 1
          ↔ RisInfinity (lpex.cols j).ub = false))
    ∧ (∀ e, includedrowsArray col lp lpex root e = 0 ∨ includedrowsArray col lp lpex root e = 1)
    ∧ (properSides lpex →
        (∀ i, i < lpex.nrows →
          (includedrowsArray col lp lpex root i = 1 ↔ RisAbsInfinity (lpex.rows i).lhs = false)
          ∧ (includedrowsArray col lp lpex root (lpex.nrows + i) = 1
              ↔ RisAbsInfinity (lpex.rows i).rhs = false))
        ∧ (∀ j, j < lpex.ncols →
          (includedrowsArray col lp lpex root (2 * lpex.nrows + j) = 1
              ↔ RisAbsInfinity (lpex.cols j).lb = false)
          ∧ (includedrowsArray col lp lpex root (2 * lpex.nrows + lpex.ncols + j) = 1
              ↔ RisAbsInfinity (lpex.cols j).ub = false))) := by
  have harr : includedrowsArray col lp lpex root
      = markSides lpex.nrows lpex.ncols
          (fun i => !RisNegInfinity (lpex.rows i).lhs) (fun i => !RisInfinity (lpex.rows i).rhs)
          (fun i => !RisNegInfinity (lpex.cols i).lb) (fun i => !RisInfinity (lpex.cols i).ub)
          (fun _ => 0) := by
    unfold includedrowsArray
    rw [if_pos (Or.inl hpol)]
  rw [harr]
  have hs := markSides_sides lpex.nrows lpex.ncols
    (fun i => !RisNegInfinity (lpex.rows i).lhs) (fun i => !RisInfinity (lpex.rows i).rhs)
    (fun i => !RisNegInfinity (lpex.cols i).lb) (fun i => !RisInfinity (lpex.cols i).ub)
  have hrow : ∀ i, i < lpex.nrows →
      (markSides lpex.nrows lpex.ncols
          (fun i => !RisNegInfinity (lpex.rows i).lhs) (fun i => !RisInfinity (lpex.rows i).rhs)
          (fun i => !RisNegInfinity (lpex.cols i).lb) (fun i => !RisInfinity (lpex.cols i).ub)
          (fun _ => 0) i = 1 ↔ RisNegInfinity (lpex.rows i).lhs = false)
      ∧ (markSides lpex.nrows lpex.ncols
          (fun i => !RisNegInfinity (lpex.rows i).lhs) (fun i => !RisInfinity (lpex.rows i).rhs)
          (fun i => !RisNegInfinity (lpex.cols i).lb) (fun i => !RisInfinity (lpex.cols i).ub)
          (fun _ => 0) (lpex.nrows + i) = 1 ↔ RisInfinity (lpex.rows i).rhs = false) := by
    intro i hi
    constructor
    · rw [hs.1 i hi]
      simp
    · rw [hs.2.1 i hi]
      simp
  have hcol : ∀ j, j < lpex.ncols →
      (markSides lpex.nrows lpex.ncols
          (fun i => !RisNegInfinity (lpex.rows i).lhs) (fun i => !RisInfinity (lpex.rows i).rhs)
          (fun i => !RisNegInfinity (lpex.cols i).lb) (fun i => !RisInfinity (lpex.cols i).ub)
          (fun _ => 0) (2 * lpex.nrows + j) = 1 ↔ RisNegInfinity (lpex.cols j).lb = false)
      ∧ (markSides lpex.nrows lpex.ncols
          (fun i => !RisNegInfinity (lpex.rows i).lhs) (fun i => !RisInfinity (lpex.rows i).rhs)
          (fun i => !RisNegInfinity (lpex.cols i).lb) (fun i => !RisInfinity (lpex.cols i).ub)
          (fun _ => 0) (2 * lpex.nrows + lpex.ncols + j) = 1
            ↔ RisInfinity (lpex.cols j).ub = false) := by
    intro j hj
    constructor
    · rw [hs.2.2.1 j hj]
      simp
    · rw [hs.2.2.2.1 j hj]
      simp
  refine ⟨hrow, hcol, hs.2.2.2.2.1, ?_⟩
  intro hp
  constructor
  · intro i hi
    exact ⟨(hrow i hi).1.trans (finite_of_proper_left _ (hp.1 i hi).1),
      (hrow i hi).2.trans (finite_of_proper_right _ (hp.1 i hi).2)⟩
  · intro j hj
    exact ⟨(hcol j hj).1.trans (finite_of_proper_left _ (hp.2 j hj).1),
      (hcol j hj).2.trans (finite_of_proper_right _ (hp.2 j hj).2)⟩

theorem sum_properSides : properSides sumLpex := by
  constructor
  · intro i _
    exact ⟨rfl, rfl⟩
  · intro j _
    exact ⟨rfl, rfl⟩

theorem psChooseS_all_finite_witness :
    sumLpex.psdata.psdualcolselection = PS_DUALCOSTSEL.NO
    ∧ properSides sumLpex
    ∧ (includedrowsArray rootZeroCollaborators (sumLp (-1)) sumLpex failedSolve 0 = 1
        ↔ RisAbsInfinity (sumLpex.rows 0).lhs = false)
    ∧ (includedrowsArray rootZeroCollaborators (sumLp (-1)) sumLpex failedSolve
          (sumLpex.nrows + 0) = 1
        ↔ RisAbsInfinity (sumLpex.rows 0).rhs = false) :=
  ⟨rfl, sum_properSides,
    (((psChooseS_all_finite rootZeroCollaborators (sumLp (-1)) sumLpex failedSolve
      rfl).2.2.2 sum_properSides).1 0 (by decide)).1,
    (((psChooseS_all_finite rootZeroCollaborators (sumLp (-1)) sumLpex failedSolve
      rfl).2.2.2 sum_properSides).1 0 (by decide)).2⟩

/-- C20 (counterexample): a relaxation whose row sides and column bounds are all finite, the
policy of the constraints active at the exact root solution, and a root solution strictly inside
all bounds: the inclusion set produced by `psChooseS` is empty. -/
theorem active_selection_can_be_empty :
    RisAbsInfinity (activeLpex.rows 0).lhs = false
    ∧ RisAbsInfinity (activeLpex.cols 0).lb = false
    ∧ ∀ e, (psChooseS rootZeroCollaborators (mkExternal (fun _ => none))
        (mkState activeLp activeLpex)).lpex.psdata.includedrows e = false := by
  refine ⟨rfl, rfl, ?_⟩
  intro e
  rw [psChooseS_includedrows]
  have harr : includedrowsArray rootZeroCollaborators (mkState activeLp activeLpex).lp
      (mkState activeLp activeLpex).lpex
      (rootZeroCollaborators.SCIPlpiexSolveDual (mkState activeLp activeLpex).lp
        (mkState activeLp activeLpex).lpex) e = 0 := by
    unfold includedrowsArray
    have h1 : ¬ ((mkState activeLp activeLpex).lpex.psdata.psdualcolselection
        = PS_DUALCOSTSEL.NO
        ∨ (mkState activeLp activeLpex).lp.lpsolstat = SCIP_LPSOLSTAT.INFEASIBLE) := by
      simp [mkState, activeLp, activeLpex]
    have h2 : (mkState activeLp activeLpex).lpex.psdata.psdualcolselection
        = PS_DUALCOSTSEL.ACTIVE_EXLP := rfl
    rw [if_neg h1, if_pos h2, markSides_spec, if_neg]
    rintro (⟨j, _, h | h⟩ | ⟨i, _, h | h⟩) <;>
      simp [RisEqual, mkState, activeLpex, rootZeroCollaborators, mkCollaborators,
        optimalSolve] at h
  simp [harr]

/-- C20 (amended): under the all-finite policy (and whenever the floating-point LP is
infeasible) the inclusion set is non-empty exactly when some bound is not the infinity of its
own side, in particular for every relaxation with a finite row side or column bound; under the
two policies of active constraints it is non-empty exactly when some row side or column bound is
tight at the reference solution (exactly at the exact root solution, within the tolerance at the
floating-point solution). -/
theorem psChooseS_nonempty_iff (col : Collaborators) (lp : SCIP_LP) (lpex : SCIP_LPEX)
    (root : LpiexResult) :
    ((lpex.psdata.psdualcolselection = PS_DUALCOSTSEL.NO
        ∨ lp.lpsolstat = SCIP_LPSOLSTAT.INFEASIBLE) →
      ((∃ i, i < lpex.nrows ∧ (RisAbsInfinity (lpex.rows i).lhs = false
            ∨ RisAbsInfinity (lpex.rows i).rhs = false))
        ∨ (∃ j, j < lpex.ncols ∧ (RisAbsInfinity (lpex.cols j).lb = false
            ∨ RisAbsInfinity (lpex.cols j).ub = false))) →
      ∃ e, includedrowsArray col lp lpex root e = 1)
    ∧ (lpex.psdata.psdualcolselection = PS_DUALCOSTSEL.ACTIVE_EXLP →
        lp.lpsolstat ≠ SCIP_LPSOLSTAT.INFEASIBLE →
        ((∃ e, includedrowsArray col lp lpex root e = 1)
          ↔ ((∃ i, i < lpex.nrows ∧ (RisEqual (root.activity i) (lpex.rows i).lhs = true
                ∨ RisEqual (root.activity i) (lpex.rows i).rhs = true))
              ∨ (∃ j, j < lpex.ncols ∧ (RisEqual (root.primsol j) (lpex.cols j).lb = true
                ∨ RisEqual (root.primsol j) (lpex.cols j).ub = true)))))
    ∧ (lpex.psdata.psdualcolselection = PS_DUALCOSTSEL.ACTIVE_FPLP →
        lp.lpsolstat ≠ SCIP_LPSOLSTAT.INFEASIBLE →
        ((∃ e, includedrowsArray col lp lpex root e = 1)
          ↔ ((∃ i, i < lpex.nrows
                ∧ (col.SCIPsetIsFeasEQ (lp.rows i).activity (lp.rows i).lhs = true
                  ∨ col.SCIPsetIsFeasEQ (lp.rows i).activity (lp.rows i).rhs = true))
              ∨ (∃ j, j < lpex.ncols
                ∧ (col.SCIPsetIsFeasEQ (lp.cols j).primsol (lp.cols j).lb = true
                  ∨ col.SCIPsetIsFeasEQ (lp.cols j).primsol (lp.cols j).ub = true))))) := by
  refine ⟨?_, ?_, ?_⟩
  · intro hpol hfin
    unfold includedrowsArray
    rw [if_pos hpol, markSides_exists]
    rcases hfin with ⟨i, hi, h | h⟩ | ⟨j, hj, h | h⟩
    · refine Or.inl ⟨i, hi, Or.inl ?_⟩
      cases hb : (lpex.rows i).lhs <;> simp_all [RisAbsInfinity, RisNegInfinity]
    · refine Or.inl ⟨i, hi, Or.inr ?_⟩
      cases hb : (lpex.rows i).rhs <;> simp_all [RisAbsInfinity, RisInfinity]
    · refine Or.inr ⟨j, hj, Or.inl ?_⟩
      cases hb : (lpex.cols j).lb <;> simp_all [RisAbsInfinity, RisNegInfinity]
    · refine Or.inr ⟨j, hj, Or.inr ?_⟩
      cases hb : (lpex.cols j).ub <;> simp_all [RisAbsInfinity, RisInfinity]
  · intro hpol hst
    unfold includedrowsArray
    have h1 : ¬ (lpex.psdata.psdualcolselection = PS_DUALCOSTSEL.NO
        ∨ lp.lpsolstat = SCIP_LPSOLSTAT.INFEASIBLE) := by
      rw [hpol]
      simp [hst]
    rw [if_neg h1, if_pos hpol, markSides_exists]
  · intro hpol hst
    unfold includedrowsArray
    have h1 : ¬ (lpex.psdata.psdualcolselection = PS_DUALCOSTSEL.NO
        ∨ lp.lpsolstat = SCIP_LPSOLSTAT.INFEASIBLE) := by
      rw [hpol]
      simp [hst]
    have h2 : ¬ (lpex.psdata.psdualcolselection = PS_DUALCOSTSEL.ACTIVE_EXLP) := by
      rw [hpol]
      simp
    rw [if_neg h1, if_neg h2, markSides_exists]

theorem psChooseS_nonempty_iff_witness :
    (sumLpex.psdata.psdualcolselection = PS_DUALCOSTSEL.NO
        ∨ (sumLp (-1)).lpsolstat = SCIP_LPSOLSTAT.INFEASIBLE)
    ∧ RisAbsInfinity (sumLpex.rows 0).rhs = false
    ∧ ∃ e, includedrowsArray rootZeroCollaborators (sumLp (-1)) sumLpex failedSolve e = 1 :=
  ⟨Or.inl rfl, rfl,
    (psChooseS_nonempty_iff rootZeroCollaborators (sumLp (-1)) sumLpex failedSolve).1
      (Or.inl rfl) (Or.inl ⟨0, by decide, Or.inr rfl⟩)⟩


/-! ## Loops that fill and collect -/

theorem forLoop_set {α : Type} (g : Nat → α) (n : Nat) (a : Nat → α) (k : Nat) :
    forLoop (fun i b => Function.update b i (g i)) n a k = if k < n then g k else a k := by
  induction n with
  | zero => simp [forLoop_zero]
  | succ m ih =>
    rw [forLoop_succ]
    by_cases hk : k = m
    · subst hk
      simp
    · rw [Function.update_noteq hk, ih]
      by_cases hlt : k < m
      · rw [if_pos hlt, if_pos (Nat.lt_succ_of_lt hlt)]
      · rw [if_neg hlt, if_neg (by omega)]

theorem forLoop_set_offset {α : Type} (c : Nat) (g : Nat → α) (n : Nat) (a : Nat → α)
    (k : Nat) :
    forLoop (fun i b => Function.update b (c + i) (g i)) n a k
      = if c ≤ k ∧ k < c + n then g (k - c) else a k := by
  induction n with
  | zero =>
    rw [forLoop_zero, if_neg (by omega)]
  | succ m ih =>
    rw [forLoop_succ]
    by_cases hk : k = c + m
    · subst hk
      rw [Function.update_same, if_pos (by omega), Nat.add_sub_cancel_left]
    · rw [Function.update_noteq hk, ih]
      by_cases hlt : c ≤ k ∧ k < c + m
      · rw [if_pos hlt, if_pos (by omega)]
      · rw [if_neg hlt, if_neg (by omega)]

/-- The loop `collectIndices` lists the flagged indices below `n` in increasing order. -/
theorem collectIndices_spec (n : Nat) (flag : Nat → Bool) (arr : Nat → Nat) :
    (collectIndices n flag arr).2 = ((Finset.range n).filter (fun e => flag e = true)).card
    ∧ (∀ i, i < (collectIndices n flag arr).2 →
        (collectIndices n flag arr).1 i < n ∧ flag ((collectIndices n flag arr).1 i) = true)
    ∧ (∀ i j, i < j → j < (collectIndices n flag arr).2 →
        (collectIndices n flag arr).1 i < (collectIndices n flag arr).1 j)
    ∧ (∀ e, e < n → flag e = true →
        ∃ i, i < (collectIndices n flag arr).2 ∧ (collectIndices n flag arr).1 i = e) := by
  unfold collectIndices
  induction n with
  | zero =>
    simp [forLoop_zero]
  | succ m ih =>
    rw [forLoop_succ]
    generalize forLoop (fun i (s : (Nat → Nat) × Nat) =>
      if flag i = true then (Function.update s.1 s.2 i, s.2 + 1) else s) m (arr, 0) = s at ih
    obtain ⟨h1, h2, h3, h4⟩ := ih
    by_cases hf : flag m = true
    · simp only [hf, if_true]
      refine ⟨?_, ?_, ?_, ?_⟩
      · rw [h1, Finset.range_succ, Finset.filter_insert, if_pos hf,
          Finset.card_insert_of_not_mem (by simp)]
      · intro i hi
        by_cases him : i = s.2
        · subst him
          rw [Function.update_same]
          exact ⟨Nat.lt_succ_self m, hf⟩
        · rw [Function.update_noteq him]
          have := h2 i (by omega)
          exact ⟨Nat.lt_succ_of_lt this.1, this.2⟩
      · intro i j hij hj
        by_cases hjm : j = s.2
        · subst hjm
          rw [Function.update_same, Function.update_noteq (by omega)]
          exact (h2 i hij).1
        · rw [Function.update_noteq hjm, Function.update_noteq (by omega)]
          exact h3 i j hij (by omega)
      · intro e he hfe
        by_cases hem : e = m
        · subst hem
          exact ⟨s.2, Nat.lt_succ_self _, Function.update_same _ _ _⟩
        · obtain ⟨i, hi, hie⟩ := h4 e (by omega) hfe
          exact ⟨i, Nat.lt_succ_of_lt hi, by rw [Function.update_noteq (by omega)]; exact hie⟩
    · simp only [hf, Bool.false_eq_true, if_false]
      refine ⟨?_, ?_, h3, ?_⟩
      · rw [h1, Finset.range_succ, Finset.filter_insert, if_neg hf]
      · intro i hi
        have := h2 i hi
        exact ⟨Nat.lt_succ_of_lt this.1, this.2⟩
      · intro e he hfe
        by_cases hem : e = m
        · subst hem
          exact absurd hfe hf
        · exact h4 e (by omega) hfe

/-- A sum over the collected indices is the sum over the flagged indices. -/
theorem collectIndices_sum {β : Type} [AddCommMonoid β] (n : Nat) (flag : Nat → Bool)
    (arr : Nat → Nat) (f : Nat → β) :
    ∑ i ∈ Finset.range (collectIndices n flag arr).2, f ((collectIndices n flag arr).1 i)
      = ∑ e ∈ Finset.range n, if flag e = true then f e else 0 := by
  unfold collectIndices
  induction n with
  | zero => simp [forLoop_zero]
  | succ m ih =>
    rw [forLoop_succ, Finset.sum_range_succ _ m, ← ih]
    generalize forLoop (fun i (s : (Nat → Nat) × Nat) =>
      if flag i = true then (Function.update s.1 s.2 i, s.2 + 1) else s) m (arr, 0) = s
    by_cases hf : flag m = true
    · simp only [hf, if_true]
      rw [Finset.sum_range_succ, Function.update_same]
      congr 1
      apply Finset.sum_congr rfl
      intro i hi
      rw [Function.update_noteq (by have := Finset.mem_range.mp hi; omega)]
    · simp only [hf, Bool.false_eq_true, if_false, add_zero]

/-! ## Counting the entries of the transposed matrix -/

theorem incrementLoop_spec (idx : Nat → Nat) (n : Nat) (l : Nat → Nat) (c : Nat) :
    forLoop (fun j l1 => Function.update l1 (idx j) (l1 (idx j) + 1)) n l c
      = l c + ∑ j ∈ Finset.range n, if idx j = c then 1 else 0 := by
  induction n with
  | zero => simp [forLoop_zero]
  | succ m ih =>
    rw [forLoop_succ, Finset.sum_range_succ]
    by_cases h : idx m = c
    · subst h
      rw [Function.update_same, ih, if_pos rfl, add_assoc]
    · rw [Function.update_noteq (Ne.symm h), ih, if_neg h, add_zero]

theorem countEntries_spec (lpex : SCIP_LPEX) (dvarmap : Nat → Nat) (ndvarmap : Nat)
    (pslen : Nat → Nat) (c : Nat) :
    countEntries lpex dvarmap ndvarmap pslen c
      = pslen c + ∑ i ∈ Finset.range ndvarmap, coordCount lpex (dvarmap i) c := by
  unfold countEntries
  induction ndvarmap with
  | zero => simp [forLoop_zero]
  | succ m ih =>
    rw [forLoop_succ, Finset.sum_range_succ, ← add_assoc, ← ih]
    generalize forLoop _ m pslen = l
    unfold coordCount
    by_cases h : dvarmap m < 2 * lpex.nrows
    · simp only [h, if_true]
      rw [incrementLoop_spec]
    · simp only [h, if_false]
      by_cases hc : (if dvarmap m < 2 * lpex.nrows + lpex.ncols then dvarmap m - 2 * lpex.nrows
          else dvarmap m - (2 * lpex.nrows + lpex.ncols)) = c
      · rw [if_pos hc, ← hc, Function.update_same]
      · rw [if_neg hc, Function.update_noteq (Ne.symm hc)]
        rfl

theorem coordCount_sum (lpex : SCIP_LPEX) (e : Nat) (hr : indicesInRange lpex)
    (he : e < 2 * lpex.nrows + 2 * lpex.ncols) :
    ∑ c ∈ Finset.range lpex.ncols, coordCount lpex e c = coordWeight lpex e := by
  unfold coordCount coordWeight
  by_cases h : e < 2 * lpex.nrows
  · simp only [h, if_true]
    rw [Finset.sum_comm]
    have hrow : (if e ≥ lpex.nrows then e - lpex.nrows else e) < lpex.nrows := by
      split_ifs <;> omega
    rw [Finset.sum_congr rfl (fun j hj => by
      rw [Finset.sum_ite_eq (Finset.range lpex.ncols)
        ((lpex.rows (if e ≥ lpex.nrows then e - lpex.nrows else e)).cols_index j)
        (fun _ => 1),
        if_pos (Finset.mem_range.mpr (hr _ hrow j (Finset.mem_range.mp hj)))])]
    simp
  · simp only [h, if_false]
    rw [Finset.sum_ite_eq (Finset.range lpex.ncols) _ (fun _ => 1), if_pos]
    rw [Finset.mem_range]
    split_ifs <;> omega

theorem sum_four_ranges {β : Type} [AddCommMonoid β] (n m : Nat) (f : Nat → β) :
    ∑ e ∈ Finset.range (2 * n + 2 * m), f e
      = (∑ i ∈ Finset.range n, (f i + f (n + i)))
        + ∑ j ∈ Finset.range m, (f (2 * n + j) + f (2 * n + m + j)) := by
  have h : 2 * n + 2 * m = n + n + m + m := by ring
  rw [h, Finset.sum_range_add, Finset.sum_range_add, Finset.sum_range_add,
    Finset.sum_add_distrib, Finset.sum_add_distrib]
  have h2 : n + n = 2 * n := by ring
  simp only [h2]
  rw [add_assoc]

theorem computePsNnonz_spec (lpex : SCIP_LPEX) (inc : Nat → Nat) :
    computePsNnonz lpex inc
      = (∑ i ∈ Finset.range lpex.nrows,
          ((if inc i ≠ 0 then (lpex.rows i).len else 0)
            + (if inc (lpex.nrows + i) ≠ 0 then (lpex.rows i).len else 0)))
        + ∑ j ∈ Finset.range lpex.ncols,
          ((if inc (2 * lpex.nrows + j) ≠ 0 then 1 else 0)
            + (if inc (2 * lpex.nrows + lpex.ncols + j) ≠ 0 then 1 else 0)) := by
  unfold computePsNnonz
  simp only []
  have loop1 : ∀ n, forLoop (fun i ret =>
      if inc (lpex.nrows + i) ≠ 0 then
        (if inc i ≠ 0 then ret + (lpex.rows i).len else ret) + (lpex.rows i).len
      else (if inc i ≠ 0 then ret + (lpex.rows i).len else ret)) n 0
      = ∑ i ∈ Finset.range n,
          ((if inc i ≠ 0 then (lpex.rows i).len else 0)
            + (if inc (lpex.nrows + i) ≠ 0 then (lpex.rows i).len else 0)) := by
    intro n
    induction n with
    | zero => simp [forLoop_zero]
    | succ k ih =>
      rw [forLoop_succ, ih, Finset.sum_range_succ]
      generalize ∑ i ∈ Finset.range k,
          ((if inc i ≠ 0 then (lpex.rows i).len else 0)
            + (if inc (lpex.nrows + i) ≠ 0 then (lpex.rows i).len else 0)) = S
      split_ifs <;> omega
  have loop2 : ∀ (n r0 : Nat), forLoop (fun i ret =>
      if inc (2 * lpex.nrows + lpex.ncols + i) ≠ 0 then
        (if inc (2 * lpex.nrows + i) ≠ 0 then ret + 1 else ret) + 1
      else (if inc (2 * lpex.nrows + i) ≠ 0 then ret + 1 else ret)) n r0
      = r0 + ∑ j ∈ Finset.range n,
          ((if inc (2 * lpex.nrows + j) ≠ 0 then 1 else 0)
            + (if inc (2 * lpex.nrows + lpex.ncols + j) ≠ 0 then 1 else 0)) := by
    intro n r0
    induction n with
    | zero => simp [forLoop_zero]
    | succ k ih =>
      rw [forLoop_succ, ih, Finset.sum_range_succ]
      generalize ∑ j ∈ Finset.range k,
          ((if inc (2 * lpex.nrows + j) ≠ 0 then 1 else 0)
            + (if inc (2 * lpex.nrows + lpex.ncols + j) ≠ 0 then 1 else 0)) = S
      split_ifs <;> omega
  rw [loop2, loop1]

theorem coordWeight_sum (col : Collaborators) (lpex : SCIP_LPEX)
    (hn : lpex.psdata.nextendedrows = 2 * lpex.nrows + 2 * lpex.ncols) :
    ∑ i ∈ Finset.range (dvarmapOf col lpex).2, coordWeight lpex ((dvarmapOf col lpex).1 i)
      = computePsNnonz lpex (dvarincidence lpex) := by
  unfold dvarmapOf
  rw [collectIndices_sum, hn, sum_four_ranges, computePsNnonz_spec]
  congr 1
  · apply Finset.sum_congr rfl
    intro i hi
    have hi2 := Finset.mem_range.mp hi
    have h1 : coordWeight lpex i = (lpex.rows i).len := by
      unfold coordWeight
      rw [if_pos (by omega), if_neg (by omega)]
    have h2 : coordWeight lpex (lpex.nrows + i) = (lpex.rows i).len := by
      unfold coordWeight
      rw [if_pos (by omega), if_pos (by omega), Nat.add_sub_cancel_left]
    rw [h1, h2]
    simp only [decide_eq_true_eq]
  · apply Finset.sum_congr rfl
    intro j hj
    have h1 : coordWeight lpex (2 * lpex.nrows + j) = 1 := by
      unfold coordWeight
      rw [if_neg (by omega)]
    have h2 : coordWeight lpex (2 * lpex.nrows + lpex.ncols + j) = 1 := by
      unfold coordWeight
      rw [if_neg (by omega)]
    rw [h1, h2]
    simp only [decide_eq_true_eq]

/-- The counted lengths of the first `ncols` rows of the transposed matrix add up to
`computePsNnonz`. -/
theorem countEntries_total (col : Collaborators) (lpex : SCIP_LPEX) (pslen : Nat → Nat)
    (hn : lpex.psdata.nextendedrows = 2 * lpex.nrows + 2 * lpex.ncols)
    (hr : indicesInRange lpex) :
    ∑ c ∈ Finset.range lpex.ncols,
        countEntries lpex (dvarmapOf col lpex).1 (dvarmapOf col lpex).2 pslen c
      = (∑ c ∈ Finset.range lpex.ncols, pslen c)
        + computePsNnonz lpex (dvarincidence lpex) := by
  rw [Finset.sum_congr rfl (fun c _ => countEntries_spec lpex _ _ pslen c),
    Finset.sum_add_distrib, Finset.sum_comm, ← coordWeight_sum col lpex hn]
  congr 1
  apply Finset.sum_congr rfl
  intro i hi
  apply coordCount_sum lpex _ hr
  have h := (collectIndices_spec lpex.psdata.nextendedrows
    (fun i => decide (dvarincidence lpex i ≠ 0)) col.bufferContent).2.1 i
    (Finset.mem_range.mp hi)
  rw [← hn]
  exact h.1

theorem begArray_spec (n : Nat) (pslen psbeg : Nat → Nat) :
    (begArray n pslen psbeg).2 = ∑ i ∈ Finset.range n, pslen i
    ∧ ∀ i, (begArray n pslen psbeg).1 i
        = if i < n then ∑ k ∈ Finset.range i, pslen k else psbeg i := by
  unfold begArray
  induction n with
  | zero => simp [forLoop_zero]
  | succ m ih =>
    rw [forLoop_succ]
    generalize forLoop (fun i (s : (Nat → Nat) × Nat) =>
      (Function.update s.1 i s.2, s.2 + pslen i)) m (psbeg, 0) = s at ih
    obtain ⟨h1, h2⟩ := ih
    constructor
    · simp only []
      rw [h1, Finset.sum_range_succ]
    · intro i
      simp only []
      by_cases him : i = m
      · subst him
        rw [Function.update_same, if_pos (Nat.lt_succ_self i), h1]
      · rw [Function.update_noteq him, h2 i]
        by_cases hlt : i < m
        · rw [if_pos hlt, if_pos (Nat.lt_succ_of_lt hlt)]
        · rw [if_neg hlt, if_neg (by omega)]

/-! ## The last rows of the transposed matrix -/

theorem scanEntries_beg (lpex : SCIP_LPEX) (dvarmap : Nat → Nat) (ndvarmap : Nat)
    (m : SparseMatrix) : (scanEntries lpex dvarmap ndvarmap m).beg = m.beg := by
  unfold scanEntries
  apply forLoop_induction (fun _ (t : SparseMatrix) => t.beg = m.beg)
  · rfl
  · intro i _ t ht
    beta_reduce
    by_cases h : dvarmap i < 2 * lpex.nrows
    · rw [if_pos h]
      exact forLoop_induction (fun _ (u : SparseMatrix) => u.beg = m.beg) _ _ _ ht
        (fun j _ u hu => hu)
    · rw [if_neg h]
      exact ht

/-- The number of included dual variables among the first `n` entries of `dvarmap`. -/
theorem includedRank_succ (includedrows : Nat → Bool) (dvarmap : Nat → Nat) (n : Nat) :
    ((Finset.range (n + 1)).filter (fun i => includedrows (dvarmap i) = true)).card
      = ((Finset.range n).filter (fun i => includedrows (dvarmap i) = true)).card
        + (if includedrows (dvarmap n) = true then 1 else 0) := by
  rw [Finset.range_succ, Finset.filter_insert]
  by_cases h : includedrows (dvarmap n) = true
  · rw [if_pos h, if_pos h, Finset.card_insert_of_not_mem (by simp)]
  · rw [if_neg h, if_neg h, add_zero]

theorem includedRank_mono (includedrows : Nat → Bool) (dvarmap : Nat → Nat) (i n : Nat)
    (h : i ≤ n) :
    ((Finset.range i).filter (fun i => includedrows (dvarmap i) = true)).card
      ≤ ((Finset.range n).filter (fun i => includedrows (dvarmap i) = true)).card := by
  apply Finset.card_le_card
  apply Finset.filter_subset_filter
  exact Finset.range_mono h

theorem includedRank_lt (includedrows : Nat → Bool) (dvarmap : Nat → Nat) (i n : Nat)
    (h : i < n) (hi : includedrows (dvarmap i) = true) :
    ((Finset.range i).filter (fun i => includedrows (dvarmap i) = true)).card
      < ((Finset.range n).filter (fun i => includedrows (dvarmap i) = true)).card := by
  have h1 := includedRank_succ includedrows dvarmap i
  rw [if_pos hi] at h1
  have h2 := includedRank_mono includedrows dvarmap (i + 1) n h
  omega

/-- The loop `lastRows` leaves `psbeg` as it was and writes, for the `k`-th included entry `i` of
`dvarmap`, the pair `(i, +1)`, `(slack, -1)` at the two positions of row `ncols + k`. -/
theorem lastRows_spec (includedrows : Nat → Bool) (dvarmap : Nat → Nat) (ndvarmap ncols : Nat)
    (slack : Nat → Nat) (m : SparseMatrix) (B : Nat)
    (hbeg : ∀ k, k < ((Finset.range ndvarmap).filter
        (fun i => includedrows (dvarmap i) = true)).card → m.beg (ncols + k) = B + 2 * k) :
    (lastRows includedrows dvarmap ndvarmap ncols slack m).m.beg = m.beg
    ∧ ∀ i, i < ndvarmap → includedrows (dvarmap i) = true →
        (lastRows includedrows dvarmap ndvarmap ncols slack m).m.ind
            (B + 2 * ((Finset.range i).filter
              (fun i => includedrows (dvarmap i) = true)).card) = i
        ∧ (lastRows includedrows dvarmap ndvarmap ncols slack m).m.val
            (B + 2 * ((Finset.range i).filter
              (fun i => includedrows (dvarmap i) = true)).card) = 1
        ∧ (lastRows includedrows dvarmap ndvarmap ncols slack m).m.ind
            (B + 2 * ((Finset.range i).filter
              (fun i => includedrows (dvarmap i) = true)).card + 1)
            = slack (ncols + ((Finset.range i).filter
              (fun i => includedrows (dvarmap i) = true)).card)
        ∧ (lastRows includedrows dvarmap ndvarmap ncols slack m).m.val
            (B + 2 * ((Finset.range i).filter
              (fun i => includedrows (dvarmap i) = true)).card + 1) = -1 := by
  unfold lastRows
  have key := forLoop_induction
    (fun n (s : MatrixBuild) =>
      s.pos = ncols + ((Finset.range n).filter
          (fun i => includedrows (dvarmap i) = true)).card
      ∧ s.m.beg = m.beg
      ∧ ∀ i, i < n → includedrows (dvarmap i) = true →
          s.m.ind (B + 2 * ((Finset.range i).filter
            (fun i => includedrows (dvarmap i) = true)).card) = i
          ∧ s.m.val (B + 2 * ((Finset.range i).filter
            (fun i => includedrows (dvarmap i) = true)).card) = 1
          ∧ s.m.ind (B + 2 * ((Finset.range i).filter
            (fun i => includedrows (dvarmap i) = true)).card + 1)
              = slack (ncols + ((Finset.range i).filter
                (fun i => includedrows (dvarmap i) = true)).card)
          ∧ s.m.val (B + 2 * ((Finset.range i).filter
            (fun i => includedrows (dvarmap i) = true)).card + 1) = -1)
    (fun i (s : MatrixBuild) =>
      if includedrows (dvarmap i) = true then
        { pos := s.pos + 1
          m := { s.m with
            ind := Function.update (Function.update s.m.ind (s.m.beg s.pos) i)
              (s.m.beg s.pos + 1) (slack s.pos)
            val := Function.update (Function.update s.m.val (s.m.beg s.pos) 1)
              (s.m.beg s.pos + 1) (-1) } }
      else s)
    { pos := ncols, m := m } ndvarmap
    ⟨by simp, rfl, fun i hi => absurd hi (Nat.not_lt_zero i)⟩
    (by
      intro n hn s hs
      obtain ⟨hpos, hb, hent⟩ := hs
      beta_reduce
      by_cases hinc : includedrows (dvarmap n) = true
      · rw [if_pos hinc]
        have hrk := includedRank_succ includedrows dvarmap n
        rw [if_pos hinc] at hrk
        have hlt := includedRank_lt includedrows dvarmap n ndvarmap hn hinc
        have hbn : s.m.beg s.pos = B + 2 * ((Finset.range n).filter
            (fun i => includedrows (dvarmap i) = true)).card := by
          rw [hb, hpos]
          exact hbeg _ hlt
        refine ⟨?_, hb, ?_⟩
        · show s.pos + 1 = _
          rw [hpos, hrk, add_assoc]
        · intro i hi hii
          show Function.update (Function.update s.m.ind (s.m.beg s.pos) n)
              (s.m.beg s.pos + 1) (slack s.pos) _ = i
            ∧ Function.update (Function.update s.m.val (s.m.beg s.pos) 1)
              (s.m.beg s.pos + 1) (-1) _ = 1
            ∧ Function.update (Function.update s.m.ind (s.m.beg s.pos) n)
              (s.m.beg s.pos + 1) (slack s.pos) _ = _
            ∧ Function.update (Function.update s.m.val (s.m.beg s.pos) 1)
              (s.m.beg s.pos + 1) (-1) _ = -1
          rw [hbn]
          by_cases hin : i = n
          · subst hin
            rw [Function.update_noteq (by omega), Function.update_same,
              Function.update_noteq (by omega), Function.update_same, Function.update_same,
              Function.update_same, hpos]
            exact ⟨rfl, rfl, rfl, rfl⟩
          · have hi2 : i < n := by omega
            have hl := includedRank_lt includedrows dvarmap i n hi2 hii
            rw [Function.update_noteq (by omega), Function.update_noteq (by omega),
              Function.update_noteq (by omega), Function.update_noteq (by omega),
              Function.update_noteq (by omega), Function.update_noteq (by omega),
              Function.update_noteq (by omega), Function.update_noteq (by omega)]
            exact hent i hi2 hii
      · rw [if_neg hinc]
        have hrk := includedRank_succ includedrows dvarmap n
        rw [if_neg hinc, add_zero] at hrk
        refine ⟨by rw [hpos, hrk], hb, ?_⟩
        intro i hi hii
        have hi2 : i < n := by
          rcases Nat.lt_succ_iff_lt_or_eq.mp hi with h | h
          · exact h
          · subst h
            exact absurd hii hinc
        exact hent i hi2 hii)
  exact ⟨key.2.1, key.2.2⟩

theorem lastRows_beg (includedrows : Nat → Bool) (dvarmap : Nat → Nat) (ndvarmap ncols : Nat)
    (slack : Nat → Nat) (m : SparseMatrix) :
    (lastRows includedrows dvarmap ndvarmap ncols slack m).m.beg = m.beg := by
  unfold lastRows
  apply forLoop_induction (fun _ (s : MatrixBuild) => s.m.beg = m.beg)
  · rfl
  · intro i _ s hs
    beta_reduce
    by_cases h : includedrows (dvarmap i) = true
    · rw [if_pos h]
      exact hs
    · rw [if_neg h]
      exact hs

/-- The included entries of `dvarmap` are as many as the included coordinates. -/
theorem includedRank_total (col : Collaborators) (lpex : SCIP_LPEX)
    (hready : readyForCertificate lpex) :
    ((Finset.range (dvarmapOf col lpex).2).filter
        (fun i => lpex.psdata.includedrows ((dvarmapOf col lpex).1 i) = true)).card
      = lpex.psdata.npsbasis := by
  rw [hready.2.1, Finset.card_filter, Finset.card_filter]
  unfold dvarmapOf
  rw [collectIndices_sum lpex.psdata.nextendedrows (fun i => decide (dvarincidence lpex i ≠ 0))
    col.bufferContent (fun e => if lpex.psdata.includedrows e = true then 1 else 0)]
  apply Finset.sum_congr rfl
  intro e he
  by_cases h : lpex.psdata.includedrows e = true
  · have h2 := hready.2.2.1 e (Finset.mem_range.mp he) h
    rw [if_pos (by simpa using h2)]
  · rw [if_neg h]
    split_ifs <;> rfl

/-- The array `psbeg` of the transposed matrix at the last rows: row `ncols + k` begins at
`computePsNnonz + 2 * k`. -/
theorem transposed_begArray (col : Collaborators) (lpex : SCIP_LPEX) (len0 beg0 : Nat → Nat)
    (hready : readyForCertificate lpex) (k : Nat) (hk : k < lpex.psdata.npsbasis) :
    (begArray (lpex.ncols + lpex.psdata.npsbasis)
        (forLoop (fun i l => Function.update l (lpex.ncols + i) 2) lpex.psdata.npsbasis
          (countEntries lpex (dvarmapOf col lpex).1 (dvarmapOf col lpex).2
            (forLoop (fun i l => Function.update l i 0) (lpex.ncols + lpex.psdata.npsbasis)
              len0))) beg0).1 (lpex.ncols + k)
      = computePsNnonz lpex (dvarincidence lpex) + 2 * k := by
  rw [(begArray_spec _ _ _).2, if_pos (by omega), Finset.sum_range_add]
  have h1 : ∀ c ∈ Finset.range lpex.ncols,
      forLoop (fun i l => Function.update l (lpex.ncols + i) 2) lpex.psdata.npsbasis
          (countEntries lpex (dvarmapOf col lpex).1 (dvarmapOf col lpex).2
            (forLoop (fun i l => Function.update l i 0) (lpex.ncols + lpex.psdata.npsbasis)
              len0)) c
        = countEntries lpex (dvarmapOf col lpex).1 (dvarmapOf col lpex).2
            (forLoop (fun i l => Function.update l i 0) (lpex.ncols + lpex.psdata.npsbasis)
              len0) c := by
    intro c hc
    have hc2 := Finset.mem_range.mp hc
    rw [forLoop_set_offset lpex.ncols (fun _ => 2), if_neg (by omega)]
  have h2 : ∀ x ∈ Finset.range k,
      forLoop (fun i l => Function.update l (lpex.ncols + i) 2) lpex.psdata.npsbasis
          (countEntries lpex (dvarmapOf col lpex).1 (dvarmapOf col lpex).2
            (forLoop (fun i l => Function.update l i 0) (lpex.ncols + lpex.psdata.npsbasis)
              len0)) (lpex.ncols + x) = 2 := by
    intro x hx
    have hx2 := Finset.mem_range.mp hx
    rw [forLoop_set_offset lpex.ncols (fun _ => 2), if_pos (by omega)]
  rw [Finset.sum_congr rfl h1, Finset.sum_congr rfl h2,
    countEntries_total col lpex _ hready.1 hready.2.2.2, Finset.sum_const, Finset.card_range,
    smul_eq_mul]
  have h3 : ∑ c ∈ Finset.range lpex.ncols,
      forLoop (fun i l => Function.update l i 0) (lpex.ncols + lpex.psdata.npsbasis) len0 c
        = 0 := by
    apply Finset.sum_eq_zero
    intro c hc
    have hc2 := Finset.mem_range.mp hc
    rw [forLoop_set (fun _ => 0), if_pos (by omega)]
  rw [h3, zero_add, mul_comm]

/-- The last rows of the transposed matrix: for the `k`-th included entry `i` of `dvarmap`, row
`ncols + k` holds `+1` on column `i` and `-1` on the last column. -/
theorem transposedMatrix_slackRows (col : Collaborators) (lpex : SCIP_LPEX) (psncols : Nat)
    (m0 : SparseMatrix) (hready : readyForCertificate lpex) (i : Nat)
    (hi : i < (dvarmapOf col lpex).2)
    (hinc : lpex.psdata.includedrows ((dvarmapOf col lpex).1 i) = true) :
    ∃ k, k < lpex.psdata.npsbasis
      ∧ (transposedMatrix lpex (dvarmapOf col lpex).1 (dvarmapOf col lpex).2
          (lpex.ncols + lpex.psdata.npsbasis) psncols m0).beg (lpex.ncols + k)
          = computePsNnonz lpex (dvarincidence lpex) + 2 * k
      ∧ (k + 1 < lpex.psdata.npsbasis →
          (transposedMatrix lpex (dvarmapOf col lpex).1 (dvarmapOf col lpex).2
            (lpex.ncols + lpex.psdata.npsbasis) psncols m0).beg (lpex.ncols + (k + 1))
            = computePsNnonz lpex (dvarincidence lpex) + 2 * (k + 1))
      ∧ (transposedMatrix lpex (dvarmapOf col lpex).1 (dvarmapOf col lpex).2
          (lpex.ncols + lpex.psdata.npsbasis) psncols m0).ind
          (computePsNnonz lpex (dvarincidence lpex) + 2 * k) = i
      ∧ (transposedMatrix lpex (dvarmapOf col lpex).1 (dvarmapOf col lpex).2
          (lpex.ncols + lpex.psdata.npsbasis) psncols m0).val
          (computePsNnonz lpex (dvarincidence lpex) + 2 * k) = 1
      ∧ (transposedMatrix lpex (dvarmapOf col lpex).1 (dvarmapOf col lpex).2
          (lpex.ncols + lpex.psdata.npsbasis) psncols m0).ind
          (computePsNnonz lpex (dvarincidence lpex) + 2 * k + 1) = psncols - 1
      ∧ (transposedMatrix lpex (dvarmapOf col lpex).1 (dvarmapOf col lpex).2
          (lpex.ncols + lpex.psdata.npsbasis) psncols m0).val
          (computePsNnonz lpex (dvarincidence lpex) + 2 * k + 1) = -1 := by
  have htot := includedRank_total col lpex hready
  have hlt := includedRank_lt lpex.psdata.includedrows (dvarmapOf col lpex).1 i
    (dvarmapOf col lpex).2 hi hinc
  rw [htot] at hlt
  unfold transposedMatrix
  simp only []
  have hspec := lastRows_spec lpex.psdata.includedrows (dvarmapOf col lpex).1
    (dvarmapOf col lpex).2 lpex.ncols (fun _ => psncols - 1)
    (scanEntries lpex (dvarmapOf col lpex).1 (dvarmapOf col lpex).2
      { m0 with
        beg := (begArray (lpex.ncols + lpex.psdata.npsbasis)
          (forLoop (fun i l => Function.update l (lpex.ncols + i) 2) lpex.psdata.npsbasis
            (countEntries lpex (dvarmapOf col lpex).1 (dvarmapOf col lpex).2
              (forLoop (fun i l => Function.update l i 0) (lpex.ncols + lpex.psdata.npsbasis)
                m0.len))) m0.beg).1
        len := forLoop (fun i l => Function.update l i 0) lpex.ncols
          (forLoop (fun i l => Function.update l (lpex.ncols + i) 2) lpex.psdata.npsbasis
            (countEntries lpex (dvarmapOf col lpex).1 (dvarmapOf col lpex).2
              (forLoop (fun i l => Function.update l i 0) (lpex.ncols + lpex.psdata.npsbasis)
                m0.len))) })
    (computePsNnonz lpex (dvarincidence lpex))
    (by
      intro k hk
      rw [htot] at hk
      rw [scanEntries_beg]
      exact transposed_begArray col lpex m0.len m0.beg hready k hk)
  obtain ⟨hb, hent⟩ := hspec
  refine ⟨_, hlt, ?_, ?_, hent i hi hinc⟩
  · rw [hb, scanEntries_beg]
    exact transposed_begArray col lpex m0.len m0.beg hready _ hlt
  · intro hk
    rw [hb, scanEntries_beg]
    exact transposed_begArray col lpex m0.len m0.beg hready _ hk

/-- A row of two entries. -/
theorem auxActivity_pair (l : AuxLP) (x : Nat → ℚ) (r b : Nat) (hb : l.beg r = b)
    (he : auxRowEnd l r = b + 2) :
    auxActivity l x r = l.val b * x (l.ind b) + l.val (b + 1) * x (l.ind (b + 1)) := by
  unfold auxActivity
  rw [hb, he, Finset.sum_Ico_eq_sum_range, Nat.add_sub_cancel_left, Finset.sum_range_succ,
    Finset.sum_range_succ, Finset.sum_range_zero, zero_add, add_zero]

/-- In an auxiliary LP whose rows are those of the transposed matrix with left-hand side `0` on
the last rows, a feasible point is at least the last column on every included dual variable. -/
theorem slackRow_feasible (col : Collaborators) (lpex : SCIP_LPEX) (psncols : Nat)
    (m0 : SparseMatrix) (hready : readyForCertificate lpex) (l : AuxLP)
    (hrows : l.nrows = lpex.ncols + lpex.psdata.npsbasis)
    (hnnz : l.nnonz = computePsNnonz lpex (dvarincidence lpex) + 2 * lpex.psdata.npsbasis)
    (hbeg : l.beg = (transposedMatrix lpex (dvarmapOf col lpex).1 (dvarmapOf col lpex).2
      (lpex.ncols + lpex.psdata.npsbasis) psncols m0).beg)
    (hind : l.ind = (transposedMatrix lpex (dvarmapOf col lpex).1 (dvarmapOf col lpex).2
      (lpex.ncols + lpex.psdata.npsbasis) psncols m0).ind)
    (hval : l.val = (transposedMatrix lpex (dvarmapOf col lpex).1 (dvarmapOf col lpex).2
      (lpex.ncols + lpex.psdata.npsbasis) psncols m0).val)
    (hlhs : ∀ k, k < lpex.psdata.npsbasis → l.lhs (lpex.ncols + k) = SCIP_Rational.fin 0)
    (x : Nat → ℚ) (hfeas : auxFeasible l x) (i : Nat) (hi : i < (dvarmapOf col lpex).2)
    (hinc : lpex.psdata.includedrows ((dvarmapOf col lpex).1 i) = true) :
    x (psncols - 1) ≤ x i := by
  obtain ⟨k, hk, hb, hb2, hi1, hv1, hi2, hv2⟩ :=
    transposedMatrix_slackRows col lpex psncols m0 hready i hi hinc
  have hrow := (hfeas.2 (lpex.ncols + k) (by omega)).1
  have hend : auxRowEnd l (lpex.ncols + k)
      = computePsNnonz lpex (dvarincidence lpex) + 2 * k + 2 := by
    unfold auxRowEnd
    by_cases hlast : k + 1 < lpex.psdata.npsbasis
    · rw [if_pos (by omega), hbeg, add_assoc, hb2 hlast]
      ring
    · rw [if_neg (by omega), hnnz]
      have : lpex.psdata.npsbasis = k + 1 := by omega
      rw [this]
      ring
  rw [auxActivity_pair l x _ _ (by rw [hbeg]; exact hb) hend, hlhs k hk, hind, hval, hi1, hv1,
    hi2, hv2] at hrow
  have hrow2 : (0 : ℚ) ≤ 1 * x i + -1 * x (psncols - 1) := hrow
  linarith

/-- The loop that stores the solution writes `sol i` at `dvarmap i`. -/
theorem storeCertificate_spec (dvarmap : Nat → Nat) (ndvarmap : Nat) (sol interior : Nat → ℚ)
    (hinj : ∀ i j, i < j → j < ndvarmap → dvarmap i < dvarmap j) (i : Nat)
    (hi : i < ndvarmap) :
    storeCertificate dvarmap ndvarmap sol interior (dvarmap i) = sol i := by
  unfold storeCertificate
  induction ndvarmap with
  | zero => exact absurd hi (Nat.not_lt_zero i)
  | succ m ih =>
    rw [forLoop_succ]
    by_cases him : i = m
    · subst him
      rw [Function.update_same]
    · have hlt : i < m := by omega
      have hne : dvarmap i ≠ dvarmap m := Nat.ne_of_lt (hinj i m hlt (Nat.lt_succ_self m))
      rw [Function.update_noteq hne]
      exact ih (fun a b hab hb => hinj a b hab (Nat.lt_succ_of_lt hb)) hlt

/-! ## The auxiliary problems with the slack column -/

theorem dvarmapOf_increasing (col : Collaborators) (lpex : SCIP_LPEX) (i j : Nat) (hij : i < j)
    (hj : j < (dvarmapOf col lpex).2) : (dvarmapOf col lpex).1 i < (dvarmapOf col lpex).1 j :=
  (collectIndices_spec lpex.psdata.nextendedrows (fun i => decide (dvarincidence lpex i ≠ 0))
    col.bufferContent).2.2.1 i j hij hj

theorem dvarmapOf_onto (col : Collaborators) (lpex : SCIP_LPEX)
    (hready : readyForCertificate lpex) (e : Nat) (he : e < lpex.psdata.nextendedrows)
    (hinc : lpex.psdata.includedrows e = true) :
    ∃ i, i < (dvarmapOf col lpex).2 ∧ (dvarmapOf col lpex).1 i = e :=
  (collectIndices_spec lpex.psdata.nextendedrows (fun i => decide (dvarincidence lpex i ≠ 0))
    col.bufferContent).2.2.2 e he (by simpa using hready.2.2.1 e he hinc)

theorem auxProblemOpt_shape (col : Collaborators) (lp : SCIP_LP) (lpex : SCIP_LPEX)
    (findintpoint : Bool) :
    (auxProblemOpt col lp lpex findintpoint).ncols = (dvarmapOf col lpex).2 + 1
    ∧ (auxProblemOpt col lp lpex findintpoint).nrows = lpex.ncols + lpex.psdata.npsbasis
    ∧ (auxProblemOpt col lp lpex findintpoint).nnonz
        = computePsNnonz lpex (dvarincidence lpex) + 2 * lpex.psdata.npsbasis
    ∧ (auxProblemOpt col lp lpex findintpoint).beg
        = (transposedMatrix lpex (dvarmapOf col lpex).1 (dvarmapOf col lpex).2
            (lpex.ncols + lpex.psdata.npsbasis) ((dvarmapOf col lpex).2 + 1)
            (allocIntMem col).m).beg
    ∧ (auxProblemOpt col lp lpex findintpoint).ind
        = (transposedMatrix lpex (dvarmapOf col lpex).1 (dvarmapOf col lpex).2
            (lpex.ncols + lpex.psdata.npsbasis) ((dvarmapOf col lpex).2 + 1)
            (allocIntMem col).m).ind
    ∧ (auxProblemOpt col lp lpex findintpoint).val
        = (transposedMatrix lpex (dvarmapOf col lpex).1 (dvarmapOf col lpex).2
            (lpex.ncols + lpex.psdata.npsbasis) ((dvarmapOf col lpex).2 + 1)
            (allocIntMem col).m).val
    ∧ (auxProblemOpt col lp lpex findintpoint).lb (dvarmapOf col lpex).2
        = SCIP_Rational.fin (if findintpoint then 0 else 1)
    ∧ ∀ k, k < lpex.psdata.npsbasis →
        (auxProblemOpt col lp lpex findintpoint).lhs (lpex.ncols + k) = SCIP_Rational.fin 0 := by
  cases findintpoint
  · refine ⟨rfl, rfl, rfl, rfl, rfl, rfl, ?_, ?_⟩
    · simp [auxProblemOpt, mkAuxLP, setupPsOpt]
    · intro k hk
      simp only [auxProblemOpt, mkAuxLP, setupPsOpt, Bool.not_false, if_true]
      rw [forLoop_set (fun _ => SCIP_Rational.fin 0), if_neg (by omega),
        forLoop_set_offset lpex.ncols (fun _ => SCIP_Rational.fin 0), if_pos (by omega)]
  · refine ⟨rfl, rfl, rfl, rfl, rfl, rfl, ?_, ?_⟩
    · simp [auxProblemOpt, mkAuxLP, setupPsOpt]
    · intro k hk
      simp only [auxProblemOpt, mkAuxLP, setupPsOpt, Bool.not_true, Bool.false_eq_true,
        if_false]
      rw [forLoop_set_offset lpex.ncols (fun _ => SCIP_Rational.fin 0), if_pos (by omega)]

theorem auxProblemTwoStage_shape (col : Collaborators) (lpex : SCIP_LPEX) :
    (auxProblemTwoStage col lpex).ncols = (dvarmapOf col lpex).2 + 1
    ∧ (auxProblemTwoStage col lpex).nrows = lpex.ncols + lpex.psdata.npsbasis
    ∧ (auxProblemTwoStage col lpex).nnonz
        = computePsNnonz lpex (dvarincidence lpex) + 2 * lpex.psdata.npsbasis
    ∧ (auxProblemTwoStage col lpex).beg
        = (transposedMatrix lpex (dvarmapOf col lpex).1 (dvarmapOf col lpex).2
            (lpex.ncols + lpex.psdata.npsbasis) ((dvarmapOf col lpex).2 + 1)
            (allocIntMem col).m).beg
    ∧ (auxProblemTwoStage col lpex).ind
        = (transposedMatrix lpex (dvarmapOf col lpex).1 (dvarmapOf col lpex).2
            (lpex.ncols + lpex.psdata.npsbasis) ((dvarmapOf col lpex).2 + 1)
            (allocIntMem col).m).ind
    ∧ (auxProblemTwoStage col lpex).val
        = (transposedMatrix lpex (dvarmapOf col lpex).1 (dvarmapOf col lpex).2
            (lpex.ncols + lpex.psdata.npsbasis) ((dvarmapOf col lpex).2 + 1)
            (allocIntMem col).m).val
    ∧ (auxProblemTwoStage col lpex).lb (dvarmapOf col lpex).2 = SCIP_Rational.fin 0
    ∧ (∀ k, k < lpex.psdata.npsbasis →
        (auxProblemTwoStage col lpex).lhs (lpex.ncols + k) = SCIP_Rational.fin 0)
    ∧ (∀ j, j < (dvarmapOf col lpex).2 →
        (auxProblemTwoStage col lpex).obj j = SCIP_Rational.fin 0)
    ∧ (auxProblemTwoStage col lpex).obj (dvarmapOf col lpex).2 = SCIP_Rational.fin 1 := by
  refine ⟨rfl, rfl, rfl, rfl, rfl, rfl, ?_, ?_, ?_, ?_⟩
  · simp [auxProblemTwoStage, mkAuxLP, setupPsTwoStage]
  · intro k hk
    simp only [auxProblemTwoStage, mkAuxLP, setupPsTwoStage]
    rw [forLoop_set_offset lpex.ncols (fun _ => SCIP_Rational.fin 0), if_pos (by omega)]
  · intro j hj
    simp only [auxProblemTwoStage, mkAuxLP, setupPsTwoStage]
    rw [Function.update_noteq (by omega), forLoop_set (fun _ => SCIP_Rational.fin 0), if_pos hj]
  · simp [auxProblemTwoStage, mkAuxLP, setupPsTwoStage]

/-- The objective of the first stage is the slack column. -/
theorem auxProblemTwoStage_objective (col : Collaborators) (lpex : SCIP_LPEX) (x : Nat → ℚ) :
    auxObjective (auxProblemTwoStage col lpex) x = x (dvarmapOf col lpex).2 := by
  obtain ⟨hn, _, _, _, _, _, _, _, hobj, hobj1⟩ := auxProblemTwoStage_shape col lpex
  unfold auxObjective
  rw [hn, Finset.sum_range_succ, hobj1, Finset.sum_eq_zero, zero_add]
  · show (1 : ℚ) * _ = _
    rw [one_mul]
  · intro j hj
    rw [hobj j (Finset.mem_range.mp hj)]
    show (0 : ℚ) * _ = 0
    rw [zero_mul]

/-- A stored solution that is at least a positive slack on the included dual variables is
strictly positive on every included coordinate. -/
theorem storeCertificate_positive (col : Collaborators) (lpex : SCIP_LPEX)
    (hready : readyForCertificate lpex) (x interior : Nat → ℚ) (d : ℚ) (hd : 0 < d)
    (hx : ∀ i, i < (dvarmapOf col lpex).2 →
      lpex.psdata.includedrows ((dvarmapOf col lpex).1 i) = true → d ≤ x i)
    (e : Nat) (he : e < lpex.psdata.nextendedrows) (hinc : lpex.psdata.includedrows e = true) :
    0 < storeCertificate (dvarmapOf col lpex).1 (dvarmapOf col lpex).2 x interior e := by
  obtain ⟨i, hi, hie⟩ := dvarmapOf_onto col lpex hready e he hinc
  rw [← hie, storeCertificate_spec _ _ _ _ (dvarmapOf_increasing col lpex) i hi]
  rw [← hie] at hinc
  exact lt_of_lt_of_le hd (hx i hi hinc)

/-! ## The scaled interior point -/

/-- If the loop over the scaled point leaves `pshaspoint` set, no included dual variable is zero
and every entry of `dvarmap` holds its scaled value. -/
theorem scaledPoint_spec (includedrows : Nat → Bool) (dvarmap : Nat → Nat) (ndvarmap : Nat)
    (sol : Nat → ℚ) (lambda : ℚ) (interiorpt : Nat → ℚ)
    (hinj : ∀ i j, i < j → j < ndvarmap → dvarmap i < dvarmap j)
    (h : (scaledPoint includedrows dvarmap ndvarmap sol lambda interiorpt).pshaspoint = true) :
    ∀ i, i < ndvarmap →
      (includedrows (dvarmap i) = true → sol i ≠ 0)
      ∧ (scaledPoint includedrows dvarmap ndvarmap sol lambda interiorpt).interiorpt (dvarmap i)
          = sol i / lambda := by
  unfold scaledPoint at h ⊢
  have key := forLoop_induction
    (fun n (s : PointScan) =>
      (s.left = true → s.pshaspoint = false)
      ∧ (s.pshaspoint = true → ∀ i, i < n →
          (includedrows (dvarmap i) = true → sol i ≠ 0)
          ∧ s.interiorpt (dvarmap i) = sol i / lambda))
    (fun i (s : PointScan) =>
      if s.left then s
      else if includedrows (dvarmap i) && RisZero (sol i) then
        { s with pshaspoint := false, left := true }
      else { s with interiorpt := Function.update s.interiorpt (dvarmap i) (sol i / lambda) })
    { interiorpt := interiorpt, pshaspoint := true, left := false } ndvarmap
    ⟨by simp, fun _ i hi => absurd hi (Nat.not_lt_zero i)⟩
    (by
      intro n hn s hs
      obtain ⟨hl, hp⟩ := hs
      beta_reduce
      by_cases hleft : s.left = true
      · rw [if_pos hleft]
        refine ⟨hl, ?_⟩
        intro hpt
        rw [hl hleft] at hpt
        exact absurd hpt Bool.false_ne_true
      · rw [if_neg hleft]
        by_cases hz : (includedrows (dvarmap n) && RisZero (sol n)) = true
        · rw [if_pos hz]
          exact ⟨fun _ => rfl, fun hpt => absurd hpt Bool.false_ne_true⟩
        · rw [if_neg hz]
          refine ⟨fun hl2 => absurd hl2 hleft, ?_⟩
          intro hpt i hi
          show _ ∧ Function.update s.interiorpt (dvarmap n) (sol n / lambda) (dvarmap i) = _
          by_cases hin : i = n
          · subst hin
            rw [Function.update_same]
            refine ⟨?_, rfl⟩
            intro hinc hzero
            apply hz
            rw [hinc, hzero]
            rfl
          · have hlt : i < n := by omega
            have hne : dvarmap i ≠ dvarmap n := Nat.ne_of_lt (hinj i n hlt hn)
            rw [Function.update_noteq hne]
            exact hp hpt i hlt)
  exact key.2 h

/-- A scaled solution that is nonnegative on the included dual variables, with a positive
scaling factor, is strictly positive on every included coordinate if the loop leaves
`pshaspoint` set. -/
theorem scaledPoint_positive (col : Collaborators) (lpex : SCIP_LPEX)
    (hready : readyForCertificate lpex) (sol interiorpt : Nat → ℚ) (lambda : ℚ)
    (hl : 0 < lambda)
    (hx : ∀ i, i < (dvarmapOf col lpex).2 →
      lpex.psdata.includedrows ((dvarmapOf col lpex).1 i) = true → 0 ≤ sol i)
    (h : (scaledPoint lpex.psdata.includedrows (dvarmapOf col lpex).1 (dvarmapOf col lpex).2 sol
      lambda interiorpt).pshaspoint = true)
    (e : Nat) (he : e < lpex.psdata.nextendedrows) (hinc : lpex.psdata.includedrows e = true) :
    0 < (scaledPoint lpex.psdata.includedrows (dvarmapOf col lpex).1 (dvarmapOf col lpex).2 sol
      lambda interiorpt).interiorpt e := by
  obtain ⟨i, hi, hie⟩ := dvarmapOf_onto col lpex hready e he hinc
  have hs := scaledPoint_spec _ _ _ sol lambda interiorpt (dvarmapOf_increasing col lpex) h i hi
  rw [← hie] at hinc
  rw [← hie, hs.2]
  exact div_pos (lt_of_le_of_ne (hx i hi hinc) (Ne.symm (hs.1 hinc))) hl

theorem forRange_set {α : Type} (a b : Nat) (g : Nat → α) (arr : Nat → α) (k : Nat)
    (hk : k < a) : forRange a b (fun i t => Function.update t i (g i)) arr k = arr k := by
  unfold forRange
  rw [forLoop_set_offset a (fun i => g (a + i)), if_neg (by omega)]

theorem auxProblemArbDual_shape (col : Collaborators) (lpex : SCIP_LPEX) :
    (auxProblemArbDual col lpex).ncols = (dvarmapOf col lpex).2 + 1 + lpex.psdata.npsbasis
    ∧ (∀ j, j < (dvarmapOf col lpex).2 →
        (auxProblemArbDual col lpex).lb j = SCIP_Rational.fin 0)
    ∧ (auxProblemArbDual col lpex).lb (dvarmapOf col lpex).2 = SCIP_Rational.fin 1 := by
  refine ⟨rfl, ?_, ?_⟩
  · intro j hj
    simp only [auxProblemArbDual, mkAuxLP, setupPsArbDual]
    rw [forRange_set _ _ (fun _ => SCIP_Rational.fin 0) _ _ (by omega),
      Function.update_noteq (by omega), forLoop_set (fun _ => SCIP_Rational.fin 0), if_pos hj]
  · simp only [auxProblemArbDual, mkAuxLP, setupPsArbDual]
    rw [forRange_set _ _ (fun _ => SCIP_Rational.fin 0) _ _ (by omega), Function.update_same]

/-! ## The rows of the arbitrary interior point problem -/

theorem innerRow_spec (i w : Nat) (f : Nat → Nat) (g : Nat → ℚ) (m1 : SparseMatrix) :
    (forLoop (fun j (m : SparseMatrix) =>
        { m with ind := Function.update m.ind (m.beg i + j) (f j)
                 val := Function.update m.val (m.beg i + j) (g j) }) w m1).beg = m1.beg
    ∧ (forLoop (fun j (m : SparseMatrix) =>
        { m with ind := Function.update m.ind (m.beg i + j) (f j)
                 val := Function.update m.val (m.beg i + j) (g j) }) w m1).len = m1.len
    ∧ (∀ p, (forLoop (fun j (m : SparseMatrix) =>
        { m with ind := Function.update m.ind (m.beg i + j) (f j)
                 val := Function.update m.val (m.beg i + j) (g j) }) w m1).ind p
        = if m1.beg i ≤ p ∧ p < m1.beg i + w then f (p - m1.beg i) else m1.ind p)
    ∧ (∀ p, (forLoop (fun j (m : SparseMatrix) =>
        { m with ind := Function.update m.ind (m.beg i + j) (f j)
                 val := Function.update m.val (m.beg i + j) (g j) }) w m1).val p
        = if m1.beg i ≤ p ∧ p < m1.beg i + w then g (p - m1.beg i) else m1.val p) := by
  induction w with
  | zero =>
    refine ⟨rfl, rfl, ?_, ?_⟩
    · intro p
      rw [forLoop_zero, if_neg (by omega)]
    · intro p
      rw [forLoop_zero, if_neg (by omega)]
  | succ n ih =>
    rw [forLoop_succ]
    generalize forLoop (fun j (m : SparseMatrix) =>
        { m with ind := Function.update m.ind (m.beg i + j) (f j)
                 val := Function.update m.val (m.beg i + j) (g j) }) n m1 = R at ih
    obtain ⟨hb, hl, hi, hv⟩ := ih
    refine ⟨hb, hl, ?_, ?_⟩
    · intro p
      show Function.update R.ind (R.beg i + n) (f n) p = _
      rw [hb]
      by_cases hp : p = m1.beg i + n
      · subst hp
        rw [Function.update_same, if_pos (by omega), Nat.add_sub_cancel_left]
      · rw [Function.update_noteq hp, hi p]
        by_cases hlt : m1.beg i ≤ p ∧ p < m1.beg i + n
        · rw [if_pos hlt, if_pos (by omega)]
        · rw [if_neg hlt, if_neg (by omega)]
    · intro p
      show Function.update R.val (R.beg i + n) (g n) p = _
      rw [hb]
      by_cases hp : p = m1.beg i + n
      · subst hp
        rw [Function.update_same, if_pos (by omega), Nat.add_sub_cancel_left]
      · rw [Function.update_noteq hp, hv p]
        by_cases hlt : m1.beg i ≤ p ∧ p < m1.beg i + n
        · rw [if_pos hlt, if_pos (by omega)]
        · rw [if_neg hlt, if_neg (by omega)]

theorem arbRowBegin_succ (lpex : SCIP_LPEX) (dvarmap : Nat → Nat) (n : Nat) :
    arbRowBegin lpex dvarmap (n + 1)
      = arbRowBegin lpex dvarmap n + coordWeight lpex (dvarmap n) + 1 := by
  unfold arbRowBegin
  rw [Finset.sum_range_succ, add_assoc]

theorem arbRowBegin_mono (lpex : SCIP_LPEX) (dvarmap : Nat → Nat) (i n : Nat) (h : i ≤ n) :
    arbRowBegin lpex dvarmap i ≤ arbRowBegin lpex dvarmap n := by
  unfold arbRowBegin
  exact Finset.sum_le_sum_of_subset (Finset.range_mono h)

/-- One row of the first block: it begins at `pos`, holds `coordWeight` entries on columns of
the original problem and ends with `-1` on the column `ncols + i`. -/
theorem arbFirstRow_step (lpex : SCIP_LPEX) (dvarmap : Nat → Nat) (i : Nat) (s : MatrixBuild)
    (hr : indicesInRange lpex) (hdv : dvarmap i < 2 * lpex.nrows + 2 * lpex.ncols) :
    (arbFirstRow lpex dvarmap i s).pos = s.pos + coordWeight lpex (dvarmap i) + 1
    ∧ (arbFirstRow lpex dvarmap i s).m.beg = Function.update s.m.beg i s.pos
    ∧ (∀ p, p < s.pos → (arbFirstRow lpex dvarmap i s).m.ind p = s.m.ind p
        ∧ (arbFirstRow lpex dvarmap i s).m.val p = s.m.val p)
    ∧ (∀ t, t < coordWeight lpex (dvarmap i) →
        (arbFirstRow lpex dvarmap i s).m.ind (s.pos + t) < lpex.ncols)
    ∧ (arbFirstRow lpex dvarmap i s).m.ind (s.pos + coordWeight lpex (dvarmap i))
        = lpex.ncols + i
    ∧ (arbFirstRow lpex dvarmap i s).m.val (s.pos + coordWeight lpex (dvarmap i)) = -1 := by
  unfold arbFirstRow coordWeight
  by_cases h1 : dvarmap i < 2 * lpex.nrows
  · rw [if_pos h1, if_pos h1]
    have hrow : (if dvarmap i ≥ lpex.nrows then dvarmap i - lpex.nrows else dvarmap i)
        < lpex.nrows := by
      split_ifs <;> omega
    generalize (if dvarmap i ≥ lpex.nrows then dvarmap i - lpex.nrows else dvarmap i) = indx
      at hrow ⊢
    have hlen : Function.update s.m.len i ((lpex.rows indx).len + 1) i - 1
        = (lpex.rows indx).len := by
      rw [Function.update_same, Nat.add_sub_cancel]
    have hpos : s.pos + ((lpex.rows indx).len + 1) - 1 = s.pos + (lpex.rows indx).len := by
      omega
    simp only []
    obtain ⟨hb, hl, hi, hv⟩ := innerRow_spec i (lpex.rows indx).len
      (fun j => (lpex.rows indx).cols_index j)
      (fun j => if dvarmap i < lpex.nrows then (lpex.rows indx).vals j
        else -(lpex.rows indx).vals j)
      { s.m with len := Function.update s.m.len i ((lpex.rows indx).len + 1)
                 beg := Function.update s.m.beg i s.pos }
    simp only [Function.update_same] at hb hl hi hv
    rw [hlen, hb, hl, Function.update_same i s.pos s.m.beg,
      Function.update_same i ((lpex.rows indx).len + 1) s.m.len, hpos]
    refine ⟨trivial, rfl, ?_, ?_, ?_, ?_⟩
    · intro p hp
      rw [Function.update_noteq (by omega), Function.update_noteq (by omega), hi p, hv p,
        if_neg (by omega), if_neg (by omega)]
      exact ⟨rfl, rfl⟩
    · intro t ht
      rw [Function.update_noteq (by omega), hi, if_pos (by omega), Nat.add_sub_cancel_left]
      exact hr indx hrow t ht
    · rw [Function.update_same]
    · rw [Function.update_same]
  · rw [if_neg h1, if_neg h1]
    by_cases h2 : dvarmap i < 2 * lpex.nrows + lpex.ncols
    · rw [if_pos h2]
      refine ⟨rfl, rfl, ?_, ?_, ?_, ?_⟩
      · intro p hp
        show Function.update (Function.update s.m.ind s.pos _) (s.pos + 1) _ p = _
          ∧ Function.update (Function.update s.m.val s.pos _) (s.pos + 1) _ p = _
        rw [Function.update_noteq (by omega), Function.update_noteq (by omega),
          Function.update_noteq (by omega), Function.update_noteq (by omega)]
        exact ⟨rfl, rfl⟩
      · intro t ht
        have ht0 : t = 0 := by omega
        subst ht0
        show Function.update (Function.update s.m.ind s.pos _) (s.pos + 1) _ (s.pos + 0) < _
        rw [Function.update_noteq (by omega), add_zero, Function.update_same]
        omega
      · show Function.update (Function.update s.m.ind s.pos _) (s.pos + 1) _ (s.pos + 1) = _
        rw [Function.update_same]
      · show Function.update (Function.update s.m.val s.pos _) (s.pos + 1) _ (s.pos + 1) = _
        rw [Function.update_same]
    · rw [if_neg h2]
      refine ⟨rfl, rfl, ?_, ?_, ?_, ?_⟩
      · intro p hp
        show Function.update (Function.update s.m.ind s.pos _) (s.pos + 1) _ p = _
          ∧ Function.update (Function.update s.m.val s.pos _) (s.pos + 1) _ p = _
        rw [Function.update_noteq (by omega), Function.update_noteq (by omega),
          Function.update_noteq (by omega), Function.update_noteq (by omega)]
        exact ⟨rfl, rfl⟩
      · intro t ht
        have ht0 : t = 0 := by omega
        subst ht0
        show Function.update (Function.update s.m.ind s.pos _) (s.pos + 1) _ (s.pos + 0) < _
        rw [Function.update_noteq (by omega), add_zero, Function.update_same]
        omega
      · show Function.update (Function.update s.m.ind s.pos _) (s.pos + 1) _ (s.pos + 1) = _
        rw [Function.update_same]
      · show Function.update (Function.update s.m.val s.pos _) (s.pos + 1) _ (s.pos + 1) = _
        rw [Function.update_same]

/-- The first block of rows: row `i` begins at `arbRowBegin i`, holds `coordWeight` entries on
columns of the original problem and ends with `-1` on the column `ncols + i`. -/
theorem arbFirstRows_spec (lpex : SCIP_LPEX) (dvarmap : Nat → Nat) (ndvarmap : Nat)
    (m : SparseMatrix) (hr : indicesInRange lpex)
    (hdv : ∀ i, i < ndvarmap → dvarmap i < 2 * lpex.nrows + 2 * lpex.ncols) :
    (arbFirstRows lpex dvarmap ndvarmap m).pos = arbRowBegin lpex dvarmap ndvarmap
    ∧ ∀ i, i < ndvarmap →
        (arbFirstRows lpex dvarmap ndvarmap m).m.beg i = arbRowBegin lpex dvarmap i
        ∧ (∀ t, t < coordWeight lpex (dvarmap i) →
            (arbFirstRows lpex dvarmap ndvarmap m).m.ind (arbRowBegin lpex dvarmap i + t)
              < lpex.ncols)
        ∧ (arbFirstRows lpex dvarmap ndvarmap m).m.ind
            (arbRowBegin lpex dvarmap i + coordWeight lpex (dvarmap i)) = lpex.ncols + i
        ∧ (arbFirstRows lpex dvarmap ndvarmap m).m.val
            (arbRowBegin lpex dvarmap i + coordWeight lpex (dvarmap i)) = -1 := by
  unfold arbFirstRows
  apply forLoop_induction (fun n (s : MatrixBuild) =>
    s.pos = arbRowBegin lpex dvarmap n
    ∧ ∀ i, i < n →
        s.m.beg i = arbRowBegin lpex dvarmap i
        ∧ (∀ t, t < coordWeight lpex (dvarmap i) →
            s.m.ind (arbRowBegin lpex dvarmap i + t) < lpex.ncols)
        ∧ s.m.ind (arbRowBegin lpex dvarmap i + coordWeight lpex (dvarmap i)) = lpex.ncols + i
        ∧ s.m.val (arbRowBegin lpex dvarmap i + coordWeight lpex (dvarmap i)) = -1)
  · refine ⟨?_, fun i hi => absurd hi (Nat.not_lt_zero i)⟩
    simp [arbRowBegin]
  · intro n hn s hs
    obtain ⟨hpos, hrows⟩ := hs
    obtain ⟨hp, hb, hpres, hstr, hind, hval⟩ := arbFirstRow_step lpex dvarmap n s hr (hdv n hn)
    refine ⟨?_, ?_⟩
    · rw [hp, hpos, arbRowBegin_succ]
    · intro i hi
      by_cases hin : i = n
      · subst hin
        rw [hb, Function.update_same, ← hpos]
        exact ⟨rfl, hstr, hind, hval⟩
      · have hlt : i < n := by omega
        obtain ⟨h1, h2, h3, h4⟩ := hrows i hlt
        have hmono := arbRowBegin_mono lpex dvarmap (i + 1) n hlt
        rw [arbRowBegin_succ] at hmono
        rw [hb, Function.update_noteq hin]
        refine ⟨h1, ?_, ?_, ?_⟩
        · intro t ht
          rw [(hpres _ (by omega)).1]
          exact h2 t ht
        · rw [(hpres _ (by omega)).1]
          exact h3
        · rw [(hpres _ (by omega)).2]
          exact h4

/-- The second block of rows: row `ndvarmap + i` begins at `pos + 2 * i` and holds `+1` on the
columns `ncols + i` and `ncols + ndvarmap + 1 + i`; what was written before stays. -/
theorem arbSecondRows_spec (ncols ndvarmap : Nat) (s1 : MatrixBuild) :
    (arbSecondRows ncols ndvarmap s1).pos = s1.pos + 2 * ndvarmap
    ∧ (∀ p, p < s1.pos → (arbSecondRows ncols ndvarmap s1).m.ind p = s1.m.ind p
        ∧ (arbSecondRows ncols ndvarmap s1).m.val p = s1.m.val p)
    ∧ (∀ r, r < ndvarmap → (arbSecondRows ncols ndvarmap s1).m.beg r = s1.m.beg r)
    ∧ ∀ i, i < ndvarmap →
        (arbSecondRows ncols ndvarmap s1).m.beg (ndvarmap + i) = s1.pos + 2 * i
        ∧ (arbSecondRows ncols ndvarmap s1).m.ind (s1.pos + 2 * i) = ncols + i
        ∧ (arbSecondRows ncols ndvarmap s1).m.val (s1.pos + 2 * i) = 1
        ∧ (arbSecondRows ncols ndvarmap s1).m.ind (s1.pos + 2 * i + 1)
            = ncols + ndvarmap + 1 + i
        ∧ (arbSecondRows ncols ndvarmap s1).m.val (s1.pos + 2 * i + 1) = 1 := by
  unfold arbSecondRows
  apply forLoop_induction (fun n (s : MatrixBuild) =>
    s.pos = s1.pos + 2 * n
    ∧ (∀ p, p < s1.pos → s.m.ind p = s1.m.ind p ∧ s.m.val p = s1.m.val p)
    ∧ (∀ r, r < ndvarmap → s.m.beg r = s1.m.beg r)
    ∧ ∀ i, i < n →
        s.m.beg (ndvarmap + i) = s1.pos + 2 * i
        ∧ s.m.ind (s1.pos + 2 * i) = ncols + i
        ∧ s.m.val (s1.pos + 2 * i) = 1
        ∧ s.m.ind (s1.pos + 2 * i + 1) = ncols + ndvarmap + 1 + i
        ∧ s.m.val (s1.pos + 2 * i + 1) = 1)
  · exact ⟨rfl, fun p _ => ⟨rfl, rfl⟩, fun r _ => rfl, fun i hi => absurd hi (Nat.not_lt_zero i)⟩
  · intro n hn s hs
    obtain ⟨hpos, hpres, hbeg, hrows⟩ := hs
    refine ⟨?_, ?_, ?_, ?_⟩
    · show s.pos + 2 = _
      rw [hpos]
      ring
    · intro p hp
      show Function.update (Function.update s.m.ind s.pos _) (s.pos + 1) _ p = _
        ∧ Function.update (Function.update s.m.val s.pos _) (s.pos + 1) _ p = _
      rw [Function.update_noteq (by omega), Function.update_noteq (by omega),
        Function.update_noteq (by omega), Function.update_noteq (by omega)]
      exact hpres p hp
    · intro r hr
      show Function.update s.m.beg (ndvarmap + n) s.pos r = _
      rw [Function.update_noteq (by omega)]
      exact hbeg r hr
    · intro i hi
      show Function.update s.m.beg (ndvarmap + n) s.pos (ndvarmap + i) = _
        ∧ Function.update (Function.update s.m.ind s.pos _) (s.pos + 1) _ (s1.pos + 2 * i) = _
        ∧ Function.update (Function.update s.m.val s.pos _) (s.pos + 1) _ (s1.pos + 2 * i) = _
        ∧ Function.update (Function.update s.m.ind s.pos _) (s.pos + 1) _ (s1.pos + 2 * i + 1)
            = _
        ∧ Function.update (Function.update s.m.val s.pos _) (s.pos + 1) _ (s1.pos + 2 * i + 1)
            = _
      rw [hpos]
      by_cases hin : i = n
      · subst hin
        rw [Function.update_same, Function.update_noteq (by omega), Function.update_same,
          Function.update_noteq (by omega), Function.update_same, Function.update_same,
          Function.update_same]
        exact ⟨rfl, rfl, rfl, rfl, rfl⟩
      · have hlt : i < n := by omega
        rw [Function.update_noteq (by omega), Function.update_noteq (by omega),
          Function.update_noteq (by omega), Function.update_noteq (by omega),
          Function.update_noteq (by omega), Function.update_noteq (by omega),
          Function.update_noteq (by omega), Function.update_noteq (by omega),
          Function.update_noteq (by omega)]
        exact hrows i hlt

/-- The entries of the objective in the last row: `countObjNonz` entries on columns of the
original problem; `psbeg` and what was written before stay. -/
theorem arbObjectiveEntries_spec (lpex : SCIP_LPEX) (s3 : MatrixBuild) :
    (arbObjectiveEntries lpex s3).m.beg = s3.m.beg
    ∧ (arbObjectiveEntries lpex s3).pos = s3.pos + countObjNonz lpex
    ∧ (∀ p, p < s3.pos → (arbObjectiveEntries lpex s3).m.ind p = s3.m.ind p
        ∧ (arbObjectiveEntries lpex s3).m.val p = s3.m.val p)
    ∧ ∀ p, s3.pos ≤ p → p < (arbObjectiveEntries lpex s3).pos →
        (arbObjectiveEntries lpex s3).m.ind p < lpex.ncols := by
  unfold arbObjectiveEntries countObjNonz
  apply forLoop_induction (fun n (s : MatrixBuild) =>
    s.m.beg = s3.m.beg
    ∧ s.pos = s3.pos
        + forLoop (fun i n => if !RisZero (lpex.cols i).obj then n + 1 else n) n 0
    ∧ (∀ p, p < s3.pos → s.m.ind p = s3.m.ind p ∧ s.m.val p = s3.m.val p)
    ∧ ∀ p, s3.pos ≤ p → p < s.pos → s.m.ind p < lpex.ncols)
  · refine ⟨rfl, rfl, fun p _ => ⟨rfl, rfl⟩, ?_⟩
    intro p h1 h2
    exact absurd h2 (by omega)
  · intro n hn s hs
    obtain ⟨hbeg, hpos, hpres, hent⟩ := hs
    rw [forLoop_succ]
    by_cases hz : (!RisZero (lpex.cols n).obj) = true
    · rw [if_pos hz, if_pos hz]
      refine ⟨hbeg, ?_, ?_, ?_⟩
      · show s.pos + 1 = _
        rw [hpos, add_assoc]
      · intro p hp
        show Function.update s.m.ind s.pos n p = _ ∧ Function.update s.m.val s.pos _ p = _
        rw [Function.update_noteq (by omega), Function.update_noteq (by omega)]
        exact hpres p hp
      · intro p h1 h2
        show Function.update s.m.ind s.pos n p < _
        have h3 : p < s.pos + 1 := h2
        by_cases hp : p = s.pos
        · rw [hp, Function.update_same]
          exact hn
        · rw [Function.update_noteq hp]
          exact hent p h1 (by omega)
    · rw [if_neg hz, if_neg hz]
      exact ⟨hbeg, hpos, hpres, hent⟩

/-- The matrix of the arbitrary interior point problem, row by row. -/
theorem arbMatrix_spec (lpex : SCIP_LPEX) (dvarmap : Nat → Nat) (ndvarmap : Nat)
    (m : SparseMatrix) (hr : indicesInRange lpex)
    (hdv : ∀ i, i < ndvarmap → dvarmap i < 2 * lpex.nrows + 2 * lpex.ncols) :
    (∀ i, i < ndvarmap →
        (arbLastRow lpex ndvarmap (2 * ndvarmap + 1) (countObjNonz lpex)
          (arbSecondRows lpex.ncols ndvarmap (arbFirstRows lpex dvarmap ndvarmap m))).beg i
          = arbRowBegin lpex dvarmap i
        ∧ (∀ t, t < coordWeight lpex (dvarmap i) →
            (arbLastRow lpex ndvarmap (2 * ndvarmap + 1) (countObjNonz lpex)
              (arbSecondRows lpex.ncols ndvarmap (arbFirstRows lpex dvarmap ndvarmap m))).ind
              (arbRowBegin lpex dvarmap i + t) < lpex.ncols)
        ∧ (arbLastRow lpex ndvarmap (2 * ndvarmap + 1) (countObjNonz lpex)
            (arbSecondRows lpex.ncols ndvarmap (arbFirstRows lpex dvarmap ndvarmap m))).ind
            (arbRowBegin lpex dvarmap i + coordWeight lpex (dvarmap i)) = lpex.ncols + i
        ∧ (arbLastRow lpex ndvarmap (2 * ndvarmap + 1) (countObjNonz lpex)
            (arbSecondRows lpex.ncols ndvarmap (arbFirstRows lpex dvarmap ndvarmap m))).val
            (arbRowBegin lpex dvarmap i + coordWeight lpex (dvarmap i)) = -1)
    ∧ (∀ i, i < ndvarmap →
        (arbLastRow lpex ndvarmap (2 * ndvarmap + 1) (countObjNonz lpex)
          (arbSecondRows lpex.ncols ndvarmap (arbFirstRows lpex dvarmap ndvarmap m))).beg
          (ndvarmap + i) = arbRowBegin lpex dvarmap ndvarmap + 2 * i
        ∧ (arbLastRow lpex ndvarmap (2 * ndvarmap + 1) (countObjNonz lpex)
            (arbSecondRows lpex.ncols ndvarmap (arbFirstRows lpex dvarmap ndvarmap m))).ind
            (arbRowBegin lpex dvarmap ndvarmap + 2 * i) = lpex.ncols + i
        ∧ (arbLastRow lpex ndvarmap (2 * ndvarmap + 1) (countObjNonz lpex)
            (arbSecondRows lpex.ncols ndvarmap (arbFirstRows lpex dvarmap ndvarmap m))).val
            (arbRowBegin lpex dvarmap ndvarmap + 2 * i) = 1
        ∧ (arbLastRow lpex ndvarmap (2 * ndvarmap + 1) (countObjNonz lpex)
            (arbSecondRows lpex.ncols ndvarmap (arbFirstRows lpex dvarmap ndvarmap m))).ind
            (arbRowBegin lpex dvarmap ndvarmap + 2 * i + 1) = lpex.ncols + ndvarmap + 1 + i
        ∧ (arbLastRow lpex ndvarmap (2 * ndvarmap + 1) (countObjNonz lpex)
            (arbSecondRows lpex.ncols ndvarmap (arbFirstRows lpex dvarmap ndvarmap m))).val
            (arbRowBegin lpex dvarmap ndvarmap + 2 * i + 1) = 1)
    ∧ (arbLastRow lpex ndvarmap (2 * ndvarmap + 1) (countObjNonz lpex)
        (arbSecondRows lpex.ncols ndvarmap (arbFirstRows lpex dvarmap ndvarmap m))).beg
        (2 * ndvarmap) = arbRowBegin lpex dvarmap ndvarmap + 2 * ndvarmap
    ∧ (∀ t, t < countObjNonz lpex →
        (arbLastRow lpex ndvarmap (2 * ndvarmap + 1) (countObjNonz lpex)
          (arbSecondRows lpex.ncols ndvarmap (arbFirstRows lpex dvarmap ndvarmap m))).ind
          (arbRowBegin lpex dvarmap ndvarmap + 2 * ndvarmap + t) < lpex.ncols)
    ∧ (arbLastRow lpex ndvarmap (2 * ndvarmap + 1) (countObjNonz lpex)
        (arbSecondRows lpex.ncols ndvarmap (arbFirstRows lpex dvarmap ndvarmap m))).ind
        (arbRowBegin lpex dvarmap ndvarmap + 2 * ndvarmap + countObjNonz lpex)
        = lpex.ncols + ndvarmap
    ∧ (arbLastRow lpex ndvarmap (2 * ndvarmap + 1) (countObjNonz lpex)
        (arbSecondRows lpex.ncols ndvarmap (arbFirstRows lpex dvarmap ndvarmap m))).val
        (arbRowBegin lpex dvarmap ndvarmap + 2 * ndvarmap + countObjNonz lpex) = -1 := by
  obtain ⟨h1pos, h1rows⟩ := arbFirstRows_spec lpex dvarmap ndvarmap m hr hdv
  obtain ⟨h2pos, h2pres, h2beg, h2rows⟩ :=
    arbSecondRows_spec lpex.ncols ndvarmap (arbFirstRows lpex dvarmap ndvarmap m)
  rw [h1pos] at h2pos h2pres h2rows
  generalize arbFirstRows lpex dvarmap ndvarmap m = s1 at h1rows h2pres h2beg h2rows h2pos ⊢
  generalize arbSecondRows lpex.ncols ndvarmap s1 = s2 at h2pres h2beg h2rows h2pos ⊢
  have hlast : 2 * ndvarmap + 1 - 1 = 2 * ndvarmap := Nat.add_sub_cancel (2 * ndvarmap) 1
  obtain ⟨h4beg, h4pos, h4pres, h4ent⟩ := arbObjectiveEntries_spec lpex
    { s2 with m := { s2.m with
        beg := Function.update s2.m.beg (2 * ndvarmap + 1 - 1) s2.pos
        len := Function.update s2.m.len (2 * ndvarmap + 1 - 1) (countObjNonz lpex + 1) } }
  unfold arbLastRow
  simp only []
  generalize arbObjectiveEntries lpex
    { s2 with m := { s2.m with
        beg := Function.update s2.m.beg (2 * ndvarmap + 1 - 1) s2.pos
        len := Function.update s2.m.len (2 * ndvarmap + 1 - 1) (countObjNonz lpex + 1) } } = s4
    at h4beg h4pos h4pres h4ent ⊢
  have h4pos2 : s4.pos = arbRowBegin lpex dvarmap ndvarmap + 2 * ndvarmap + countObjNonz lpex := by
    rw [h4pos]
    show s2.pos + _ = _
    rw [h2pos]
  have h4beg2 : s4.m.beg = Function.update s2.m.beg (2 * ndvarmap) s2.pos := by
    rw [h4beg]
    show Function.update s2.m.beg (2 * ndvarmap + 1 - 1) s2.pos = _
    rw [hlast]
  have h4pres2 : ∀ p, p < arbRowBegin lpex dvarmap ndvarmap + 2 * ndvarmap →
      s4.m.ind p = s2.m.ind p ∧ s4.m.val p = s2.m.val p := by
    intro p hp
    exact h4pres p (by show p < s2.pos; rw [h2pos]; exact hp)
  have h4ent2 : ∀ t, t < countObjNonz lpex →
      s4.m.ind (arbRowBegin lpex dvarmap ndvarmap + 2 * ndvarmap + t) < lpex.ncols := by
    intro t ht
    apply h4ent
    · show s2.pos ≤ _
      rw [h2pos]
      omega
    · rw [h4pos2]
      omega
  rw [h4beg2, h4pos2]
  refine ⟨?_, ?_, ?_, ?_, ?_, ?_⟩
  · intro i hi
    obtain ⟨a1, a2, a3, a4⟩ := h1rows i hi
    have hmono := arbRowBegin_mono lpex dvarmap (i + 1) ndvarmap hi
    rw [arbRowBegin_succ] at hmono
    rw [Function.update_noteq (by omega), h2beg i hi]
    refine ⟨a1, ?_, ?_, ?_⟩
    · intro t ht
      rw [Function.update_noteq (by omega), (h4pres2 _ (by omega)).1, (h2pres _ (by omega)).1]
      exact a2 t ht
    · rw [Function.update_noteq (by omega), (h4pres2 _ (by omega)).1, (h2pres _ (by omega)).1]
      exact a3
    · rw [Function.update_noteq (by omega), (h4pres2 _ (by omega)).2, (h2pres _ (by omega)).2]
      exact a4
  · intro i hi
    obtain ⟨b1, b2, b3, b4, b5⟩ := h2rows i hi
    rw [Function.update_noteq (by omega), Function.update_noteq (by omega),
      Function.update_noteq (by omega), Function.update_noteq (by omega),
      Function.update_noteq (by omega), (h4pres2 _ (by omega)).1, (h4pres2 _ (by omega)).2,
      (h4pres2 _ (by omega)).1, (h4pres2 _ (by omega)).2]
    exact ⟨b1, b2, b3, b4, b5⟩
  · rw [Function.update_same, h2pos]
  · intro t ht
    rw [Function.update_noteq (by omega)]
    exact h4ent2 t ht
  · rw [Function.update_same]
  · rw [Function.update_same]

theorem arbRowBegin_total (col : Collaborators) (lpex : SCIP_LPEX)
    (hn : lpex.psdata.nextendedrows = 2 * lpex.nrows + 2 * lpex.ncols) :
    arbRowBegin lpex (dvarmapOf col lpex).1 (dvarmapOf col lpex).2
      = computePsNnonz lpex (dvarincidence lpex) + (dvarmapOf col lpex).2 := by
  unfold arbRowBegin
  rw [Finset.sum_add_distrib, coordWeight_sum col lpex hn, Finset.sum_const, Finset.card_range,
    smul_eq_mul, mul_one]

theorem dvarmapOf_lt (col : Collaborators) (lpex : SCIP_LPEX)
    (hn : lpex.psdata.nextendedrows = 2 * lpex.nrows + 2 * lpex.ncols) (i : Nat)
    (hi : i < (dvarmapOf col lpex).2) :
    (dvarmapOf col lpex).1 i < 2 * lpex.nrows + 2 * lpex.ncols := by
  rw [← hn]
  exact ((collectIndices_spec lpex.psdata.nextendedrows
    (fun i => decide (dvarincidence lpex i ≠ 0)) col.bufferContent).2.1 i hi).1

/-- The rows of the auxiliary LP of the arbitrary interior point: where each row begins and
ends, and what it holds. -/
theorem auxProblemArb_rows (col : Collaborators) (lpex : SCIP_LPEX)
    (hready : readyForCertificate lpex) :
    (∀ i, i < (dvarmapOf col lpex).2 →
        (auxProblemArb col lpex).beg i = arbRowBegin lpex (dvarmapOf col lpex).1 i
        ∧ auxRowEnd (auxProblemArb col lpex) i
            = arbRowBegin lpex (dvarmapOf col lpex).1 i
              + coordWeight lpex ((dvarmapOf col lpex).1 i) + 1
        ∧ (∀ t, t < coordWeight lpex ((dvarmapOf col lpex).1 i) →
            (auxProblemArb col lpex).ind (arbRowBegin lpex (dvarmapOf col lpex).1 i + t)
              < lpex.ncols)
        ∧ (auxProblemArb col lpex).ind (arbRowBegin lpex (dvarmapOf col lpex).1 i
            + coordWeight lpex ((dvarmapOf col lpex).1 i)) = lpex.ncols + i
        ∧ (auxProblemArb col lpex).val (arbRowBegin lpex (dvarmapOf col lpex).1 i
            + coordWeight lpex ((dvarmapOf col lpex).1 i)) = -1)
    ∧ (∀ i, i < (dvarmapOf col lpex).2 →
        (auxProblemArb col lpex).beg ((dvarmapOf col lpex).2 + i)
          = arbRowBegin lpex (dvarmapOf col lpex).1 (dvarmapOf col lpex).2 + 2 * i
        ∧ auxRowEnd (auxProblemArb col lpex) ((dvarmapOf col lpex).2 + i)
          = arbRowBegin lpex (dvarmapOf col lpex).1 (dvarmapOf col lpex).2 + 2 * i + 2
        ∧ (auxProblemArb col lpex).ind
            (arbRowBegin lpex (dvarmapOf col lpex).1 (dvarmapOf col lpex).2 + 2 * i)
            = lpex.ncols + i
        ∧ (auxProblemArb col lpex).val
            (arbRowBegin lpex (dvarmapOf col lpex).1 (dvarmapOf col lpex).2 + 2 * i) = 1
        ∧ (auxProblemArb col lpex).ind
            (arbRowBegin lpex (dvarmapOf col lpex).1 (dvarmapOf col lpex).2 + 2 * i + 1)
            = lpex.ncols + (dvarmapOf col lpex).2 + 1 + i
        ∧ (auxProblemArb col lpex).val
            (arbRowBegin lpex (dvarmapOf col lpex).1 (dvarmapOf col lpex).2 + 2 * i + 1) = 1)
    ∧ (auxProblemArb col lpex).beg (2 * (dvarmapOf col lpex).2)
        = arbRowBegin lpex (dvarmapOf col lpex).1 (dvarmapOf col lpex).2
          + 2 * (dvarmapOf col lpex).2
    ∧ auxRowEnd (auxProblemArb col lpex) (2 * (dvarmapOf col lpex).2)
        = arbRowBegin lpex (dvarmapOf col lpex).1 (dvarmapOf col lpex).2
          + 2 * (dvarmapOf col lpex).2 + countObjNonz lpex + 1
    ∧ (∀ t, t < countObjNonz lpex →
        (auxProblemArb col lpex).ind
          (arbRowBegin lpex (dvarmapOf col lpex).1 (dvarmapOf col lpex).2
            + 2 * (dvarmapOf col lpex).2 + t) < lpex.ncols)
    ∧ (auxProblemArb col lpex).ind
        (arbRowBegin lpex (dvarmapOf col lpex).1 (dvarmapOf col lpex).2
          + 2 * (dvarmapOf col lpex).2 + countObjNonz lpex)
        = lpex.ncols + (dvarmapOf col lpex).2
    ∧ (auxProblemArb col lpex).val
        (arbRowBegin lpex (dvarmapOf col lpex).1 (dvarmapOf col lpex).2
          + 2 * (dvarmapOf col lpex).2 + countObjNonz lpex) = -1 := by
  obtain ⟨h1, h2, h3, h4, h5, h6⟩ := arbMatrix_spec lpex (dvarmapOf col lpex).1
    (dvarmapOf col lpex).2 (allocIntMem col).m hready.2.2.2 (dvarmapOf_lt col lpex hready.1)
  have htot := arbRowBegin_total col lpex hready.1
  have hbeg : (auxProblemArb col lpex).beg
      = (arbLastRow lpex (dvarmapOf col lpex).2 (2 * (dvarmapOf col lpex).2 + 1)
          (countObjNonz lpex) (arbSecondRows lpex.ncols (dvarmapOf col lpex).2
            (arbFirstRows lpex (dvarmapOf col lpex).1 (dvarmapOf col lpex).2
              (allocIntMem col).m))).beg := rfl
  have hind : (auxProblemArb col lpex).ind
      = (arbLastRow lpex (dvarmapOf col lpex).2 (2 * (dvarmapOf col lpex).2 + 1)
          (countObjNonz lpex) (arbSecondRows lpex.ncols (dvarmapOf col lpex).2
            (arbFirstRows lpex (dvarmapOf col lpex).1 (dvarmapOf col lpex).2
              (allocIntMem col).m))).ind := rfl
  have hval : (auxProblemArb col lpex).val
      = (arbLastRow lpex (dvarmapOf col lpex).2 (2 * (dvarmapOf col lpex).2 + 1)
          (countObjNonz lpex) (arbSecondRows lpex.ncols (dvarmapOf col lpex).2
            (arbFirstRows lpex (dvarmapOf col lpex).1 (dvarmapOf col lpex).2
              (allocIntMem col).m))).val := rfl
  have hnrows : (auxProblemArb col lpex).nrows = 2 * (dvarmapOf col lpex).2 + 1 := rfl
  have hnnz : (auxProblemArb col lpex).nnonz = computePsNnonz lpex (dvarincidence lpex)
      + (countObjNonz lpex + 1 + 3 * (dvarmapOf col lpex).2) := rfl
  unfold auxRowEnd
  rw [hbeg, hind, hval, hnrows, hnnz]
  refine ⟨?_, ?_, h3, ?_, h4, h5, h6⟩
  · intro i hi
    obtain ⟨a1, a2, a3, a4⟩ := h1 i hi
    refine ⟨a1, ?_, a2, a3, a4⟩
    rw [if_pos (by omega)]
    by_cases hlast : i + 1 < (dvarmapOf col lpex).2
    · rw [(h1 (i + 1) hlast).1, arbRowBegin_succ]
    · have hnd : (dvarmapOf col lpex).2 = i + 1 := by omega
      have hpos : 0 < (dvarmapOf col lpex).2 := by omega
      have h0 := (h2 0 hpos).1
      rw [add_zero, mul_zero, add_zero] at h0
      rw [← arbRowBegin_succ, ← hnd]
      exact h0
  · intro i hi
    obtain ⟨b1, b2, b3, b4, b5⟩ := h2 i hi
    refine ⟨b1, ?_, b2, b3, b4, b5⟩
    rw [if_pos (by omega)]
    by_cases hlast : i + 1 < (dvarmapOf col lpex).2
    · rw [add_assoc, (h2 (i + 1) hlast).1]
      ring
    · have hnd : (dvarmapOf col lpex).2 + i + 1 = 2 * (dvarmapOf col lpex).2 := by omega
      rw [hnd, h3]
      omega
  · rw [if_neg (by omega), htot]
    omega

/-! ## The reduced costs of the arbitrary interior point problem -/

theorem rowDual_lastEntry (l : AuxLP) (y : ℚ) (j b w c : Nat)
    (hstr : ∀ t, t < w → l.ind (b + t) ≠ j) (hind : l.ind (b + w) = c) :
    ∑ k ∈ Finset.Ico b (b + w + 1), (if l.ind k = j then y * l.val k else 0)
      = if c = j then y * l.val (b + w) else 0 := by
  have hlen : b + w + 1 - b = w + 1 := by omega
  rw [Finset.sum_Ico_eq_sum_range, hlen, Finset.sum_range_succ, Finset.sum_eq_zero, zero_add,
    hind]
  intro t ht
  rw [if_neg (hstr t (Finset.mem_range.mp ht))]

theorem rowDual_pair (l : AuxLP) (y : ℚ) (j b : Nat) :
    ∑ k ∈ Finset.Ico b (b + 2), (if l.ind k = j then y * l.val k else 0)
      = (if l.ind b = j then y * l.val b else 0)
        + (if l.ind (b + 1) = j then y * l.val (b + 1) else 0) := by
  rw [Finset.sum_Ico_eq_sum_range, Nat.add_sub_cancel_left, Finset.sum_range_succ,
    Finset.sum_range_succ, Finset.sum_range_zero, zero_add, add_zero]

/-- The entry of `A^T y` at a column `j` that is not a column of the original problem. -/
theorem auxProblemArb_columnDual (col : Collaborators) (lpex : SCIP_LPEX)
    (hready : readyForCertificate lpex) (y : Nat → ℚ) (j : Nat) (hj : lpex.ncols ≤ j) :
    auxColumnDual (auxProblemArb col lpex) y j
      = (∑ i ∈ Finset.range (dvarmapOf col lpex).2,
          if lpex.ncols + i = j then y i * (-1) else 0)
        + (∑ i ∈ Finset.range (dvarmapOf col lpex).2,
            ((if lpex.ncols + i = j then y ((dvarmapOf col lpex).2 + i) * 1 else 0)
              + (if lpex.ncols + (dvarmapOf col lpex).2 + 1 + i = j
                  then y ((dvarmapOf col lpex).2 + i) * 1 else 0)))
        + (if lpex.ncols + (dvarmapOf col lpex).2 = j
            then y (2 * (dvarmapOf col lpex).2) * (-1) else 0) := by
  obtain ⟨h1, h2, h3, h4, h5, h6, h7⟩ := auxProblemArb_rows col lpex hready
  have hnrows : (auxProblemArb col lpex).nrows
      = (dvarmapOf col lpex).2 + (dvarmapOf col lpex).2 + 1 := by
    show 2 * (dvarmapOf col lpex).2 + 1 = _
    ring
  have h2nd : (dvarmapOf col lpex).2 + (dvarmapOf col lpex).2 = 2 * (dvarmapOf col lpex).2 := by
    ring
  unfold auxColumnDual
  rw [hnrows, Finset.sum_range_succ, Finset.sum_range_add, h2nd]
  congr 1
  · congr 1
    · apply Finset.sum_congr rfl
      intro i hi
      obtain ⟨a1, a2, a3, a4, a5⟩ := h1 i (Finset.mem_range.mp hi)
      rw [a1, a2, rowDual_lastEntry (auxProblemArb col lpex) (y i) j _ _ (lpex.ncols + i)
        (fun t ht => Nat.ne_of_lt (lt_of_lt_of_le (a3 t ht) hj)) a4, a5]
    · apply Finset.sum_congr rfl
      intro i hi
      obtain ⟨b1, b2, b3, b4, b5, b6⟩ := h2 i (Finset.mem_range.mp hi)
      rw [b1, b2, rowDual_pair, b3, b4, b5, b6]
  · rw [h3, h4, rowDual_lastEntry (auxProblemArb col lpex) (y (2 * (dvarmapOf col lpex).2)) j _
      _ (lpex.ncols + (dvarmapOf col lpex).2)
      (fun t ht => Nat.ne_of_lt (lt_of_lt_of_le (h5 t ht) hj)) h6, h7]

theorem auxProblemArb_columnDual_point (col : Collaborators) (lpex : SCIP_LPEX)
    (hready : readyForCertificate lpex) (y : Nat → ℚ) (i0 : Nat)
    (hi0 : i0 < (dvarmapOf col lpex).2) :
    auxColumnDual (auxProblemArb col lpex) y (lpex.ncols + i0)
      = -y i0 + y ((dvarmapOf col lpex).2 + i0) := by
  rw [auxProblemArb_columnDual col lpex hready y _ (Nat.le_add_right _ _)]
  have e1 : ∀ i ∈ Finset.range (dvarmapOf col lpex).2,
      (if lpex.ncols + i = lpex.ncols + i0 then y i * (-1) else 0)
        = if i0 = i then -y i else 0 := by
    intro i _
    by_cases h : i0 = i
    · subst h
      rw [if_pos rfl, if_pos rfl, mul_neg_one]
    · rw [if_neg (by omega), if_neg h]
  have e2 : ∀ i ∈ Finset.range (dvarmapOf col lpex).2,
      ((if lpex.ncols + i = lpex.ncols + i0 then y ((dvarmapOf col lpex).2 + i) * 1 else 0)
        + (if lpex.ncols + (dvarmapOf col lpex).2 + 1 + i = lpex.ncols + i0
            then y ((dvarmapOf col lpex).2 + i) * 1 else 0))
        = if i0 = i then y ((dvarmapOf col lpex).2 + i) else 0 := by
    intro i _
    by_cases h : i0 = i
    · subst h
      rw [if_pos rfl, if_pos rfl, if_neg (by omega), mul_one, add_zero]
    · rw [if_neg (by omega), if_neg h, if_neg (by omega), add_zero]
  rw [Finset.sum_congr rfl e1, Finset.sum_congr rfl e2, Finset.sum_ite_eq, Finset.sum_ite_eq,
    if_pos (Finset.mem_range.mpr hi0), if_pos (Finset.mem_range.mpr hi0), if_neg (by omega),
    add_zero]

theorem auxProblemArb_columnDual_lambda (col : Collaborators) (lpex : SCIP_LPEX)
    (hready : readyForCertificate lpex) (y : Nat → ℚ) :
    auxColumnDual (auxProblemArb col lpex) y (lpex.ncols + (dvarmapOf col lpex).2)
      = -y (2 * (dvarmapOf col lpex).2) := by
  rw [auxProblemArb_columnDual col lpex hready y _ (Nat.le_add_right _ _), Finset.sum_eq_zero,
    Finset.sum_eq_zero, if_pos rfl, zero_add, zero_add, mul_neg_one]
  · intro i hi
    have hi2 := Finset.mem_range.mp hi
    rw [if_neg (by omega), if_neg (by omega), add_zero]
  · intro i hi
    have hi2 := Finset.mem_range.mp hi
    rw [if_neg (by omega)]

theorem forLoop_set_if {α : Type} (c : Nat → Prop) [DecidablePred c] (g h : Nat → α) (n : Nat)
    (a : Nat → α) (k : Nat) :
    forLoop (fun i b => if c i then Function.update b i (g i) else Function.update b i (h i)) n a
        k
      = if k < n then (if c k then g k else h k) else a k := by
  have hbody : (fun i (b : Nat → α) =>
      if c i then Function.update b i (g i) else Function.update b i (h i))
      = (fun i b => Function.update b i (if c i then g i else h i)) := by
    funext i b
    split_ifs <;> rfl
  rw [hbody, forLoop_set (fun i => if c i then g i else h i)]

theorem auxProblemArb_shape (col : Collaborators) (lpex : SCIP_LPEX) :
    (auxProblemArb col lpex).ncols = lpex.ncols + 2 * (dvarmapOf col lpex).2 + 1
    ∧ (auxProblemArb col lpex).nrows = 2 * (dvarmapOf col lpex).2 + 1
    ∧ (∀ j, j < lpex.ncols + 2 * (dvarmapOf col lpex).2 + 1 →
        (auxProblemArb col lpex).ub j = SCIP_Rational.inf)
    ∧ (∀ i, i < (dvarmapOf col lpex).2 →
        (auxProblemArb col lpex).obj (lpex.ncols + i) = SCIP_Rational.fin 0)
    ∧ (auxProblemArb col lpex).obj (lpex.ncols + (dvarmapOf col lpex).2)
        = SCIP_Rational.fin (-1)
    ∧ ∀ r, (dvarmapOf col lpex).2 ≤ r → r < 2 * (dvarmapOf col lpex).2 + 1 →
        (auxProblemArb col lpex).rhs r = SCIP_Rational.inf := by
  refine ⟨rfl, rfl, ?_, ?_, ?_, ?_⟩
  · intro j hj
    simp only [auxProblemArb, mkAuxLP, setupPsArb]
    rw [forLoop_set (fun _ => SCIP_Rational.inf), if_pos hj]
  · intro i hi
    simp only [auxProblemArb, mkAuxLP, setupPsArb]
    rw [forRange_set _ _ (fun _ => SCIP_Rational.fin 1) _ _ (by omega),
      Function.update_noteq (by omega), forLoop_set (fun _ => SCIP_Rational.fin 0),
      if_pos (by omega)]
  · simp only [auxProblemArb, mkAuxLP, setupPsArb]
    rw [forRange_set _ _ (fun _ => SCIP_Rational.fin 1) _ _ (by omega), Function.update_same]
  · intro r hr1 hr2
    simp only [auxProblemArb, mkAuxLP, setupPsArb]
    rw [forLoop_set_if (fun i => i < (dvarmapOf col lpex).2) (fun _ => SCIP_Rational.fin 0)
      (fun _ => SCIP_Rational.inf), if_pos hr2, if_neg (by omega)]

/-- Dual feasible row multipliers of the arbitrary interior point problem: the multiplier of the
last row is at least `1` and the multipliers of the first rows are nonnegative. -/
theorem auxProblemArb_dual (col : Collaborators) (lpex : SCIP_LPEX)
    (hready : readyForCertificate lpex) (y : Nat → ℚ)
    (hfeas : auxDualFeasible (auxProblemArb col lpex) y) :
    1 ≤ y (2 * (dvarmapOf col lpex).2) ∧ ∀ i, i < (dvarmapOf col lpex).2 → 0 ≤ y i := by
  obtain ⟨hnc, hnr, hub, hobj, hobjl, hrhs⟩ := auxProblemArb_shape col lpex
  obtain ⟨hrow, hcol⟩ := hfeas
  rw [hnc] at hcol
  rw [hnr] at hrow
  constructor
  · have h := (hcol (lpex.ncols + (dvarmapOf col lpex).2) (by omega)).1
      (by rw [hub _ (by omega)]; rfl)
    rw [hobjl, auxProblemArb_columnDual_lambda col lpex hready] at h
    have h2 : (0 : ℚ) ≤ -1 - -y (2 * (dvarmapOf col lpex).2) := h
    linarith
  · intro i hi
    have h := (hcol (lpex.ncols + i) (by omega)).1 (by rw [hub _ (by omega)]; rfl)
    rw [hobj i hi, auxProblemArb_columnDual_point col lpex hready y i hi] at h
    have h2 : (0 : ℚ) ≤ 0 - (-y i + y ((dvarmapOf col lpex).2 + i)) := h
    have h3 := (hrow ((dvarmapOf col lpex).2 + i) (by omega)).1
      (by rw [hrhs _ (by omega) (by omega)]; rfl)
    linarith

/-! ## Positivity of the certificates -/

theorem auxProblemOpt_positive (col : Collaborators) (lp : SCIP_LP) (lpex : SCIP_LPEX)
    (findintpoint : Bool) (hready : readyForCertificate lpex) (x interior : Nat → ℚ)
    (hfeas : auxFeasible (auxProblemOpt col lp lpex findintpoint) x)
    (hnz : x (dvarmapOf col lpex).2 ≠ 0) :
    0 < x (dvarmapOf col lpex).2
    ∧ ∀ e, e < lpex.psdata.nextendedrows → lpex.psdata.includedrows e = true →
        0 < storeCertificate (dvarmapOf col lpex).1 (dvarmapOf col lpex).2 x interior e := by
  obtain ⟨hnc, hnr, hnz2, hbeg, hind, hval, hlb, hlhs⟩ :=
    auxProblemOpt_shape col lp lpex findintpoint
  have h1 := (hfeas.1 (dvarmapOf col lpex).2 (by rw [hnc]; omega)).1
  rw [hlb] at h1
  have h2 : (if findintpoint = true then (0 : ℚ) else 1) ≤ x (dvarmapOf col lpex).2 := h1
  have hpos : 0 < x (dvarmapOf col lpex).2 := by
    by_cases hf : findintpoint = true
    · rw [if_pos hf] at h2
      exact lt_of_le_of_ne h2 (Ne.symm hnz)
    · rw [if_neg hf] at h2
      linarith
  refine ⟨hpos, ?_⟩
  intro e he hinc
  apply storeCertificate_positive col lpex hready x interior _ hpos _ e he hinc
  intro i hi hii
  have h3 := slackRow_feasible col lpex ((dvarmapOf col lpex).2 + 1) (allocIntMem col).m hready
    (auxProblemOpt col lp lpex findintpoint) hnr hnz2 hbeg hind hval hlhs x hfeas i hi hii
  rw [Nat.add_sub_cancel] at h3
  exact h3

theorem auxProblemTwoStage_positive (col : Collaborators) (lpex : SCIP_LPEX)
    (hready : readyForCertificate lpex) (x1 x2 interior : Nat → ℚ) (objval : ℚ)
    (hfeas1 : auxFeasible (auxProblemTwoStage col lpex) x1)
    (hobj : objval = auxObjective (auxProblemTwoStage col lpex) x1)
    (hfeas2 : auxFeasible (auxProblemSecondStage col lpex objval) x2)
    (hnz : x2 (dvarmapOf col lpex).2 ≠ 0) :
    0 < x2 (dvarmapOf col lpex).2
    ∧ ∀ e, e < lpex.psdata.nextendedrows → lpex.psdata.includedrows e = true →
        0 < storeCertificate (dvarmapOf col lpex).1 (dvarmapOf col lpex).2 x2 interior e := by
  obtain ⟨hnc, hnr, hnz2, hbeg, hind, hval, hlb, hlhs, _, _⟩ := auxProblemTwoStage_shape col lpex
  have h1 := (hfeas1.1 (dvarmapOf col lpex).2 (by rw [hnc]; omega)).1
  rw [hlb] at h1
  have h1b : (0 : ℚ) ≤ x1 (dvarmapOf col lpex).2 := h1
  rw [auxProblemTwoStage_objective] at hobj
  have h2 := (hfeas2.1 (dvarmapOf col lpex).2
    (by show (dvarmapOf col lpex).2 < (auxProblemTwoStage col lpex).ncols; rw [hnc]; omega)).1
  have hlb2 : (auxProblemSecondStage col lpex objval).lb (dvarmapOf col lpex).2
      = SCIP_Rational.fin objval := by
    show Function.update _ _ _ _ = _
    rw [Function.update_same]
  rw [hlb2] at h2
  have h2b : objval ≤ x2 (dvarmapOf col lpex).2 := h2
  have hpos : 0 < x2 (dvarmapOf col lpex).2 :=
    lt_of_le_of_ne (by rw [hobj] at h2b; linarith) (Ne.symm hnz)
  refine ⟨hpos, ?_⟩
  intro e he hinc
  apply storeCertificate_positive col lpex hready x2 interior _ hpos _ e he hinc
  intro i hi hii
  have h3 := slackRow_feasible col lpex ((dvarmapOf col lpex).2 + 1) (allocIntMem col).m hready
    (auxProblemSecondStage col lpex objval) hnr hnz2 hbeg hind hval hlhs x2 hfeas2 i hi hii
  rw [Nat.add_sub_cancel] at h3
  exact h3

theorem auxProblemArbDual_positive (col : Collaborators) (lpex : SCIP_LPEX)
    (hready : readyForCertificate lpex) (x interior : Nat → ℚ)
    (hfeas : auxFeasible (auxProblemArbDual col lpex) x)
    (hpt : (scaledPoint lpex.psdata.includedrows (dvarmapOf col lpex).1 (dvarmapOf col lpex).2 x
      (x (dvarmapOf col lpex).2) interior).pshaspoint = true) :
    0 < x (dvarmapOf col lpex).2
    ∧ ∀ e, e < lpex.psdata.nextendedrows → lpex.psdata.includedrows e = true →
        0 < (scaledPoint lpex.psdata.includedrows (dvarmapOf col lpex).1 (dvarmapOf col lpex).2
          x (x (dvarmapOf col lpex).2) interior).interiorpt e := by
  obtain ⟨hnc, hlb, hlbl⟩ := auxProblemArbDual_shape col lpex
  have h1 := (hfeas.1 (dvarmapOf col lpex).2 (by rw [hnc]; omega)).1
  rw [hlbl] at h1
  have h1b : (1 : ℚ) ≤ x (dvarmapOf col lpex).2 := h1
  have hpos : 0 < x (dvarmapOf col lpex).2 := by linarith
  refine ⟨hpos, ?_⟩
  intro e he hinc
  apply scaledPoint_positive col lpex hready x interior _ hpos _ hpt e he hinc
  intro i hi _
  have h2 := (hfeas.1 i (by rw [hnc]; omega)).1
  rw [hlb i hi] at h2
  exact h2

theorem auxProblemArb_positive (col : Collaborators) (lpex : SCIP_LPEX)
    (hready : readyForCertificate lpex) (y interior : Nat → ℚ)
    (hfeas : auxDualFeasible (auxProblemArb col lpex) y)
    (hpt : (scaledPoint lpex.psdata.includedrows (dvarmapOf col lpex).1 (dvarmapOf col lpex).2 y
      (y (2 * (dvarmapOf col lpex).2)) interior).pshaspoint = true) :
    0 < y (2 * (dvarmapOf col lpex).2)
    ∧ ∀ e, e < lpex.psdata.nextendedrows → lpex.psdata.includedrows e = true →
        0 < (scaledPoint lpex.psdata.includedrows (dvarmapOf col lpex).1 (dvarmapOf col lpex).2
          y (y (2 * (dvarmapOf col lpex).2)) interior).interiorpt e := by
  obtain ⟨h1, h2⟩ := auxProblemArb_dual col lpex hready y hfeas
  have hpos : 0 < y (2 * (dvarmapOf col lpex).2) := by linarith
  refine ⟨hpos, ?_⟩
  intro e he hinc
  exact scaledPoint_positive col lpex hready y interior _ hpos (fun i hi _ => h2 i hi) hpt e he
    hinc

/-- C18: every certificate that a call of `psComputeSintPointRay` marks as built (the flag
`pshaspoint`, or `pshasray` for the ray, is `FALSE` at entry and `TRUE` on return) has a strictly
positive `commonslack` and is strictly positive on every included coordinate, for each of the
four formulations, if the auxiliary LP solver returns a solution that is feasible (dual feasible
for the arbitrary interior point, whose row multipliers are read) for the LP as assembled. -/
theorem psComputeSintPointRay_built_positive (col : Collaborators) (lp : SCIP_LP)
    (lpex : SCIP_LPEX) (findintpoint : Bool) (hready : readyForCertificate lpex)
    (hsound : auxSolverSound col lp lpex findintpoint)
    (hfresh : builtFlag lpex findintpoint = false)
    (hbuilt : builtFlag (psComputeSintPointRay col lp lpex findintpoint) findintpoint = true) :
    0 < (psComputeSintPointRay col lp lpex findintpoint).psdata.commonslack
    ∧ ∀ e, e < (psComputeSintPointRay col lp lpex findintpoint).psdata.nextendedrows →
        (psComputeSintPointRay col lp lpex findintpoint).psdata.includedrows e = true →
        0 < builtCertificate (psComputeSintPointRay col lp lpex findintpoint) findintpoint e := by
  unfold auxSolverSound at hsound
  unfold builtFlag at hfresh hbuilt
  unfold builtCertificate
  unfold psComputeSintPointRay at hbuilt ⊢
  simp only [Nat.add_sub_cancel] at hbuilt ⊢
  by_cases hA : lpex.psdata.psintpointselection = PS_INTPOINTSEL.OPT ∨ findintpoint = false
  · rw [if_pos hA] at hsound hbuilt ⊢
    by_cases hopt : (col.auxSolveDual (auxProblemOpt col lp lpex findintpoint)).isOptimal = true
    · rw [if_pos hopt] at hbuilt ⊢
      by_cases hz : RisZero ((col.auxSolveDual (auxProblemOpt col lp lpex findintpoint)).primsol
          (dvarmapOf col lpex).2) = true
      · rw [if_pos hz] at hbuilt
        exact absurd (hfresh.symm.trans hbuilt) Bool.false_ne_true
      · rw [if_neg hz]
        have hnz : (col.auxSolveDual (auxProblemOpt col lp lpex findintpoint)).primsol
            (dvarmapOf col lpex).2 ≠ 0 := by
          simpa [RisZero] using hz
        cases findintpoint
        · exact auxProblemOpt_positive col lp lpex false hready _ lpex.psdata.interiorray
            (hsound hopt) hnz
        · exact auxProblemOpt_positive col lp lpex true hready _ lpex.psdata.interiorpt
            (hsound hopt) hnz
    · rw [if_neg hopt] at hbuilt
      exact absurd (hfresh.symm.trans hbuilt) Bool.false_ne_true
  · rw [if_neg hA] at hsound hbuilt ⊢
    have hfip : findintpoint = true := by
      cases findintpoint
      · exact absurd (Or.inr rfl) hA
      · rfl
    subst hfip
    by_cases hB : lpex.psdata.psintpointselection = PS_INTPOINTSEL.ARB
    · rw [if_pos hB] at hsound hbuilt ⊢
      by_cases hopt : (col.auxSolveDual (auxProblemArb col lpex)).isOptimal = true
      · rw [if_pos hopt] at hbuilt ⊢
        obtain ⟨h1, h2⟩ := auxProblemArb_positive col lpex hready _ lpex.psdata.interiorpt
          (hsound hopt) hbuilt
        refine ⟨?_, h2⟩
        show 0 < (if (!RisZero _) = true then _ else _)
        rw [if_pos (by simpa [RisZero] using ne_of_gt h1)]
        exact inv_pos.mpr h1
      · rw [if_neg hopt] at hbuilt
        exact absurd (hfresh.symm.trans hbuilt) Bool.false_ne_true
    · rw [if_neg hB] at hsound hbuilt ⊢
      by_cases hC : lpex.psdata.psintpointselection = PS_INTPOINTSEL.ARBDUAL
      · rw [if_pos hC] at hsound hbuilt ⊢
        by_cases hopt : (col.auxSolveDual (auxProblemArbDual col lpex)).isOptimal = true
        · rw [if_pos hopt] at hbuilt ⊢
          obtain ⟨h1, h2⟩ := auxProblemArbDual_positive col lpex hready _
            lpex.psdata.interiorpt (hsound hopt) hbuilt
          refine ⟨?_, h2⟩
          show 0 < (if (!RisZero _) = true then _ else _)
          rw [if_pos (by simpa [RisZero] using ne_of_gt h1)]
          exact inv_pos.mpr h1
        · rw [if_neg hopt] at hbuilt
          exact absurd (hfresh.symm.trans hbuilt) Bool.false_ne_true
      · rw [if_neg hC] at hsound hbuilt ⊢
        obtain ⟨⟨hs1, hs2⟩, hs3⟩ := hsound
        by_cases hopt : (col.auxSolvePrimal (auxProblemSecondStage col lpex
            (col.auxSolveDual (auxProblemTwoStage col lpex)).objval)).isOptimal = true
        · rw [if_pos hopt] at hbuilt ⊢
          by_cases hz : RisZero ((col.auxSolvePrimal (auxProblemSecondStage col lpex
              (col.auxSolveDual (auxProblemTwoStage col lpex)).objval)).primsol
              (dvarmapOf col lpex).2) = true
          · rw [if_pos hz] at hbuilt
            exact absurd (hfresh.symm.trans hbuilt) Bool.false_ne_true
          · rw [if_neg hz]
            exact auxProblemTwoStage_positive col lpex hready _ _ lpex.psdata.interiorpt _ hs1
              hs2 (hs3 hopt) (by simpa [RisZero] using hz)
        · rw [if_neg hopt] at hbuilt
          exact absurd (hfresh.symm.trans hbuilt) Bool.false_ne_true

theorem lowerBound_ready : readyForCertificate lowerBoundLpex := by
  refine ⟨rfl, by decide, ?_, ?_⟩
  · intro e he hinc
    have he0 : e = 0 := by simpa [lowerBoundLpex] using hinc
    subst he0
    decide
  · intro i hi
    exact absurd hi (Nat.not_lt_zero i)

theorem lowerBound_sound : auxSolverSound unitCollaborators activeLp lowerBoundLpex true := by
  unfold auxSolverSound
  rw [if_pos (show lowerBoundLpex.psdata.psintpointselection = PS_INTPOINTSEL.OPT ∨ true = false
    from Or.inl rfl)]
  intro _
  have hnc : (auxProblemOpt unitCollaborators activeLp lowerBoundLpex true).ncols = 2 := by
    decide
  have hnr : (auxProblemOpt unitCollaborators activeLp lowerBoundLpex true).nrows = 2 := rfl
  have hlb0 : (auxProblemOpt unitCollaborators activeLp lowerBoundLpex true).lb 0
      = SCIP_Rational.fin 0 := rfl
  have hlb1 : (auxProblemOpt unitCollaborators activeLp lowerBoundLpex true).lb 1
      = SCIP_Rational.fin 0 := rfl
  have hub0 : (auxProblemOpt unitCollaborators activeLp lowerBoundLpex true).ub 0
      = SCIP_Rational.inf := rfl
  have hub1 : (auxProblemOpt unitCollaborators activeLp lowerBoundLpex true).ub 1
      = SCIP_Rational.fin PSBIGM := rfl
  have hlhs0 : (auxProblemOpt unitCollaborators activeLp lowerBoundLpex true).lhs 0
      = SCIP_Rational.fin 1 := rfl
  have hrhs0 : (auxProblemOpt unitCollaborators activeLp lowerBoundLpex true).rhs 0
      = SCIP_Rational.fin 1 := rfl
  have hlhs1 : (auxProblemOpt unitCollaborators activeLp lowerBoundLpex true).lhs 1
      = SCIP_Rational.fin 0 := rfl
  have hrhs1 : (auxProblemOpt unitCollaborators activeLp lowerBoundLpex true).rhs 1
      = SCIP_Rational.inf := rfl
  have hbeg0 : (auxProblemOpt unitCollaborators activeLp lowerBoundLpex true).beg 0 = 0 := by
    decide
  have hbeg1 : (auxProblemOpt unitCollaborators activeLp lowerBoundLpex true).beg 1 = 1 := by
    decide
  have hend0 : auxRowEnd (auxProblemOpt unitCollaborators activeLp lowerBoundLpex true) 0
      = 1 := by decide
  have hend1 : auxRowEnd (auxProblemOpt unitCollaborators activeLp lowerBoundLpex true) 1
      = 1 + 2 := by decide
  have hind0 : (auxProblemOpt unitCollaborators activeLp lowerBoundLpex true).ind 0 = 0 := by
    decide
  have hind1 : (auxProblemOpt unitCollaborators activeLp lowerBoundLpex true).ind 1 = 0 := by
    decide
  have hind2 : (auxProblemOpt unitCollaborators activeLp lowerBoundLpex true).ind (1 + 1)
      = 1 := by decide
  have hval0 : (auxProblemOpt unitCollaborators activeLp lowerBoundLpex true).val 0 = 1 := rfl
  have hval1 : (auxProblemOpt unitCollaborators activeLp lowerBoundLpex true).val 1 = 1 := rfl
  have hval2 : (auxProblemOpt unitCollaborators activeLp lowerBoundLpex true).val (1 + 1)
      = -1 := rfl
  have hx : ∀ k, (unitCollaborators.auxSolveDual
      (auxProblemOpt unitCollaborators activeLp lowerBoundLpex true)).primsol k = 1 :=
    fun _ => rfl
  constructor
  · intro j hj
    rw [hnc] at hj
    rw [hx]
    interval_cases j
    · rw [hlb0, hub0]
      exact ⟨by show (0 : ℚ) ≤ 1; norm_num, trivial⟩
    · rw [hlb1, hub1]
      exact ⟨by show (0 : ℚ) ≤ 1; norm_num, by show (1 : ℚ) ≤ PSBIGM; norm_num [PSBIGM]⟩
  · intro r hr
    rw [hnr] at hr
    interval_cases r
    · have hact : auxActivity (auxProblemOpt unitCollaborators activeLp lowerBoundLpex true)
          (unitCollaborators.auxSolveDual
            (auxProblemOpt unitCollaborators activeLp lowerBoundLpex true)).primsol 0 = 1 := by
        unfold auxActivity
        rw [hbeg0, hend0, Finset.sum_Ico_eq_sum_range, Finset.sum_range_one, hx, hval0]
        norm_num
      rw [hact, hlhs0, hrhs0]
      exact ⟨le_refl (1 : ℚ), le_refl (1 : ℚ)⟩
    · rw [auxActivity_pair _ _ 1 1 hbeg1 hend1, hx, hx, hval1, hval2, hlhs1, hrhs1]
      exact ⟨by show (0 : ℚ) ≤ 1 * 1 + -1 * 1; norm_num, trivial⟩

theorem lowerBound_built :
    builtFlag (psComputeSintPointRay unitCollaborators activeLp lowerBoundLpex true) true
      = true := by
  unfold psComputeSintPointRay builtFlag
  simp [lowerBoundLpex, unitCollaborators, mkCollaborators, unitSolver, RisZero]

theorem psComputeSintPointRay_built_positive_witness :
    readyForCertificate lowerBoundLpex
    ∧ auxSolverSound unitCollaborators activeLp lowerBoundLpex true
    ∧ builtFlag lowerBoundLpex true = false
    ∧ builtFlag (psComputeSintPointRay unitCollaborators activeLp lowerBoundLpex true) true
        = true
    ∧ 0 < (psComputeSintPointRay unitCollaborators activeLp lowerBoundLpex true).psdata.commonslack
    ∧ ∀ e, e < (psComputeSintPointRay unitCollaborators activeLp
          lowerBoundLpex true).psdata.nextendedrows →
        (psComputeSintPointRay unitCollaborators activeLp
          lowerBoundLpex true).psdata.includedrows e = true →
        0 < builtCertificate
          (psComputeSintPointRay unitCollaborators activeLp lowerBoundLpex true) true e :=
  ⟨lowerBound_ready, lowerBound_sound, rfl, lowerBound_built,
    psComputeSintPointRay_built_positive unitCollaborators activeLp lowerBoundLpex true
      lowerBound_ready lowerBound_sound rfl lowerBound_built⟩


/-! ## The selection of the constraints active at the exact root solution -/

theorem finite_of_eq_finite (a b : SCIP_Rational) (h : a = b) (ha : RisAbsInfinity a = false) :
    RisAbsInfinity b = false ∧ RisNegInfinity b = false ∧ RisInfinity b = false := by
  subst h
  cases a <;> simp_all [RisInfinity, RisNegInfinity, RisAbsInfinity]

/-- C21: under the policy of the constraints active at the exact root solution (and a
floating-point LP that is not infeasible) `psChooseS` marks a coordinate exactly when the exact
reference solution is tight at it: the row activity equals `lhs` or `rhs`, the primal value equals
`lb` or `ub`; every flag is `0` or `1`; and for a finite reference solution every marked
coordinate has a finite bound and is marked by the all-finite policy too. -/
theorem psChooseS_active_exact (col : Collaborators) (lp : SCIP_LP) (lpex : SCIP_LPEX)
    (root : LpiexResult)
    (hpol : lpex.psdata.psdualcolselection = PS_DUALCOSTSEL.ACTIVE_EXLP)
    (hstat : lp.lpsolstat ≠ SCIP_LPSOLSTAT.INFEASIBLE) :
    (∀ i, i < lpex.nrows →
      (includedrowsArray col lp lpex root i = 1 ↔ root.activity i = (lpex.rows i).lhs)
      ∧ (includedrowsArray col lp lpex root (lpex.nrows + i) = 1
          ↔ root.activity i = (lpex.rows i).rhs))
    ∧ (∀ j, j < lpex.ncols →
      (includedrowsArray col lp lpex root (2 * lpex.nrows + j) = 1
          ↔ root.primsol j = (lpex.cols j).lb)
      ∧ (includedrowsArray col lp lpex root (2 * lpex.nrows + lpex.ncols + j) = 1
          ↔ root.primsol j = (lpex.cols j).ub))
    ∧ (∀ e, includedrowsArray col lp lpex root e = 0 ∨ includedrowsArray col lp lpex root e = 1)
    ∧ ((∀ i, i < lpex.nrows → RisAbsInfinity (root.activity i) = false) →
        (∀ j, j < lpex.ncols → RisAbsInfinity (root.primsol j) = false) →
        ∀ e, includedrowsArray col lp lpex root e = 1 →
          RisAbsInfinity (extendedBound lpex e) = false
          ∧ includedrowsArray col lp (withAllFinitePolicy lpex) root e = 1) := by
  have hno : ¬ (lpex.psdata.psdualcolselection = PS_DUALCOSTSEL.NO
      ∨ lp.lpsolstat = SCIP_LPSOLSTAT.INFEASIBLE) := by
    rw [hpol]
    rintro (h | h)
    · exact absurd h (by decide)
    · exact hstat h
  have harr : includedrowsArray col lp lpex root
      = markSides lpex.nrows lpex.ncols
          (fun i => RisEqual (root.activity i) (lpex.rows i).lhs)
          (fun i => RisEqual (root.activity i) (lpex.rows i).rhs)
          (fun i => RisEqual (root.primsol i) (lpex.cols i).lb)
          (fun i => RisEqual (root.primsol i) (lpex.cols i).ub)
          (fun _ => 0) := by
    unfold includedrowsArray
    rw [if_neg hno, if_pos hpol]
  have hall : includedrowsArray col lp (withAllFinitePolicy lpex) root
      = markSides lpex.nrows lpex.ncols
          (fun i => !RisNegInfinity (lpex.rows i).lhs) (fun i => !RisInfinity (lpex.rows i).rhs)
          (fun i => !RisNegInfinity (lpex.cols i).lb) (fun i => !RisInfinity (lpex.cols i).ub)
          (fun _ => 0) := by
    unfold includedrowsArray withAllFinitePolicy
    rw [if_pos (Or.inl rfl)]
  have hs := markSides_sides lpex.nrows lpex.ncols
    (fun i => RisEqual (root.activity i) (lpex.rows i).lhs)
    (fun i => RisEqual (root.activity i) (lpex.rows i).rhs)
    (fun i => RisEqual (root.primsol i) (lpex.cols i).lb)
    (fun i => RisEqual (root.primsol i) (lpex.cols i).ub)
  have ha := markSides_sides lpex.nrows lpex.ncols
    (fun i => !RisNegInfinity (lpex.rows i).lhs) (fun i => !RisInfinity (lpex.rows i).rhs)
    (fun i => !RisNegInfinity (lpex.cols i).lb) (fun i => !RisInfinity (lpex.cols i).ub)
  rw [harr, hall]
  refine ⟨?_, ?_, hs.2.2.2.2.1, ?_⟩
  · intro i hi
    refine ⟨?_, ?_⟩
    · rw [hs.1 i hi]
      simp [RisEqual]
    · rw [hs.2.1 i hi]
      simp [RisEqual]
  · intro j hj
    refine ⟨?_, ?_⟩
    · rw [hs.2.2.1 j hj]
      simp [RisEqual]
    · rw [hs.2.2.2.1 j hj]
      simp [RisEqual]
  · intro hact hprim e he
    rw [markSides_spec] at he
    split_ifs at he with hc
    rcases hc with ⟨j, hj, h1 | h1⟩ | ⟨i, hi, h1 | h1⟩
    · obtain ⟨hje, ht⟩ := h1
      have heq : root.primsol j = (lpex.cols j).lb := by simpa [RisEqual] using ht
      obtain ⟨f1, f2, f3⟩ := finite_of_eq_finite _ _ heq (hprim j hj)
      subst hje
      refine ⟨?_, (ha.2.2.1 j hj).mpr (by simp [f2])⟩
      unfold extendedBound
      rw [if_neg (by omega), if_neg (by omega), if_pos (by omega), Nat.add_sub_cancel_left]
      exact f1
    · obtain ⟨hje, ht⟩ := h1
      have heq : root.primsol j = (lpex.cols j).ub := by simpa [RisEqual] using ht
      obtain ⟨f1, f2, f3⟩ := finite_of_eq_finite _ _ heq (hprim j hj)
      subst hje
      refine ⟨?_, (ha.2.2.2.1 j hj).mpr (by simp [f3])⟩
      unfold extendedBound
      rw [if_neg (by omega), if_neg (by omega), if_neg (by omega)]
      have hidx : 2 * lpex.nrows + lpex.ncols + j - 2 * lpex.nrows - lpex.ncols = j := by omega
      rw [hidx]
      exact f1
    · obtain ⟨hie, ht⟩ := h1
      have heq : root.activity i = (lpex.rows i).lhs := by simpa [RisEqual] using ht
      obtain ⟨f1, f2, f3⟩ := finite_of_eq_finite _ _ heq (hact i hi)
      subst hie
      refine ⟨?_, (ha.1 i hi).mpr (by simp [f2])⟩
      unfold extendedBound
      rw [if_pos hi]
      exact f1
    · obtain ⟨hie, ht⟩ := h1
      have heq : root.activity i = (lpex.rows i).rhs := by simpa [RisEqual] using ht
      obtain ⟨f1, f2, f3⟩ := finite_of_eq_finite _ _ heq (hact i hi)
      subst hie
      refine ⟨?_, (ha.2.1 i hi).mpr (by simp [f3])⟩
      unfold extendedBound
      rw [if_neg (by omega), if_pos (by omega), Nat.add_sub_cancel_left]
      exact f1

theorem psChooseS_active_exact_witness :
    activeLpex.psdata.psdualcolselection = PS_DUALCOSTSEL.ACTIVE_EXLP
    ∧ activeLp.lpsolstat ≠ SCIP_LPSOLSTAT.INFEASIBLE
    ∧ (includedrowsArray rootZeroCollaborators activeLp activeLpex (optimalSolve 0 5 5)
          (activeLpex.nrows + 0) = 1
        ↔ (optimalSolve 0 5 5).activity 0 = (activeLpex.rows 0).rhs) :=
  ⟨rfl, by decide,
    ((psChooseS_active_exact rootZeroCollaborators activeLp activeLpex (optimalSolve 0 5 5) rfl
      (by decide)).1 0 (by decide)).2⟩

/-- C22 (failing input): the exact root LP solve of the policy of the constraints active at the
exact root solution ends with an LP error (`solveLpExact` sets its `*lperror`), and `psChooseS`
still returns `SCIP_OKAY`, whatever code `solveLpExact` returned, leaves the `*lperror` of its
caller `FALSE`, and delivers an inclusion set (the right-hand side of the row is included, from
the activity that the interface reports). -/
theorem psChooseS_ignores_failed_root_solve :
    (solveLpExact lperrorCollaborators (mkExternal (fun _ => none))
        (mkState activeLp activeLpex) false).lperror = true
    ∧ (∀ solveCode, psChooseSReturn (mkState activeLp activeLpex) solveCode SCIP_RETCODE.OKAY
        = SCIP_RETCODE.OKAY)
    ∧ (psChooseS lperrorCollaborators (mkExternal (fun _ => none))
        (mkState activeLp activeLpex)).lperror = false
    ∧ (psChooseS lperrorCollaborators (mkExternal (fun _ => none))
        (mkState activeLp activeLpex)).lpex.psdata.includedrows 1 = true := by
  refine ⟨rfl, ?_, rfl, ?_⟩
  · intro solveCode
    unfold psChooseSReturn
    rw [if_neg (by decide), if_pos (by decide)]
  · rw [psChooseS_includedrows]
    have harr : includedrowsArray lperrorCollaborators (mkState activeLp activeLpex).lp
        (mkState activeLp activeLpex).lpex
        (lperrorCollaborators.SCIPlpiexSolveDual (mkState activeLp activeLpex).lp
          (mkState activeLp activeLpex).lpex)
        = markSides 1 1
            (fun i => RisEqual (errorSolve.activity i) (activeLpex.rows i).lhs)
            (fun i => RisEqual (errorSolve.activity i) (activeLpex.rows i).rhs)
            (fun i => RisEqual (errorSolve.primsol i) (activeLpex.cols i).lb)
            (fun i => RisEqual (errorSolve.primsol i) (activeLpex.cols i).ub)
            (fun _ => 0) := by
      unfold includedrowsArray
      rw [if_neg (by decide), if_pos (by decide)]
      rfl
    have h1 := (markSides_sides 1 1
      (fun i => RisEqual (errorSolve.activity i) (activeLpex.rows i).lhs)
      (fun i => RisEqual (errorSolve.activity i) (activeLpex.rows i).rhs)
      (fun i => RisEqual (errorSolve.primsol i) (activeLpex.cols i).lb)
      (fun i => RisEqual (errorSolve.primsol i) (activeLpex.cols i).ub)).2.1 0 (by decide)
    rw [harr, h1.mpr (by simp [RisEqual, errorSolve, activeLpex])]
    rfl


/-! ## The entries canonicalized by `psComputeSintPointRay` -/

theorem canonicalizedEntries_eq (ndvarmap e : Nat) :
    canonicalizedEntries ndvarmap e = decide (e < ndvarmap) := by
  unfold canonicalizedEntries
  rw [forLoop_set (fun _ => true)]
  by_cases h : e < ndvarmap <;> simp [h]

theorem storedEntries_eq (dvarmap : Nat → Nat) (ndvarmap e : Nat) :
    storedEntries dvarmap ndvarmap e = true ↔ ∃ i, i < ndvarmap ∧ dvarmap i = e := by
  unfold storedEntries
  induction ndvarmap with
  | zero => simp [forLoop_zero]
  | succ n ih =>
    rw [forLoop_succ]
    by_cases h : dvarmap n = e
    · subst h
      rw [Function.update_same]
      exact ⟨fun _ => ⟨n, Nat.lt_succ_self n, rfl⟩, fun _ => rfl⟩
    · rw [Function.update_noteq (fun h2 => h h2.symm), ih]
      constructor
      · rintro ⟨i, hi, hie⟩
        exact ⟨i, Nat.lt_succ_of_lt hi, hie⟩
      · rintro ⟨i, hi, hie⟩
        rcases Nat.lt_succ_iff_lt_or_eq.mp hi with h3 | h3
        · exact ⟨i, h3, hie⟩
        · subst h3
          exact absurd hie h

/-- If every index below `n` is flagged, the collected indices are `0, …, n - 1` in order. -/
theorem collectIndices_all (n : Nat) (flag : Nat → Bool) (arr : Nat → Nat)
    (hall : ∀ e, e < n → flag e = true) :
    (collectIndices n flag arr).2 = n ∧ ∀ i, i < n → (collectIndices n flag arr).1 i = i := by
  unfold collectIndices
  induction n with
  | zero => exact ⟨rfl, fun i hi => absurd hi (Nat.not_lt_zero i)⟩
  | succ m ih =>
    rw [forLoop_succ]
    obtain ⟨h1, h2⟩ := ih (fun e he => hall e (Nat.lt_succ_of_lt he))
    rw [if_pos (hall m (Nat.lt_succ_self m))]
    dsimp only
    refine ⟨by rw [h1], ?_⟩
    intro i hi
    rw [h1]
    by_cases him : i = m
    · subst him
      rw [Function.update_same]
    · rw [Function.update_noteq him]
      exact h2 i (by omega)

/-- Where every side and bound is finite, the entries canonicalized are the entries written. -/
theorem canonicalized_eq_stored_of_all_finite (col : Collaborators) (lpex : SCIP_LPEX)
    (hall : ∀ e, e < lpex.psdata.nextendedrows → dvarincidence lpex e ≠ 0) (e : Nat) :
    canonicalizedEntries (dvarmapOf col lpex).2 e
      = storedEntries (dvarmapOf col lpex).1 (dvarmapOf col lpex).2 e := by
  obtain ⟨h1, h2⟩ := collectIndices_all lpex.psdata.nextendedrows
    (fun i => decide (dvarincidence lpex i ≠ 0)) col.bufferContent
    (fun e he => by simpa using hall e he)
  have hn : (dvarmapOf col lpex).2 = lpex.psdata.nextendedrows := h1
  have hd : ∀ i, i < lpex.psdata.nextendedrows → (dvarmapOf col lpex).1 i = i := h2
  rw [canonicalizedEntries_eq, hn]
  by_cases he : e < lpex.psdata.nextendedrows
  · rw [decide_eq_true he]
    symm
    rw [storedEntries_eq]
    exact ⟨e, he, hd e he⟩
  · rw [decide_eq_false he]
    symm
    rw [Bool.eq_false_iff]
    intro hs
    rw [storedEntries_eq] at hs
    obtain ⟨i, hi, hie⟩ := hs
    rw [hd i hi] at hie
    omega

/-- C23 (failing input): on the relaxation `x + y ≤ 10` without left-hand side the interior
point is built (`pshaspoint`), the array `dvarmap` is `1, …, 5` (`ndvarmap = 5 < 6`), the entry
`5` of the interior point is written with the value of the solution and never canonicalized, and
the entry `0` is canonicalized although it is not written. -/
theorem canonicalize_misses_stored_entry :
    (psComputeSintPointRay unitCollaborators activeLp sumLpexFresh true).psdata.pshaspoint = true
    ∧ (dvarmapOf unitCollaborators sumLpexFresh).2 = 5
    ∧ sumLpexFresh.psdata.nextendedrows = 6
    ∧ (psComputeSintPointRay unitCollaborators activeLp sumLpexFresh true).psdata.interiorpt 5 = 1
    ∧ storedEntries (dvarmapOf unitCollaborators sumLpexFresh).1
        (dvarmapOf unitCollaborators sumLpexFresh).2 5 = true
    ∧ canonicalizedEntries (dvarmapOf unitCollaborators sumLpexFresh).2 5 = false
    ∧ canonicalizedEntries (dvarmapOf unitCollaborators sumLpexFresh).2 0 = true
    ∧ storedEntries (dvarmapOf unitCollaborators sumLpexFresh).1
        (dvarmapOf unitCollaborators sumLpexFresh).2 0 = false := by
  have hnd : (dvarmapOf unitCollaborators sumLpexFresh).2 = 5 := by decide
  have hd4 : (dvarmapOf unitCollaborators sumLpexFresh).1 4 = 5 := by decide
  refine ⟨?_, hnd, rfl, ?_, ?_, ?_, ?_, ?_⟩
  · unfold psComputeSintPointRay
    simp [sumLpexFresh, sumLpex, unitCollaborators, mkCollaborators, unitSolver, RisZero]
  · have hst := storeCertificate_spec (dvarmapOf unitCollaborators sumLpexFresh).1
      (dvarmapOf unitCollaborators sumLpexFresh).2 (fun _ => 1) sumLpexFresh.psdata.interiorpt
      (dvarmapOf_increasing unitCollaborators sumLpexFresh) 4 (by rw [hnd]; decide)
    rw [hd4] at hst
    have hpt : (psComputeSintPointRay unitCollaborators activeLp sumLpexFresh
        true).psdata.interiorpt
        = storeCertificate (dvarmapOf unitCollaborators sumLpexFresh).1
            (dvarmapOf unitCollaborators sumLpexFresh).2 (fun _ => 1)
            sumLpexFresh.psdata.interiorpt := by
      unfold psComputeSintPointRay
      simp [sumLpexFresh, sumLpex, unitCollaborators, mkCollaborators, unitSolver, RisZero]
    rw [hpt]
    exact hst
  · rw [storedEntries_eq]
    exact ⟨4, by rw [hnd]; decide, hd4⟩
  · rw [canonicalizedEntries_eq, hnd]
    decide
  · rw [canonicalizedEntries_eq, hnd]
    decide
  · rw [Bool.eq_false_iff]
    intro hs
    rw [storedEntries_eq, hnd] at hs
    obtain ⟨i, hi, hie⟩ := hs
    interval_cases i <;> revert hie <;> decide


/-! ## The run on `x + y ≤ 10` -/

/-- A call of `getPSdual` that passes the guard and the `SCIP_INVALID` test and whose triangular
solve fails returns without a proved bound. -/
theorem getPSdual_of_unsolved (ext : External) (lp : SCIP_LP) (lpex : SCIP_LPEX)
    (stat : SCIP_STAT) (usefarkas : Bool)
    (hguard : passesGuard lpex usefarkas)
    (hvalid : hasInvalidRow lp lpex.nrows usefarkas = false)
    (hy : finalDual ext lp lpex usefarkas = none) :
    ∃ r, getPSdual ext lp lpex stat usefarkas = some r ∧ r.1.hasprovedbound = false := by
  unfold passesGuard at hguard
  unfold getPSdual
  simp only [hguard, Bool.false_eq_true, if_false, hasInvalidRow_congr, hvalid, finalDual_congr,
    hy]
  exact ⟨_, rfl, rfl⟩

theorem sum_violation_positive_dual (j : Nat) (hj : j < sumLpex.ncols) :
    computeViolation sumLpex false (liftedDual (sumLp 1) sumLpex false) j = -1 := by
  have hj2 : j < 2 := hj
  interval_cases j <;>
    norm_num [computeViolation, initViolation, subtractRows, liftedDual, readApproxdual,
      fixArtificial, computeIsupper, forLoop, Function.update_apply, sumLpex, sumLp, selectedSide,
      RisAbsInfinity, RisPositive]

theorem sum_finalDual_negative_dual (ext : External) :
    finalDual ext (sumLp (-1)) sumLpex false = some (liftedDual (sumLp (-1)) sumLpex false) := by
  have hfeas : computeIsfeas sumLpex.ncols
      (computeViolation sumLpex false (liftedDual (sumLp (-1)) sumLpex false)) = true := by
    unfold computeIsfeas
    rw [List.all_eq_true]
    intro j hj
    simp only [RisZero, decide_eq_true_eq]
    exact sum_violation_zero j (List.mem_range.mp hj)
  unfold liftedDual at hfeas
  unfold finalDual liftedDual
  simp only [hfeas, Bool.not_true, Bool.false_eq_true, if_false]

theorem sum_lifted_negative_dual : liftedDual (sumLp (-1)) sumLpex false = sumFinal := by
  funext i
  norm_num [liftedDual, readApproxdual, fixArtificial, computeIsupper, forLoop,
    Function.update_apply, sumLpex, sumLp, selectedSide, RisAbsInfinity, RisPositive, sumFinal]
  split_ifs <;> first | rfl | omega

theorem sum_dualObjective : dualObjective sumLpex sumFinal = some (-10) := by
  norm_num [dualObjective, forLoop, sumLpex, sumFinal, RaddProd, selectedSide, RisPositive]

theorem sum_finalDual_positive_dual :
    finalDual (mkExternal (fun _ => some (firstEntry 1))) (sumLp 1) sumLpex false
      = some sumFinal := by
  norm_num [finalDual, Function.update_apply, sumLpex, sumLp, mkExternal, firstEntry,
    readApproxdual, forLoop,
    computeIsupper, fixArtificial, computeViolation, initViolation, subtractRows, computeIsfeas,
    projectAndShift, projectionStep, computeLambda, lambda1Point, lambda2Ray, transformBack,
    performShift, selectedSide, RisAbsInfinity, RisPositive, RisNegative, RisZero, RcreateTemp,
    List.range, List.range.loop]
  funext c
  simp only [Function.update_apply, sumFinal]
  split_ifs <;> first | rfl | omega

/-- C24 (counterexample): with the row dual `+1` the multiplier of the row `x + y ≤ 10` is paired
with the left-hand side `-∞` and set to zero, the equality violation is `(-1, -1)` and not zero,
the projection block is entered, and with a triangular solve that fails no bound is certified. -/
theorem sum_positive_dual_enters_projection :
    liftedDual (sumLp 1) sumLpex false 0 = 0
    ∧ computeViolation sumLpex false (liftedDual (sumLp 1) sumLpex false) 0 = -1
    ∧ computeViolation sumLpex false (liftedDual (sumLp 1) sumLpex false) 1 = -1
    ∧ computeIsfeas sumLpex.ncols
        (computeViolation sumLpex false (liftedDual (sumLp 1) sumLpex false)) = false
    ∧ finalDual (mkExternal (fun _ => none)) (sumLp 1) sumLpex false = none
    ∧ ∃ r, getPSdual (mkExternal (fun _ => none)) (sumLp 1) sumLpex zeroStat false = some r
        ∧ r.1.hasprovedbound = false := by
  have hnone : finalDual (mkExternal (fun _ => none)) (sumLp 1) sumLpex false = none := by
    have hfeas := sum_violation_nonzero
    unfold liftedDual at hfeas
    unfold finalDual
    simp only [hfeas, Bool.not_false, if_true]
    rfl
  refine ⟨?_, sum_violation_positive_dual 0 (by decide), sum_violation_positive_dual 1 (by decide),
    sum_violation_nonzero, hnone, ?_⟩
  · norm_num [liftedDual, readApproxdual, fixArtificial, computeIsupper, forLoop,
      Function.update_apply, sumLpex, sumLp, selectedSide, RisAbsInfinity, RisPositive]
  · exact getPSdual_of_unsolved _ _ _ _ _ (sum_passesGuard false)
      (sum_valid 1 (by norm_num [SCIP_INVALID])) hnone

/-- C24 (amended): for `x + y ≤ 10` (no left-hand side), `min -x - y`, `0 ≤ x, y ≤ 10`, the
all-finite selection and both reduced costs `0`: with the row dual `-1` the equality violation is
zero, the final dual vector is the lifted one whatever the triangular solve is, and `getPSdual`
certifies the bound `-10`; with the row dual `+1` the bound `-10` is certified through the
projection block, from the correction `(1, 0, 0, 0, 0)` of the triangular solve. -/
theorem sum_scenario_bound (ext : External) :
    (∀ j, j < sumLpex.ncols →
      computeViolation sumLpex false (liftedDual (sumLp (-1)) sumLpex false) j = 0)
    ∧ finalDual ext (sumLp (-1)) sumLpex false = some (liftedDual (sumLp (-1)) sumLpex false)
    ∧ (∃ r, getPSdual ext (sumLp (-1)) sumLpex zeroStat false = some r
        ∧ r.1.hasprovedbound = true ∧ r.2.1.lpobjval = SCIP_Rational.fin (-10)
        ∧ r.1.lpobjval = ext.RgetRealRelax (-10))
    ∧ (∃ r, getPSdual (mkExternal (fun _ => some (firstEntry 1))) (sumLp 1) sumLpex zeroStat false
          = some r
        ∧ r.1.hasprovedbound = true ∧ r.2.1.lpobjval = SCIP_Rational.fin (-10)
        ∧ r.1.lpobjval = -10) := by
  refine ⟨sum_violation_zero, sum_finalDual_negative_dual ext, ?_, ?_⟩
  · refine ⟨_, getPSdual_of_evaluated ext (sumLp (-1)) sumLpex zeroStat false sumFinal (-10)
      (sum_passesGuard false) (sum_valid (-1) (by norm_num [SCIP_INVALID]))
      (by rw [sum_finalDual_negative_dual, sum_lifted_negative_dual]) sum_dualObjective, ?_⟩
    simp [storeBound]
  · refine ⟨_, getPSdual_of_evaluated _ (sumLp 1) sumLpex zeroStat false sumFinal (-10)
      (sum_passesGuard false) (sum_valid 1 (by norm_num [SCIP_INVALID]))
      sum_finalDual_positive_dual sum_dualObjective, ?_⟩
    simp [storeBound, mkExternal]


/-! ## Rows added after the construction of the project-and-shift data -/

/-- The projection loop leaves the multiplier of a row added after construction as it is. -/
theorem projectionLoop_added (psbasis : Nat → Nat) (K m n p : Nat) (isupper : Nat → Bool)
    (s : ProjState) (c : Nat) (hc : c < n ∧ p ≤ c) :
    (forLoop (projectionStep psbasis m p (n - p) isupper) K s).approxdual c = s.approxdual c := by
  have hp : p ≤ n := by omega
  induction K with
  | zero => rfl
  | succ k ih =>
    rw [forLoop_succ]
    rcases projectionStep_cases psbasis m p (n - p) isupper k
      (forLoop (projectionStep psbasis m p (n - p) isupper) k s) with h | h
    · rw [h, ih]
    · rw [h]
      show Function.update _ _ _ c = _
      rw [Function.update_noteq (fun hcc => compactIndex_ne_added n m p _ c hp hc hcc.symm), ih]

theorem spread_added (psbasis : Nat → Nat) (K m n p : Nat) (corr : Nat → ℚ) (c : Nat)
    (hc : c < n ∧ p ≤ c) :
    spread psbasis K p m (n - p) corr c = 0 := by
  unfold spread
  apply Finset.sum_eq_zero
  intro k _
  rw [if_neg (compactIndex_ne_added n m p _ c (by omega) hc)]

theorem performShift_added (n m p : Nat) (interior : Nat → ℚ) (l1 l2 : ℚ) (a : Nat → ℚ)
    (c : Nat) (hc : c < n ∧ p ≤ c) :
    performShift n m p (n - p) interior l1 l2 a c = a c := by
  rw [performShift_eq, if_neg (fun h : c < n + m ∧ ¬ (c < n ∧ p ≤ c) => h.2 hc), ite_self]

/-- C25: a row added after the construction of the project-and-shift data (index
`nrowsps ≤ i < nrows`) takes part in `getPSdual` only through its approximate value: no pass of the
projection loop, no transformation back of a correction and no scaling or shift changes its
multiplier, so the final dual vector carries the lifted (clamped) value at `i`; the violation and
the certified objective contain the row with exactly that value; and every extended coordinate
is mapped to a row index `< nrowsps` or to a column slot `nrows + j`, never to an added row. -/
theorem getPSdual_added_rows_frame (ext : External) (lp : SCIP_LP) (lpex : SCIP_LPEX)
    (usefarkas : Bool) (i : Nat) (hi : nrowsPS lpex ≤ i ∧ i < lpex.nrows) :
    (∀ (isupper : Nat → Bool) (k : Nat) (s : ProjState),
        (projectionStep lpex.psdata.psbasis lpex.ncols (nrowsPS lpex)
          (lpex.nrows - nrowsPS lpex) isupper k s).approxdual i = s.approxdual i)
    ∧ (∀ corr a : Nat → ℚ,
        transformBack lpex.psdata.psbasis lpex.psdata.npsbasis lpex.ncols (nrowsPS lpex)
          (lpex.nrows - nrowsPS lpex) corr a i = a i)
    ∧ (∀ (interior : Nat → ℚ) (lambda1 lambda2 : ℚ) (a : Nat → ℚ),
        performShift lpex.nrows lpex.ncols (nrowsPS lpex) (lpex.nrows - nrowsPS lpex) interior
          lambda1 lambda2 a i = a i)
    ∧ (∀ y, finalDual ext lp lpex usefarkas = some y → y i = liftedDual lp lpex usefarkas i)
    ∧ (∀ j, j < lpex.ncols →
        computeViolation lpex usefarkas (liftedDual lp lpex usefarkas) j
          = (if usefarkas then 0 else (lpex.cols j).obj)
            - (liftedDual lp lpex usefarkas i * coef lpex i j
              + ∑ r ∈ (Finset.range lpex.nrows).erase i,
                  liftedDual lp lpex usefarkas r * coef lpex r j
              + liftedDual lp lpex usefarkas (j + lpex.nrows)))
    ∧ (∀ y d, finalDual ext lp lpex usefarkas = some y → dualObjective lpex y = some d →
        d = liftedDual lp lpex usefarkas i
              * finVal (selectedSide lpex (!RisPositive (liftedDual lp lpex usefarkas i)) i)
            + ∑ r ∈ (Finset.range (lpex.nrows + lpex.ncols)).erase i,
                y r * finVal (pairedBound lpex y r))
    ∧ (∀ e, e < 2 * nrowsPS lpex + 2 * lpex.ncols →
        compactIndex (nrowsPS lpex) lpex.ncols (lpex.nrows - nrowsPS lpex) e < nrowsPS lpex
        ∨ ∃ j, j < lpex.ncols
            ∧ compactIndex (nrowsPS lpex) lpex.ncols (lpex.nrows - nrowsPS lpex) e
              = lpex.nrows + j) := by
  have hc : i < lpex.nrows ∧ nrowsPS lpex ≤ i := ⟨hi.2, hi.1⟩
  have hps : nrowsPS lpex ≤ lpex.nrows := by omega
  have hfinal : ∀ y, finalDual ext lp lpex usefarkas = some y →
      y i = liftedDual lp lpex usefarkas i := by
    intro y hy
    unfold finalDual at hy
    simp only [liftedDual_unfold] at hy
    by_cases hfeas : computeIsfeas lpex.ncols
        (computeViolation lpex usefarkas (liftedDual lp lpex usefarkas)) = true
    · simp only [hfeas, Bool.not_true, Bool.false_eq_true, if_false] at hy
      rw [← Option.some.inj hy]
    · simp only [hfeas, Bool.not_false, if_true] at hy
      unfold projectAndShift at hy
      cases hz : ext.RECTLUsolveSystem lpex.ncols lpex.psdata.nextendedrows
          (computeViolation lpex usefarkas (liftedDual lp lpex usefarkas)) with
      | none =>
        simp only [hz] at hy
        exact Option.noConfusion hy
      | some z =>
        simp only [hz] at hy
        rw [← Option.some.inj hy]
        have h1 := performShift_added lpex.nrows lpex.ncols (nrowsPS lpex)
        have h2 := spread_added lpex.psdata.psbasis lpex.psdata.npsbasis lpex.ncols lpex.nrows
          (nrowsPS lpex)
        have h3 := projectionLoop_added lpex.psdata.psbasis lpex.psdata.npsbasis lpex.ncols
          lpex.nrows (nrowsPS lpex)
        unfold nrowsPS at h1 h2 h3 hc
        rw [h1 _ _ _ _ i hc, transformBack_eq, h2 _ i hc, add_zero, h3 _ _ i hc]
  refine ⟨?_, ?_, ?_, hfinal, ?_, ?_, ?_⟩
  · intro isupper k s
    rcases projectionStep_cases lpex.psdata.psbasis lpex.ncols (nrowsPS lpex)
      (lpex.nrows - nrowsPS lpex) isupper k s with h | h
    · rw [h]
    · rw [h]
      show Function.update _ _ _ i = _
      rw [Function.update_noteq
        (fun hcc => compactIndex_ne_added lpex.nrows lpex.ncols (nrowsPS lpex) _ i hps hc
          hcc.symm)]
  · intro corr a
    rw [transformBack_eq, spread_added _ _ _ _ _ _ i hc, add_zero]
  · intro interior lambda1 lambda2 a
    exact performShift_added _ _ _ interior lambda1 lambda2 a i hc
  · intro j hj
    rw [computeViolation_eq lpex usefarkas _ j hj]
    unfold dualLhs
    rw [Finset.add_sum_erase (Finset.range lpex.nrows)
      (fun r => liftedDual lp lpex usefarkas r * coef lpex r j) (Finset.mem_range.mpr hi.2)]
  · intro y d hy hd
    rw [dualObjective_eq] at hd
    obtain ⟨_, h2⟩ := raddProdLoop_eq_some y (pairedBound lpex y) _ d hd
    rw [h2, ← Finset.add_sum_erase (Finset.range (lpex.nrows + lpex.ncols))
      (fun r => y r * finVal (pairedBound lpex y r))
      (Finset.mem_range.mpr (show i < lpex.nrows + lpex.ncols by omega))]
    unfold pairedBound
    rw [hfinal y hy]
  · intro e he
    unfold compactIndex
    split_ifs with h1 h2 h3
    · exact Or.inl h1
    · exact Or.inl (by omega)
    · exact Or.inr ⟨e - 2 * nrowsPS lpex, by omega, by omega⟩
    · exact Or.inr ⟨e - 2 * nrowsPS lpex - lpex.ncols, by omega, by omega⟩

/-- Witness of C25: on `cutLpex` (one row at construction, the cut `2 ≤ x ≤ 20` added later) the
final dual vector carries the lifted value `9 / 8` of the added row. -/
theorem getPSdual_added_rows_frame_witness :
    (nrowsPS cutLpex ≤ 1 ∧ 1 < cutLpex.nrows)
    ∧ liftedDual cutLp cutLpex false 1 = 9 / 8
    ∧ ∀ y, finalDual (mkExternal cutSolve) cutLp cutLpex false = some y
        → y 1 = liftedDual cutLp cutLpex false 1 :=
  ⟨by decide,
   by norm_num [liftedDual, readApproxdual, fixArtificial, computeIsupper, forLoop,
      Function.update_apply, cutLpex, cutLp, selectedSide, RisAbsInfinity, RisPositive],
   (getPSdual_added_rows_frame (mkExternal cutSolve) cutLp cutLpex false 1
      (by decide)).2.2.2.1⟩


/-! ## The values stored by a successful run of `getPSdual` -/

theorem finalDual_solver (ext ext2 : External) (lp : SCIP_LP) (lpex : SCIP_LPEX)
    (usefarkas : Bool) (h : ext.RECTLUsolveSystem = ext2.RECTLUsolveSystem) :
    finalDual ext lp lpex usefarkas = finalDual ext2 lp lpex usefarkas := by
  unfold finalDual projectAndShift
  rw [h]

/-- C27: on a successful lower-bound run of `getPSdual` (`hasprovedbound = TRUE` on return,
`usefarkas = FALSE`) `lpex->lpobjval` is the exact dual objective value `d` of the final dual
vector and `lp->lpobjval` is its conversion `RgetRealRelax(d, SCIP_ROUND_DOWNWARDS)`; as the
conversion rounds downwards, `lp->lpobjval ≤ lpex->lpobjval`. On a successful infeasibility run
`lpex->lpobjval` is `+∞` and `lp->lpobjval` is `SCIPsetInfinity(set)`. -/
theorem getPSdual_stored_values (ext : External) (lp : SCIP_LP) (lpex : SCIP_LPEX)
    (stat : SCIP_STAT) (usefarkas : Bool) (r : SCIP_LP × SCIP_LPEX × SCIP_STAT)
    (hround : ∀ q, ext.RgetRealRelax q ≤ q)
    (hret : getPSdual ext lp lpex stat usefarkas = some r)
    (hproved : r.1.hasprovedbound = true) :
    (usefarkas = false →
      ∃ y d, finalDual ext lp lpex false = some y ∧ dualObjective lpex y = some d
        ∧ r.2.1.lpobjval = SCIP_Rational.fin d
        ∧ r.1.lpobjval = ext.RgetRealRelax d
        ∧ r.1.lpobjval ≤ d)
    ∧ (usefarkas = true →
        r.2.1.lpobjval = SCIP_Rational.inf ∧ r.1.lpobjval = ext.infinity) := by
  unfold getPSdual at hret
  simp only [hasInvalidRow_congr, finalDual_congr] at hret
  by_cases hg : ((lpex.psdata.psdatafail && !usefarkas)
      || (usefarkas && !lpex.psdata.pshasray)) = true
  · rw [if_pos hg] at hret
    have := Option.some.inj hret
    subst this
    exact absurd hproved (by simp)
  · rw [if_neg hg] at hret
    by_cases hinv : hasInvalidRow lp lpex.nrows usefarkas = true
    · rw [if_pos hinv] at hret
      have := Option.some.inj hret
      subst this
      exact absurd hproved (by simp)
    · rw [if_neg hinv] at hret
      cases hy : finalDual ext lp lpex usefarkas with
      | none =>
        simp only [hy] at hret
        have := Option.some.inj hret
        subst this
        exact absurd hproved (by simp)
      | some y =>
        simp only [hy] at hret
        cases hd : dualObjective lpex y with
        | none =>
          simp only [hd] at hret
          exact Option.noConfusion hret
        | some d =>
          simp only [hd] at hret
          have := Option.some.inj hret
          subst this
          constructor
          · intro hu
            subst hu
            exact ⟨y, d, hy, hd, by simp [storeBound], by simp [storeBound],
              by simpa [storeBound] using hround d⟩
          · intro hu
            subst hu
            by_cases hpos : RisPositive d = true
            · simp [storeBound, hpos]
            · simp [storeBound, hpos] at hproved

/-- Witness of C27: on `cutLpex` with a conversion that rounds downwards to the next integer the
lower-bound run stores the exact bound `9 / 4` in `lpex->lpobjval` and `2` in `lp->lpobjval`. -/
theorem getPSdual_stored_values_witness :
    (∀ q, (roundingExternal cutSolve).RgetRealRelax q ≤ q)
    ∧ ∃ r, getPSdual (roundingExternal cutSolve) cutLp cutLpex zeroStat false = some r
      ∧ r.1.hasprovedbound = true
      ∧ r.2.1.lpobjval = SCIP_Rational.fin (9 / 4)
      ∧ r.1.lpobjval = 2
      ∧ ∃ y d, finalDual (roundingExternal cutSolve) cutLp cutLpex false = some y
          ∧ dualObjective cutLpex y = some d
          ∧ r.2.1.lpobjval = SCIP_Rational.fin d
          ∧ r.1.lpobjval = (roundingExternal cutSolve).RgetRealRelax d
          ∧ r.1.lpobjval ≤ d := by
  have hround : ∀ q, (roundingExternal cutSolve).RgetRealRelax q ≤ q :=
    fun q => Int.floor_le q
  have hfloor : ((⌊(9 / 4 : ℚ)⌋ : Int) : ℚ) = 2 := by
    have : ⌊(9 / 4 : ℚ)⌋ = 2 := by
      rw [Int.floor_eq_iff]
      norm_num
    rw [this]
    norm_num
  have hrun := getPSdual_of_evaluated (roundingExternal cutSolve) cutLp cutLpex zeroStat false
    cutFinal (9 / 4) (by simp [passesGuard, cutLpex])
    (by norm_num [hasInvalidRow, cutLp, cutLpex, SCIP_INVALID, List.range, List.range.loop])
    ((finalDual_solver (roundingExternal cutSolve) (mkExternal cutSolve) cutLp cutLpex false
      rfl).trans cut_finalDual) cut_dualObjective
  refine ⟨hround, _, hrun, by simp [storeBound], by simp [storeBound],
    by simp [storeBound, roundingExternal, hfloor], ?_⟩
  exact (getPSdual_stored_values (roundingExternal cutSolve) cutLp cutLpex zeroStat false _
    hround hrun (by simp [storeBound])).1 rfl


/-! ## The value returned by `SCIPgetSolExVal` -/

/-- C29 (failing input): whenever `SCIPgetSolExVal` returns, `res` holds the current LP or pseudo
solution value, also for a non-`NULL` solution: with the value `1` of the variable in `sol` and
the LP value `2` the call in the solving stage stores `2`, the call of an optimized build stores
`2`, and the call in the problem stage aborts in the stage test for `sol == NULL`; the sibling
`SCIPgetSolExTransObj` stores the value of the solution there. -/
theorem SCIPgetSolExVal_stores_lp_value :
    (∀ (checkStage : List Bool → Bool) (sol : Option ℚ) (varSolEx res : ℚ),
        SCIPgetSolExVal checkStage sol varSolEx res = none
        ∨ SCIPgetSolExVal checkStage sol varSolEx res = some varSolEx)
    ∧ SCIPgetSolExVal (stageCheck SCIP_STAGE.SOLVING) (some 1) 2 0 = some 2
    ∧ SCIPgetSolExVal stageUnchecked (some 1) 2 0 = some 2
    ∧ SCIPgetSolExVal (stageCheck SCIP_STAGE.PROBLEM) (some 1) 2 0 = none
    ∧ SCIPgetSolExTransObj (stageCheck SCIP_STAGE.SOLVING) (some 1) 2 0 = some 1
    ∧ SCIPgetSolExTransObj (stageCheck SCIP_STAGE.TRANSFORMED) (some 1) 2 0 = some 1 := by
  refine ⟨?_, rfl, rfl, rfl, rfl, rfl⟩
  intro checkStage sol varSolEx res
  unfold SCIPgetSolExVal
  split_ifs
  · exact Or.inl rfl
  · exact Or.inl rfl
  · exact Or.inr rfl


/-! ## The scratch arrays of `getPSdual` between calls -/

theorem finalDualFrom_zero (ext : External) (lp : SCIP_LP) (lpex : SCIP_LPEX)
    (usefarkas : Bool) :
    finalDualFrom (fun _ => 0) (fun _ => 0) ext lp lpex usefarkas
      = finalDual ext lp lpex usefarkas := rfl

/-- The zeroing loops set every entry of blocks with exactly `nrows + ncols`, `ncols` and
`nextendedrows` entries to zero, whatever the blocks held. -/
theorem zeroScratch_exact (nrows ncols nextendedrows : Nat) (a v c : Nat → ℚ) :
    zeroScratch nrows ncols nextendedrows (block (nrows + ncols) a) (block ncols v)
        (block nextendedrows c)
      = (fun _ => 0, fun _ => 0, fun _ => 0) := by
  unfold zeroScratch
  have hloop : ∀ k, k ≤ nrows + ncols →
      (∀ i, (forLoop (fun i (s : (Nat → ℚ) × (Nat → ℚ)) =>
          let a := Function.update s.1 i 0
          if i < ncols then (a, Function.update s.2 i 0) else (a, s.2)) k
          (block (nrows + ncols) a, block ncols v)).1 i
          = if i < k then 0 else block (nrows + ncols) a i)
      ∧ (∀ i, (forLoop (fun i (s : (Nat → ℚ) × (Nat → ℚ)) =>
          let a := Function.update s.1 i 0
          if i < ncols then (a, Function.update s.2 i 0) else (a, s.2)) k
          (block (nrows + ncols) a, block ncols v)).2 i
          = if i < k then 0 else block ncols v i) := by
    intro k
    induction k with
    | zero => intro _; exact ⟨fun i => by simp [forLoop_zero], fun i => by simp [forLoop_zero]⟩
    | succ m ih =>
      intro hm
      obtain ⟨h1, h2⟩ := ih (by omega)
      rw [forLoop_succ]
      constructor
      · intro i
        have hfst : ∀ s : (Nat → ℚ) × (Nat → ℚ),
            (if m < ncols then (Function.update s.1 m 0, Function.update s.2 m 0)
              else (Function.update s.1 m 0, s.2)).1 = Function.update s.1 m 0 := by
          intro s
          split_ifs <;> rfl
        show (if m < ncols then _ else _ : (Nat → ℚ) × (Nat → ℚ)).1 i = _
        rw [hfst]
        by_cases him : i = m
        · subst him
          rw [Function.update_same, if_pos (Nat.lt_succ_self i)]
        · rw [Function.update_noteq him, h1]
          by_cases hlt : i < m
          · rw [if_pos hlt, if_pos (Nat.lt_succ_of_lt hlt)]
          · rw [if_neg hlt, if_neg (by omega)]
      · intro i
        show (if m < ncols then _ else _ : (Nat → ℚ) × (Nat → ℚ)).2 i = _
        by_cases hmc : m < ncols
        · rw [if_pos hmc]
          show Function.update _ m 0 i = _
          by_cases him : i = m
          · subst him
            rw [Function.update_same, if_pos (Nat.lt_succ_self i)]
          · rw [Function.update_noteq him, h2]
            by_cases hlt : i < m
            · rw [if_pos hlt, if_pos (Nat.lt_succ_of_lt hlt)]
            · rw [if_neg hlt, if_neg (by omega)]
        · rw [if_neg hmc]
          show _ = _
          rw [h2]
          by_cases hlt : i < m
          · rw [if_pos hlt, if_pos (Nat.lt_succ_of_lt hlt)]
          · rw [if_neg hlt]
            by_cases hlt2 : i < m + 1
            · rw [if_pos hlt2]
              unfold block
              rw [if_neg (by omega)]
            · rw [if_neg hlt2]
  obtain ⟨h1, h2⟩ := hloop (nrows + ncols) (le_refl _)
  refine Prod.ext ?_ (Prod.ext ?_ ?_)
  · funext i
    refine (h1 i).trans ?_
    unfold block
    split_ifs <;> rfl
  · funext i
    refine (h2 i).trans ?_
    unfold block
    split_ifs with ha hb
    · rfl
    · omega
    · rfl
  · funext i
    show forLoop (fun i c => Function.update c i 0) nextendedrows (block nextendedrows c) i = 0
    rw [forLoop_set (fun _ => (0 : ℚ))]
    unfold block
    split_ifs <;> rfl

theorem block_block (k n : Nat) (a : Nat → ℚ) (h : k ≤ n) : block k a = block n (block k a) := by
  funext i
  unfold block
  by_cases h1 : i < k
  · have h2 : i < n := by omega
    simp [h1, h2]
  · simp [h1]

/-- Where the blocks of the scratch arrays have exactly the sizes the call needs (after a
growth of the local array for `approxdual`, or without one), the call with the scratch arrays of
`psdata` returns what `getPSdual` on zeroed arrays returns, whatever the arrays held at entry. -/
theorem getPSdualPersistent_eq (ext : External) (lp : SCIP_LP) (lpex : SCIP_LPEX)
    (stat : SCIP_STAT) (usefarkas : Bool) (sc : PsScratch) (buf : PsBuffers)
    (hguard : passesGuard lpex usefarkas)
    (hcap : lpex.nrows + lpex.ncols ≤ sc.approxdualsize →
      sc.approxdualcap = lpex.nrows + lpex.ncols)
    (hv : sc.violationcap = lpex.ncols)
    (hc : sc.correctioncap = lpex.psdata.nextendedrows) :
    getPSdualPersistent ext lp lpex stat usefarkas sc buf
      = (getPSdual ext lp lpex stat usefarkas).map (fun r =>
          (r, if lpex.nrows + lpex.ncols > sc.approxdualsize
              then { sc with approxdualsize := lpex.nrows + lpex.ncols } else sc)) := by
  unfold passesGuard at hguard
  unfold getPSdualPersistent getPSdual
  simp only [hguard, Bool.false_eq_true, if_false, hasInvalidRow_congr, finalDual_congr]
  by_cases hgrow : lpex.nrows + lpex.ncols > sc.approxdualsize
  · have hz := zeroScratch_exact lpex.nrows lpex.ncols lpex.psdata.nextendedrows
      (block sc.approxdualsize (block sc.approxdualcap buf.approxdual)) buf.violation
      buf.correction
    rw [← block_block _ _ _ (le_of_lt hgrow)] at hz
    simp only [hgrow, decide_True, if_true, le_refl, hv, hc, true_and, and_self, hz,
      finalDualFrom_zero, finalDual_congr]
    by_cases hinv : hasInvalidRow lp lpex.nrows usefarkas = true
    · simp only [hinv, if_true, Option.map_some']
    · simp only [hinv, Bool.false_eq_true, if_false]
      cases finalDual ext lp lpex usefarkas with
      | none => rfl
      | some y =>
        cases hd : dualObjective lpex y with
        | none => simp only [hd, Option.map_none']
        | some d => simp only [hd, Option.map_some']
  · have hcap2 := hcap (by omega)
    have hz := zeroScratch_exact lpex.nrows lpex.ncols lpex.psdata.nextendedrows
      buf.approxdual buf.violation buf.correction
    simp only [hgrow, decide_False, Bool.false_eq_true, if_false, hcap2, le_refl, hv, hc,
      true_and, and_self, if_true, hz, finalDualFrom_zero, finalDual_congr]
    by_cases hinv : hasInvalidRow lp lpex.nrows usefarkas = true
    · simp only [hinv, if_true, Option.map_some']
    · simp only [hinv, Bool.false_eq_true, if_false]
      cases finalDual ext lp lpex usefarkas with
      | none => rfl
      | some y =>
        cases hd : dualObjective lpex y with
        | none => simp only [hd, Option.map_none']
        | some d => simp only [hd, Option.map_some']

/-- A second call of `getPSdual` on the state that a first call returned ends with the same
flag `hasprovedbound` and the same values `lpex->lpobjval` and `lp->lpobjval`. -/
theorem getPSdual_idempotent (ext : External) (lp : SCIP_LP) (lpex : SCIP_LPEX)
    (stat : SCIP_STAT) (usefarkas : Bool) (r : SCIP_LP × SCIP_LPEX × SCIP_STAT)
    (hret : getPSdual ext lp lpex stat usefarkas = some r) :
    ∃ r2, getPSdual ext r.1 r.2.1 r.2.2 usefarkas = some r2
      ∧ r2.1.hasprovedbound = r.1.hasprovedbound
      ∧ r2.2.1.lpobjval = r.2.1.lpobjval
      ∧ r2.1.lpobjval = r.1.lpobjval := by
  unfold getPSdual at hret
  simp only [hasInvalidRow_congr, finalDual_congr] at hret
  by_cases hg : ((lpex.psdata.psdatafail && !usefarkas)
      || (usefarkas && !lpex.psdata.pshasray)) = true
  · rw [if_pos hg] at hret
    have := Option.some.inj hret
    subst this
    unfold getPSdual
    simp only [hg, if_true]
    exact ⟨_, rfl, rfl, rfl, rfl⟩
  · rw [if_neg hg] at hret
    by_cases hinv : hasInvalidRow lp lpex.nrows usefarkas = true
    · rw [if_pos hinv] at hret
      have := Option.some.inj hret
      subst this
      unfold getPSdual
      simp only [hg, if_false, hasInvalidRow_congr, hinv, if_true]
      exact ⟨_, rfl, rfl, rfl, rfl⟩
    · rw [if_neg hinv] at hret
      cases hy : finalDual ext lp lpex usefarkas with
      | none =>
        simp only [hy] at hret
        have := Option.some.inj hret
        subst this
        unfold getPSdual
        simp only [hg, if_false, hasInvalidRow_congr, hinv, finalDual_congr, hy]
        exact ⟨_, rfl, rfl, rfl, rfl⟩
      | some y =>
        simp only [hy] at hret
        cases hd : dualObjective lpex y with
        | none =>
          simp only [hd] at hret
          exact Option.noConfusion hret
        | some d =>
          simp only [hd] at hret
          have := Option.some.inj hret
          subst this
          have hfd : ∀ (a : ℚ) (b : Bool) (c : SCIP_Rational),
              finalDual ext { lp with lpobjval := a, hasprovedbound := b }
                { lpex with lpobjval := c } usefarkas = some y := fun _ _ _ => hy
          have hdo : ∀ c : SCIP_Rational, dualObjective { lpex with lpobjval := c } y = some d :=
            fun _ => hd
          have hir : ∀ (a : ℚ) (b : Bool),
              hasInvalidRow { lp with lpobjval := a, hasprovedbound := b } lpex.nrows usefarkas
                = false := fun _ _ => by simpa using hinv
          cases usefarkas with
          | false =>
            unfold getPSdual
            simp only [storeBound, Bool.not_false, if_true] at hg ⊢
            simp only [hg, if_false, Bool.false_eq_true, hfd, hdo, hir]
            exact ⟨_, rfl, rfl, rfl, rfl⟩
          | true =>
            by_cases hpos : RisPositive d = true
            · unfold getPSdual
              simp only [storeBound, Bool.not_true, Bool.false_eq_true, if_false, hpos,
                if_true] at hg ⊢
              simp only [hg, if_false, Bool.false_eq_true, hfd, hdo, hir, hpos, if_true]
              exact ⟨_, rfl, rfl, rfl, rfl⟩
            · unfold getPSdual
              simp only [storeBound, Bool.not_true, Bool.false_eq_true, if_false, hpos] at hg ⊢
              simp only [hg, if_false, Bool.false_eq_true, hasInvalidRow_congr, hinv,
                finalDual_congr, hy, hd, hpos]
              exact ⟨_, rfl, rfl, rfl, rfl⟩

/-- The call `getPSdual` changes neither the size of the relaxation nor the project-and-shift
data. -/
theorem getPSdual_frame (ext : External) (lp : SCIP_LP) (lpex : SCIP_LPEX)
    (stat : SCIP_STAT) (usefarkas : Bool) (r : SCIP_LP × SCIP_LPEX × SCIP_STAT)
    (hret : getPSdual ext lp lpex stat usefarkas = some r) :
    r.2.1.nrows = lpex.nrows ∧ r.2.1.ncols = lpex.ncols ∧ r.2.1.psdata = lpex.psdata := by
  unfold getPSdual at hret
  simp only [hasInvalidRow_congr, finalDual_congr] at hret
  by_cases hg : ((lpex.psdata.psdatafail && !usefarkas)
      || (usefarkas && !lpex.psdata.pshasray)) = true
  · rw [if_pos hg] at hret
    rw [← Option.some.inj hret]
    exact ⟨rfl, rfl, rfl⟩
  · rw [if_neg hg] at hret
    by_cases hinv : hasInvalidRow lp lpex.nrows usefarkas = true
    · rw [if_pos hinv] at hret
      rw [← Option.some.inj hret]
      exact ⟨rfl, rfl, rfl⟩
    · rw [if_neg hinv] at hret
      cases hy : finalDual ext lp lpex usefarkas with
      | none =>
        simp only [hy] at hret
        rw [← Option.some.inj hret]
        exact ⟨rfl, rfl, rfl⟩
      | some y =>
        simp only [hy] at hret
        cases hd : dualObjective lpex y with
        | none =>
          simp only [hd] at hret
          exact Option.noConfusion hret
        | some d =>
          simp only [hd] at hret
          rw [← Option.some.inj hret]
          unfold storeBound
          split_ifs <;> exact ⟨rfl, rfl, rfl⟩

/-- Where no row was added since the scratch arrays were sized, two consecutive calls with the
scratch arrays of `psdata` end with the same flag `hasprovedbound` and the same bound, whatever
the arrays held before each call. -/
theorem getPSdualPersistent_idempotent (ext : External) (lp : SCIP_LP) (lpex : SCIP_LPEX)
    (stat : SCIP_STAT) (usefarkas : Bool) (sc sc1 : PsScratch) (buf buf2 : PsBuffers)
    (r : SCIP_LP × SCIP_LPEX × SCIP_STAT)
    (hguard : passesGuard lpex usefarkas)
    (hsize : lpex.nrows + lpex.ncols ≤ sc.approxdualsize)
    (hcap : sc.approxdualcap = lpex.nrows + lpex.ncols)
    (hv : sc.violationcap = lpex.ncols)
    (hc : sc.correctioncap = lpex.psdata.nextendedrows)
    (hret : getPSdualPersistent ext lp lpex stat usefarkas sc buf = some (r, sc1)) :
    getPSdual ext lp lpex stat usefarkas = some r
    ∧ sc1 = sc
    ∧ ∃ r2, getPSdualPersistent ext r.1 r.2.1 r.2.2 usefarkas sc1 buf2 = some (r2, sc1)
      ∧ r2.1.hasprovedbound = r.1.hasprovedbound
      ∧ r2.2.1.lpobjval = r.2.1.lpobjval
      ∧ r2.1.lpobjval = r.1.lpobjval := by
  rw [getPSdualPersistent_eq ext lp lpex stat usefarkas sc buf hguard (fun _ => hcap) hv hc,
    if_neg (by omega)] at hret
  cases h1 : getPSdual ext lp lpex stat usefarkas with
  | none =>
    rw [h1] at hret
    exact Option.noConfusion hret
  | some r0 =>
    rw [h1, Option.map_some'] at hret
    have hpair := Option.some.inj hret
    have hr : r0 = r := congrArg Prod.fst hpair
    have hs : sc = sc1 := congrArg Prod.snd hpair
    subst hr
    subst hs
    obtain ⟨hn, hm, hp⟩ := getPSdual_frame ext lp lpex stat usefarkas r0 h1
    obtain ⟨r2, h2, hflag, hval, hfp⟩ := getPSdual_idempotent ext lp lpex stat usefarkas r0 h1
    refine ⟨rfl, rfl, r2, ?_, hflag, hval, hfp⟩
    have hguard2 : passesGuard r0.2.1 usefarkas := by
      unfold passesGuard at hguard ⊢
      rw [hp]
      exact hguard
    rw [getPSdualPersistent_eq ext r0.1 r0.2.1 r0.2.2 usefarkas sc buf2 hguard2
      (fun _ => by rw [hn, hm]; exact hcap) (by rw [hm]; exact hv) (by rw [hp]; exact hc),
      if_neg (by rw [hn, hm]; omega), h2, Option.map_some']

/-- C26 (failing input): on `cutLpex`, whose project-and-shift data and scratch arrays were
constructed when only the first row was present (`approxdualsize = 2`), the first call of
`getPSdual` after the cut was added reallocates its local array, certifies the bound `9 / 4` and
sets `psdata->approxdualsize = 3` while `psdata->approxdual` keeps referring to the block of two
entries; the second call with the same input takes that block, does not reallocate, and writes
its entry `2`, which lies outside the block: it has no defined result, whatever the arrays
hold. -/
theorem getPSdual_second_call_outside_block :
    constructedScratch cutLpexAtConstruction
      = { approxdualcap := 2, approxdualsize := 2, violationcap := 1, correctioncap := 4 }
    ∧ ∀ buf buf2 : PsBuffers,
      ∃ r, getPSdualPersistent (mkExternal cutSolve) cutLp cutLpex zeroStat false
            (constructedScratch cutLpexAtConstruction) buf
          = some (r, { approxdualcap := 2, approxdualsize := 3, violationcap := 1,
                       correctioncap := 4 })
        ∧ r.1.hasprovedbound = true
        ∧ r.2.1.lpobjval = SCIP_Rational.fin (9 / 4)
        ∧ getPSdualPersistent (mkExternal cutSolve) r.1 r.2.1 r.2.2 false
            { approxdualcap := 2, approxdualsize := 3, violationcap := 1, correctioncap := 4 }
            buf2 = none := by
  refine ⟨rfl, ?_⟩
  intro buf buf2
  have hrun := getPSdual_of_evaluated (mkExternal cutSolve) cutLp cutLpex zeroStat false
    cutFinal (9 / 4) (by simp [passesGuard, cutLpex])
    (by norm_num [hasInvalidRow, cutLp, cutLpex, SCIP_INVALID, List.range, List.range.loop])
    cut_finalDual cut_dualObjective
  have hfirst := getPSdualPersistent_eq (mkExternal cutSolve) cutLp cutLpex zeroStat false
    (constructedScratch cutLpexAtConstruction) buf (by simp [passesGuard, cutLpex])
    (fun h => absurd h (by decide)) rfl rfl
  rw [hrun, Option.map_some'] at hfirst
  refine ⟨_, hfirst, rfl, rfl, ?_⟩
  rfl


/-! ## Soundness of `boundShift` -/

theorem shift_feasible : shiftFeasible shiftLp shiftLpex shiftPoint := by
  constructor
  · intro r hr
    have hr2 : r < 2 := hr
    interval_cases r <;>
      norm_num [shiftLp, shiftLpex, shiftPoint, rowActivity, Finset.sum_range_succ]
  · intro j hj
    have hj2 : j < 2 := hj
    interval_cases j <;> norm_num [shiftLp, shiftPoint]

/-- The floating-point sides relax the exact ones where each floating-point side, with the
constant of the row, lies outside the exact side and each floating-point bound outside the exact
bound. -/
theorem fpRelaxesExact_of_sides (lp : SCIP_LP) (lpex : SCIP_LPEX)
    (hn : lp.nrows = lpex.nrows) (hc : lp.ncols = lpex.ncols)
    (hlhs : ∀ r, r < lp.nrows → ∀ v, boundLe (lpex.rows r).lhs v →
      (lp.rows r).lhs ≤ v + (lp.rows r).constant)
    (hrhs : ∀ r, r < lp.nrows → ∀ v, leBound v (lpex.rows r).rhs →
      v + (lp.rows r).constant ≤ (lp.rows r).rhs)
    (hlb : ∀ j, j < lp.ncols → ∀ v, boundLe (lpex.cols j).lb v → (lp.cols j).lb ≤ v)
    (hub : ∀ j, j < lp.ncols → ∀ v, leBound v (lpex.cols j).ub → v ≤ (lp.cols j).ub) :
    fpRelaxesExact lp lpex := by
  intro x hx
  constructor
  · intro r hr
    have h := hx.1 r (hn ▸ hr)
    exact ⟨hlhs r hr _ h.1, hrhs r hr _ h.2⟩
  · intro j hj
    have h := hx.2 j (hc ▸ hj)
    exact ⟨hlb j hj _ h.1, hub j hj _ h.2⟩

/-- A loop that stores a positive value `t i` at the position `idx1 i` and any other value
negated at the position `idx2 i`. -/
theorem splitLoop_spec (N : Nat) (idx1 idx2 : Nat → Nat) (t : Nat → ℚ) (a0 : Nat → ℚ)
    (h1 : ∀ i j, i < N → j < N → idx1 i = idx1 j → i = j)
    (h2 : ∀ i j, i < N → j < N → idx2 i = idx2 j → i = j)
    (h12 : ∀ i j, i < N → j < N → idx1 i ≠ idx2 j) :
    (∀ i, i < N →
      forLoop (fun i a => if RisPositive (t i) then Function.update a (idx1 i) (t i)
          else Function.update a (idx2 i) (-(t i))) N a0 (idx1 i)
        = if 0 < t i then t i else a0 (idx1 i))
    ∧ (∀ i, i < N →
      forLoop (fun i a => if RisPositive (t i) then Function.update a (idx1 i) (t i)
          else Function.update a (idx2 i) (-(t i))) N a0 (idx2 i)
        = if 0 < t i then a0 (idx2 i) else -(t i))
    ∧ (∀ e, (∀ i, i < N → e ≠ idx1 i ∧ e ≠ idx2 i) →
      forLoop (fun i a => if RisPositive (t i) then Function.update a (idx1 i) (t i)
          else Function.update a (idx2 i) (-(t i))) N a0 e = a0 e) := by
  induction N with
  | zero =>
    exact ⟨fun i hi => absurd hi (Nat.not_lt_zero i), fun i hi => absurd hi (Nat.not_lt_zero i),
      fun e _ => rfl⟩
  | succ n ih =>
    obtain ⟨g1, g2, g3⟩ := ih
      (fun i j hi hj => h1 i j (Nat.lt_succ_of_lt hi) (Nat.lt_succ_of_lt hj))
      (fun i j hi hj => h2 i j (Nat.lt_succ_of_lt hi) (Nat.lt_succ_of_lt hj))
      (fun i j hi hj => h12 i j (Nat.lt_succ_of_lt hi) (Nat.lt_succ_of_lt hj))
    have hn := Nat.lt_succ_self n
    have hfresh1 : forLoop (fun i a => if RisPositive (t i) then Function.update a (idx1 i) (t i)
          else Function.update a (idx2 i) (-(t i))) n a0 (idx1 n) = a0 (idx1 n) :=
      g3 _ (fun i hi => ⟨fun h => absurd (h1 n i hn (Nat.lt_succ_of_lt hi) h) (by omega),
        h12 n i hn (Nat.lt_succ_of_lt hi)⟩)
    have hfresh2 : forLoop (fun i a => if RisPositive (t i) then Function.update a (idx1 i) (t i)
          else Function.update a (idx2 i) (-(t i))) n a0 (idx2 n) = a0 (idx2 n) :=
      g3 _ (fun i hi => ⟨fun h => h12 i n (Nat.lt_succ_of_lt hi) hn h.symm,
        fun h => absurd (h2 n i hn (Nat.lt_succ_of_lt hi) h) (by omega)⟩)
    refine ⟨?_, ?_, ?_⟩
    · intro i hi
      rw [forLoop_succ]
      by_cases hin : i = n
      · subst hin
        by_cases hp : 0 < t i
        · have hP : RisPositive (t i) = true := by simp [RisPositive, hp]
          rw [if_pos hP, Function.update_same, if_pos hp]
        · have hP : ¬ RisPositive (t i) = true := by simp [RisPositive, hp]
          rw [if_neg hP, Function.update_noteq (h12 i i hn hn), hfresh1, if_neg hp]
      · have hlt : i < n := by omega
        have hne1 : idx1 i ≠ idx1 n := fun h => hin (h1 i n hi hn h)
        have hne2 : idx1 i ≠ idx2 n := h12 i n hi hn
        by_cases hPn : RisPositive (t n) = true
        · rw [if_pos hPn, Function.update_noteq hne1]
          exact g1 i hlt
        · rw [if_neg hPn, Function.update_noteq hne2]
          exact g1 i hlt
    · intro i hi
      rw [forLoop_succ]
      by_cases hin : i = n
      · subst hin
        by_cases hp : 0 < t i
        · have hP : RisPositive (t i) = true := by simp [RisPositive, hp]
          rw [if_pos hP, Function.update_noteq (fun h => h12 i i hn hn h.symm), hfresh2,
            if_pos hp]
        · have hP : ¬ RisPositive (t i) = true := by simp [RisPositive, hp]
          rw [if_neg hP, Function.update_same, if_neg hp]
      · have hlt : i < n := by omega
        have hne1 : idx2 i ≠ idx1 n := fun h => h12 n i hn hi h.symm
        have hne2 : idx2 i ≠ idx2 n := fun h => hin (h2 i n hi hn h)
        by_cases hPn : RisPositive (t n) = true
        · rw [if_pos hPn, Function.update_noteq hne1]
          exact g2 i hlt
        · rw [if_neg hPn, Function.update_noteq hne2]
          exact g2 i hlt
    · intro e he
      rw [forLoop_succ]
      have hprev := g3 e (fun i hi => he i (Nat.lt_succ_of_lt hi))
      split_ifs
      · rw [Function.update_noteq (he n hn).1, hprev]
      · rw [Function.update_noteq (he n hn).2, hprev]

theorem clampTwo_spec (N : Nat) (cv : Nat → SCIP_Rational) (a : Nat → ℚ) (e : Nat) :
    clampTwo N cv a e
      = if e < N then (if a e < 0 then 0 else if RisNegInfinity (cv e) = true then 0 else a e)
        else a e := by
  unfold clampTwo
  rw [forLoop_pointwise
    (fun i v => if v < 0 then 0 else if RisNegInfinity (cv i) = true then 0 else v)]
  intro i b
  by_cases h1 : b i < 0
  · have hN : RisNegative (b i) = true := by simp [RisNegative, h1]
    rw [if_pos hN, if_pos h1]
  · have hN : ¬ RisNegative (b i) = true := by simp [RisNegative, h1]
    rw [if_neg hN, if_neg h1]
    by_cases h2 : RisNegInfinity (cv i) = true
    · rw [if_pos h2, if_pos h2]
    · rw [if_neg h2, if_neg h2, Function.update_eq_self]

theorem lhsCoord_lt (n m c : Nat) (hc : c < n + m) : lhsCoord n c < 2 * n + 2 * m := by
  unfold lhsCoord
  split_ifs <;> omega

theorem rhsCoord_lt (n m c : Nat) (hc : c < n + m) : rhsCoord n m c < 2 * n + 2 * m := by
  unfold rhsCoord
  split_ifs <;> omega

/-- Every extended coordinate is the `lhs` or the `rhs` coordinate of one row or column. -/
theorem coord_cases (n m e : Nat) (he : e < 2 * n + 2 * m) :
    ∃ c, c < n + m ∧ (e = lhsCoord n c ∨ e = rhsCoord n m c) := by
  unfold lhsCoord rhsCoord
  by_cases h1 : e < n
  · exact ⟨e, by omega, Or.inl (by rw [if_pos h1])⟩
  · by_cases h2 : e < 2 * n
    · exact ⟨e - n, by omega, Or.inr (by rw [if_pos (by omega)]; omega)⟩
    · by_cases h3 : e < 2 * n + m
      · exact ⟨e - n, by omega, Or.inl (by rw [if_neg (by omega)]; omega)⟩
      · exact ⟨e - n - m, by omega, Or.inr (by rw [if_neg (by omega)]; omega)⟩

/-- The extended vector as read: the positive part of the approximate value on the `lhs`
coordinate, the negative part on the `rhs` coordinate. -/
theorem readExtendedTwo_coords (lp : SCIP_LP) (n m : Nat) (usefarkas : Bool) (c : Nat)
    (hc : c < n + m) :
    readExtendedTwo lp n m usefarkas (lhsCoord n c)
      = (if 0 < approxValue lp n usefarkas c then approxValue lp n usefarkas c else 0)
    ∧ readExtendedTwo lp n m usefarkas (rhsCoord n m c)
      = (if 0 < approxValue lp n usefarkas c then 0 else -approxValue lp n usefarkas c) := by
  have hrv : ∀ i, i < n →
      (if !usefarkas then (lp.rows i).dualsol else (lp.rows i).dualfarkas)
        = approxValue lp n usefarkas i := by
    intro i hi
    unfold approxValue
    rw [if_pos hi]
    cases usefarkas <;> rfl
  have hcv : ∀ j, (if !usefarkas then (lp.cols j).redcost else -(lp.cols j).farkascoef)
        = approxValue lp n usefarkas (j + n) := by
    intro j
    unfold approxValue
    rw [if_neg (show ¬ j + n < n by omega), Nat.add_sub_cancel]
    cases usefarkas <;> rfl
  have hrows := splitLoop_spec n (fun i => i) (fun i => i + n)
    (fun i => if !usefarkas then (lp.rows i).dualsol else (lp.rows i).dualfarkas) (fun _ => 0)
    (fun i j _ _ h => h) (fun i j _ _ h => by simpa using h)
    (fun i j hi hj => by show i ≠ j + n; omega)
  have hcols := splitLoop_spec m (fun i => i + 2 * n) (fun i => i + 2 * n + m)
    (fun i => if !usefarkas then (lp.cols i).redcost else -(lp.cols i).farkascoef)
    (forLoop (fun i a => if RisPositive
        (if !usefarkas then (lp.rows i).dualsol else (lp.rows i).dualfarkas)
      then Function.update a i
        (if !usefarkas then (lp.rows i).dualsol else (lp.rows i).dualfarkas)
      else Function.update a (i + n)
        (-(if !usefarkas then (lp.rows i).dualsol else (lp.rows i).dualfarkas))) n (fun _ => 0))
    (fun i j _ _ h => by simpa using h) (fun i j _ _ h => by simpa using h)
    (fun i j hi hj => by show i + 2 * n ≠ j + 2 * n + m; omega)
  beta_reduce at hrows hcols
  obtain ⟨r1, r2, r3⟩ := hrows
  obtain ⟨c1, c2, c3⟩ := hcols
  have hread : ∀ e, readExtendedTwo lp n m usefarkas e
      = forLoop (fun i a => if RisPositive
          (if !usefarkas then (lp.cols i).redcost else -(lp.cols i).farkascoef)
        then Function.update a (i + 2 * n)
          (if !usefarkas then (lp.cols i).redcost else -(lp.cols i).farkascoef)
        else Function.update a (i + 2 * n + m)
          (-(if !usefarkas then (lp.cols i).redcost else -(lp.cols i).farkascoef))) m
        (forLoop (fun i a => if RisPositive
            (if !usefarkas then (lp.rows i).dualsol else (lp.rows i).dualfarkas)
          then Function.update a i
            (if !usefarkas then (lp.rows i).dualsol else (lp.rows i).dualfarkas)
          else Function.update a (i + n)
            (-(if !usefarkas then (lp.rows i).dualsol else (lp.rows i).dualfarkas))) n
          (fun _ => 0)) e := fun _ => rfl
  unfold lhsCoord rhsCoord
  by_cases hcn : c < n
  · rw [if_pos hcn, if_pos hcn, hread, hread,
      c3 c (fun i _ => ⟨by omega, by omega⟩), c3 (c + n) (fun i _ => ⟨by omega, by omega⟩),
      r1 c hcn, r2 c hcn, hrv c hcn]
    exact ⟨rfl, rfl⟩
  · have hj : c - n < m := by omega
    have e1 : c + n = (c - n) + 2 * n := by omega
    have e3 : c = (c - n) + n := by omega
    rw [if_neg hcn, if_neg hcn, hread, hread, e1, c1 (c - n) hj, c2 (c - n) hj,
      r3 (c - n + 2 * n) (fun i hi => ⟨by omega, by omega⟩),
      r3 (c - n + 2 * n + m) (fun i hi => ⟨by omega, by omega⟩), hcv (c - n), ← e3]
    exact ⟨rfl, rfl⟩

theorem costvectTwo_coords (lpex : SCIP_LPEX) (c : Nat) (hc : c < lpex.nrows + lpex.ncols) :
    costvectTwo lpex lpex.nrows (lhsCoord lpex.nrows c) = selectedSide lpex false c
    ∧ costvectTwo lpex lpex.nrows (rhsCoord lpex.nrows lpex.ncols c)
        = Rneg (selectedSide lpex true c) := by
  obtain ⟨hr, hcl⟩ := costvectTwo_spec lpex lpex.nrows
  unfold lhsCoord rhsCoord selectedSide
  by_cases hcn : c < lpex.nrows
  · simp only [hcn, if_true, Bool.not_false, Bool.not_true, Bool.false_eq_true, if_false]
    exact hr c hcn
  · have hj : c - lpex.nrows < lpex.ncols := by omega
    have e1 : c + lpex.nrows = (c - lpex.nrows) + 2 * lpex.nrows := by omega
    simp only [hcn, if_false, Bool.not_false, Bool.not_true, Bool.false_eq_true, if_true]
    rw [e1]
    exact hcl (c - lpex.nrows) hj

theorem properSides_selected (lpex : SCIP_LPEX) (hsides : properSides lpex) (c : Nat)
    (hc : c < lpex.nrows + lpex.ncols) :
    RisInfinity (selectedSide lpex false c) = false
    ∧ RisNegInfinity (selectedSide lpex true c) = false := by
  obtain ⟨hr, hcl⟩ := hsides
  unfold selectedSide
  by_cases hcn : c < lpex.nrows
  · simp only [hcn, if_true, Bool.not_false, Bool.not_true, Bool.false_eq_true, if_false]
    exact hr c hcn
  · simp only [hcn, if_false, Bool.not_false, Bool.not_true, Bool.false_eq_true, if_true]
    exact hcl (c - lpex.nrows) (by omega)

/-- The extended vector of `getPSdualTwo` after the clamping step carries the positive part of
the lifted value of `getPSdual` on the `lhs` coordinate and its negative part on the `rhs`
coordinate. -/
theorem clampedTwo_coords (lp : SCIP_LP) (lpex : SCIP_LPEX) (usefarkas : Bool)
    (hsides : properSides lpex) (c : Nat) (hc : c < lpex.nrows + lpex.ncols) :
    clampTwo (2 * lpex.nrows + 2 * lpex.ncols) (costvectTwo lpex lpex.nrows)
        (readExtendedTwo lp lpex.nrows lpex.ncols usefarkas) (lhsCoord lpex.nrows c)
      = max (liftedDual lp lpex usefarkas c) 0
    ∧ clampTwo (2 * lpex.nrows + 2 * lpex.ncols) (costvectTwo lpex lpex.nrows)
        (readExtendedTwo lp lpex.nrows lpex.ncols usefarkas) (rhsCoord lpex.nrows lpex.ncols c)
      = max (-(liftedDual lp lpex usefarkas c)) 0 := by
  obtain ⟨hL, hR⟩ := readExtendedTwo_coords lp lpex.nrows lpex.ncols usefarkas c hc
  obtain ⟨cL, cR⟩ := costvectTwo_coords lpex c hc
  obtain ⟨pL, pR⟩ := properSides_selected lpex hsides c hc
  have hl := liftedDual_eq lp lpex usefarkas c hc
  rw [clampTwo_spec, clampTwo_spec, if_pos (lhsCoord_lt _ _ c hc), if_pos (rhsCoord_lt _ _ c hc),
    hL, hR, cL, cR, hl]
  generalize approxValue lp lpex.nrows usefarkas c = av at *
  by_cases hpos : 0 < av
  · have hP : RisPositive av = true := by simp [RisPositive, hpos]
    simp only [hpos, if_true, hP, Bool.not_true]
    revert pL
    cases selectedSide lpex false c <;>
      simp [RisInfinity, RisNegInfinity, RisAbsInfinity, Rneg, not_lt.mpr (le_of_lt hpos),
        le_of_lt hpos]
  · have hP : RisPositive av = false := by simp [RisPositive, hpos]
    have hle : av ≤ 0 := not_lt.mp hpos
    simp only [hpos, if_false, hP, Bool.not_false]
    revert pR
    cases selectedSide lpex true c <;>
      simp [RisInfinity, RisNegInfinity, RisAbsInfinity, Rneg, hle]

theorem scatterRowTwo_eq (idx : Nat → Nat) (vals : Nat → ℚ) (a b : ℚ) (len : Nat)
    (w0 : Nat → ℚ) (k : Nat) :
    forLoop (fun j w =>
        if a = b then w
        else
          Function.update (Function.update w (idx j) (w (idx j) - a * vals j)) (idx j)
            (Function.update w (idx j) (w (idx j) - a * vals j) (idx j) + b * vals j)) len w0 k
      = w0 k - (a - b) * ∑ t ∈ Finset.range len, (if idx t = k then vals t else 0) := by
  induction len with
  | zero => simp [forLoop_zero]
  | succ n ih =>
    rw [forLoop_succ, Finset.sum_range_succ]
    by_cases hab : a = b
    · rw [if_pos hab, ih, hab]
      ring
    · rw [if_neg hab]
      by_cases h : idx n = k
      · subst h
        rw [Function.update_same, Function.update_same, ih, if_pos rfl]
        ring
      · have h2 : k ≠ idx n := fun e => h e.symm
        rw [Function.update_noteq h2, Function.update_noteq h2, ih, if_neg h]
        ring

theorem rowsTwo_eq (lpex : SCIP_LPEX) (p N : Nat) (a v : Nat → ℚ) (k : Nat) :
    forLoop (fun i v =>
        forLoop (fun j w =>
            let currentrow := (lpex.rows i).cols_index j
            if a i = a (i + p) then w
            else
              let w1 := Function.update w currentrow (w currentrow - a i * (lpex.rows i).vals j)
              Function.update w1 currentrow
                (w1 currentrow + a (i + p) * (lpex.rows i).vals j))
          (lpex.rows i).len v) N v k
      = v k - ∑ i ∈ Finset.range N, (a i - a (i + p)) * coef lpex i k := by
  induction N with
  | zero => simp [forLoop_zero]
  | succ n ih =>
    rw [forLoop_succ, Finset.sum_range_succ]
    have h := scatterRowTwo_eq (lpex.rows n).cols_index (lpex.rows n).vals (a n) (a (n + p))
      (lpex.rows n).len
    dsimp only at h ⊢
    rw [h, ih]
    unfold coef
    ring

/-- The violation computed by `getPSdualTwo` from an extended vector is the violation computed
by `getPSdual` from the signed vector of the differences of its paired coordinates, where no row
was added. -/
theorem violationTwo_eq (lp : SCIP_LP) (lpex : SCIP_LPEX) (usefarkas : Bool) (W y : Nat → ℚ)
    (hrow : ∀ i, i < lpex.nrows → y i = W i - W (i + lpex.nrows))
    (hcol : ∀ j, j < lpex.ncols →
      y (j + lpex.nrows) = W (j + 2 * lpex.nrows) - W (j + 2 * lpex.nrows + lpex.ncols)) :
    violationTwo lp lpex lpex.nrows usefarkas W = computeViolation lpex usefarkas y := by
  funext k
  unfold violationTwo computeViolation initViolation
  have hrange : ∀ (body : Nat → (Nat → ℚ) → (Nat → ℚ)) (v : Nat → ℚ),
      forRange lpex.nrows lpex.nrows body v = v := by
    intro body v
    unfold forRange
    rw [Nat.sub_self, forLoop_zero]
  dsimp only
  rw [hrange, subtractRows_eq]
  rw [forLoop_pointwise
    (fun i x => x - W (i + 2 * lpex.nrows) + W (i + 2 * lpex.nrows + lpex.ncols))]
  · rw [rowsTwo_eq]
    rw [forLoop_pointwise (fun i _ => if !usefarkas then (lpex.cols i).obj else 0) _
      (fun _ _ => rfl)]
    rw [forLoop_pointwise (fun i _ => if !usefarkas then (lpex.cols i).obj - y (i + lpex.nrows)
      else -(y (i + lpex.nrows))) _ (fun _ _ => rfl)]
    have hsum : ∑ i ∈ Finset.range lpex.nrows, (W i - W (i + lpex.nrows)) * coef lpex i k
        = ∑ i ∈ Finset.range lpex.nrows, y i * coef lpex i k :=
      Finset.sum_congr rfl (fun i hi => by rw [hrow i (Finset.mem_range.mp hi)])
    rw [hsum]
    by_cases hk : k < lpex.ncols
    · rw [if_pos hk, if_pos hk, if_pos hk, hcol k hk]
      cases usefarkas
      · simp only [Bool.not_false, if_true]
        ring
      · simp only [Bool.not_true, Bool.false_eq_true, if_false]
        ring
    · rw [if_neg hk, if_neg hk, if_neg hk]
  · intro i v
    by_cases hab : W (i + 2 * lpex.nrows) = W (i + 2 * lpex.nrows + lpex.ncols)
    · rw [if_pos hab, hab]
      have : v i - W (i + 2 * lpex.nrows + lpex.ncols) + W (i + 2 * lpex.nrows + lpex.ncols)
          = v i := by ring
      rw [this, Function.update_eq_self]
    · rw [if_neg hab]
      funext e
      by_cases hei : e = i
      · subst hei
        simp only [Function.update_same]
      · simp only [Function.update_noteq hei]

theorem projectTwo_spec (psbasis : Nat → Nat) (K : Nat) (z a : Nat → ℚ) (e : Nat) :
    projectTwo psbasis K z a e
      = a e + ∑ k ∈ Finset.range K, (if psbasis k = e then z k else 0) := by
  unfold projectTwo
  induction K with
  | zero => simp [forLoop_zero]
  | succ n ih =>
    rw [forLoop_succ, Finset.sum_range_succ]
    by_cases h : psbasis n = e
    · subst h
      rw [Function.update_same, ih, if_pos rfl]
      ring
    · have h2 : e ≠ psbasis n := fun x => h x.symm
      rw [Function.update_noteq h2, ih, if_neg h]
      ring

theorem projectionStep_eq (psbasis : Nat → Nat) (m p shift : Nat) (isupper : Nat → Bool)
    (i : Nat) (s : ProjState) :
    projectionStep psbasis m p shift isupper i s
      = if matchesSide p m shift isupper (psbasis i) = true then
          { correction := Function.update s.correction i
              (s.correction i + sideSign p m (psbasis i)
                * s.approxdual (compactIndex p m shift (psbasis i)))
            approxdual := Function.update s.approxdual (compactIndex p m shift (psbasis i)) 0 }
        else s := by
  unfold projectionStep matchesSide compactIndex sideSign
  by_cases h1 : psbasis i < p
  · simp only [h1, if_true]
    by_cases hu : isupper (psbasis i) = true
    · simp [hu]
    · simp [hu]
  · simp only [h1, if_false]
    by_cases h2 : psbasis i < 2 * p
    · simp only [h2, if_true]
      by_cases hu : isupper (psbasis i - p) = true
      · have hne : ¬ ((-1 : ℚ) = 1) := by norm_num
        simp only [hu, if_true, hne, if_false]
        rw [neg_one_mul, ← sub_eq_add_neg]
      · have hne : ¬ ((-1 : ℚ) = 1) := by norm_num
        simp [hu, hne]
    · simp only [h2, if_false]
      by_cases h3 : psbasis i < 2 * p + m
      · simp only [h3, if_true]
        by_cases hu : isupper (psbasis i - p + shift) = true
        · simp [hu]
        · simp [hu]
      · simp only [h3, if_false]
        by_cases hu : isupper (psbasis i - p - m + shift) = true
        · have hne : ¬ ((-1 : ℚ) = 1) := by norm_num
          simp only [hu, if_true, hne, if_false]
          rw [neg_one_mul, ← sub_eq_add_neg]
        · have hne : ¬ ((-1 : ℚ) = 1) := by norm_num
          simp [hu, hne]

/-- The correction after the projection loop of `getPSdual`: entry `k` has taken up the
multiplier of its row or column where the side matches. -/
theorem projectionLoop_correction (psbasis : Nat → Nat) (K m p shift : Nat)
    (isupper : Nat → Bool) (z y0 : Nat → ℚ)
    (hpair : ∀ k k', k < K → k' < K →
      compactIndex p m shift (psbasis k) = compactIndex p m shift (psbasis k') →
      matchesSide p m shift isupper (psbasis k) = true →
      matchesSide p m shift isupper (psbasis k') = true → k = k')
    (k : Nat) (hk : k < K) :
    (forLoop (projectionStep psbasis m p shift isupper) K
        { correction := z, approxdual := y0 }).correction k
      = z k + (if matchesSide p m shift isupper (psbasis k) = true then
          sideSign p m (psbasis k) * y0 (compactIndex p m shift (psbasis k)) else 0) := by
  have hloop := forLoop_induction
    (fun j (s : ProjState) => j ≤ K →
      (∀ k, s.correction k
        = if k < j then z k + (if matchesSide p m shift isupper (psbasis k) = true then
            sideSign p m (psbasis k) * y0 (compactIndex p m shift (psbasis k)) else 0)
          else z k)
      ∧ (∀ c, (∀ k, k < j → matchesSide p m shift isupper (psbasis k) = true →
            compactIndex p m shift (psbasis k) ≠ c) → s.approxdual c = y0 c))
    (projectionStep psbasis m p shift isupper) { correction := z, approxdual := y0 } K
    (fun _ => ⟨fun k => by rw [if_neg (Nat.not_lt_zero k)], fun c _ => rfl⟩)
    (by
      intro j hj s hs hjK
      obtain ⟨hA, hB⟩ := hs (by omega)
      rw [projectionStep_eq]
      by_cases hm : matchesSide p m shift isupper (psbasis j) = true
      · rw [if_pos hm]
        have hfresh : s.approxdual (compactIndex p m shift (psbasis j))
            = y0 (compactIndex p m shift (psbasis j)) := by
          apply hB
          intro k hkj hmk hc
          have := hpair k j (by omega) hj hc hmk hm
          omega
        refine ⟨?_, ?_⟩
        · intro k
          dsimp only
          by_cases hkj : k = j
          · subst hkj
            rw [Function.update_same, hA k, if_neg (Nat.lt_irrefl k),
              if_pos (Nat.lt_succ_self k), if_pos hm, hfresh]
          · rw [Function.update_noteq hkj, hA k]
            by_cases hlt : k < j
            · rw [if_pos hlt, if_pos (Nat.lt_succ_of_lt hlt)]
            · rw [if_neg hlt, if_neg (by omega)]
        · intro c hc
          dsimp only
          have hne : c ≠ compactIndex p m shift (psbasis j) :=
            fun h => hc j (Nat.lt_succ_self j) hm h.symm
          rw [Function.update_noteq hne]
          exact hB c (fun k hk => hc k (Nat.lt_succ_of_lt hk))
      · rw [if_neg hm]
        refine ⟨?_, ?_⟩
        · intro k
          rw [hA k]
          by_cases hkj : k = j
          · subst hkj
            rw [if_neg (Nat.lt_irrefl k), if_pos (Nat.lt_succ_self k), if_neg hm, add_zero]
          · by_cases hlt : k < j
            · rw [if_pos hlt, if_pos (Nat.lt_succ_of_lt hlt)]
            · rw [if_neg hlt, if_neg (by omega)]
        · intro c hc
          exact hB c (fun k hk => hc k (Nat.lt_succ_of_lt hk)))
  have h := (hloop (le_refl K)).1 k
  rw [if_pos hk] at h
  exact h

/-- A running minimum over the indices that satisfy a test: it is at most the start value and
every tested value, and it is the start value or one of the tested values. -/
theorem minFold_spec (N : Nat) (P : Nat → Bool) (f : Nat → ℚ) (init : ℚ) :
    forLoop (fun i l => if P i = true then min l (f i) else l) N init ≤ init
    ∧ (∀ i, i < N → P i = true →
        forLoop (fun i l => if P i = true then min l (f i) else l) N init ≤ f i)
    ∧ (forLoop (fun i l => if P i = true then min l (f i) else l) N init = init
      ∨ ∃ i, i < N ∧ P i = true
          ∧ forLoop (fun i l => if P i = true then min l (f i) else l) N init = f i) := by
  induction N with
  | zero => exact ⟨le_refl _, fun i hi => absurd hi (Nat.not_lt_zero i), Or.inl rfl⟩
  | succ n ih =>
    obtain ⟨h1, h2, h3⟩ := ih
    rw [forLoop_succ]
    by_cases hP : P n = true
    · rw [if_pos hP]
      refine ⟨le_trans (min_le_left _ _) h1, ?_, ?_⟩
      · intro i hi hPi
        by_cases hin : i = n
        · subst hin
          exact min_le_right _ _
        · exact le_trans (min_le_left _ _) (h2 i (by omega) hPi)
      · rcases le_total (forLoop (fun i l => if P i = true then min l (f i) else l) n init)
          (f n) with hle | hle
        · rw [min_eq_left hle]
          rcases h3 with h | ⟨i, hi, hPi, h⟩
          · exact Or.inl h
          · exact Or.inr ⟨i, Nat.lt_succ_of_lt hi, hPi, h⟩
        · rw [min_eq_right hle]
          exact Or.inr ⟨n, Nat.lt_succ_self n, hP, rfl⟩
    · rw [if_neg hP]
      refine ⟨h1, ?_, ?_⟩
      · intro i hi hPi
        by_cases hin : i = n
        · subst hin
          exact absurd hPi hP
        · exact h2 i (by omega) hPi
      · rcases h3 with h | ⟨i, hi, hPi, h⟩
        · exact Or.inl h
        · exact Or.inr ⟨i, Nat.lt_succ_of_lt hi, hPi, h⟩

theorem maxFold_spec (N : Nat) (P : Nat → Bool) (f : Nat → ℚ) (init : ℚ) :
    init ≤ forLoop (fun i l => if P i = true then max l (f i) else l) N init
    ∧ (∀ i, i < N → P i = true →
        f i ≤ forLoop (fun i l => if P i = true then max l (f i) else l) N init)
    ∧ (forLoop (fun i l => if P i = true then max l (f i) else l) N init = init
      ∨ ∃ i, i < N ∧ P i = true
          ∧ forLoop (fun i l => if P i = true then max l (f i) else l) N init = f i) := by
  induction N with
  | zero => exact ⟨le_refl _, fun i hi => absurd hi (Nat.not_lt_zero i), Or.inl rfl⟩
  | succ n ih =>
    obtain ⟨h1, h2, h3⟩ := ih
    rw [forLoop_succ]
    by_cases hP : P n = true
    · rw [if_pos hP]
      refine ⟨le_trans h1 (le_max_left _ _), ?_, ?_⟩
      · intro i hi hPi
        by_cases hin : i = n
        · subst hin
          exact le_max_right _ _
        · exact le_trans (h2 i (by omega) hPi) (le_max_left _ _)
      · rcases le_total (f n)
          (forLoop (fun i l => if P i = true then max l (f i) else l) n init) with hle | hle
        · rw [max_eq_left hle]
          rcases h3 with h | ⟨i, hi, hPi, h⟩
          · exact Or.inl h
          · exact Or.inr ⟨i, Nat.lt_succ_of_lt hi, hPi, h⟩
        · rw [max_eq_right hle]
          exact Or.inr ⟨n, Nat.lt_succ_self n, hP, rfl⟩
    · rw [if_neg hP]
      refine ⟨h1, ?_, ?_⟩
      · intro i hi hPi
        by_cases hin : i = n
        · subst hin
          exact absurd hPi hP
        · exact h2 i (by omega) hPi
      · rcases h3 with h | ⟨i, hi, hPi, h⟩
        · exact Or.inl h
        · exact Or.inr ⟨i, Nat.lt_succ_of_lt hi, hPi, h⟩

/-- Two running minima from the same start value agree when every tested value of one is a
tested value of the other. -/
theorem minFold_eq (N N2 : Nat) (P P2 : Nat → Bool) (f f2 : Nat → ℚ) (init : ℚ)
    (h12 : ∀ i, i < N → P i = true → ∃ j, j < N2 ∧ P2 j = true ∧ f2 j = f i)
    (h21 : ∀ j, j < N2 → P2 j = true → ∃ i, i < N ∧ P i = true ∧ f i = f2 j) :
    forLoop (fun i l => if P i = true then min l (f i) else l) N init
      = forLoop (fun i l => if P2 i = true then min l (f2 i) else l) N2 init := by
  obtain ⟨a1, a2, a3⟩ := minFold_spec N P f init
  obtain ⟨b1, b2, b3⟩ := minFold_spec N2 P2 f2 init
  apply le_antisymm
  · rcases b3 with h | ⟨j, hj, hPj, h⟩
    · rw [h]; exact a1
    · obtain ⟨i, hi, hPi, hf⟩ := h21 j hj hPj
      rw [h, ← hf]
      exact a2 i hi hPi
  · rcases a3 with h | ⟨i, hi, hPi, h⟩
    · rw [h]; exact b1
    · obtain ⟨j, hj, hPj, hf⟩ := h12 i hi hPi
      rw [h, ← hf]
      exact b2 j hj hPj

theorem maxFold_eq (N N2 : Nat) (P P2 : Nat → Bool) (f f2 : Nat → ℚ) (init : ℚ)
    (h12 : ∀ i, i < N → P i = true → ∃ j, j < N2 ∧ P2 j = true ∧ f2 j = f i)
    (h21 : ∀ j, j < N2 → P2 j = true → ∃ i, i < N ∧ P i = true ∧ f i = f2 j) :
    forLoop (fun i l => if P i = true then max l (f i) else l) N init
      = forLoop (fun i l => if P2 i = true then max l (f2 i) else l) N2 init := by
  obtain ⟨a1, a2, a3⟩ := maxFold_spec N P f init
  obtain ⟨b1, b2, b3⟩ := maxFold_spec N2 P2 f2 init
  apply le_antisymm
  · rcases a3 with h | ⟨i, hi, hPi, h⟩
    · rw [h]; exact b1
    · obtain ⟨j, hj, hPj, hf⟩ := h12 i hi hPi
      rw [h, ← hf]
      exact b2 j hj hPj
  · rcases b3 with h | ⟨j, hj, hPj, h⟩
    · rw [h]; exact a1
    · obtain ⟨i, hi, hPi, hf⟩ := h21 j hj hPj
      rw [h, ← hf]
      exact a2 i hi hPi

/-- The shifting weights of `getPSdual` and `getPSdualTwo` agree when the correction of the
basis entries is the extended vector on the coordinates of the basis and the extended vector is
negative on such coordinates only. -/
theorem computeLambda_agree (psdata : SCIP_PSDATA) (useinteriorpoint : Bool)
    (corr W : Nat → ℚ)
    (h1 : ∀ k, k < psdata.npsbasis →
      psdata.psbasis k < psdata.nextendedrows ∧ W (psdata.psbasis k) = corr k)
    (h2 : ∀ e, e < psdata.nextendedrows → W e < 0 →
      ∃ k, k < psdata.npsbasis ∧ psdata.psbasis k = e) :
    computeLambda psdata useinteriorpoint corr = computeLambdaTwo psdata useinteriorpoint W := by
  cases useinteriorpoint
  · rw [computeLambdaTwo_ray]
    unfold computeLambda
    simp only [Bool.false_eq_true, if_false]
    rw [lambda2Ray_eq]
    congr 1
    apply maxFold_eq _ _ (fun i => RisNegative (corr i) && psdata.includedrows (psdata.psbasis i))
      (fun i => RisNegative (W i) && psdata.includedrows i)
    · intro k hk hP
      refine ⟨psdata.psbasis k, (h1 k hk).1, ?_, ?_⟩
      · rw [(h1 k hk).2]; exact hP
      · rw [(h1 k hk).2]
    · intro e he hP
      have hneg : W e < 0 := by
        have : RisNegative (W e) = true := by
          revert hP
          cases RisNegative (W e) <;> simp
        simpa [RisNegative] using this
      obtain ⟨k, hk, hke⟩ := h2 e he hneg
      refine ⟨k, hk, ?_, ?_⟩
      · rw [← (h1 k hk).2, hke]; exact hP
      · rw [← (h1 k hk).2, hke]
  · rw [computeLambdaTwo_point, computeLambda_point, lambda1Point_eq]
    have hl := minFold_eq psdata.npsbasis psdata.nextendedrows
      (fun i => RisNegative (corr i)) (fun i => RisNegative (W i))
      (fun i => psdata.interiorpt (psdata.psbasis i)
        / (psdata.interiorpt (psdata.psbasis i) - corr i))
      (fun i => psdata.interiorpt i / (psdata.interiorpt i - W i)) 1
      (by
        intro k hk hP
        refine ⟨psdata.psbasis k, (h1 k hk).1, ?_, ?_⟩
        · dsimp only at hP ⊢
          rw [(h1 k hk).2]; exact hP
        · dsimp only
          rw [(h1 k hk).2])
      (by
        intro e he hP
        have hneg : W e < 0 := by simpa [RisNegative] using hP
        obtain ⟨k, hk, hke⟩ := h2 e he hneg
        refine ⟨k, hk, ?_, ?_⟩
        · dsimp only at hP ⊢
          rw [← (h1 k hk).2, hke]; exact hP
        · dsimp only
          rw [← (h1 k hk).2, hke])
    rw [hl]


theorem shiftTwo_spec (N : Nat) (interior : Nat → ℚ) (lambda1 lambda2 : ℚ) (a : Nat → ℚ)
    (e : Nat) :
    shiftTwo N interior lambda1 lambda2 a e
      = if lambda2 = 0 then a e
        else if e < N then a e * lambda1 + interior e * lambda2 else a e := by
  unfold shiftTwo
  by_cases h0 : lambda2 = 0
  · subst h0
    simp [RisZero]
  · have hz : RisZero lambda2 = false := by simp [RisZero, h0]
    simp only [hz, Bool.not_false, if_true, h0, if_false]
    rw [forLoop_pointwise (fun i x => x + interior i * lambda2) _ (fun _ _ => rfl),
      forLoop_pointwise (fun _ x => x * lambda1) _ (fun _ _ => rfl)]
    by_cases he : e < N
    · rw [if_pos he, if_pos he, if_pos he]
    · rw [if_neg he, if_neg he, if_neg he]

/-- One loop of the pairwise simplification over the pairs `(f i, g i)`, `i < N`, of distinct
positions: both entries of a pair lose the smaller one when it is positive, the other entries
stay. -/
theorem pairLoop_spec (N : Nat) (f g : Nat → Nat)
    (hfg : ∀ i j, i < N → j < N → f i ≠ g j)
    (hf : ∀ i j, i < N → j < N → f i = f j → i = j)
    (hg : ∀ i j, i < N → j < N → g i = g j → i = j) (a0 : Nat → ℚ) :
    (∀ i, i < N →
      forLoop (fun i a =>
          let tmp := min (a (f i)) (a (g i))
          if RisPositive tmp then
            let a1 := Function.update a (f i) (a (f i) - tmp)
            Function.update a1 (g i) (a1 (g i) - tmp)
          else a) N a0 (f i)
        = a0 (f i)
          - (if 0 < min (a0 (f i)) (a0 (g i)) then min (a0 (f i)) (a0 (g i)) else 0)
      ∧ forLoop (fun i a =>
          let tmp := min (a (f i)) (a (g i))
          if RisPositive tmp then
            let a1 := Function.update a (f i) (a (f i) - tmp)
            Function.update a1 (g i) (a1 (g i) - tmp)
          else a) N a0 (g i)
        = a0 (g i)
          - (if 0 < min (a0 (f i)) (a0 (g i)) then min (a0 (f i)) (a0 (g i)) else 0))
    ∧ (∀ e, (∀ i, i < N → e ≠ f i ∧ e ≠ g i) →
      forLoop (fun i a =>
          let tmp := min (a (f i)) (a (g i))
          if RisPositive tmp then
            let a1 := Function.update a (f i) (a (f i) - tmp)
            Function.update a1 (g i) (a1 (g i) - tmp)
          else a) N a0 e = a0 e) := by
  induction N with
  | zero => exact ⟨fun i hi => absurd hi (Nat.not_lt_zero i), fun e _ => rfl⟩
  | succ n ih =>
    have hn : n < n + 1 := Nat.lt_succ_self n
    obtain ⟨g1, g2⟩ := ih (fun i j hi hj => hfg i j (by omega) (by omega))
      (fun i j hi hj => hf i j (by omega) (by omega))
      (fun i j hi hj => hg i j (by omega) (by omega))
    have hf1 := g2 (f n) (fun i hi => ⟨fun h => by have := hf n i hn (by omega) h; omega,
      fun h => hfg n i hn (by omega) h⟩)
    have hf2 := g2 (g n) (fun i hi => ⟨fun h => hfg i n (by omega) hn h.symm,
      fun h => by have := hg n i hn (by omega) h; omega⟩)
    have hne12 : f n ≠ g n := hfg n n hn hn
    refine ⟨?_, ?_⟩
    · intro i hi
      rw [forLoop_succ]
      dsimp only
      rw [hf1, hf2]
      by_cases hin : i = n
      · subst hin
        by_cases hp : 0 < min (a0 (f i)) (a0 (g i))
        · have hP : RisPositive (min (a0 (f i)) (a0 (g i))) = true := by
            simp only [RisPositive, decide_eq_true_eq]; exact hp
          rw [if_pos hP, if_pos hp, Function.update_noteq hne12, Function.update_same,
            Function.update_same, Function.update_noteq hne12.symm, hf2]
          exact ⟨rfl, rfl⟩
        · have hP : ¬ RisPositive (min (a0 (f i)) (a0 (g i))) = true := by
            simp only [RisPositive, decide_eq_true_eq]; exact hp
          rw [if_neg hP, if_neg hp, hf1, hf2, sub_zero, sub_zero]
          exact ⟨rfl, rfl⟩
      · have hlt : i < n := by omega
        have e1 : f i ≠ f n := fun h => hin (hf i n hi hn h)
        have e2 : f i ≠ g n := hfg i n hi hn
        have e3 : g i ≠ f n := fun h => hfg n i hn hi h.symm
        have e4 : g i ≠ g n := fun h => hin (hg i n hi hn h)
        by_cases hP : RisPositive (min (a0 (f n)) (a0 (g n))) = true
        · rw [if_pos hP, Function.update_noteq e2, Function.update_noteq e1,
            Function.update_noteq e4, Function.update_noteq e3]
          exact g1 i hlt
        · rw [if_neg hP]
          exact g1 i hlt
    · intro e he
      rw [forLoop_succ]
      dsimp only
      have hprev := g2 e (fun i hi => he i (Nat.lt_succ_of_lt hi))
      rw [hf1, hf2]
      by_cases hP : RisPositive (min (a0 (f n)) (a0 (g n))) = true
      · rw [if_pos hP, Function.update_noteq (he n hn).2, Function.update_noteq (he n hn).1]
        exact hprev
      · rw [if_neg hP]
        exact hprev

theorem pairwiseSimplify_coords (n m : Nat) (a : Nat → ℚ) (c : Nat) (hc : c < n + m) :
    pairwiseSimplify n m a (lhsCoord n c)
      = a (lhsCoord n c)
        - (if 0 < min (a (lhsCoord n c)) (a (rhsCoord n m c))
            then min (a (lhsCoord n c)) (a (rhsCoord n m c)) else 0)
    ∧ pairwiseSimplify n m a (rhsCoord n m c)
      = a (rhsCoord n m c)
        - (if 0 < min (a (lhsCoord n c)) (a (rhsCoord n m c))
            then min (a (lhsCoord n c)) (a (rhsCoord n m c)) else 0) := by
  have h1 := pairLoop_spec n (fun i => i) (fun i => i + n)
    (fun i j hi hj => by dsimp only; omega) (fun i j _ _ h => h)
    (fun i j _ _ h => by dsimp only at h; omega) a
  have h2 := pairLoop_spec m (fun i => i + 2 * n) (fun i => i + 2 * n + m)
    (fun i j hi hj => by dsimp only; omega) (fun i j _ _ h => by dsimp only at h; omega)
    (fun i j _ _ h => by dsimp only at h; omega)
    (forLoop (fun i a =>
      let tmp := min (a i) (a (i + n))
      if RisPositive tmp then
        let a1 := Function.update a i (a i - tmp)
        Function.update a1 (i + n) (a1 (i + n) - tmp)
      else a) n a)
  dsimp only at h1 h2
  unfold pairwiseSimplify
  dsimp only
  by_cases hcn : c < n
  · have el : lhsCoord n c = c := by simp [lhsCoord, hcn]
    have er : rhsCoord n m c = c + n := by simp [rhsCoord, hcn]
    rw [el, er, h2.2 c (fun i _ => ⟨by omega, by omega⟩),
      h2.2 (c + n) (fun i _ => ⟨by omega, by omega⟩)]
    exact h1.1 c hcn
  · have el : lhsCoord n c = (c - n) + 2 * n := by simp [lhsCoord, hcn]; omega
    have er : rhsCoord n m c = (c - n) + 2 * n + m := by simp [rhsCoord, hcn]; omega
    rw [el, er]
    have h3 := h2.1 (c - n) (by omega)
    rw [h1.2 (c - n + 2 * n) (fun i _ => ⟨by omega, by omega⟩),
      h1.2 (c - n + 2 * n + m) (fun i _ => ⟨by omega, by omega⟩)] at h3
    exact h3

/-- Pairwise simplification of a nonnegative extended vector leaves the positive part of the
difference on the `lhs` side and the negative part on the `rhs` side. -/
theorem pairwiseSimplify_canonical (n m : Nat) (a : Nat → ℚ) (c : Nat) (hc : c < n + m)
    (hl : 0 ≤ a (lhsCoord n c)) (hr : 0 ≤ a (rhsCoord n m c)) :
    pairwiseSimplify n m a (lhsCoord n c) = max (a (lhsCoord n c) - a (rhsCoord n m c)) 0
    ∧ pairwiseSimplify n m a (rhsCoord n m c)
      = max (-(a (lhsCoord n c) - a (rhsCoord n m c))) 0 := by
  obtain ⟨h1, h2⟩ := pairwiseSimplify_coords n m a c hc
  rw [h1, h2]
  generalize a (lhsCoord n c) = u at hl hr ⊢
  generalize a (rhsCoord n m c) = v at hr ⊢
  rcases le_total u v with huv | huv
  · rw [min_eq_left huv, max_eq_right (by linarith), max_eq_left (by linarith)]
    split_ifs <;> constructor <;> linarith
  · rw [min_eq_right huv, max_eq_left (by linarith), max_eq_right (by linarith)]
    split_ifs <;> constructor <;> linarith


theorem sum_coords (n m : Nat) (f : Nat → ℚ) :
    ∑ e ∈ Finset.range (2 * n + 2 * m), f e
      = ∑ c ∈ Finset.range (n + m), (f (lhsCoord n c) + f (rhsCoord n m c)) := by
  have e1 : 2 * n + 2 * m = n + n + m + m := by ring
  rw [e1, Finset.sum_range_add, Finset.sum_range_add, Finset.sum_range_add,
    Finset.sum_range_add (fun c => f (lhsCoord n c) + f (rhsCoord n m c)),
    Finset.sum_add_distrib, Finset.sum_add_distrib]
  have h1 : ∑ c ∈ Finset.range n, f (lhsCoord n c) = ∑ c ∈ Finset.range n, f c :=
    Finset.sum_congr rfl (fun c hc => by
      rw [lhsCoord, if_pos (Finset.mem_range.mp hc)])
  have h2 : ∑ c ∈ Finset.range n, f (rhsCoord n m c) = ∑ c ∈ Finset.range n, f (n + c) :=
    Finset.sum_congr rfl (fun c hc => by
      rw [rhsCoord, if_pos (Finset.mem_range.mp hc), Nat.add_comm])
  have h3 : ∑ c ∈ Finset.range m, f (lhsCoord n (n + c))
      = ∑ c ∈ Finset.range m, f (n + n + c) :=
    Finset.sum_congr rfl (fun c _ => by
      rw [lhsCoord, if_neg (show ¬ n + c < n by omega)]
      congr 1
      omega)
  have h4 : ∑ c ∈ Finset.range m, f (rhsCoord n m (n + c))
      = ∑ c ∈ Finset.range m, f (n + n + m + c) :=
    Finset.sum_congr rfl (fun c _ => by
      rw [rhsCoord, if_neg (show ¬ n + c < n by omega)]
      congr 1
      omega)
  rw [h1, h2, h3, h4]
  ring

theorem finVal_Rneg (r : SCIP_Rational) : finVal (Rneg r) = -finVal r := by
  cases r <;> simp [Rneg, finVal]

theorem RisAbsInfinity_Rneg (r : SCIP_Rational) : RisAbsInfinity (Rneg r) = RisAbsInfinity r := by
  cases r <;> simp [Rneg, RisAbsInfinity]

/-- The objective of `getPSdualTwo` on an extended vector that holds the positive part of `y` on
the `lhs` side and the negative part on the `rhs` side is the objective of `getPSdual` on `y`,
also where it has no defined value. -/
theorem dualObjectiveTwo_canonical (lpex : SCIP_LPEX) (y W : Nat → ℚ)
    (hW : ∀ c, c < lpex.nrows + lpex.ncols →
      W (lhsCoord lpex.nrows c) = max (y c) 0
      ∧ W (rhsCoord lpex.nrows lpex.ncols c) = max (-(y c)) 0) :
    dualObjectiveTwo (2 * lpex.nrows + 2 * lpex.ncols) (costvectTwo lpex lpex.nrows) W
      = dualObjective lpex y := by
  rw [dualObjective_eq]
  unfold dualObjectiveTwo
  by_cases hbad : ∃ c, c < lpex.nrows + lpex.ncols
      ∧ RisAbsInfinity (pairedBound lpex y c) = true ∧ y c ≠ 0
  · rw [raddProdLoop_none y _ _ hbad]
    obtain ⟨c, hc, hinf, hy⟩ := hbad
    obtain ⟨hl, hr⟩ := hW c hc
    obtain ⟨cl, cr⟩ := costvectTwo_coords lpex c hc
    by_cases hpos : 0 < y c
    · have hP : RisPositive (y c) = true := by simp [RisPositive, hpos]
      refine raddProdLoop_none W _ _ ⟨lhsCoord lpex.nrows c, lhsCoord_lt _ _ c hc, ?_, ?_⟩
      · rw [cl]
        simpa [pairedBound, hP] using hinf
      · rw [hl, max_eq_left (le_of_lt hpos)]
        exact hy
    · have hP : RisPositive (y c) = false := by simp [RisPositive, hpos]
      refine raddProdLoop_none W _ _
        ⟨rhsCoord lpex.nrows lpex.ncols c, rhsCoord_lt _ _ c hc, ?_, ?_⟩
      · rw [cr, RisAbsInfinity_Rneg]
        simpa [pairedBound, hP] using hinf
      · rw [hr, max_eq_left (by linarith [not_lt.mp hpos])]
        exact neg_ne_zero.mpr hy
  · have hgood : ∀ c, c < lpex.nrows + lpex.ncols →
        RisAbsInfinity (pairedBound lpex y c) = true → y c = 0 := by
      intro c hc hinf
      by_contra hy
      exact hbad ⟨c, hc, hinf, hy⟩
    rw [raddProdLoop_some y _ _ hgood]
    have hgoodW : ∀ e, e < 2 * lpex.nrows + 2 * lpex.ncols →
        RisAbsInfinity (costvectTwo lpex lpex.nrows e) = true → W e = 0 := by
      intro e he hinf
      obtain ⟨c, hc, hcase⟩ := coord_cases lpex.nrows lpex.ncols e he
      obtain ⟨hl, hr⟩ := hW c hc
      obtain ⟨cl, cr⟩ := costvectTwo_coords lpex c hc
      by_cases hpos : 0 < y c
      · have hP : RisPositive (y c) = true := by simp [RisPositive, hpos]
        rcases hcase with h | h
        · rw [h, cl] at hinf
          have := hgood c hc (by simpa [pairedBound, hP] using hinf)
          rw [this] at hpos
          exact absurd hpos (lt_irrefl 0)
        · rw [h, hr, max_eq_right (by linarith)]
      · have hP : RisPositive (y c) = false := by simp [RisPositive, hpos]
        rcases hcase with h | h
        · rw [h, hl, max_eq_right (not_lt.mp hpos)]
        · rw [h, cr, RisAbsInfinity_Rneg] at hinf
          have := hgood c hc (by simpa [pairedBound, hP] using hinf)
          rw [h, hr, this]
          simp
    rw [raddProdLoop_some W _ _ hgoodW, sum_coords]
    congr 1
    apply Finset.sum_congr rfl
    intro c hcm
    have hc := Finset.mem_range.mp hcm
    obtain ⟨hl, hr⟩ := hW c hc
    obtain ⟨cl, cr⟩ := costvectTwo_coords lpex c hc
    rw [hl, hr, cl, cr, finVal_Rneg]
    by_cases hpos : 0 < y c
    · have hP : RisPositive (y c) = true := by simp [RisPositive, hpos]
      rw [max_eq_left (le_of_lt hpos), max_eq_right (by linarith)]
      simp [pairedBound, hP]
    · have hP : RisPositive (y c) = false := by simp [RisPositive, hpos]
      rw [max_eq_right (not_lt.mp hpos), max_eq_left (by linarith [not_lt.mp hpos])]
      simp [pairedBound, hP]


theorem compact_coords (n m e : Nat) (he : e < 2 * n + 2 * m) :
    compactIndex n m 0 e < n + m
    ∧ ((sideSign n m e = 1 ∧ e = lhsCoord n (compactIndex n m 0 e))
      ∨ (sideSign n m e = -1 ∧ e = rhsCoord n m (compactIndex n m 0 e))) := by
  unfold compactIndex sideSign lhsCoord rhsCoord
  by_cases h1 : e < n
  · simp only [if_pos h1]
    exact ⟨by omega, Or.inl ⟨trivial, trivial⟩⟩
  · by_cases h2 : e < 2 * n
    · simp only [if_neg h1, if_pos h2]
      refine ⟨by omega, Or.inr ⟨trivial, ?_⟩⟩
      rw [if_pos (by omega)]
      omega
    · by_cases h3 : e < 2 * n + m
      · simp only [if_neg h1, if_neg h2, if_pos h3]
        refine ⟨by omega, Or.inl ⟨trivial, ?_⟩⟩
        rw [if_neg (by omega)]
        omega
      · simp only [if_neg h1, if_neg h2, if_neg h3]
        refine ⟨by omega, Or.inr ⟨trivial, ?_⟩⟩
        rw [if_neg (by omega)]
        omega

theorem compact_of_coord (n m c : Nat) (hc : c < n + m) :
    (compactIndex n m 0 (lhsCoord n c) = c ∧ sideSign n m (lhsCoord n c) = 1)
    ∧ (compactIndex n m 0 (rhsCoord n m c) = c ∧ sideSign n m (rhsCoord n m c) = -1) := by
  unfold compactIndex sideSign lhsCoord rhsCoord
  by_cases h1 : c < n
  · simp only [if_pos h1]
    refine ⟨⟨trivial, trivial⟩, ?_, ?_⟩
    · rw [if_neg (by omega), if_pos (by omega)]
      omega
    · rw [if_neg (by omega), if_pos (by omega)]
  · simp only [if_neg h1]
    refine ⟨⟨?_, ?_⟩, ?_, ?_⟩
    · rw [if_neg (by omega), if_neg (by omega), if_pos (by omega)]
      omega
    · rw [if_neg (by omega), if_neg (by omega), if_pos (by omega)]
    · rw [if_neg (by omega), if_neg (by omega), if_neg (by omega)]
      omega
    · rw [if_neg (by omega), if_neg (by omega), if_neg (by omega)]

/-- The lifted value of `getPSdual` keeps the sign of the value read: nonnegative where the value
is strictly positive, nonpositive elsewhere. -/
theorem liftedDual_sign_of_value (lp : SCIP_LP) (lpex : SCIP_LPEX) (usefarkas : Bool) (c : Nat)
    (hc : c < lpex.nrows + lpex.ncols) :
    (0 < approxValue lp lpex.nrows usefarkas c → 0 ≤ liftedDual lp lpex usefarkas c)
    ∧ (¬ 0 < approxValue lp lpex.nrows usefarkas c → liftedDual lp lpex usefarkas c ≤ 0) := by
  rw [liftedDual_eq lp lpex usefarkas c hc]
  constructor
  · intro h
    split_ifs
    · exact le_refl 0
    · exact le_of_lt h
  · intro h
    split_ifs
    · exact le_refl 0
    · exact not_lt.mp h

/-- The value that the projection step of `getPSdual` moves into the correction at a basis
position is the clamped entry of `getPSdualTwo` at that extended coordinate. -/
theorem matched_value (lp : SCIP_LP) (lpex : SCIP_LPEX) (usefarkas : Bool)
    (hsides : properSides lpex) (e : Nat) (he : e < 2 * lpex.nrows + 2 * lpex.ncols) :
    (if matchesSide lpex.nrows lpex.ncols 0
          (computeIsupper (readApproxdual lp lpex.nrows lpex.ncols usefarkas)) e = true then
        sideSign lpex.nrows lpex.ncols e
          * liftedDual lp lpex usefarkas (compactIndex lpex.nrows lpex.ncols 0 e)
      else 0)
      = clampTwo (2 * lpex.nrows + 2 * lpex.ncols) (costvectTwo lpex lpex.nrows)
          (readExtendedTwo lp lpex.nrows lpex.ncols usefarkas) e := by
  obtain ⟨hc, hcase⟩ := compact_coords lpex.nrows lpex.ncols e he
  generalize compactIndex lpex.nrows lpex.ncols 0 e = c at hc hcase
  obtain ⟨hl, hr⟩ := clampedTwo_coords lp lpex usefarkas hsides c hc
  obtain ⟨s1, s2⟩ := liftedDual_sign_of_value lp lpex usefarkas c hc
  obtain ⟨⟨c1, _⟩, c2, _⟩ := compact_of_coord lpex.nrows lpex.ncols c hc
  have hup : computeIsupper (readApproxdual lp lpex.nrows lpex.ncols usefarkas) c
      = !RisPositive (approxValue lp lpex.nrows usefarkas c) := by
    unfold computeIsupper
    rw [readApproxdual_eq lp lpex.nrows lpex.ncols usefarkas c hc]
  rcases hcase with ⟨hs, hE⟩ | ⟨hs, hE⟩
  · unfold matchesSide
    rw [if_pos hs, hs, one_mul]
    rw [hE] at hs ⊢
    rw [c1, hl, hup]
    by_cases hpos : 0 < approxValue lp lpex.nrows usefarkas c
    · have hP : RisPositive (approxValue lp lpex.nrows usefarkas c) = true := by
        simp [RisPositive, hpos]
      simp only [hP, Bool.not_true, Bool.not_false, if_true]
      exact (max_eq_left (s1 hpos)).symm
    · have hP : RisPositive (approxValue lp lpex.nrows usefarkas c) = false := by
        simp [RisPositive, hpos]
      simp only [hP, Bool.not_false, Bool.not_true, Bool.false_eq_true, if_false]
      exact (max_eq_right (s2 hpos)).symm
  · unfold matchesSide
    have hs1 : ¬ sideSign lpex.nrows lpex.ncols e = 1 := by rw [hs]; norm_num
    rw [if_neg hs1, hs]
    rw [hE]
    rw [c2, hr, hup]
    by_cases hpos : 0 < approxValue lp lpex.nrows usefarkas c
    · have hP : RisPositive (approxValue lp lpex.nrows usefarkas c) = true := by
        simp [RisPositive, hpos]
      simp only [hP, Bool.not_true, Bool.false_eq_true, if_false]
      exact (max_eq_right (by linarith [s1 hpos])).symm
    · have hP : RisPositive (approxValue lp lpex.nrows usefarkas c) = false := by
        simp [RisPositive, hpos]
      simp only [hP, Bool.not_false, if_true]
      rw [max_eq_left (by linarith [s2 hpos])]
      ring

theorem matched_pair (n m K : Nat) (psbasis : Nat → Nat) (isupper : Nat → Bool)
    (hrange : ∀ k, k < K → psbasis k < 2 * n + 2 * m)
    (hinj : ∀ k k', k < K → k' < K → psbasis k = psbasis k' → k = k')
    (k k' : Nat) (hk : k < K) (hk' : k' < K)
    (hsame : compactIndex n m 0 (psbasis k) = compactIndex n m 0 (psbasis k'))
    (h1 : matchesSide n m 0 isupper (psbasis k) = true)
    (h2 : matchesSide n m 0 isupper (psbasis k') = true) : k = k' := by
  apply hinj k k' hk hk'
  obtain ⟨_, ha⟩ := compact_coords n m (psbasis k) (hrange k hk)
  obtain ⟨_, hb⟩ := compact_coords n m (psbasis k') (hrange k' hk')
  unfold matchesSide at h1 h2
  rw [← hsame] at hb h2
  rcases ha with ⟨sa, ea⟩ | ⟨sa, ea⟩ <;> rcases hb with ⟨sb, eb⟩ | ⟨sb, eb⟩
  · rw [ea, eb]
  · have hsb : ¬ sideSign n m (psbasis k') = 1 := by rw [sb]; norm_num
    rw [if_pos sa] at h1
    rw [if_neg hsb] at h2
    rw [h2] at h1
    exact absurd h1 (by simp)
  · have hsa : ¬ sideSign n m (psbasis k) = 1 := by rw [sa]; norm_num
    rw [if_neg hsa] at h1
    rw [if_pos sb] at h2
    rw [h1] at h2
    exact absurd h2 (by simp)
  · rw [ea, eb]

/-- With no rows added, the signed vector that `z` stands for is the difference of the `lhs` and
the `rhs` coordinate of its extended image. -/
theorem spread_coords (n m K : Nat) (psbasis : Nat → Nat) (z : Nat → ℚ)
    (hrange : ∀ k, k < K → psbasis k < 2 * n + 2 * m) (c : Nat) (hc : c < n + m) :
    spread psbasis K n m 0 z c
      = ∑ k ∈ Finset.range K, (if psbasis k = lhsCoord n c then z k else 0)
        - ∑ k ∈ Finset.range K, (if psbasis k = rhsCoord n m c then z k else 0) := by
  unfold spread
  rw [← Finset.sum_sub_distrib]
  apply Finset.sum_congr rfl
  intro k hk
  obtain ⟨_, ha⟩ := compact_coords n m (psbasis k) (hrange k (Finset.mem_range.mp hk))
  obtain ⟨⟨c1, s1⟩, c2, s2⟩ := compact_of_coord n m c hc
  have hne : lhsCoord n c ≠ rhsCoord n m c := by
    intro h
    rw [h, s2] at s1
    norm_num at s1
  by_cases hl : psbasis k = lhsCoord n c
  · rw [hl, c1, s1, if_pos rfl, if_pos rfl, if_neg hne]
    ring
  · by_cases hr : psbasis k = rhsCoord n m c
    · rw [hr, c2, s2, if_pos rfl, if_neg hne.symm, if_pos rfl]
      ring
    · rw [if_neg hl, if_neg hr]
      have : ¬ compactIndex n m 0 (psbasis k) = c := by
        intro h
        rw [h] at ha
        rcases ha with ⟨_, ea⟩ | ⟨_, ea⟩
        · exact hl ea
        · exact hr ea
      rw [if_neg this]
      ring


theorem guardedLoop_skip (c : Nat → Bool) (g : Nat → ℚ → ℚ) (n : Nat) (l0 : ℚ)
    (h : ∀ i, i < n → c i = false) :
    forLoop (fun i l => if c i then g i l else l) n l0 = l0 := by
  refine forLoop_induction (fun _ t => t = l0) _ l0 n rfl ?_
  intro i hi t ht
  dsimp only
  rw [h i hi, ht]
  rfl

/-- On an extended vector without a negative entry `getPSdualTwo` finds `lambda1 = 1` and
`lambda2 = 0`. -/
theorem computeLambdaTwo_of_nonneg (psdata : SCIP_PSDATA) (useinteriorpoint : Bool)
    (W : Nat → ℚ) (hW : ∀ e, e < psdata.nextendedrows → 0 ≤ W e) :
    computeLambdaTwo psdata useinteriorpoint W = (1, 0) := by
  have hneg : ∀ e, e < psdata.nextendedrows → RisNegative (W e) = false := by
    intro e he
    simp only [RisNegative, decide_eq_false_iff_not, not_lt]
    exact hW e he
  cases useinteriorpoint with
  | true =>
    rw [computeLambdaTwo_point,
      guardedLoop_skip (fun i => RisNegative (W i))
        (fun i l => min l (psdata.interiorpt i / (psdata.interiorpt i - W i))) _ 1 hneg]
    norm_num
  | false =>
    rw [computeLambdaTwo_ray,
      guardedLoop_skip (fun i => RisNegative (W i) && psdata.includedrows i)
        (fun i l => max l (-(W i / psdata.interiorray i))) _ RcreateTemp
        (fun i hi => by dsimp only; rw [hneg i hi]; rfl)]
    rfl

/-- The projected and shifted vectors of the two functions, for the same correction `z`: the
weights agree, the extended vector of `getPSdualTwo` is nonnegative, and the signed vector of
`getPSdual` is the difference of its `lhs` and `rhs` coordinates. -/
theorem shifted_relation (lpex : SCIP_LPEX) (useinteriorpoint : Bool) (isupper : Nat → Bool)
    (z W0 y0 : Nat → ℚ)
    (hext : lpex.psdata.nextendedrows = 2 * lpex.nrows + 2 * lpex.ncols)
    (hbasis : ∀ k, k < lpex.psdata.npsbasis →
      lpex.psdata.psbasis k < 2 * lpex.nrows + 2 * lpex.ncols)
    (hinv : certificateInvariants lpex
      (if useinteriorpoint then lpex.psdata.interiorpt else lpex.psdata.interiorray))
    (hW0 : ∀ c, c < lpex.nrows + lpex.ncols →
      W0 (lhsCoord lpex.nrows c) = max (y0 c) 0
      ∧ W0 (rhsCoord lpex.nrows lpex.ncols c) = max (-(y0 c)) 0)
    (hmatch : ∀ e, e < 2 * lpex.nrows + 2 * lpex.ncols →
      (if matchesSide lpex.nrows lpex.ncols 0 isupper e = true then
          sideSign lpex.nrows lpex.ncols e * y0 (compactIndex lpex.nrows lpex.ncols 0 e)
        else 0) = W0 e) :
    computeLambda lpex.psdata useinteriorpoint
        (forLoop (projectionStep lpex.psdata.psbasis lpex.ncols lpex.nrows 0 isupper)
          lpex.psdata.npsbasis { correction := z, approxdual := y0 }).correction
      = computeLambdaTwo lpex.psdata useinteriorpoint
          (projectTwo lpex.psdata.psbasis lpex.psdata.npsbasis z W0)
    ∧ ∀ lambda : ℚ × ℚ, lambda = computeLambda lpex.psdata useinteriorpoint
        (forLoop (projectionStep lpex.psdata.psbasis lpex.ncols lpex.nrows 0 isupper)
          lpex.psdata.npsbasis { correction := z, approxdual := y0 }).correction →
      ∀ c, c < lpex.nrows + lpex.ncols →
        0 ≤ shiftTwo (2 * lpex.nrows + 2 * lpex.ncols)
            (if useinteriorpoint then lpex.psdata.interiorpt else lpex.psdata.interiorray)
            lambda.1 lambda.2 (projectTwo lpex.psdata.psbasis lpex.psdata.npsbasis z W0)
            (lhsCoord lpex.nrows c)
        ∧ 0 ≤ shiftTwo (2 * lpex.nrows + 2 * lpex.ncols)
            (if useinteriorpoint then lpex.psdata.interiorpt else lpex.psdata.interiorray)
            lambda.1 lambda.2 (projectTwo lpex.psdata.psbasis lpex.psdata.npsbasis z W0)
            (rhsCoord lpex.nrows lpex.ncols c)
        ∧ performShift lpex.nrows lpex.ncols lpex.nrows 0
            (if useinteriorpoint then lpex.psdata.interiorpt else lpex.psdata.interiorray)
            lambda.1 lambda.2
            (transformBack lpex.psdata.psbasis lpex.psdata.npsbasis lpex.ncols lpex.nrows 0
              (forLoop (projectionStep lpex.psdata.psbasis lpex.ncols lpex.nrows 0 isupper)
                lpex.psdata.npsbasis { correction := z, approxdual := y0 }).correction
              (forLoop (projectionStep lpex.psdata.psbasis lpex.ncols lpex.nrows 0 isupper)
                lpex.psdata.npsbasis { correction := z, approxdual := y0 }).approxdual) c
          = shiftTwo (2 * lpex.nrows + 2 * lpex.ncols)
              (if useinteriorpoint then lpex.psdata.interiorpt else lpex.psdata.interiorray)
              lambda.1 lambda.2 (projectTwo lpex.psdata.psbasis lpex.psdata.npsbasis z W0)
              (lhsCoord lpex.nrows c)
            - shiftTwo (2 * lpex.nrows + 2 * lpex.ncols)
              (if useinteriorpoint then lpex.psdata.interiorpt else lpex.psdata.interiorray)
              lambda.1 lambda.2 (projectTwo lpex.psdata.psbasis lpex.psdata.npsbasis z W0)
              (rhsCoord lpex.nrows lpex.ncols c) := by
  obtain ⟨hinj, hpos, hint⟩ := hinv
  have hcorr : ∀ k, k < lpex.psdata.npsbasis →
      (forLoop (projectionStep lpex.psdata.psbasis lpex.ncols lpex.nrows 0 isupper)
        lpex.psdata.npsbasis { correction := z, approxdual := y0 }).correction k
        = z k + W0 (lpex.psdata.psbasis k) := by
    intro k hk
    rw [projectionLoop_correction lpex.psdata.psbasis lpex.psdata.npsbasis lpex.ncols lpex.nrows
      0 isupper z y0
      (fun k k' hk hk' => matched_pair lpex.nrows lpex.ncols lpex.psdata.npsbasis
        lpex.psdata.psbasis isupper hbasis hinj k k' hk hk') k hk,
      hmatch _ (hbasis k hk)]
  have hpres := projectionLoop_preserves lpex.psdata.psbasis lpex.psdata.npsbasis lpex.ncols
    lpex.nrows 0 isupper { correction := z, approxdual := y0 }
  generalize forLoop (projectionStep lpex.psdata.psbasis lpex.ncols lpex.nrows 0 isupper)
      lpex.psdata.npsbasis { correction := z, approxdual := y0 } = s at hcorr hpres ⊢
  dsimp only at hpres
  have hW1 := projectTwo_spec lpex.psdata.psbasis lpex.psdata.npsbasis z W0
  have hW1b : ∀ k, k < lpex.psdata.npsbasis →
      projectTwo lpex.psdata.psbasis lpex.psdata.npsbasis z W0 (lpex.psdata.psbasis k)
        = s.correction k := by
    intro k hk
    rw [hW1, hcorr k hk, Finset.sum_eq_single k]
    · rw [if_pos rfl]
      ring
    · intro k' hk' hne
      rw [if_neg]
      intro h
      exact hne (hinj k' k (Finset.mem_range.mp hk') hk h)
    · intro h
      exact absurd (Finset.mem_range.mpr hk) h
  have hW1off : ∀ e, (∀ k, k < lpex.psdata.npsbasis → lpex.psdata.psbasis k ≠ e) →
      projectTwo lpex.psdata.psbasis lpex.psdata.npsbasis z W0 e = W0 e := by
    intro e he
    rw [hW1, Finset.sum_eq_zero, add_zero]
    intro k hk
    rw [if_neg (he k (Finset.mem_range.mp hk))]
  have hW0nn : ∀ e, e < 2 * lpex.nrows + 2 * lpex.ncols → 0 ≤ W0 e := by
    intro e he
    obtain ⟨c, hc, hcase⟩ := coord_cases lpex.nrows lpex.ncols e he
    rcases hcase with h | h
    · rw [h, (hW0 c hc).1]
      exact le_max_right _ _
    · rw [h, (hW0 c hc).2]
      exact le_max_right _ _
  have hagree := computeLambda_agree lpex.psdata useinteriorpoint s.correction
    (projectTwo lpex.psdata.psbasis lpex.psdata.npsbasis z W0)
    (fun k hk => ⟨by rw [hext]; exact hbasis k hk, hW1b k hk⟩)
    (by
      intro e he hneg
      by_contra hno
      have hoff := hW1off e (fun k hk h => hno ⟨k, hk, h⟩)
      rw [hoff] at hneg
      rw [hext] at he
      exact absurd (hW0nn e he) (not_le.mpr hneg))
  refine ⟨hagree, ?_⟩
  intro lambda hlam c hc
  obtain ⟨g1, g2, g3, g4⟩ := computeLambda_guarantee lpex.psdata useinteriorpoint s.correction
    (fun k hk => ⟨(hpos k hk).1, (hpos k hk).2.2⟩)
  rw [← hlam] at g1 g2 g3 g4
  generalize (if useinteriorpoint then lpex.psdata.interiorpt else lpex.psdata.interiorray)
    = interior at hint g4 ⊢
  have hW2 : ∀ e, e < 2 * lpex.nrows + 2 * lpex.ncols →
      shiftTwo (2 * lpex.nrows + 2 * lpex.ncols) interior lambda.1 lambda.2
          (projectTwo lpex.psdata.psbasis lpex.psdata.npsbasis z W0) e
        = lambda.1 * projectTwo lpex.psdata.psbasis lpex.psdata.npsbasis z W0 e
          + lambda.2 * interior e := by
    intro e he
    rw [shiftTwo_spec]
    by_cases h0 : lambda.2 = 0
    · rw [if_pos h0, h0, g3 h0]
      ring
    · rw [if_neg h0, if_pos he]
      ring
  have hW2nn : ∀ e, e < 2 * lpex.nrows + 2 * lpex.ncols →
      0 ≤ shiftTwo (2 * lpex.nrows + 2 * lpex.ncols) interior lambda.1 lambda.2
          (projectTwo lpex.psdata.psbasis lpex.psdata.npsbasis z W0) e := by
    intro e he
    rw [hW2 e he]
    by_cases hon : ∃ k, k < lpex.psdata.npsbasis ∧ lpex.psdata.psbasis k = e
    · obtain ⟨k, hk, hke⟩ := hon
      rw [← hke, hW1b k hk]
      exact g4 k hk
    · rw [hW1off e (fun k hk h => hon ⟨k, hk, h⟩)]
      exact add_nonneg (mul_nonneg g1 (hW0nn e he)) (mul_nonneg g2 (hint e).1)
  refine ⟨hW2nn _ (lhsCoord_lt _ _ c hc), hW2nn _ (rhsCoord_lt _ _ c hc), ?_⟩
  rw [hW2 _ (lhsCoord_lt _ _ c hc), hW2 _ (rhsCoord_lt _ _ c hc), performShift_eq,
    transformBack_eq, hpres c, hW1, hW1,
    spread_coords lpex.nrows lpex.ncols lpex.psdata.npsbasis lpex.psdata.psbasis z hbasis c hc]
  have hy0 : y0 c = W0 (lhsCoord lpex.nrows c) - W0 (rhsCoord lpex.nrows lpex.ncols c) := by
    rw [(hW0 c hc).1, (hW0 c hc).2]
    rcases le_total 0 (y0 c) with h | h
    · rw [max_eq_left h, max_eq_right (by linarith)]
      ring
    · rw [max_eq_right h, max_eq_left (by linarith)]
      ring
  have hsv : shiftVector lpex.nrows lpex.ncols lpex.nrows 0 interior c
      = interior (lhsCoord lpex.nrows c) - interior (rhsCoord lpex.nrows lpex.ncols c) := by
    unfold shiftVector lhsCoord rhsCoord
    rw [if_pos ⟨hc, fun h => absurd h.1 (not_lt.mpr h.2)⟩]
    rfl
  rw [hsv, hy0]
  by_cases h0 : lambda.2 = 0
  · rw [if_pos h0, h0, g3 h0]
    ring
  · rw [if_neg h0, if_pos ⟨hc, fun h => absurd h.1 (not_lt.mpr h.2)⟩]
    ring


/-- With no rows added, the final vectors of the two functions stand for the same signed dual
vector: both runs end at a failed triangular solve, or the extended vector of `getPSdualTwo`
holds the positive part of the vector of `getPSdual` on the `lhs` side and the negative part on
the `rhs` side. -/
theorem finalDual_agree (ext : External) (lp : SCIP_LP) (lpex : SCIP_LPEX) (usefarkas : Bool)
    (hext : lpex.psdata.nextendedrows = 2 * lpex.nrows + 2 * lpex.ncols)
    (hsides : properSides lpex)
    (hbasis : ∀ k, k < lpex.psdata.npsbasis →
      lpex.psdata.psbasis k < lpex.psdata.nextendedrows)
    (hinv : certificateInvariants lpex
      (if (!usefarkas && lpex.psdata.psuseintpoint && lpex.psdata.pshaspoint) = true
        then lpex.psdata.interiorpt else lpex.psdata.interiorray)) :
    (finalDual ext lp lpex usefarkas = none ∧ finalDualTwo ext lp lpex usefarkas = none)
    ∨ ∃ y W, finalDual ext lp lpex usefarkas = some y
        ∧ finalDualTwo ext lp lpex usefarkas = some W
        ∧ ∀ c, c < lpex.nrows + lpex.ncols →
            W (lhsCoord lpex.nrows c) = max (y c) 0
            ∧ W (rhsCoord lpex.nrows lpex.ncols c) = max (-(y c)) 0 := by
  have hn : lpex.psdata.nextendedrows / 2 - lpex.ncols = lpex.nrows := by
    rw [hext]
    omega
  have hW0 := clampedTwo_coords lp lpex usefarkas hsides
  have hviol : violationTwo lp lpex lpex.nrows usefarkas
      (clampTwo (2 * lpex.nrows + 2 * lpex.ncols) (costvectTwo lpex lpex.nrows)
        (readExtendedTwo lp lpex.nrows lpex.ncols usefarkas))
      = computeViolation lpex usefarkas (liftedDual lp lpex usefarkas) := by
    apply violationTwo_eq
    · intro i hi
      have h := hW0 i (by omega)
      have el : lhsCoord lpex.nrows i = i := by simp [lhsCoord, hi]
      have er : rhsCoord lpex.nrows lpex.ncols i = i + lpex.nrows := by simp [rhsCoord, hi]
      rw [el, er] at h
      rw [h.1, h.2]
      rcases le_total 0 (liftedDual lp lpex usefarkas i) with h0 | h0
      · rw [max_eq_left h0, max_eq_right (by linarith)]
        ring
      · rw [max_eq_right h0, max_eq_left (by linarith)]
        ring
    · intro j hj
      have h := hW0 (j + lpex.nrows) (by omega)
      have el : lhsCoord lpex.nrows (j + lpex.nrows) = j + 2 * lpex.nrows := by
        unfold lhsCoord
        rw [if_neg (by omega)]
        omega
      have er : rhsCoord lpex.nrows lpex.ncols (j + lpex.nrows)
          = j + 2 * lpex.nrows + lpex.ncols := by
        unfold rhsCoord
        rw [if_neg (by omega)]
        omega
      rw [el, er] at h
      rw [h.1, h.2]
      rcases le_total 0 (liftedDual lp lpex usefarkas (j + lpex.nrows)) with h0 | h0
      · rw [max_eq_left h0, max_eq_right (by linarith)]
        ring
      · rw [max_eq_right h0, max_eq_left (by linarith)]
        ring
  unfold finalDual finalDualTwo projectAndShift
  dsimp only
  rw [hn]
  simp only [hext, Nat.sub_self]
  rw [hviol]
  simp only [liftedDual_unfold]
  have hbasis2 : ∀ k, k < lpex.psdata.npsbasis →
      lpex.psdata.psbasis k < 2 * lpex.nrows + 2 * lpex.ncols := by
    intro k hk
    rw [← hext]
    exact hbasis k hk
  have hW0nn : ∀ e, e < lpex.psdata.nextendedrows →
      0 ≤ clampTwo (2 * lpex.nrows + 2 * lpex.ncols) (costvectTwo lpex lpex.nrows)
        (readExtendedTwo lp lpex.nrows lpex.ncols usefarkas) e := by
    intro e he
    rw [hext] at he
    obtain ⟨c, hc, hcase⟩ := coord_cases lpex.nrows lpex.ncols e he
    rcases hcase with h | h
    · rw [h, (hW0 c hc).1]
      exact le_max_right _ _
    · rw [h, (hW0 c hc).2]
      exact le_max_right _ _
  by_cases hfeas : (!computeIsfeas lpex.ncols
      (computeViolation lpex usefarkas (liftedDual lp lpex usefarkas))) = true
  · simp only [hfeas, if_true]
    cases hsol : ext.RECTLUsolveSystem lpex.ncols (2 * lpex.nrows + 2 * lpex.ncols)
        (computeViolation lpex usefarkas (liftedDual lp lpex usefarkas)) with
    | none => exact Or.inl ⟨rfl, rfl⟩
    | some z =>
      right
      obtain ⟨hlam, hrel⟩ := shifted_relation lpex
        (!usefarkas && lpex.psdata.psuseintpoint && lpex.psdata.pshaspoint)
        (computeIsupper (readApproxdual lp lpex.nrows lpex.ncols usefarkas)) z _
        (liftedDual lp lpex usefarkas) hext hbasis2 hinv hW0
        (matched_value lp lpex usefarkas hsides)
      refine ⟨_, _, rfl, rfl, ?_⟩
      intro c hc
      dsimp only
      rw [← hlam]
      obtain ⟨r1, r2, r3⟩ := hrel _ rfl c hc
      rw [r3]
      exact pairwiseSimplify_canonical lpex.nrows lpex.ncols _ c hc r1 r2
  · simp only [hfeas, if_false]
    right
    refine ⟨_, _, rfl, rfl, ?_⟩
    intro c hc
    dsimp only
    rw [computeLambdaTwo_of_nonneg lpex.psdata _ _ hW0nn]
    have hid : shiftTwo (2 * lpex.nrows + 2 * lpex.ncols)
        (if (!usefarkas && lpex.psdata.psuseintpoint && lpex.psdata.pshaspoint) = true
          then lpex.psdata.interiorpt else lpex.psdata.interiorray) (1, 0).1 (1, 0).2
        (clampTwo (2 * lpex.nrows + 2 * lpex.ncols) (costvectTwo lpex lpex.nrows)
          (readExtendedTwo lp lpex.nrows lpex.ncols usefarkas))
        = clampTwo (2 * lpex.nrows + 2 * lpex.ncols) (costvectTwo lpex lpex.nrows)
          (readExtendedTwo lp lpex.nrows lpex.ncols usefarkas) := by
      funext e
      rw [shiftTwo_spec, if_pos rfl]
    rw [hid]
    obtain ⟨c1, c2⟩ := pairwiseSimplify_canonical lpex.nrows lpex.ncols
      (clampTwo (2 * lpex.nrows + 2 * lpex.ncols) (costvectTwo lpex lpex.nrows)
        (readExtendedTwo lp lpex.nrows lpex.ncols usefarkas)) c hc
      (by rw [(hW0 c hc).1]; exact le_max_right _ _)
      (by rw [(hW0 c hc).2]; exact le_max_right _ _)
    have hy0 : clampTwo (2 * lpex.nrows + 2 * lpex.ncols) (costvectTwo lpex lpex.nrows)
          (readExtendedTwo lp lpex.nrows lpex.ncols usefarkas) (lhsCoord lpex.nrows c)
        - clampTwo (2 * lpex.nrows + 2 * lpex.ncols) (costvectTwo lpex lpex.nrows)
          (readExtendedTwo lp lpex.nrows lpex.ncols usefarkas)
            (rhsCoord lpex.nrows lpex.ncols c)
        = liftedDual lp lpex usefarkas c := by
      rw [(hW0 c hc).1, (hW0 c hc).2]
      rcases le_total 0 (liftedDual lp lpex usefarkas c) with h0 | h0
      · rw [max_eq_left h0, max_eq_right (by linarith)]
        ring
      · rw [max_eq_right h0, max_eq_left (by linarith)]
        ring
    rw [hy0] at c1 c2
    exact ⟨c1, c2⟩


/-- C30: when no rows were added since the construction of the project-and-shift data
(`nextendedrows = 2 * nrows + 2 * ncols`, so that `nrowsps = nrows`), `getPSdual` and
`getPSdualTwo` agree for every floating-point LP, purpose and triangular solve, on a relaxation
whose bounds lie on their own sides and a certificate with the invariants of the construction
whose basis lies in the extended space: the exact dual bound is the same, also where it has no
defined value; both calls return, with the same `hasprovedbound` flag and the same statistics, and
in bound mode with the same floating-point LP (the same `lp->lpobjval`). -/
theorem getPSdual_getPSdualTwo_agree (ext : External) (lp : SCIP_LP) (lpex : SCIP_LPEX)
    (stat : SCIP_STAT) (usefarkas : Bool)
    (hext : lpex.psdata.nextendedrows = 2 * lpex.nrows + 2 * lpex.ncols)
    (hsides : properSides lpex)
    (hbasis : ∀ k, k < lpex.psdata.npsbasis →
      lpex.psdata.psbasis k < lpex.psdata.nextendedrows)
    (hinv : certificateInvariants lpex
      (if (!usefarkas && lpex.psdata.psuseintpoint && lpex.psdata.pshaspoint) = true
        then lpex.psdata.interiorpt else lpex.psdata.interiorray)) :
    (finalDualTwo ext lp lpex usefarkas).bind
        (dualObjectiveTwo lpex.psdata.nextendedrows (costvectTwo lpex (nrowsPS lpex)))
      = (finalDual ext lp lpex usefarkas).bind (dualObjective lpex)
    ∧ ∃ r r2, getPSdual ext lp lpex stat usefarkas = some r
        ∧ getPSdualTwo ext lp lpex stat usefarkas = some r2
        ∧ r2.1.hasprovedbound = r.1.hasprovedbound
        ∧ r2.2.2 = r.2.2
        ∧ (usefarkas = false → r2.1 = r.1) := by
  have hn : lpex.psdata.nextendedrows / 2 - lpex.ncols = lpex.nrows := by
    rw [hext]
    omega
  have hobj : ∀ lp0 : SCIP_LP,
      (finalDualTwo ext lp0 lpex usefarkas).bind
          (dualObjectiveTwo (2 * lpex.nrows + 2 * lpex.ncols) (costvectTwo lpex lpex.nrows))
        = (finalDual ext lp0 lpex usefarkas).bind (dualObjective lpex) := by
    intro lp0
    rcases finalDual_agree ext lp0 lpex usefarkas hext hsides hbasis hinv with
      ⟨h1, h2⟩ | ⟨y, W, h1, h2, h3⟩
    · rw [h1, h2]
      rfl
    · rw [h1, h2]
      exact dualObjectiveTwo_canonical lpex y W h3
  refine ⟨?_, ?_⟩
  · unfold nrowsPS
    rw [hn, hext]
    exact hobj lp
  · obtain ⟨r, hr⟩ := getPSdual_returns ext lp lpex stat usefarkas
      (by unfold nrowsPS; rw [hn]) hinv
    have hmap : (getPSdualTwo ext lp lpex stat usefarkas).map
          (fun r => (r.1.hasprovedbound, r.2.2, if usefarkas = false then some r.1 else none))
        = (getPSdual ext lp lpex stat usefarkas).map
          (fun r => (r.1.hasprovedbound, r.2.2, if usefarkas = false then some r.1 else none)) := by
      have hfin := hobj { lp with hasprovedbound := true }
      unfold getPSdual getPSdualTwo
      dsimp only
      rw [hn, hext]
      by_cases hg : ((lpex.psdata.psdatafail && !usefarkas)
          || (usefarkas && !lpex.psdata.pshasray)) = true
      · rw [if_pos hg, if_pos hg]
      · rw [if_neg hg, if_neg hg]
        by_cases hir : hasInvalidRow { lp with hasprovedbound := true } lpex.nrows usefarkas
            = true
        · rw [if_pos hir, if_pos hir]
        · rw [if_neg hir, if_neg hir]
          cases hT : finalDualTwo ext { lp with hasprovedbound := true } lpex usefarkas with
          | none =>
            cases hO : finalDual ext { lp with hasprovedbound := true } lpex usefarkas with
            | none => rfl
            | some y =>
              rw [hT, hO] at hfin
              rcases finalDual_agree ext { lp with hasprovedbound := true } lpex usefarkas hext
                hsides hbasis hinv with ⟨h1, _⟩ | ⟨_, _, _, h2, _⟩
              · rw [hO] at h1
                exact Option.noConfusion h1
              · rw [hT] at h2
                exact Option.noConfusion h2
          | some W =>
            cases hO : finalDual ext { lp with hasprovedbound := true } lpex usefarkas with
            | none =>
              rcases finalDual_agree ext { lp with hasprovedbound := true } lpex usefarkas hext
                hsides hbasis hinv with ⟨_, h2⟩ | ⟨_, _, h1, _, _⟩
              · rw [hT] at h2
                exact Option.noConfusion h2
              · rw [hO] at h1
                exact Option.noConfusion h1
            | some y =>
              rw [hT, hO] at hfin
              simp only [Option.some_bind] at hfin
              dsimp only
              rw [hfin]
              cases hd : dualObjective lpex y with
              | none => rfl
              | some d =>
                dsimp only
                unfold storeBound storeBoundTwo
                cases usefarkas with
                | false => rfl
                | true =>
                  by_cases hp : RisPositive d = true
                  · simp [hp]
                  · simp [hp]
    rw [hr] at hmap
    cases h2 : getPSdualTwo ext lp lpex stat usefarkas with
    | none =>
      rw [h2] at hmap
      exact Option.noConfusion hmap
    | some r2 =>
      rw [h2] at hmap
      simp only [Option.map_some', Option.some.injEq, Prod.mk.injEq] at hmap
      refine ⟨r, r2, hr, rfl, hmap.1, hmap.2.1, ?_⟩
      intro hu
      have h3 := hmap.2.2
      rw [if_pos hu, if_pos hu] at h3
      exact Option.some.inj h3

/-- Witness of C30: the relaxation `x + y ≤ 10` with its all-finite selection, the row dual `1`
and the correction `(1, 0, 0, 0, 0)` of the triangular solve, in bound mode. -/
theorem getPSdual_getPSdualTwo_agree_witness :
    (sumLpex.psdata.nextendedrows = 2 * sumLpex.nrows + 2 * sumLpex.ncols
      ∧ properSides sumLpex
      ∧ (∀ k, k < sumLpex.psdata.npsbasis →
          sumLpex.psdata.psbasis k < sumLpex.psdata.nextendedrows)
      ∧ certificateInvariants sumLpex sumLpex.psdata.interiorpt)
    ∧ (finalDualTwo (mkExternal (fun _ => some (firstEntry 1))) (sumLp 1) sumLpex false).bind
          (dualObjectiveTwo sumLpex.psdata.nextendedrows (costvectTwo sumLpex (nrowsPS sumLpex)))
        = (finalDual (mkExternal (fun _ => some (firstEntry 1))) (sumLp 1) sumLpex false).bind
            (dualObjective sumLpex)
      ∧ ∃ r r2, getPSdual (mkExternal (fun _ => some (firstEntry 1))) (sumLp 1) sumLpex zeroStat
            false = some r
          ∧ getPSdualTwo (mkExternal (fun _ => some (firstEntry 1))) (sumLp 1) sumLpex zeroStat
            false = some r2
          ∧ r2.1.hasprovedbound = r.1.hasprovedbound
          ∧ r2.2.2 = r.2.2
          ∧ (false = false → r2.1 = r.1) :=
  ⟨⟨rfl, sum_properSides, fun _ hk => Nat.succ_lt_succ hk, sum_certificateInvariants⟩,
    getPSdual_getPSdualTwo_agree (mkExternal (fun _ => some (firstEntry 1))) (sumLp 1) sumLpex
      zeroStat false rfl sum_properSides (fun _ hk => Nat.succ_lt_succ hk)
      sum_certificateInvariants⟩


/-! ## The early return of `SCIPcomputeSafeBound` -/

/-- C38: if exact solving mode is off or a bound is already proved at entry,
`SCIPcomputeSafeBound` returns the state it was given, whatever the collaborators (the bounding
methods, the construction of the certificate and the exact LP solver) would do: `lp->lpobjval`,
`lp->hasprovedbound`, `lp->lpsolstat`, the certificate data, the statistics and `*safebound` are
unchanged. -/
theorem SCIPcomputeSafeBound_early_return (col : Collaborators) (ext : External)
    (scipset : SCIP_SET) (st : BoundingState) (dualfarkas : Bool)
    (h : scipset.misc_exactsolve = false ∨ st.lp.hasprovedbound = true) :
    SCIPcomputeSafeBound col ext scipset st dualfarkas = some st := by
  unfold SCIPcomputeSafeBound
  rw [if_pos]
  rcases h with h | h
  · rw [h]
    rfl
  · rw [h]
    exact Bool.or_true _

/-- Witness of C38: with exact solving mode off, the call on `cutLpex` returns the state as it
was. -/
theorem SCIPcomputeSafeBound_early_return_witness :
    ({ misc_exactsolve := false, misc_dbmethod := 'a' } : SCIP_SET).misc_exactsolve = false
    ∧ SCIPcomputeSafeBound shiftFailsCollaborators (mkExternal cutSolve)
        { misc_exactsolve := false, misc_dbmethod := 'a' } (mkState cutLp cutLpex) false
      = some (mkState cutLp cutLpex) :=
  ⟨rfl, SCIPcomputeSafeBound_early_return shiftFailsCollaborators (mkExternal cutSolve)
    { misc_exactsolve := false, misc_dbmethod := 'a' } (mkState cutLp cutLpex) false
    (Or.inl rfl)⟩

/-! ## The counters of `getPSdual` -/

theorem sum_finalDual_unsolved :
    finalDual (mkExternal (fun _ => none)) (sumLp 1) sumLpex false = none := by
  unfold finalDual projectAndShift
  simp only [liftedDual_unfold, sum_violation_nonzero, Bool.not_false, if_true]
  rfl

/-- C36 (failing input): one call of `getPSdual` in bound mode on `x + y ≤ 10` with the row dual
`1` and a failing triangular solve, from zeroed counters: the call is counted in
`nprojshiftinf`, the failure in `nfailprojshift`, and `nfailprojshift = 1` exceeds
`nprojshift = 0`. -/
theorem getPSdual_failure_counter_exceeds_calls :
    ∃ r, getPSdual (mkExternal (fun _ => none)) (sumLp 1) sumLpex zeroStat false = some r
      ∧ r.2.2.nprojshift = 0
      ∧ r.2.2.nprojshiftinf = 1
      ∧ r.2.2.nfailprojshift = 1
      ∧ ¬ r.2.2.nfailprojshift ≤ r.2.2.nprojshift := by
  have hguard : ((sumLpex.psdata.psdatafail && !false)
      || (false && !sumLpex.psdata.pshasray)) = false := rfl
  have hvalid : hasInvalidRow (sumLp 1) sumLpex.nrows false = false := by
    norm_num [hasInvalidRow, sumLp, sumLpex, SCIP_INVALID, List.range, List.range.loop]
  unfold getPSdual
  simp only [hguard, Bool.false_eq_true, if_false, hasInvalidRow_congr, hvalid, finalDual_congr,
    sum_finalDual_unsolved]
  exact ⟨_, rfl, rfl, rfl, rfl, by decide⟩


/-! ## The recorded size of the scratch array `approxdual` -/

/-- C37 (failing input): on `cutLpex`, whose scratch arrays were constructed when only the first
row was present (two entries, `approxdualsize = 2`), the call of `getPSdual` after the cut was
added (`nrows + ncols = 3`) returns with `psdata->approxdualsize = 3` while `psdata->approxdual`
refers to the block of two entries: the grown block is held by the local pointer only. -/
theorem getPSdual_recorded_size_exceeds_block :
    (constructedScratch cutLpexAtConstruction).approxdualsize
        ≤ (constructedScratch cutLpexAtConstruction).approxdualcap
    ∧ (constructedScratch cutLpexAtConstruction).approxdualsize < cutLpex.nrows + cutLpex.ncols
    ∧ ∀ buf : PsBuffers,
      ∃ r, getPSdualPersistent (mkExternal cutSolve) cutLp cutLpex zeroStat false
            (constructedScratch cutLpexAtConstruction) buf = some r
        ∧ r.2.approxdualsize = 3
        ∧ r.2.approxdualcap = 2
        ∧ ¬ r.2.approxdualsize ≤ r.2.approxdualcap := by
  refine ⟨by decide, by decide, ?_⟩
  intro buf
  have hrun := getPSdual_of_evaluated (mkExternal cutSolve) cutLp cutLpex zeroStat false
    cutFinal (9 / 4) (by simp [passesGuard, cutLpex])
    (by norm_num [hasInvalidRow, cutLp, cutLpex, SCIP_INVALID, List.range, List.range.loop])
    cut_finalDual cut_dualObjective
  have hfirst := getPSdualPersistent_eq (mkExternal cutSolve) cutLp cutLpex zeroStat false
    (constructedScratch cutLpexAtConstruction) buf (by simp [passesGuard, cutLpex])
    (fun h => absurd h (by decide)) rfl rfl
  rw [hrun, Option.map_some'] at hfirst
  exact ⟨_, hfirst, rfl, rfl, by decide⟩


/-! ## The certificate that `getPSdual` takes -/

/-- A solution without a zero entry leaves `pshaspoint` set. -/
theorem scaledPoint_of_nonzero (includedrows : Nat → Bool) (dvarmap : Nat → Nat)
    (ndvarmap : Nat) (sol : Nat → ℚ) (lambda : ℚ) (interiorpt : Nat → ℚ)
    (h : ∀ i, i < ndvarmap → sol i ≠ 0) :
    (scaledPoint includedrows dvarmap ndvarmap sol lambda interiorpt).pshaspoint = true := by
  unfold scaledPoint
  have key := forLoop_induction
    (fun _ (s : PointScan) => s.left = false ∧ s.pshaspoint = true)
    (fun i (s : PointScan) =>
      if s.left then s
      else if includedrows (dvarmap i) && RisZero (sol i) then
        { s with pshaspoint := false, left := true }
      else { s with interiorpt := Function.update s.interiorpt (dvarmap i) (sol i / lambda) })
    { interiorpt := interiorpt, pshaspoint := true, left := false } ndvarmap
    ⟨rfl, rfl⟩
    (by
      intro i hi t ht
      dsimp only
      have hz : RisZero (sol i) = false := by simp [RisZero, h i hi]
      rw [ht.1, hz]
      simp only [Bool.false_eq_true, if_false, Bool.and_false]
      exact ⟨trivial, ht.2⟩)
  exact key.2

/-- The flags after the computation of the arbitrary point in transposed form from an auxiliary
LP that ends optimal. -/
theorem psComputeSintPointRay_point_built (col : Collaborators) (lp : SCIP_LP)
    (lpex : SCIP_LPEX) (hsel : lpex.psdata.psintpointselection = PS_INTPOINTSEL.ARBDUAL)
    (hopt : (col.auxSolveDual (auxProblemArbDual col lpex)).isOptimal = true) :
    (psComputeSintPointRay col lp lpex true).psdata.pshaspoint
      = (scaledPoint lpex.psdata.includedrows (dvarmapOf col lpex).1 (dvarmapOf col lpex).2
          (col.auxSolveDual (auxProblemArbDual col lpex)).primsol
          ((col.auxSolveDual (auxProblemArbDual col lpex)).primsol (dvarmapOf col lpex).2)
          lpex.psdata.interiorpt).pshaspoint := by
  unfold psComputeSintPointRay
  simp [hsel, hopt]

/-- C31 (failing input): on `x + y ≤ 10` with the interior ray as preference
(`psuseintpoint = FALSE`), a successful factorization, a ray LP that does not end optimal and a
point LP that does, `constructPSData` ends with `pshaspoint = TRUE`, `pshasray = FALSE` and
`psdatafail = FALSE`; a bound call of `getPSdual` on this state passes the guard, does not take
the interior point, and reaches `assert( psdata->pshasray )` with `pshasray = FALSE`. -/
theorem constructPSData_point_only_fails_ray_assertion :
    (constructPSData pointOnlyCollaborators (mkExternal (fun _ => none))
        (mkState (sumLp (-1)) sumLpexRayPreferred)).lpex.psdata.psuseintpoint = false
    ∧ (constructPSData pointOnlyCollaborators (mkExternal (fun _ => none))
        (mkState (sumLp (-1)) sumLpexRayPreferred)).lpex.psdata.pshaspoint = true
    ∧ (constructPSData pointOnlyCollaborators (mkExternal (fun _ => none))
        (mkState (sumLp (-1)) sumLpexRayPreferred)).lpex.psdata.pshasray = false
    ∧ (constructPSData pointOnlyCollaborators (mkExternal (fun _ => none))
        (mkState (sumLp (-1)) sumLpexRayPreferred)).lpex.psdata.psdatafail = false
    ∧ passesGuard (constructPSData pointOnlyCollaborators (mkExternal (fun _ => none))
        (mkState (sumLp (-1)) sumLpexRayPreferred)).lpex false
    ∧ rayAssertion (constructPSData pointOnlyCollaborators (mkExternal (fun _ => none))
        (mkState (sumLp (-1)) sumLpexRayPreferred)).lpex.psdata false = false := by
  have hfl := psFactorizeD_flags pointOnlyCollaborators
    (psChooseS pointOnlyCollaborators (mkExternal (fun _ => none))
      (beginConstruction (mkState (sumLp (-1)) sumLpexRayPreferred))).lpex
  have hch := psChooseS_flags pointOnlyCollaborators (mkExternal (fun _ => none))
    (beginConstruction (mkState (sumLp (-1)) sumLpexRayPreferred))
  have hfac : (psFactorizeD pointOnlyCollaborators
      (psChooseS pointOnlyCollaborators (mkExternal (fun _ => none))
        (beginConstruction (mkState (sumLp (-1)) sumLpexRayPreferred))).lpex).psdata.psdatafail
      = false := by
    simp [psFactorizeD, pointOnlyCollaborators, mkCollaborators, hch.2.1]
    rfl
  have hcon : (mkState (sumLp (-1)) sumLpexRayPreferred).lpex.psdata.psdatacon = false := rfl
  have hstate : (constructPSData pointOnlyCollaborators (mkExternal (fun _ => none))
        (mkState (sumLp (-1)) sumLpexRayPreferred)).lpex.psdata.psuseintpoint = false
      ∧ (constructPSData pointOnlyCollaborators (mkExternal (fun _ => none))
        (mkState (sumLp (-1)) sumLpexRayPreferred)).lpex.psdata.pshaspoint = true
      ∧ (constructPSData pointOnlyCollaborators (mkExternal (fun _ => none))
        (mkState (sumLp (-1)) sumLpexRayPreferred)).lpex.psdata.pshasray = false
      ∧ (constructPSData pointOnlyCollaborators (mkExternal (fun _ => none))
        (mkState (sumLp (-1)) sumLpexRayPreferred)).lpex.psdata.psdatafail = false := by
    unfold constructPSData
    simp only [hcon, Bool.false_eq_true, if_false]
    generalize hL : psFactorizeD pointOnlyCollaborators
      (psChooseS pointOnlyCollaborators (mkExternal (fun _ => none))
        (beginConstruction (mkState (sumLp (-1)) sumLpexRayPreferred))).lpex = L at hfl hfac
    generalize (psChooseS pointOnlyCollaborators (mkExternal (fun _ => none))
        (beginConstruction (mkState (sumLp (-1)) sumLpexRayPreferred))).lp = lp0
    have huse : L.psdata.psuseintpoint = false := by
      rw [hfl.2.2.2.1, hch.2.2.2.2.1]
      rfl
    have hsel : L.psdata.psintpointselection = PS_INTPOINTSEL.ARBDUAL := by
      rw [hfl.2.2.2.2.1, hch.2.2.2.2.2]
      rfl
    have hry : L.psdata.pshasray = false := by
      rw [hfl.2.2.1, hch.2.2.2.1]
      rfl
    have hray := psComputeSintPointRay_ray_flags pointOnlyCollaborators lp0 (createInteriorray L)
    have hfr := psComputeSintPointRay_frame pointOnlyCollaborators lp0 (createInteriorray L) false
    have hray1 : (psComputeSintPointRay pointOnlyCollaborators lp0 (createInteriorray L)
        false).psdata.pshasray = false := by
      rw [hray.1]
      simp [pointOnlyCollaborators, mkCollaborators, pointOnlySolver, auxProblemOpt, mkAuxLP]
      exact hry
    generalize hM : psComputeSintPointRay pointOnlyCollaborators lp0 (createInteriorray L) false
      = M at hray hfr hray1
    have hMuse : M.psdata.psuseintpoint = false := by
      rw [hfr.2.1]
      exact huse
    have hMsel : M.psdata.psintpointselection = PS_INTPOINTSEL.ARBDUAL := by
      rw [hfr.2.2]
      exact hsel
    have hMfail : M.psdata.psdatafail = false := by
      rw [hray.2.2]
      exact hfac
    have hopt : (pointOnlyCollaborators.auxSolveDual
        (auxProblemArbDual pointOnlyCollaborators (createInteriorpt M))).isOptimal = true := by
      simp [pointOnlyCollaborators, mkCollaborators, pointOnlySolver, auxProblemArbDual, mkAuxLP]
    have hcc : computeCertificates pointOnlyCollaborators lp0 L
        = psComputeSintPointRay pointOnlyCollaborators lp0 (createInteriorpt M) true := by
      unfold computeCertificates
      simp only [hfac, Bool.not_false, if_true, hM, hMuse, hray1, Bool.false_or]
    have hP := psComputeSintPointRay_point_built pointOnlyCollaborators lp0 (createInteriorpt M)
      hMsel hopt
    rw [scaledPoint_of_nonzero _ _ _ _ _ _ (fun i _ => by
      simp [pointOnlyCollaborators, mkCollaborators, pointOnlySolver])] at hP
    have hF := psComputeSintPointRay_frame pointOnlyCollaborators lp0 (createInteriorpt M) true
    have hQ := psComputeSintPointRay_point_psdatafail pointOnlyCollaborators lp0
      (createInteriorpt M)
    rw [hcc]
    generalize psComputeSintPointRay pointOnlyCollaborators lp0 (createInteriorpt M) true = N
      at hP hF hQ
    have hNray : N.psdata.pshasray = false := hQ.1.trans hray1
    have hNfail : N.psdata.psdatafail = false := by
      rw [hQ.2, if_neg]
      · exact hMfail
      · intro h
        rw [hopt] at h
        exact absurd h.2 (by simp)
    unfold markFailure
    simp only [hP, hNray, Bool.not_true, Bool.false_and, Bool.false_eq_true, if_false]
    exact ⟨hF.2.1.trans hMuse, trivial, trivial, hNfail⟩
  obtain ⟨h1, h2, h3, h4⟩ := hstate
  refine ⟨h1, h2, h3, h4, ?_, ?_⟩
  · unfold passesGuard
    rw [h4]
    rfl
  · unfold rayAssertion
    rw [h1, h3, h4]
    rfl


/-! ## The least weight of the interior point -/

/-- The weight `1 - lambda1` of the point is zero when no included entry is negative, and no
smaller nonnegative weight keeps every included entry of the blend nonnegative. -/
theorem pointWeight_least (n : Nat) (c p : Nat → ℚ) (incl : Nat → Prop)
    (hneg : ∀ i, i < n → c i < 0 → incl i)
    (hp : ∀ i, i < n → incl i → 0 < p i) :
    ((∀ i, i < n → incl i → 0 ≤ c i) →
      1 - forLoop (fun i l => if RisNegative (c i) then min l (p i / (p i - c i)) else l) n 1
        = 0)
    ∧ ∀ l : ℚ, 0 ≤ l →
        l < 1 - forLoop (fun i l => if RisNegative (c i) then min l (p i / (p i - c i)) else l)
          n 1 →
        ∃ i, i < n ∧ incl i ∧ (1 - l) * c i + l * p i < 0 := by
  obtain ⟨h0, h1, _, h3⟩ := pointWeight_spec n c p incl hneg hp
  constructor
  · intro hall
    have := h3 0 (le_refl 0) zero_le_one (fun i hi hinc => by
      have := hall i hi hinc
      linarith)
    linarith
  · intro l hl0 hlt
    by_contra hno
    have hall : ∀ i, i < n → incl i → 0 ≤ (1 - l) * c i + l * p i := by
      intro i hi hinc
      by_contra hlt0
      exact hno ⟨i, hi, hinc, not_le.mp hlt0⟩
    have := h3 l hl0 (by linarith) hall
    linarith

/-- C33: in the interior-point case the `lambda2` computed by `getPSdual` (over the entries of
`psbasis`, the included coordinates) and by `getPSdualTwo` (over every coordinate, for a
corrected vector whose negative entries lie on included coordinates) is the least admissible
weight, for every corrected vector and every point strictly positive on `S`: the blend
`(1 - lambda2) * corrected + lambda2 * point` is nonnegative on every included coordinate,
`lambda2 = 0` when no included coordinate of the corrected vector is negative, and for every
`lambda` with `0 ≤ lambda < lambda2` some included coordinate of
`(1 - lambda) * corrected + lambda * point` is negative. -/
theorem interiorPoint_lambda2_least (psdata : SCIP_PSDATA) (correction approxdual : Nat → ℚ)
    (hpt : ∀ k, k < psdata.npsbasis → 0 < psdata.interiorpt (psdata.psbasis k))
    (hptTwo : ∀ e, e < psdata.nextendedrows → psdata.includedrows e = true →
      0 < psdata.interiorpt e)
    (hnegTwo : ∀ e, e < psdata.nextendedrows → approxdual e < 0 →
      psdata.includedrows e = true) :
    ((∀ k, k < psdata.npsbasis →
          0 ≤ (1 - (computeLambda psdata true correction).2) * correction k
            + (computeLambda psdata true correction).2 * psdata.interiorpt (psdata.psbasis k))
      ∧ ((∀ k, k < psdata.npsbasis → 0 ≤ correction k) →
          (computeLambda psdata true correction).2 = 0)
      ∧ (∀ l : ℚ, 0 ≤ l → l < (computeLambda psdata true correction).2 →
          ∃ k, k < psdata.npsbasis
            ∧ (1 - l) * correction k + l * psdata.interiorpt (psdata.psbasis k) < 0))
    ∧ ((∀ e, e < psdata.nextendedrows → psdata.includedrows e = true →
          0 ≤ (1 - (computeLambdaTwo psdata true approxdual).2) * approxdual e
            + (computeLambdaTwo psdata true approxdual).2 * psdata.interiorpt e)
      ∧ ((∀ e, e < psdata.nextendedrows → psdata.includedrows e = true → 0 ≤ approxdual e) →
          (computeLambdaTwo psdata true approxdual).2 = 0)
      ∧ (∀ l : ℚ, 0 ≤ l → l < (computeLambdaTwo psdata true approxdual).2 →
          ∃ e, e < psdata.nextendedrows ∧ psdata.includedrows e = true
            ∧ (1 - l) * approxdual e + l * psdata.interiorpt e < 0)) := by
  constructor
  · obtain ⟨_, _, h2, _⟩ := pointWeight_spec psdata.npsbasis correction
      (fun k => psdata.interiorpt (psdata.psbasis k)) (fun _ => True)
      (fun _ _ _ => trivial) (fun k hk _ => hpt k hk)
    obtain ⟨g1, g2⟩ := pointWeight_least psdata.npsbasis correction
      (fun k => psdata.interiorpt (psdata.psbasis k)) (fun _ => True)
      (fun _ _ _ => trivial) (fun k hk _ => hpt k hk)
    simp only [computeLambda, if_true, lambda1Point_eq]
    refine ⟨?_, ?_, ?_⟩
    · intro k hk
      have := h2 k hk trivial
      simp only [sub_sub_cancel]
      exact this
    · intro hall
      exact g1 (fun k hk _ => hall k hk)
    · intro l hl0 hlt
      obtain ⟨k, hk, _, hlt0⟩ := g2 l hl0 hlt
      exact ⟨k, hk, hlt0⟩
  · obtain ⟨_, _, h2, _⟩ := pointWeight_spec psdata.nextendedrows approxdual
      psdata.interiorpt (fun e => psdata.includedrows e = true) hnegTwo hptTwo
    obtain ⟨g1, g2⟩ := pointWeight_least psdata.nextendedrows approxdual
      psdata.interiorpt (fun e => psdata.includedrows e = true) hnegTwo hptTwo
    rw [computeLambdaTwo_point]
    refine ⟨?_, g1, g2⟩
    intro e he hinc
    have := h2 e he hinc
    simp only [sub_sub_cancel]
    exact this

/-- Witness of C33: for the interior point of `sumLpex` and the corrected vector with the single
negative entry `-2` on the right-hand side of the row, the blend with the computed `lambda2` is
nonnegative on that coordinate. -/
theorem interiorPoint_lambda2_least_witness :
    0 ≤ (1 - (computeLambda sumLpex.psdata true (firstEntry (-2))).2) * firstEntry (-2) 0
      + (computeLambda sumLpex.psdata true (firstEntry (-2))).2
        * sumLpex.psdata.interiorpt (sumLpex.psdata.psbasis 0) :=
  (interiorPoint_lambda2_least sumLpex.psdata (firstEntry (-2)) (fun _ => 0)
    (by intro k _; simp only [sumLpex]; split_ifs <;> first | contradiction | norm_num)
    (by
      intro e _ he
      have he' : 0 < e := by simpa [sumLpex] using he
      have h0 : e ≠ 0 := by omega
      simp only [sumLpex, h0, if_false]
      split_ifs <;> first | contradiction | norm_num)
    (by intro e _ he; norm_num at he)).1.1 0 (by decide)

/-! ## Pairwise simplification in `getPSdualTwo` -/

theorem pairwiseSimplify_frame (n m : Nat) (a : Nat → ℚ) (e : Nat)
    (he : 2 * n + 2 * m ≤ e) : pairwiseSimplify n m a e = a e := by
  have h1 := pairLoop_spec n (fun i => i) (fun i => i + n)
    (fun i j hi hj => by dsimp only; omega) (fun i j _ _ h => h)
    (fun i j _ _ h => by dsimp only at h; omega) a
  have h2 := pairLoop_spec m (fun i => i + 2 * n) (fun i => i + 2 * n + m)
    (fun i j hi hj => by dsimp only; omega) (fun i j _ _ h => by dsimp only at h; omega)
    (fun i j _ _ h => by dsimp only at h; omega)
    (forLoop (fun i a =>
      let tmp := min (a i) (a (i + n))
      if RisPositive tmp then
        let a1 := Function.update a i (a i - tmp)
        Function.update a1 (i + n) (a1 (i + n) - tmp)
      else a) n a)
  dsimp only at h1 h2
  unfold pairwiseSimplify
  dsimp only
  rw [h2.2 e (fun i _ => ⟨by omega, by omega⟩)]
  exact h1.2 e (fun i _ => ⟨by omega, by omega⟩)

/-- The violation of `getPSdualTwo` depends on the extended vector through the differences of its
paired coordinates only. -/
theorem violationTwo_congr (lp : SCIP_LP) (lpex : SCIP_LPEX) (p : Nat) (usefarkas : Bool)
    (a b : Nat → ℚ)
    (hrow : ∀ i, i < p → a i - a (i + p) = b i - b (i + p))
    (hcol : ∀ j, j < lpex.ncols →
      a (j + 2 * p) - a (j + 2 * p + lpex.ncols) = b (j + 2 * p) - b (j + 2 * p + lpex.ncols)) :
    violationTwo lp lpex p usefarkas a = violationTwo lp lpex p usefarkas b := by
  have hfinal : ∀ (c : Nat → ℚ) (i : Nat) (v : Nat → ℚ),
      (if c (i + 2 * p) = c (i + 2 * p + lpex.ncols) then v
        else Function.update (Function.update v i (v i - c (i + 2 * p))) i
          (Function.update v i (v i - c (i + 2 * p)) i + c (i + 2 * p + lpex.ncols)))
      = Function.update v i (v i - c (i + 2 * p) + c (i + 2 * p + lpex.ncols)) := by
    intro c i v
    by_cases hab : c (i + 2 * p) = c (i + 2 * p + lpex.ncols)
    · rw [if_pos hab, hab]
      have : v i - c (i + 2 * p + lpex.ncols) + c (i + 2 * p + lpex.ncols) = v i := by ring
      rw [this, Function.update_eq_self]
    · rw [if_neg hab]
      funext e
      by_cases hei : e = i
      · subst hei
        simp only [Function.update_same]
      · simp only [Function.update_noteq hei]
  have hrows : ∀ v : Nat → ℚ,
      forLoop (fun i v =>
        forLoop (fun j w =>
            let currentrow := (lpex.rows i).cols_index j
            if a i = a (i + p) then w
            else
              let w1 := Function.update w currentrow (w currentrow - a i * (lpex.rows i).vals j)
              Function.update w1 currentrow
                (w1 currentrow + a (i + p) * (lpex.rows i).vals j))
          (lpex.rows i).len v) p v
      = forLoop (fun i v =>
        forLoop (fun j w =>
            let currentrow := (lpex.rows i).cols_index j
            if b i = b (i + p) then w
            else
              let w1 := Function.update w currentrow (w currentrow - b i * (lpex.rows i).vals j)
              Function.update w1 currentrow
                (w1 currentrow + b (i + p) * (lpex.rows i).vals j))
          (lpex.rows i).len v) p v := by
    intro v
    funext k
    rw [rowsTwo_eq, rowsTwo_eq]
    congr 1
    exact Finset.sum_congr rfl (fun i hi => by rw [hrow i (Finset.mem_range.mp hi)])
  funext k
  unfold violationTwo
  dsimp only
  rw [hrows]
  rw [forLoop_pointwise (fun i x => x - a (i + 2 * p) + a (i + 2 * p + lpex.ncols)) _
      (fun i v => hfinal a i v),
    forLoop_pointwise (fun i x => x - b (i + 2 * p) + b (i + 2 * p + lpex.ncols)) _
      (fun i v => hfinal b i v)]
  by_cases hk : k < lpex.ncols
  · rw [if_pos hk, if_pos hk]
    have := hcol k hk
    linarith
  · rw [if_neg hk, if_neg hk]

/-- C32: pairwise simplification in `getPSdualTwo`, for every entrywise nonnegative input:
the differences `y_lhs(i) - y_rhs(i)` and `y_lb(j) - y_ub(j)` are unchanged for all rows `i` and
columns `j`, so that the equality violation is unchanged; every coordinate is still nonnegative;
and `min(y_lhs(i), y_rhs(i)) = 0` and `min(y_lb(j), y_ub(j)) = 0`. -/
theorem pairwiseSimplify_pairs (lp : SCIP_LP) (lpex : SCIP_LPEX) (nrowsps : Nat)
    (usefarkas : Bool) (a : Nat → ℚ) (ha : ∀ e, 0 ≤ a e) :
    (∀ i, i < nrowsps →
      pairwiseSimplify nrowsps lpex.ncols a i - pairwiseSimplify nrowsps lpex.ncols a (i + nrowsps)
        = a i - a (i + nrowsps))
    ∧ (∀ j, j < lpex.ncols →
      pairwiseSimplify nrowsps lpex.ncols a (j + 2 * nrowsps)
          - pairwiseSimplify nrowsps lpex.ncols a (j + 2 * nrowsps + lpex.ncols)
        = a (j + 2 * nrowsps) - a (j + 2 * nrowsps + lpex.ncols))
    ∧ violationTwo lp lpex nrowsps usefarkas (pairwiseSimplify nrowsps lpex.ncols a)
        = violationTwo lp lpex nrowsps usefarkas a
    ∧ (∀ e, 0 ≤ pairwiseSimplify nrowsps lpex.ncols a e)
    ∧ (∀ i, i < nrowsps →
      min (pairwiseSimplify nrowsps lpex.ncols a i)
        (pairwiseSimplify nrowsps lpex.ncols a (i + nrowsps)) = 0)
    ∧ (∀ j, j < lpex.ncols →
      min (pairwiseSimplify nrowsps lpex.ncols a (j + 2 * nrowsps))
        (pairwiseSimplify nrowsps lpex.ncols a (j + 2 * nrowsps + lpex.ncols)) = 0) := by
  have hrowc : ∀ i, i < nrowsps →
      lhsCoord nrowsps i = i ∧ rhsCoord nrowsps lpex.ncols i = i + nrowsps := by
    intro i hi
    exact ⟨by simp [lhsCoord, hi], by simp [rhsCoord, hi]⟩
  have hcolc : ∀ j, j < lpex.ncols →
      lhsCoord nrowsps (j + nrowsps) = j + 2 * nrowsps
      ∧ rhsCoord nrowsps lpex.ncols (j + nrowsps) = j + 2 * nrowsps + lpex.ncols := by
    intro j _
    constructor
    · unfold lhsCoord
      rw [if_neg (by omega)]
      omega
    · unfold rhsCoord
      rw [if_neg (by omega)]
      omega
  have hpair : ∀ u v : ℚ, 0 ≤ u → 0 ≤ v →
      (u - (if 0 < min u v then min u v else 0)) - (v - (if 0 < min u v then min u v else 0))
        = u - v
      ∧ 0 ≤ u - (if 0 < min u v then min u v else 0)
      ∧ 0 ≤ v - (if 0 < min u v then min u v else 0)
      ∧ min (u - (if 0 < min u v then min u v else 0))
          (v - (if 0 < min u v then min u v else 0)) = 0 := by
    intro u v hu hv
    refine ⟨by ring, ?_⟩
    by_cases hp : 0 < min u v
    · rw [if_pos hp]
      refine ⟨sub_nonneg.mpr (min_le_left u v), sub_nonneg.mpr (min_le_right u v), ?_⟩
      rw [min_sub_sub_right, sub_self]
    · rw [if_neg hp, sub_zero, sub_zero]
      exact ⟨hu, hv, le_antisymm (not_lt.mp hp) (le_min hu hv)⟩
  have hrow : ∀ i, i < nrowsps →
      pairwiseSimplify nrowsps lpex.ncols a i
          = a i - (if 0 < min (a i) (a (i + nrowsps)) then min (a i) (a (i + nrowsps)) else 0)
      ∧ pairwiseSimplify nrowsps lpex.ncols a (i + nrowsps)
          = a (i + nrowsps)
            - (if 0 < min (a i) (a (i + nrowsps)) then min (a i) (a (i + nrowsps)) else 0) := by
    intro i hi
    have h := pairwiseSimplify_coords nrowsps lpex.ncols a i (by omega)
    rw [(hrowc i hi).1, (hrowc i hi).2] at h
    exact h
  have hcol : ∀ j, j < lpex.ncols →
      pairwiseSimplify nrowsps lpex.ncols a (j + 2 * nrowsps)
          = a (j + 2 * nrowsps)
            - (if 0 < min (a (j + 2 * nrowsps)) (a (j + 2 * nrowsps + lpex.ncols))
                then min (a (j + 2 * nrowsps)) (a (j + 2 * nrowsps + lpex.ncols)) else 0)
      ∧ pairwiseSimplify nrowsps lpex.ncols a (j + 2 * nrowsps + lpex.ncols)
          = a (j + 2 * nrowsps + lpex.ncols)
            - (if 0 < min (a (j + 2 * nrowsps)) (a (j + 2 * nrowsps + lpex.ncols))
                then min (a (j + 2 * nrowsps)) (a (j + 2 * nrowsps + lpex.ncols)) else 0) := by
    intro j hj
    have h := pairwiseSimplify_coords nrowsps lpex.ncols a (j + nrowsps) (by omega)
    rw [(hcolc j hj).1, (hcolc j hj).2] at h
    exact h
  have hdrow : ∀ i, i < nrowsps →
      pairwiseSimplify nrowsps lpex.ncols a i
          - pairwiseSimplify nrowsps lpex.ncols a (i + nrowsps)
        = a i - a (i + nrowsps) := by
    intro i hi
    rw [(hrow i hi).1, (hrow i hi).2]
    exact (hpair _ _ (ha _) (ha _)).1
  have hdcol : ∀ j, j < lpex.ncols →
      pairwiseSimplify nrowsps lpex.ncols a (j + 2 * nrowsps)
          - pairwiseSimplify nrowsps lpex.ncols a (j + 2 * nrowsps + lpex.ncols)
        = a (j + 2 * nrowsps) - a (j + 2 * nrowsps + lpex.ncols) := by
    intro j hj
    rw [(hcol j hj).1, (hcol j hj).2]
    exact (hpair _ _ (ha _) (ha _)).1
  refine ⟨hdrow, hdcol, violationTwo_congr lp lpex nrowsps usefarkas _ _ hdrow hdcol, ?_, ?_, ?_⟩
  · intro e
    by_cases he : e < 2 * nrowsps + 2 * lpex.ncols
    · obtain ⟨c, hc, hcase⟩ := coord_cases nrowsps lpex.ncols e he
      have h := pairwiseSimplify_coords nrowsps lpex.ncols a c hc
      rcases hcase with h1 | h1
      · rw [h1, h.1]
        exact (hpair _ _ (ha _) (ha _)).2.1
      · rw [h1, h.2]
        exact (hpair _ _ (ha _) (ha _)).2.2.1
    · rw [pairwiseSimplify_frame nrowsps lpex.ncols a e (not_lt.mp he)]
      exact ha e
  · intro i hi
    rw [(hrow i hi).1, (hrow i hi).2]
    exact (hpair _ _ (ha _) (ha _)).2.2.2
  · intro j hj
    rw [(hcol j hj).1, (hcol j hj).2]
    exact (hpair _ _ (ha _) (ha _)).2.2.2

/-- Witness of C32: the extended vector with weight `1` on the lower and weight `2` on the upper
bound of the first column of `sumLpex` is simplified to a vector whose pairs have a zero side. -/
theorem pairwiseSimplify_pairs_witness :
    (∀ e, 0 ≤ bothSides e)
    ∧ (∀ j, j < sumLpex.ncols →
      min (pairwiseSimplify 1 sumLpex.ncols bothSides (j + 2 * 1))
        (pairwiseSimplify 1 sumLpex.ncols bothSides (j + 2 * 1 + sumLpex.ncols)) = 0) :=
  ⟨fun e => by unfold bothSides; split_ifs <;> norm_num,
    (pairwiseSimplify_pairs (sumLp 1) sumLpex 1 false bothSides
      (fun e => by unfold bothSides; split_ifs <;> norm_num)).2.2.2.2.2⟩


/-! ## The array positions used by `setupPsArb` -/

theorem sum_ndvarmap (col : Collaborators) : (dvarmapOf col sumLpex).2 = 5 := by
  simp [dvarmapOf, collectIndices, dvarincidence, markSides, forLoop, sumLpex, RisNegInfinity,
    RisInfinity, Function.update_apply]

/-- The read of `psbeg` at line 962 of `setupPsArb` lies inside the `psnrows` entries that the
caller allocates exactly when every coordinate of the extended space has a finite bound. -/
theorem arbPsbegRead_inside_iff (col : Collaborators) (lpex : SCIP_LPEX) :
    arbPsbegRead lpex < (auxProblemArb col lpex).nrows
      ↔ lpex.psdata.nextendedrows ≤ (dvarmapOf col lpex).2 := by
  rw [(auxProblemArb_shape col lpex).2.1]
  unfold arbPsbegRead
  omega

/-- C35 (failing input): for `x + y ≤ 10` without left-hand side, `0 ≤ x, y ≤ 10`, five of the six
coordinates have a finite bound, the caller of `setupPsArb` allocates `psnrows = 11` entries for
`psbeg`, and line 962 reads `psbeg[12]`. -/
theorem setupPsArb_reads_psbeg_outside (col : Collaborators) :
    (dvarmapOf col sumLpex).2 = 5
    ∧ (auxProblemArb col sumLpex).nrows = 11
    ∧ arbPsbegRead sumLpex = 12
    ∧ ¬ arbPsbegRead sumLpex < (auxProblemArb col sumLpex).nrows := by
  have h5 := sum_ndvarmap col
  have hn : (auxProblemArb col sumLpex).nrows = 11 := by
    rw [(auxProblemArb_shape col sumLpex).2.1, h5]
  refine ⟨h5, hn, rfl, ?_⟩
  rw [hn]
  decide


/-! ## The transposed matrix of `setupPsOpt` -/

theorem placeRank_step (Len : Nat → Nat) (K : Nat → Nat → Nat) (i t c : Nat) :
    placeRank Len K i (t + 1) c = placeRank Len K i t c + (if K i t = c then 1 else 0) := by
  unfold placeRank
  rw [Finset.sum_range_succ, add_assoc]

theorem placeRank_row_end (Len : Nat → Nat) (K : Nat → Nat → Nat) (i c : Nat) :
    placeRank Len K i (Len i) c = placeRank Len K (i + 1) 0 c := by
  unfold placeRank
  rw [Finset.sum_range_succ, Finset.sum_range_zero, add_zero]
  rfl

theorem placeRank_mono_entry (Len : Nat → Nat) (K : Nat → Nat → Nat) (i t t2 c : Nat)
    (h : t ≤ t2) : placeRank Len K i t c ≤ placeRank Len K i t2 c := by
  unfold placeRank
  exact Nat.add_le_add_left
    (Finset.sum_le_sum_of_subset (Finset.range_mono h)) _

theorem placeRank_mono_item (Len : Nat → Nat) (K : Nat → Nat → Nat) (i i2 c : Nat)
    (h : i ≤ i2) : placeRank Len K i 0 c ≤ placeRank Len K i2 0 c := by
  unfold placeRank
  rw [Finset.sum_range_zero, Finset.sum_range_zero, add_zero, add_zero]
  exact Finset.sum_le_sum_of_subset (Finset.range_mono h)

/-- An entry placed earlier has the smaller rank among the entries with its key. -/
theorem placeRank_lt (Len : Nat → Nat) (K : Nat → Nat → Nat) (i t i0 t0 c : Nat)
    (hbefore : (i < i0 ∧ t < Len i) ∨ (i = i0 ∧ t < t0)) (hk : K i t = c) :
    placeRank Len K i t c < placeRank Len K i0 t0 c := by
  have hstep : placeRank Len K i t c < placeRank Len K i (t + 1) c := by
    rw [placeRank_step, if_pos hk]
    exact Nat.lt_succ_self _
  rcases hbefore with ⟨hi, ht⟩ | ⟨hi, ht⟩
  · calc placeRank Len K i t c < placeRank Len K i (t + 1) c := hstep
      _ ≤ placeRank Len K i (Len i) c := placeRank_mono_entry Len K i _ _ c ht
      _ = placeRank Len K (i + 1) 0 c := placeRank_row_end Len K i c
      _ ≤ placeRank Len K i0 0 c := placeRank_mono_item Len K _ _ c hi
      _ ≤ placeRank Len K i0 t0 c := placeRank_mono_entry Len K i0 _ _ c (Nat.zero_le _)
  · subst hi
    exact lt_of_lt_of_le hstep (placeRank_mono_entry Len K i _ _ c ht)

/-- Every rank below the rank of a position of the scan belongs to an entry placed before. -/
theorem placeRank_onto (Len : Nat → Nat) (K : Nat → Nat → Nat) (c : Nat) (i0 : Nat) :
    ∀ t0, t0 ≤ Len i0 → ∀ r, r < placeRank Len K i0 t0 c →
      ∃ i t, ((i < i0 ∧ t < Len i) ∨ (i = i0 ∧ t < t0)) ∧ K i t = c
        ∧ placeRank Len K i t c = r := by
  induction i0 with
  | zero =>
    intro t0
    induction t0 with
    | zero =>
      intro _ r hr
      simp [placeRank] at hr
    | succ t ih =>
      intro ht r hr
      rw [placeRank_step] at hr
      by_cases hlt : r < placeRank Len K 0 t c
      · obtain ⟨i, s, hb, hk, hrk⟩ := ih (by omega) r hlt
        refine ⟨i, s, ?_, hk, hrk⟩
        rcases hb with ⟨h1, _⟩ | ⟨h1, h2⟩
        · exact absurd h1 (Nat.not_lt_zero i)
        · exact Or.inr ⟨h1, by omega⟩
      · by_cases hk : K 0 t = c
        · rw [if_pos hk] at hr
          exact ⟨0, t, Or.inr ⟨rfl, Nat.lt_succ_self t⟩, hk, by omega⟩
        · rw [if_neg hk] at hr
          omega
  | succ n ihn =>
    intro t0
    induction t0 with
    | zero =>
      intro _ r hr
      rw [← placeRank_row_end] at hr
      obtain ⟨i, s, hb, hk, hrk⟩ := ihn (Len n) (le_refl _) r hr
      refine ⟨i, s, ?_, hk, hrk⟩
      rcases hb with ⟨h1, h2⟩ | ⟨h1, h2⟩
      · exact Or.inl ⟨by omega, h2⟩
      · exact Or.inl ⟨by omega, by rw [h1]; exact h2⟩
    | succ t ih =>
      intro ht r hr
      rw [placeRank_step] at hr
      by_cases hlt : r < placeRank Len K (n + 1) t c
      · obtain ⟨i, s, hb, hk, hrk⟩ := ih (by omega) r hlt
        refine ⟨i, s, ?_, hk, hrk⟩
        rcases hb with ⟨h1, h2⟩ | ⟨h1, h2⟩
        · exact Or.inl ⟨h1, h2⟩
        · exact Or.inr ⟨h1, by omega⟩
      · by_cases hk : K (n + 1) t = c
        · rw [if_pos hk] at hr
          exact ⟨n + 1, t, Or.inr ⟨rfl, Nat.lt_succ_self t⟩, hk, by omega⟩
        · rw [if_neg hk] at hr
          omega


theorem placedUpTo_step (N : Nat) (Len : Nat → Nat) (K : Nat → Nat → Nat) (V : Nat → Nat → ℚ)
    (m : SparseMatrix)
    (hdisj : ∀ c c2, c ≠ c2 → ∀ r r2, r < placeRank Len K N 0 c → r2 < placeRank Len K N 0 c2 →
      m.beg c + m.len c + r ≠ m.beg c2 + m.len c2 + r2)
    (i0 t0 : Nat) (hi0 : i0 < N) (ht0 : t0 < Len i0) (M : SparseMatrix)
    (h : placedUpTo Len K V m i0 t0 M) :
    placedUpTo Len K V m i0 (t0 + 1)
      { M with
        ind := Function.update M.ind (M.beg (K i0 t0) + M.len (K i0 t0)) i0
        val := Function.update M.val (M.beg (K i0 t0) + M.len (K i0 t0)) (V i0 t0)
        len := Function.update M.len (K i0 t0) (M.len (K i0 t0) + 1) } := by
  obtain ⟨hbeg, hlen, hent⟩ := h
  have hp0 : M.beg (K i0 t0) + M.len (K i0 t0)
      = m.beg (K i0 t0) + m.len (K i0 t0) + placeRank Len K i0 t0 (K i0 t0) := by
    rw [hbeg, hlen, add_assoc]
  refine ⟨hbeg, ?_, ?_⟩
  · intro c
    show Function.update M.len (K i0 t0) (M.len (K i0 t0) + 1) c = _
    rw [placeRank_step]
    by_cases hc : c = K i0 t0
    · subst hc
      rw [Function.update_same, if_pos rfl, hlen, add_assoc]
    · rw [Function.update_noteq hc, if_neg (fun e => hc e.symm), hlen, add_zero]
  · intro i t hb
    show Function.update M.ind (M.beg (K i0 t0) + M.len (K i0 t0)) i0 _ = i
      ∧ Function.update M.val (M.beg (K i0 t0) + M.len (K i0 t0)) (V i0 t0) _ = V i t
    rw [hp0]
    by_cases hnew : i = i0 ∧ t = t0
    · obtain ⟨e1, e2⟩ := hnew
      subst e1
      subst e2
      rw [Function.update_same, Function.update_same]
      exact ⟨rfl, rfl⟩
    · have hold : (i < i0 ∧ t < Len i) ∨ (i = i0 ∧ t < t0) := by
        rcases hb with h1 | ⟨h1, h2⟩
        · exact Or.inl h1
        · refine Or.inr ⟨h1, ?_⟩
          by_contra hge
          exact hnew ⟨h1, by omega⟩
      have hiN : i < N ∧ t < Len i := by
        rcases hold with ⟨h1, h2⟩ | ⟨h1, h2⟩
        · exact ⟨by omega, h2⟩
        · subst h1
          exact ⟨hi0, by omega⟩
      have hne : m.beg (K i t) + m.len (K i t) + placeRank Len K i t (K i t)
          ≠ m.beg (K i0 t0) + m.len (K i0 t0) + placeRank Len K i0 t0 (K i0 t0) := by
        by_cases hc : K i t = K i0 t0
        · have := placeRank_lt Len K i t i0 t0 (K i0 t0) hold hc
          rw [hc]
          omega
        · exact hdisj _ _ hc _ _
            (placeRank_lt Len K i t N 0 _ (Or.inl hiN) rfl)
            (placeRank_lt Len K i0 t0 N 0 _ (Or.inl ⟨hi0, ht0⟩) rfl)
      rw [Function.update_noteq hne, Function.update_noteq hne]
      exact hent i t hold

theorem placedUpTo_row_end (Len : Nat → Nat) (K : Nat → Nat → Nat) (V : Nat → Nat → ℚ)
    (m : SparseMatrix) (i0 : Nat) (M : SparseMatrix)
    (h : placedUpTo Len K V m i0 (Len i0) M) : placedUpTo Len K V m (i0 + 1) 0 M := by
  obtain ⟨hbeg, hlen, hent⟩ := h
  refine ⟨hbeg, ?_, ?_⟩
  · intro c
    rw [← placeRank_row_end]
    exact hlen c
  · intro i t hb
    apply hent
    rcases hb with ⟨h1, h2⟩ | ⟨_, h2⟩
    · by_cases hi : i = i0
      · subst hi
        exact Or.inr ⟨rfl, h2⟩
      · exact Or.inl ⟨by omega, h2⟩
    · exact absurd h2 (Nat.not_lt_zero t)

/-- A scan that places the entries of `N` items one after the other into the lines of their
keys, where the lines are long enough not to meet: every entry ends in the line of its key at the
position of its rank. -/
theorem nestedPlace_spec (N : Nat) (Len : Nat → Nat) (K : Nat → Nat → Nat) (V : Nat → Nat → ℚ)
    (m : SparseMatrix)
    (hdisj : ∀ c c2, c ≠ c2 → ∀ r r2, r < placeRank Len K N 0 c → r2 < placeRank Len K N 0 c2 →
      m.beg c + m.len c + r ≠ m.beg c2 + m.len c2 + r2) :
    placedUpTo Len K V m N 0
      (forLoop (fun i (m0 : SparseMatrix) =>
        forLoop (fun t (m1 : SparseMatrix) =>
          { m1 with
            ind := Function.update m1.ind (m1.beg (K i t) + m1.len (K i t)) i
            val := Function.update m1.val (m1.beg (K i t) + m1.len (K i t)) (V i t)
            len := Function.update m1.len (K i t) (m1.len (K i t) + 1) }) (Len i) m0) N m) := by
  refine forLoop_induction (fun i M => i ≤ N → placedUpTo Len K V m i 0 M) _ m N ?_ ?_
    (le_refl N)
  · intro _
    refine ⟨rfl, ?_, ?_⟩
    · intro c
      simp [placeRank]
    · intro i t hb
      rcases hb with ⟨h1, _⟩ | ⟨_, h2⟩
      · exact absurd h1 (Nat.not_lt_zero i)
      · exact absurd h2 (Nat.not_lt_zero t)
  · intro i hi M hM _
    dsimp only
    apply placedUpTo_row_end
    refine forLoop_induction (fun t M1 => t ≤ Len i → placedUpTo Len K V m i t M1) _ M (Len i)
      ?_ ?_ (le_refl _)
    · intro _
      exact hM (le_of_lt hi)
    · intro t ht M1 hM1 _
      dsimp only
      exact placedUpTo_step N Len K V m hdisj i t hi ht M1 (hM1 (le_of_lt ht))


theorem transposedMatrix_eq (lpex : SCIP_LPEX) (dvarmap : Nat → Nat)
    (ndvarmap psnrows psncols : Nat) (m : SparseMatrix) :
    transposedMatrix lpex dvarmap ndvarmap psnrows psncols m
      = (lastRows lpex.psdata.includedrows dvarmap ndvarmap lpex.ncols (fun _ => psncols - 1)
          (scannedMatrix lpex dvarmap ndvarmap psnrows m)).m := rfl

theorem coordCol_lt (lpex : SCIP_LPEX) (hr : indicesInRange lpex) (e t : Nat)
    (he : e < 2 * lpex.nrows + 2 * lpex.ncols) (ht : t < coordWeight lpex e) :
    coordCol lpex e t < lpex.ncols := by
  unfold coordCol
  unfold coordWeight at ht
  by_cases h1 : e < 2 * lpex.nrows
  · rw [if_pos h1] at ht ⊢
    apply hr _ _ t ht
    split_ifs <;> omega
  · rw [if_neg h1]
    split_ifs <;> omega

theorem placeCount_coord (lpex : SCIP_LPEX) (dvarmap : Nat → Nat) (i c : Nat) :
    placeCount (fun i => coordWeight lpex (dvarmap i)) (fun i t => coordCol lpex (dvarmap i) t)
        i c
      = coordCount lpex (dvarmap i) c := by
  unfold placeCount coordCount coordWeight coordCol
  by_cases h1 : dvarmap i < 2 * lpex.nrows
  · simp only [h1, if_true]
  · simp only [h1, if_false, Finset.sum_range_one]

theorem entryRank_total (lpex : SCIP_LPEX) (dvarmap : Nat → Nat) (N c : Nat) :
    placeRank (fun i => coordWeight lpex (dvarmap i)) (fun i t => coordCol lpex (dvarmap i) t)
        N 0 c
      = ∑ i ∈ Finset.range N, coordCount lpex (dvarmap i) c := by
  unfold placeRank
  rw [Finset.sum_range_zero, add_zero]
  exact Finset.sum_congr rfl (fun i _ => placeCount_coord lpex dvarmap i c)

theorem coordCount_eq_zero (lpex : SCIP_LPEX) (hr : indicesInRange lpex) (e c : Nat)
    (he : e < 2 * lpex.nrows + 2 * lpex.ncols) (hc : lpex.ncols ≤ c) :
    coordCount lpex e c = 0 := by
  rw [← placeCount_coord lpex (fun _ => e) 0 c]
  unfold placeCount
  apply Finset.sum_eq_zero
  intro t ht
  have := coordCol_lt lpex hr e t he (Finset.mem_range.mp ht)
  show (if coordCol lpex e t = c then 1 else 0) = 0
  rw [if_neg (by omega)]

/-- The scan of lines 725-757 places entry `t` of the dual variable `dvarmap[i]` in the line of
its structural column. -/
theorem scanEntries_eq (lpex : SCIP_LPEX) (dvarmap : Nat → Nat) (ndvarmap : Nat)
    (m : SparseMatrix) :
    scanEntries lpex dvarmap ndvarmap m
      = forLoop (fun i (m0 : SparseMatrix) =>
          forLoop (fun t (m1 : SparseMatrix) =>
            { m1 with
              ind := Function.update m1.ind
                (m1.beg (coordCol lpex (dvarmap i) t) + m1.len (coordCol lpex (dvarmap i) t)) i
              val := Function.update m1.val
                (m1.beg (coordCol lpex (dvarmap i) t) + m1.len (coordCol lpex (dvarmap i) t))
                (coordVal lpex (dvarmap i) t)
              len := Function.update m1.len (coordCol lpex (dvarmap i) t)
                (m1.len (coordCol lpex (dvarmap i) t) + 1) })
            (coordWeight lpex (dvarmap i)) m0) ndvarmap m := by
  unfold scanEntries
  congr 1
  funext i m0
  unfold coordWeight coordCol coordVal
  by_cases h1 : dvarmap i < 2 * lpex.nrows
  · simp only [h1, if_true]
  · simp only [h1, if_false, forLoop_succ, forLoop_zero]


theorem countedLengths_first (lpex : SCIP_LPEX) (dvarmap : Nat → Nat) (ndvarmap : Nat)
    (pslen : Nat → Nat) (c : Nat) (hc : c < lpex.ncols) :
    countedLengths lpex dvarmap ndvarmap (lpex.ncols + lpex.psdata.npsbasis) pslen c
      = ∑ i ∈ Finset.range ndvarmap, coordCount lpex (dvarmap i) c := by
  unfold countedLengths
  rw [forLoop_set_offset lpex.ncols (fun _ => 2), if_neg (by omega), countEntries_spec,
    forLoop_set (fun _ => 0), if_pos (by omega), zero_add]

theorem countedLengths_last (lpex : SCIP_LPEX) (dvarmap : Nat → Nat) (ndvarmap : Nat)
    (pslen : Nat → Nat) (k : Nat) (hk : k < lpex.psdata.npsbasis) :
    countedLengths lpex dvarmap ndvarmap (lpex.ncols + lpex.psdata.npsbasis) pslen
      (lpex.ncols + k) = 2 := by
  unfold countedLengths
  rw [forLoop_set_offset lpex.ncols (fun _ => 2), if_pos (by omega)]

/-- The sum of the counted lengths: the entries of the first `ncols` rows and two for each of the
last rows. -/
theorem countedLengths_sum (col : Collaborators) (lpex : SCIP_LPEX) (pslen : Nat → Nat)
    (hn : lpex.psdata.nextendedrows = 2 * lpex.nrows + 2 * lpex.ncols)
    (hr : indicesInRange lpex) :
    (∑ c ∈ Finset.range lpex.ncols,
        countedLengths lpex (dvarmapOf col lpex).1 (dvarmapOf col lpex).2
          (lpex.ncols + lpex.psdata.npsbasis) pslen c
      = computePsNnonz lpex (dvarincidence lpex))
    ∧ ∑ c ∈ Finset.range (lpex.ncols + lpex.psdata.npsbasis),
        countedLengths lpex (dvarmapOf col lpex).1 (dvarmapOf col lpex).2
          (lpex.ncols + lpex.psdata.npsbasis) pslen c
      = computePsNnonz lpex (dvarincidence lpex) + 2 * lpex.psdata.npsbasis := by
  have h1 : ∑ c ∈ Finset.range lpex.ncols,
        countedLengths lpex (dvarmapOf col lpex).1 (dvarmapOf col lpex).2
          (lpex.ncols + lpex.psdata.npsbasis) pslen c
      = computePsNnonz lpex (dvarincidence lpex) := by
    have h0 := countEntries_total col lpex (fun _ => 0) hn hr
    rw [Finset.sum_const_zero, zero_add] at h0
    rw [← h0]
    apply Finset.sum_congr rfl
    intro c hc
    rw [countedLengths_first lpex _ _ pslen c (Finset.mem_range.mp hc), countEntries_spec,
      zero_add]
  refine ⟨h1, ?_⟩
  rw [Finset.sum_range_add, h1]
  congr 1
  rw [Finset.sum_congr rfl (fun k hk =>
    countedLengths_last lpex _ _ pslen k (Finset.mem_range.mp hk)),
    Finset.sum_const, Finset.card_range, smul_eq_mul, mul_comm]

theorem lastRows_frame (includedrows : Nat → Bool) (dvarmap : Nat → Nat) (ndvarmap ncols : Nat)
    (slack : Nat → Nat) (m : SparseMatrix) (B : Nat)
    (hbeg : ∀ k, k < ((Finset.range ndvarmap).filter
        (fun i => includedrows (dvarmap i) = true)).card → m.beg (ncols + k) = B + 2 * k) :
    (lastRows includedrows dvarmap ndvarmap ncols slack m).pos
        = ncols + ((Finset.range ndvarmap).filter
            (fun i => includedrows (dvarmap i) = true)).card
    ∧ (lastRows includedrows dvarmap ndvarmap ncols slack m).m.len = m.len
    ∧ ∀ p, p < B →
        (lastRows includedrows dvarmap ndvarmap ncols slack m).m.ind p = m.ind p
        ∧ (lastRows includedrows dvarmap ndvarmap ncols slack m).m.val p = m.val p := by
  unfold lastRows
  refine forLoop_induction
    (fun n (s : MatrixBuild) =>
      s.pos = ncols + ((Finset.range n).filter
          (fun i => includedrows (dvarmap i) = true)).card
      ∧ s.m.beg = m.beg
      ∧ s.m.len = m.len
      ∧ ∀ p, p < B → s.m.ind p = m.ind p ∧ s.m.val p = m.val p)
    _ { pos := ncols, m := m } ndvarmap
    ⟨by simp, rfl, rfl, fun _ _ => ⟨rfl, rfl⟩⟩ ?_ |> fun h => ⟨h.1, h.2.2.1, h.2.2.2⟩
  intro n hn s hs
  obtain ⟨hpos, hb, hl, hfr⟩ := hs
  dsimp only
  by_cases hinc : includedrows (dvarmap n) = true
  · rw [if_pos hinc]
    have hrk := includedRank_succ includedrows dvarmap n
    rw [if_pos hinc] at hrk
    have hlt := includedRank_lt includedrows dvarmap n ndvarmap hn hinc
    have hbn : s.m.beg s.pos = B + 2 * ((Finset.range n).filter
        (fun i => includedrows (dvarmap i) = true)).card := by
      rw [hb, hpos]
      exact hbeg _ hlt
    refine ⟨?_, hb, hl, ?_⟩
    · show s.pos + 1 = _
      rw [hpos, hrk, add_assoc]
    · intro p hp
      show Function.update (Function.update s.m.ind (s.m.beg s.pos) n)
          (s.m.beg s.pos + 1) (slack s.pos) p = m.ind p
        ∧ Function.update (Function.update s.m.val (s.m.beg s.pos) 1)
          (s.m.beg s.pos + 1) (-1) p = m.val p
      rw [hbn, Function.update_noteq (by omega), Function.update_noteq (by omega),
        Function.update_noteq (by omega), Function.update_noteq (by omega)]
      exact hfr p hp
  · rw [if_neg hinc]
    have hrk := includedRank_succ includedrows dvarmap n
    rw [if_neg hinc, add_zero] at hrk
    exact ⟨by rw [hpos, hrk], hb, hl, hfr⟩

/-- Every rank below the number of included entries is the rank of an included entry. -/
theorem includedRank_onto (includedrows : Nat → Bool) (dvarmap : Nat → Nat) (n : Nat) :
    ∀ k, k < ((Finset.range n).filter (fun i => includedrows (dvarmap i) = true)).card →
      ∃ i, i < n ∧ includedrows (dvarmap i) = true
        ∧ ((Finset.range i).filter (fun i => includedrows (dvarmap i) = true)).card = k := by
  induction n with
  | zero =>
    intro k hk
    simp at hk
  | succ m ih =>
    intro k hk
    rw [includedRank_succ] at hk
    by_cases hlt : k < ((Finset.range m).filter
        (fun i => includedrows (dvarmap i) = true)).card
    · obtain ⟨i, hi, hinc, hrk⟩ := ih k hlt
      exact ⟨i, by omega, hinc, hrk⟩
    · by_cases hinc : includedrows (dvarmap m) = true
      · rw [if_pos hinc] at hk
        exact ⟨m, Nat.lt_succ_self m, hinc, by omega⟩
      · rw [if_neg hinc] at hk
        omega


/-- The matrix after the scan of `setupPsOpt`: `psbeg` holds the running sums of the counted
lengths, `pslen` is back at the counted lengths, and entry `t` of the dual variable `dvarmap[i]`
sits in the row of its structural column at the position of its rank, with index `i` and its
signed value. -/
theorem scannedMatrix_spec (lpex : SCIP_LPEX) (dvarmap : Nat → Nat) (ndvarmap : Nat)
    (m : SparseMatrix) (hr : indicesInRange lpex)
    (hdv : ∀ i, i < ndvarmap → dvarmap i < 2 * lpex.nrows + 2 * lpex.ncols) :
    (scannedMatrix lpex dvarmap ndvarmap (lpex.ncols + lpex.psdata.npsbasis) m).beg
        = (begArray (lpex.ncols + lpex.psdata.npsbasis)
            (countedLengths lpex dvarmap ndvarmap (lpex.ncols + lpex.psdata.npsbasis) m.len)
            m.beg).1
    ∧ (∀ c, (scannedMatrix lpex dvarmap ndvarmap (lpex.ncols + lpex.psdata.npsbasis) m).len c
        = countedLengths lpex dvarmap ndvarmap (lpex.ncols + lpex.psdata.npsbasis) m.len c)
    ∧ ∀ i t, i < ndvarmap → t < coordWeight lpex (dvarmap i) →
        (scannedMatrix lpex dvarmap ndvarmap (lpex.ncols + lpex.psdata.npsbasis) m).ind
            ((scannedMatrix lpex dvarmap ndvarmap (lpex.ncols + lpex.psdata.npsbasis) m).beg
                (coordCol lpex (dvarmap i) t)
              + entryRank lpex dvarmap i t (coordCol lpex (dvarmap i) t)) = i
        ∧ (scannedMatrix lpex dvarmap ndvarmap (lpex.ncols + lpex.psdata.npsbasis) m).val
            ((scannedMatrix lpex dvarmap ndvarmap (lpex.ncols + lpex.psdata.npsbasis) m).beg
                (coordCol lpex (dvarmap i) t)
              + entryRank lpex dvarmap i t (coordCol lpex (dvarmap i) t))
            = coordVal lpex (dvarmap i) t := by
  have htot : ∀ c, placeRank (fun i => coordWeight lpex (dvarmap i))
      (fun i t => coordCol lpex (dvarmap i) t) ndvarmap 0 c
      = ∑ i ∈ Finset.range ndvarmap, coordCount lpex (dvarmap i) c :=
    entryRank_total lpex dvarmap ndvarmap
  have htot0 : ∀ c, lpex.ncols ≤ c →
      ∑ i ∈ Finset.range ndvarmap, coordCount lpex (dvarmap i) c = 0 := by
    intro c hc
    apply Finset.sum_eq_zero
    intro i hi
    exact coordCount_eq_zero lpex hr _ c (hdv i (Finset.mem_range.mp hi)) hc
  have hCL := countedLengths_first lpex dvarmap ndvarmap m.len
  generalize hL : countedLengths lpex dvarmap ndvarmap (lpex.ncols + lpex.psdata.npsbasis) m.len
    = CL at hCL
  have hbegv := (begArray_spec (lpex.ncols + lpex.psdata.npsbasis) CL m.beg).2
  have hlen3 : ∀ c, forLoop (fun i l => Function.update l i 0) lpex.ncols CL c
      = if c < lpex.ncols then 0 else CL c := fun c => forLoop_set (fun _ => 0) _ _ c
  have hmono : ∀ c c2, c < c2 → c2 < lpex.ncols →
      (begArray (lpex.ncols + lpex.psdata.npsbasis) CL m.beg).1 c + CL c
        ≤ (begArray (lpex.ncols + lpex.psdata.npsbasis) CL m.beg).1 c2 := by
    intro c c2 h1 h2
    rw [hbegv c, hbegv c2, if_pos (by omega), if_pos (by omega), ← Finset.sum_range_succ]
    exact Finset.sum_le_sum_of_subset (Finset.range_mono h1)
  have hdisj : ∀ c c2, c ≠ c2 → ∀ r r2,
      r < placeRank (fun i => coordWeight lpex (dvarmap i))
        (fun i t => coordCol lpex (dvarmap i) t) ndvarmap 0 c →
      r2 < placeRank (fun i => coordWeight lpex (dvarmap i))
        (fun i t => coordCol lpex (dvarmap i) t) ndvarmap 0 c2 →
      (begArray (lpex.ncols + lpex.psdata.npsbasis) CL m.beg).1 c
          + forLoop (fun i l => Function.update l i 0) lpex.ncols CL c + r
        ≠ (begArray (lpex.ncols + lpex.psdata.npsbasis) CL m.beg).1 c2
          + forLoop (fun i l => Function.update l i 0) lpex.ncols CL c2 + r2 := by
    intro c c2 hne r r2 hr1 hr2
    rw [htot] at hr1 hr2
    have hc : c < lpex.ncols := by
      by_contra h
      rw [htot0 c (not_lt.mp h)] at hr1
      exact absurd hr1 (Nat.not_lt_zero r)
    have hc2 : c2 < lpex.ncols := by
      by_contra h
      rw [htot0 c2 (not_lt.mp h)] at hr2
      exact absurd hr2 (Nat.not_lt_zero r2)
    rw [← hCL c hc] at hr1
    rw [← hCL c2 hc2] at hr2
    rw [hlen3, hlen3, if_pos hc, if_pos hc2]
    rcases Nat.lt_or_gt_of_ne hne with h | h
    · have := hmono c c2 h hc2
      omega
    · have := hmono c2 c h hc
      omega
  have key := nestedPlace_spec ndvarmap (fun i => coordWeight lpex (dvarmap i))
    (fun i t => coordCol lpex (dvarmap i) t) (fun i t => coordVal lpex (dvarmap i) t)
    { m with
      beg := (begArray (lpex.ncols + lpex.psdata.npsbasis) CL m.beg).1
      len := forLoop (fun i l => Function.update l i 0) lpex.ncols CL } hdisj
  have hscan : scannedMatrix lpex dvarmap ndvarmap (lpex.ncols + lpex.psdata.npsbasis) m
      = forLoop (fun i (m0 : SparseMatrix) =>
          forLoop (fun t (m1 : SparseMatrix) =>
            { m1 with
              ind := Function.update m1.ind
                (m1.beg (coordCol lpex (dvarmap i) t) + m1.len (coordCol lpex (dvarmap i) t)) i
              val := Function.update m1.val
                (m1.beg (coordCol lpex (dvarmap i) t) + m1.len (coordCol lpex (dvarmap i) t))
                (coordVal lpex (dvarmap i) t)
              len := Function.update m1.len (coordCol lpex (dvarmap i) t)
                (m1.len (coordCol lpex (dvarmap i) t) + 1) })
            (coordWeight lpex (dvarmap i)) m0) ndvarmap
          { m with
            beg := (begArray (lpex.ncols + lpex.psdata.npsbasis) CL m.beg).1
            len := forLoop (fun i l => Function.update l i 0) lpex.ncols CL } := by
    unfold scannedMatrix
    rw [hL, scanEntries_eq]
  rw [hscan]
  obtain ⟨kbeg, klen, kent⟩ := key
  dsimp only at kbeg klen kent
  refine ⟨kbeg, ?_, ?_⟩
  · intro c
    rw [klen c, htot, hlen3]
    by_cases hc : c < lpex.ncols
    · rw [if_pos hc, zero_add, hCL c hc]
    · rw [if_neg hc, htot0 c (not_lt.mp hc), add_zero]
  · intro i t hi ht
    have hc := coordCol_lt lpex hr (dvarmap i) t (hdv i hi) ht
    have h := kent i t (Or.inl ⟨hi, ht⟩)
    rw [hlen3, if_pos hc, add_zero] at h
    rw [kbeg]
    exact h


theorem includedRank_le (col : Collaborators) (lpex : SCIP_LPEX)
    (hnb : lpex.psdata.npsbasis
      = ((Finset.range lpex.psdata.nextendedrows).filter
          (fun e => lpex.psdata.includedrows e = true)).card) :
    ((Finset.range (dvarmapOf col lpex).2).filter
        (fun i => lpex.psdata.includedrows ((dvarmapOf col lpex).1 i) = true)).card
      ≤ lpex.psdata.npsbasis := by
  rw [hnb, Finset.card_filter, Finset.card_filter]
  unfold dvarmapOf
  rw [collectIndices_sum lpex.psdata.nextendedrows (fun i => decide (dvarincidence lpex i ≠ 0))
    col.bufferContent (fun e => if lpex.psdata.includedrows e = true then 1 else 0)]
  apply Finset.sum_le_sum
  intro e _
  split_ifs <;> omega

/-- Row `ncols + k` of the last rows begins behind the entries of the first `ncols` rows and the
`k` rows of two entries before it. -/
theorem countedBeg_last (col : Collaborators) (lpex : SCIP_LPEX) (pslen psbeg : Nat → Nat)
    (hn : lpex.psdata.nextendedrows = 2 * lpex.nrows + 2 * lpex.ncols)
    (hr : indicesInRange lpex) (k : Nat) (hk : k < lpex.psdata.npsbasis) :
    (begArray (lpex.ncols + lpex.psdata.npsbasis)
        (countedLengths lpex (dvarmapOf col lpex).1 (dvarmapOf col lpex).2
          (lpex.ncols + lpex.psdata.npsbasis) pslen) psbeg).1 (lpex.ncols + k)
      = computePsNnonz lpex (dvarincidence lpex) + 2 * k := by
  rw [(begArray_spec _ _ _).2, if_pos (by omega), Finset.sum_range_add,
    (countedLengths_sum col lpex pslen hn hr).1]
  congr 1
  rw [Finset.sum_congr rfl (fun x hx =>
    countedLengths_last lpex _ _ pslen x (by have := Finset.mem_range.mp hx; omega)),
    Finset.sum_const, Finset.card_range, smul_eq_mul, mul_comm]

theorem setupPsOpt_m (col : Collaborators) (lp : SCIP_LP) (lpex : SCIP_LPEX)
    (inc dvarmap : Nat → Nat) (ndvarmap psnrows psncols : Nat) (findintpoint : Bool)
    (a : PsArrays) :
    (setupPsOpt col lp lpex inc dvarmap ndvarmap psnrows psncols findintpoint a).m
      = transposedMatrix lpex dvarmap ndvarmap psnrows psncols a.m := by
  unfold setupPsOpt
  cases findintpoint <;> rfl


/-- C34: `setupPsOpt`, called with the arrays of its caller (`dvarincidence`, `dvarmap`,
`psnrows = ncols + npsbasis`, `psncols = ndvarmap + 1`) on a relaxation whose rows refer to
existing columns and whose `npsbasis` counts the included coordinates, assembles a well-formed
row-wise sparse matrix: `psbeg[i]` is the sum of the lengths before row `i` (so `psbeg[0] = 0` and
`psbeg[i+1] = psbeg[i] + pslen[i]`); the lengths sum to `computePsNnonz + 2 * npsbasis`, which is
also the value of `pos` at `assert(pos == psnnonz)`; row `c < ncols` holds as many entries as the
dual variables of `dvarmap` have in structural column `c`, every such entry (entry `t` of
`dvarmap[i]`) is stored in it with index `i` and its signed value (`+` for `lhs` and `lb`, `-` for
`rhs` and `ub`), every position of the row holds such an entry, and different entries have
different positions; and where `S` lies in the coordinates with a finite bound, `pos` is `psnrows`
at the last assertion and each of the last `npsbasis` rows holds `+1` on an included `y_i` and
`-1` on the column `psncols - 1`. -/
theorem setupPsOpt_matrix (col : Collaborators) (lp : SCIP_LP) (lpex : SCIP_LPEX)
    (findintpoint : Bool) (a : PsArrays)
    (hn : lpex.psdata.nextendedrows = 2 * lpex.nrows + 2 * lpex.ncols)
    (hr : indicesInRange lpex)
    (hnb : lpex.psdata.npsbasis
      = ((Finset.range lpex.psdata.nextendedrows).filter
          (fun e => lpex.psdata.includedrows e = true)).card) :
    (∀ i, i < lpex.ncols + lpex.psdata.npsbasis →
      (setupPsOpt col lp lpex (dvarincidence lpex) (dvarmapOf col lpex).1 (dvarmapOf col lpex).2
          (lpex.ncols + lpex.psdata.npsbasis) ((dvarmapOf col lpex).2 + 1) findintpoint a).m.beg i
        = ∑ k ∈ Finset.range i,
          (setupPsOpt col lp lpex (dvarincidence lpex) (dvarmapOf col lpex).1
            (dvarmapOf col lpex).2 (lpex.ncols + lpex.psdata.npsbasis)
            ((dvarmapOf col lpex).2 + 1) findintpoint a).m.len k)
    ∧ (∑ k ∈ Finset.range (lpex.ncols + lpex.psdata.npsbasis),
        (setupPsOpt col lp lpex (dvarincidence lpex) (dvarmapOf col lpex).1
          (dvarmapOf col lpex).2 (lpex.ncols + lpex.psdata.npsbasis)
          ((dvarmapOf col lpex).2 + 1) findintpoint a).m.len k
      = computePsNnonz lpex (dvarincidence lpex) + 2 * lpex.psdata.npsbasis)
    ∧ transposedBegPos lpex (dvarmapOf col lpex).1 (dvarmapOf col lpex).2
        (lpex.ncols + lpex.psdata.npsbasis) a.m
      = computePsNnonz lpex (dvarincidence lpex) + 2 * lpex.psdata.npsbasis
    ∧ (∀ c, c < lpex.ncols →
      (setupPsOpt col lp lpex (dvarincidence lpex) (dvarmapOf col lpex).1 (dvarmapOf col lpex).2
          (lpex.ncols + lpex.psdata.npsbasis) ((dvarmapOf col lpex).2 + 1) findintpoint a).m.len c
        = ∑ i ∈ Finset.range (dvarmapOf col lpex).2,
            coordCount lpex ((dvarmapOf col lpex).1 i) c)
    ∧ (∀ i t, i < (dvarmapOf col lpex).2 → t < coordWeight lpex ((dvarmapOf col lpex).1 i) →
      coordCol lpex ((dvarmapOf col lpex).1 i) t < lpex.ncols
      ∧ entryRank lpex (dvarmapOf col lpex).1 i t (coordCol lpex ((dvarmapOf col lpex).1 i) t)
          < (setupPsOpt col lp lpex (dvarincidence lpex) (dvarmapOf col lpex).1
              (dvarmapOf col lpex).2 (lpex.ncols + lpex.psdata.npsbasis)
              ((dvarmapOf col lpex).2 + 1) findintpoint a).m.len
              (coordCol lpex ((dvarmapOf col lpex).1 i) t)
      ∧ (setupPsOpt col lp lpex (dvarincidence lpex) (dvarmapOf col lpex).1
            (dvarmapOf col lpex).2 (lpex.ncols + lpex.psdata.npsbasis)
            ((dvarmapOf col lpex).2 + 1) findintpoint a).m.ind
          ((setupPsOpt col lp lpex (dvarincidence lpex) (dvarmapOf col lpex).1
              (dvarmapOf col lpex).2 (lpex.ncols + lpex.psdata.npsbasis)
              ((dvarmapOf col lpex).2 + 1) findintpoint a).m.beg
              (coordCol lpex ((dvarmapOf col lpex).1 i) t)
            + entryRank lpex (dvarmapOf col lpex).1 i t
                (coordCol lpex ((dvarmapOf col lpex).1 i) t)) = i
      ∧ (setupPsOpt col lp lpex (dvarincidence lpex) (dvarmapOf col lpex).1
            (dvarmapOf col lpex).2 (lpex.ncols + lpex.psdata.npsbasis)
            ((dvarmapOf col lpex).2 + 1) findintpoint a).m.val
          ((setupPsOpt col lp lpex (dvarincidence lpex) (dvarmapOf col lpex).1
              (dvarmapOf col lpex).2 (lpex.ncols + lpex.psdata.npsbasis)
              ((dvarmapOf col lpex).2 + 1) findintpoint a).m.beg
              (coordCol lpex ((dvarmapOf col lpex).1 i) t)
            + entryRank lpex (dvarmapOf col lpex).1 i t
                (coordCol lpex ((dvarmapOf col lpex).1 i) t))
          = coordVal lpex ((dvarmapOf col lpex).1 i) t)
    ∧ (∀ c, c < lpex.ncols → ∀ r,
      r < (setupPsOpt col lp lpex (dvarincidence lpex) (dvarmapOf col lpex).1
            (dvarmapOf col lpex).2 (lpex.ncols + lpex.psdata.npsbasis)
            ((dvarmapOf col lpex).2 + 1) findintpoint a).m.len c →
      ∃ i t, i < (dvarmapOf col lpex).2 ∧ t < coordWeight lpex ((dvarmapOf col lpex).1 i)
        ∧ coordCol lpex ((dvarmapOf col lpex).1 i) t = c
        ∧ entryRank lpex (dvarmapOf col lpex).1 i t c = r)
    ∧ (∀ i t i2 t2 c, i < (dvarmapOf col lpex).2 →
      t < coordWeight lpex ((dvarmapOf col lpex).1 i) → i2 < (dvarmapOf col lpex).2 →
      t2 < coordWeight lpex ((dvarmapOf col lpex).1 i2) →
      coordCol lpex ((dvarmapOf col lpex).1 i) t = c →
      coordCol lpex ((dvarmapOf col lpex).1 i2) t2 = c →
      entryRank lpex (dvarmapOf col lpex).1 i t c = entryRank lpex (dvarmapOf col lpex).1 i2 t2 c →
      i = i2 ∧ t = t2)
    ∧ ((∀ e, e < lpex.psdata.nextendedrows → lpex.psdata.includedrows e = true →
          dvarincidence lpex e ≠ 0) →
      transposedLastPos lpex (dvarmapOf col lpex).1 (dvarmapOf col lpex).2
          (lpex.ncols + lpex.psdata.npsbasis) ((dvarmapOf col lpex).2 + 1) a.m
        = lpex.ncols + lpex.psdata.npsbasis
      ∧ ∀ k, k < lpex.psdata.npsbasis →
        (setupPsOpt col lp lpex (dvarincidence lpex) (dvarmapOf col lpex).1
            (dvarmapOf col lpex).2 (lpex.ncols + lpex.psdata.npsbasis)
            ((dvarmapOf col lpex).2 + 1) findintpoint a).m.len (lpex.ncols + k) = 2
        ∧ ∃ i, i < (dvarmapOf col lpex).2
          ∧ lpex.psdata.includedrows ((dvarmapOf col lpex).1 i) = true
          ∧ (setupPsOpt col lp lpex (dvarincidence lpex) (dvarmapOf col lpex).1
                (dvarmapOf col lpex).2 (lpex.ncols + lpex.psdata.npsbasis)
                ((dvarmapOf col lpex).2 + 1) findintpoint a).m.ind
              ((setupPsOpt col lp lpex (dvarincidence lpex) (dvarmapOf col lpex).1
                (dvarmapOf col lpex).2 (lpex.ncols + lpex.psdata.npsbasis)
                ((dvarmapOf col lpex).2 + 1) findintpoint a).m.beg (lpex.ncols + k)) = i
          ∧ (setupPsOpt col lp lpex (dvarincidence lpex) (dvarmapOf col lpex).1
                (dvarmapOf col lpex).2 (lpex.ncols + lpex.psdata.npsbasis)
                ((dvarmapOf col lpex).2 + 1) findintpoint a).m.val
              ((setupPsOpt col lp lpex (dvarincidence lpex) (dvarmapOf col lpex).1
                (dvarmapOf col lpex).2 (lpex.ncols + lpex.psdata.npsbasis)
                ((dvarmapOf col lpex).2 + 1) findintpoint a).m.beg (lpex.ncols + k)) = 1
          ∧ (setupPsOpt col lp lpex (dvarincidence lpex) (dvarmapOf col lpex).1
                (dvarmapOf col lpex).2 (lpex.ncols + lpex.psdata.npsbasis)
                ((dvarmapOf col lpex).2 + 1) findintpoint a).m.ind
              ((setupPsOpt col lp lpex (dvarincidence lpex) (dvarmapOf col lpex).1
                (dvarmapOf col lpex).2 (lpex.ncols + lpex.psdata.npsbasis)
                ((dvarmapOf col lpex).2 + 1) findintpoint a).m.beg (lpex.ncols + k) + 1)
              = (dvarmapOf col lpex).2 + 1 - 1
          ∧ (setupPsOpt col lp lpex (dvarincidence lpex) (dvarmapOf col lpex).1
                (dvarmapOf col lpex).2 (lpex.ncols + lpex.psdata.npsbasis)
                ((dvarmapOf col lpex).2 + 1) findintpoint a).m.val
              ((setupPsOpt col lp lpex (dvarincidence lpex) (dvarmapOf col lpex).1
                (dvarmapOf col lpex).2 (lpex.ncols + lpex.psdata.npsbasis)
                ((dvarmapOf col lpex).2 + 1) findintpoint a).m.beg (lpex.ncols + k) + 1)
              = -1) := by
  rw [setupPsOpt_m, transposedMatrix_eq]
  obtain ⟨hS1, hS2, hS3⟩ := scannedMatrix_spec lpex (dvarmapOf col lpex).1 (dvarmapOf col lpex).2
    a.m hr (dvarmapOf_lt col lpex hn)
  have hsum := countedLengths_sum col lpex a.m.len hn hr
  have hfirst := countedLengths_first lpex (dvarmapOf col lpex).1 (dvarmapOf col lpex).2 a.m.len
  have hlast := countedLengths_last lpex (dvarmapOf col lpex).1 (dvarmapOf col lpex).2 a.m.len
  have hcb := countedBeg_last col lpex a.m.len a.m.beg hn hr
  have hbegv := (begArray_spec (lpex.ncols + lpex.psdata.npsbasis)
    (countedLengths lpex (dvarmapOf col lpex).1 (dvarmapOf col lpex).2
      (lpex.ncols + lpex.psdata.npsbasis) a.m.len) a.m.beg)
  have hle := includedRank_le col lpex hnb
  have hbeg : ∀ k, k < ((Finset.range (dvarmapOf col lpex).2).filter
      (fun i => lpex.psdata.includedrows ((dvarmapOf col lpex).1 i) = true)).card →
      (scannedMatrix lpex (dvarmapOf col lpex).1 (dvarmapOf col lpex).2
        (lpex.ncols + lpex.psdata.npsbasis) a.m).beg (lpex.ncols + k)
        = computePsNnonz lpex (dvarincidence lpex) + 2 * k := by
    intro k hk
    rw [hS1]
    exact hcb k (by omega)
  obtain ⟨hLpos, hLlen, hLframe⟩ := lastRows_frame lpex.psdata.includedrows
    (dvarmapOf col lpex).1 (dvarmapOf col lpex).2 lpex.ncols
    (fun _ => (dvarmapOf col lpex).2 + 1 - 1)
    (scannedMatrix lpex (dvarmapOf col lpex).1 (dvarmapOf col lpex).2
      (lpex.ncols + lpex.psdata.npsbasis) a.m)
    (computePsNnonz lpex (dvarincidence lpex)) hbeg
  obtain ⟨hLbeg, hLent⟩ := lastRows_spec lpex.psdata.includedrows
    (dvarmapOf col lpex).1 (dvarmapOf col lpex).2 lpex.ncols
    (fun _ => (dvarmapOf col lpex).2 + 1 - 1)
    (scannedMatrix lpex (dvarmapOf col lpex).1 (dvarmapOf col lpex).2
      (lpex.ncols + lpex.psdata.npsbasis) a.m)
    (computePsNnonz lpex (dvarincidence lpex)) hbeg
  rw [hLbeg, hLlen]
  have hwithin : ∀ c r, c < lpex.ncols →
      r < countedLengths lpex (dvarmapOf col lpex).1 (dvarmapOf col lpex).2
        (lpex.ncols + lpex.psdata.npsbasis) a.m.len c →
      (scannedMatrix lpex (dvarmapOf col lpex).1 (dvarmapOf col lpex).2
        (lpex.ncols + lpex.psdata.npsbasis) a.m).beg c + r
        < computePsNnonz lpex (dvarincidence lpex) := by
    intro c r hc hr1
    rw [hS1, hbegv.2 c, if_pos (by omega), ← hsum.1]
    have hm : ∑ k ∈ Finset.range (c + 1),
        countedLengths lpex (dvarmapOf col lpex).1 (dvarmapOf col lpex).2
          (lpex.ncols + lpex.psdata.npsbasis) a.m.len k
        ≤ ∑ k ∈ Finset.range lpex.ncols,
          countedLengths lpex (dvarmapOf col lpex).1 (dvarmapOf col lpex).2
            (lpex.ncols + lpex.psdata.npsbasis) a.m.len k :=
      Finset.sum_le_sum_of_subset (Finset.range_mono hc)
    rw [Finset.sum_range_succ] at hm
    omega
  have hrankTotal : ∀ c, c < lpex.ncols →
      placeRank (fun i => coordWeight lpex ((dvarmapOf col lpex).1 i))
        (fun i t => coordCol lpex ((dvarmapOf col lpex).1 i) t) (dvarmapOf col lpex).2 0 c
      = countedLengths lpex (dvarmapOf col lpex).1 (dvarmapOf col lpex).2
          (lpex.ncols + lpex.psdata.npsbasis) a.m.len c := by
    intro c hc
    rw [entryRank_total, hfirst c hc]
  refine ⟨?_, ?_, ?_, ?_, ?_, ?_, ?_, ?_⟩
  · intro i hi
    rw [hS1, hbegv.2 i, if_pos hi]
    exact Finset.sum_congr rfl (fun k _ => (hS2 k).symm)
  · rw [Finset.sum_congr rfl (fun k _ => hS2 k)]
    exact hsum.2
  · unfold transposedBegPos
    rw [hbegv.1]
    exact hsum.2
  · intro c hc
    rw [hS2 c, hfirst c hc]
  · intro i t hi ht
    have hc := coordCol_lt lpex hr _ t (dvarmapOf_lt col lpex hn i hi) ht
    have hrk : entryRank lpex (dvarmapOf col lpex).1 i t
        (coordCol lpex ((dvarmapOf col lpex).1 i) t)
        < countedLengths lpex (dvarmapOf col lpex).1 (dvarmapOf col lpex).2
          (lpex.ncols + lpex.psdata.npsbasis) a.m.len
          (coordCol lpex ((dvarmapOf col lpex).1 i) t) := by
      rw [← hrankTotal _ hc]
      exact placeRank_lt _ _ i t _ 0 _ (Or.inl ⟨hi, ht⟩) rfl
    have hfr := hLframe _ (hwithin _ _ hc hrk)
    refine ⟨hc, ?_, ?_, ?_⟩
    · rw [hS2]
      exact hrk
    · rw [hfr.1]
      exact (hS3 i t hi ht).1
    · rw [hfr.2]
      exact (hS3 i t hi ht).2
  · intro c hc r hr1
    rw [hS2 c, ← hrankTotal c hc] at hr1
    obtain ⟨i, t, hb, hk, hrk⟩ := placeRank_onto _ _ c (dvarmapOf col lpex).2 0
      (Nat.zero_le _) r hr1
    rcases hb with ⟨h1, h2⟩ | ⟨_, h2⟩
    · exact ⟨i, t, h1, h2, hk, hrk⟩
    · exact absurd h2 (Nat.not_lt_zero t)
  · intro i t i2 t2 c hi ht hi2 ht2 hk hk2 heq
    unfold entryRank at heq
    by_cases h1 : (i < i2 ∧ t < coordWeight lpex ((dvarmapOf col lpex).1 i)) ∨ (i = i2 ∧ t < t2)
    · have := placeRank_lt (fun i => coordWeight lpex ((dvarmapOf col lpex).1 i))
        (fun i t => coordCol lpex ((dvarmapOf col lpex).1 i) t) i t i2 t2 c h1 hk
      omega
    · by_cases h2 : (i2 < i ∧ t2 < coordWeight lpex ((dvarmapOf col lpex).1 i2))
          ∨ (i2 = i ∧ t2 < t)
      · have := placeRank_lt (fun i => coordWeight lpex ((dvarmapOf col lpex).1 i))
          (fun i t => coordCol lpex ((dvarmapOf col lpex).1 i) t) i2 t2 i t c h2 hk2
        omega
      · have e1 : i = i2 := by
          by_contra hne
          rcases Nat.lt_or_gt_of_ne hne with h | h
          · exact h1 (Or.inl ⟨h, ht⟩)
          · exact h2 (Or.inl ⟨h, ht2⟩)
        refine ⟨e1, ?_⟩
        by_contra hne
        rcases Nat.lt_or_gt_of_ne hne with h | h
        · exact h1 (Or.inr ⟨e1, h⟩)
        · exact h2 (Or.inr ⟨e1.symm, h⟩)
  · intro hfin
    have hready : readyForCertificate lpex := ⟨hn, hnb, hfin, hr⟩
    have hcard := includedRank_total col lpex hready
    refine ⟨?_, ?_⟩
    · unfold transposedLastPos
      rw [hLpos, hcard]
    · intro k hk
      refine ⟨by rw [hS2]; exact hlast k hk, ?_⟩
      obtain ⟨i, hi, hinc, hrk⟩ := includedRank_onto lpex.psdata.includedrows
        (dvarmapOf col lpex).1 (dvarmapOf col lpex).2 k (by rw [hcard]; exact hk)
      have hb := hbeg k (by rw [hcard]; exact hk)
      have he := hLent i hi hinc
      rw [hrk] at he
      rw [hb]
      exact ⟨i, hi, hinc, he.1, he.2.1, he.2.2.1, he.2.2.2⟩

/-- Witness of C34: on `x + y ≤ 10` with its all-finite selection the lengths of the rows that
`setupPsOpt` assembles for the interior point add up to `computePsNnonz + 2 * npsbasis`. -/
theorem setupPsOpt_matrix_witness :
    (sumLpex.psdata.nextendedrows = 2 * sumLpex.nrows + 2 * sumLpex.ncols
      ∧ indicesInRange sumLpex
      ∧ sumLpex.psdata.npsbasis
        = ((Finset.range sumLpex.psdata.nextendedrows).filter
            (fun e => sumLpex.psdata.includedrows e = true)).card)
    ∧ ∑ k ∈ Finset.range (sumLpex.ncols + sumLpex.psdata.npsbasis),
        (setupPsOpt unitCollaborators (sumLp 1) sumLpex (dvarincidence sumLpex)
          (dvarmapOf unitCollaborators sumLpex).1 (dvarmapOf unitCollaborators sumLpex).2
          (sumLpex.ncols + sumLpex.psdata.npsbasis)
          ((dvarmapOf unitCollaborators sumLpex).2 + 1) true
          (allocIntMem unitCollaborators)).m.len k
      = computePsNnonz sumLpex (dvarincidence sumLpex) + 2 * sumLpex.psdata.npsbasis :=
  ⟨⟨rfl, fun _ _ _ ht => ht, by decide⟩,
    (setupPsOpt_matrix unitCollaborators (sumLp 1) sumLpex true (allocIntMem unitCollaborators)
      rfl (fun _ _ _ ht => ht) (by decide)).2.1⟩

end BoundingExact
